import Mathlib

/-!
# Kaleidoscope code generation (`driver.cpp`)

A shallow embedding of the `codegen` methods of `driver.cpp`.  The three
process-wide objects of the source (`module`, `builder`, and the driver's
`NamedValues` table) are the fields of one explicit `State`; every `codegen`
method is a function from a state to either undefined behaviour (`none`, a
dereferenced null pointer) or a result with the next state.  A result of type
`Option Value` is the returned pointer, `none` being `nullptr`.

Objects of the IR (functions, basic blocks, instructions, globals) live in
append-only stores and are named by their index there, which plays the part of
the pointer.  `eraseFromParent` unlinks a function from the module; its storage
stays in the stores, so what the source would read through a dangling pointer
the embedding reads from the unlinked object.

Diagnostics written to `stderr` and the textual dump of the IR are not part of
the state.  Type assertions of the IR library are not modelled.
-/

namespace Kaleidoscope

/-! ## IR entities -/

/-- Storage types: `Type::getDoubleTy` and `ArrayType::get(double, n)`. -/
inductive Ty where
  | double
  | array (n : Nat)
  deriving DecidableEq, Repr

/-- The test `Type::isArrayTy`. -/
def Ty.isArrayTy : Ty → Bool
  | .array _ => true
  | .double => false

/-- An IR value handle.  Constants carry their payload; instructions, blocks'
arguments, globals and functions are named by their index in the stores.
A `constFP` carries the exact rational value of the (finite) double. -/
inductive Value where
  | constFP (v : ℚ)
  | constInt (bits : Nat) (v : Nat)
  | nullValue (ty : Ty)
  | poison
  | constExpr (code : Nat)
  | inst (id : Nat)
  | arg (fn : Nat) (idx : Nat)
  | global (id : Nat)
  | func (id : Nat)
  deriving DecidableEq, Repr

/-- The test `isa<Constant>`: everything but instructions and arguments. -/
def Value.isConstant : Value → Bool
  | .inst _ => false
  | .arg _ _ => false
  | _ => true

/-- Opcodes of the two-operand instructions the generator creates. -/
inductive Opcode where
  | Xor | FAdd | FSub | FMul | FDiv | FCmpULT | FCmpUEQ | And | Or
  deriving DecidableEq, Repr

/-- IR instructions.  Block operands are block indices; a phi's incoming block
may be the null pointer. -/
inductive Instr where
  | alloca (ty : Ty) (name : String)
  | load (ty : Ty) (ptr : Value)
  | store (val : Value) (ptr : Value)
  | binop (op : Opcode) (l : Value) (r : Value)
  | fptoui (v : Value)
  | gep (ty : Ty) (ptr : Value) (idx : List Value)
  | call (callee : Nat) (args : List Value)
  | phi (incoming : List (Value × Option Nat))
  | br (dest : Nat)
  | condBr (cond : Value) (ifTrue : Nat) (ifFalse : Nat)
  | ret (v : Value)
  deriving DecidableEq, Repr

/-- Terminators: unconditional branch, conditional branch, return. -/
def Instr.isTerminator : Instr → Bool
  | .br _ => true
  | .condBr _ _ _ => true
  | .ret _ => true
  | _ => false

/-- A basic block: its label, the function it is attached to (`none` while
detached) and its instructions, in order. -/
structure BasicBlock where
  Name : String
  Parent : Option Nat
  Insts : List Nat
  deriving DecidableEq, Repr

/-- A function object: its name, the names of its arguments and its block
list, in order. -/
structure Function where
  Name : String
  Args : List String
  BasicBlocks : List Nat
  deriving DecidableEq, Repr

/-- A global variable: its name, value type and initializer. -/
structure GlobalVariable where
  Name : String
  ValueType : Ty
  Initializer : Value
  deriving DecidableEq, Repr

/-- The session state: the stores of IR objects, the module's function list
and globals, the builder's insertion block (instructions are always appended
at its end) and the driver's `NamedValues` table.  `AttachLog` is a history
variable: the pairs (function, block) in the order in which blocks were put
into a function's block list; generation never reads it. -/
structure State where
  Functions : List Function
  FunctionList : List Nat
  Globals : List GlobalVariable
  Blocks : List BasicBlock
  Insts : List Instr
  InsertBlock : Option Nat
  NamedValues : List (String × Option Value)
  AttachLog : List (Nat × Nat)
  deriving DecidableEq, Repr

/-- The state of a fresh session: `new Module`, `new IRBuilder`, empty table. -/
def State.init : State :=
  { Functions := [], FunctionList := [], Globals := [], Blocks := [], Insts := [],
    InsertBlock := none, NamedValues := [], AttachLog := [] }

/-- Behaviour of the IR library that the generator relies on but that is not
decided by `driver.cpp`: the builder's constant folder (consulted only on
constant operands; `none` when it does not fold) and the renaming of a value
whose name is taken. -/
structure LLVM where
  Fold : Opcode → Value → Value → Option Value
  FoldCast : Value → Option Value
  FoldGEP : Ty → Value → List Value → Option Value
  makeUniqueName : List String → String → String

/-- Generation monad: `none` is undefined behaviour. -/
def M (α : Type) : Type := State → Option (α × State)

instance : Monad M where
  pure a := fun s => some (a, s)
  bind m f := fun s =>
    match m s with
    | none => none
    | some (a, s1) => f a s1

/-- Undefined behaviour (a null or dangling pointer is dereferenced). -/
def crash {α : Type} : M α := fun _ => none

/-! ## The symbol table `drv.NamedValues` -/

/-- Reading `NamedValues[n]`: the last value written under `n`, null if none. -/
def lookupNamed : List (String × Option Value) → String → Option Value
  | [], _ => none
  | (k, v) :: rest, n => if k = n then v else lookupNamed rest n

/-- The state after the write `drv.NamedValues[n] = v`. -/
def State.setNamed (s : State) (n : String) (v : Option Value) : State :=
  { s with NamedValues := (n, v) :: s.NamedValues }

/-- The read `drv.NamedValues[n]`. -/
def getNamed (n : String) : M (Option Value) :=
  fun s => some (lookupNamed s.NamedValues n, s)

/-- The write `drv.NamedValues[n] = v`. -/
def setNamed (n : String) (v : Option Value) : M Unit :=
  fun s => some ((), s.setNamed n v)

/-! ## The module -/

/-- Names held by the module's symbol table: linked functions and globals. -/
def State.moduleNames (s : State) : List String :=
  s.FunctionList.filterMap (fun f => (s.Functions[f]?).map (fun fn => fn.Name))
    ++ s.Globals.map (fun g => g.Name)

/-- The lookup `module->getFunction(n)`. -/
def State.getFunction (s : State) (n : String) : Option Nat :=
  s.FunctionList.find? (fun f => (s.Functions[f]?).any (fun fn => fn.Name = n))

/-- The lookup `module->getGlobalVariable(n)`. -/
def State.getGlobalVariable (s : State) (n : String) : Option Nat :=
  (List.range s.Globals.length).find? (fun g => (s.Globals[g]?).any (fun gv => gv.Name = n))

/-- The call `module->getFunction(n)`. -/
def getFunction (n : String) : M (Option Nat) :=
  fun s => some (s.getFunction n, s)

/-- The call `module->getGlobalVariable(n)`. -/
def getGlobalVariable (n : String) : M (Option Nat) :=
  fun s => some (s.getGlobalVariable n, s)

/-- The name an object gets on creation: the requested one unless taken. -/
def uniqueName (L : LLVM) (taken : List String) (n : String) : String :=
  if n ∈ taken then L.makeUniqueName taken n else n

/-- Names given by `Arg.setName` to the arguments of a new function, in order. -/
def setArgNames (L : LLVM) : List String → List String → List String
  | _, [] => []
  | taken, a :: rest =>
      let a1 := uniqueName L taken a
      a1 :: setArgNames L (a1 :: taken) rest

/-- The state after `Function::Create(FT, ExternalLinkage, Name, *module)` and the
naming of the arguments; the new function's index is the old store size. -/
def State.addFunction (s : State) (L : LLVM) (Name : String) (Args : List String) : State :=
  { s with
    Functions := s.Functions ++
      [{ Name := uniqueName L s.moduleNames Name, Args := setArgNames L [] Args,
         BasicBlocks := [] }],
    FunctionList := s.FunctionList ++ [s.Functions.length] }

/-- The call `Function::Create(FT, ExternalLinkage, Name, *module)` followed by the
naming of the arguments. -/
def FunctionCreate (L : LLVM) (Name : String) (Args : List String) : M Nat :=
  fun s => some (s.Functions.length, s.addFunction L Name Args)

/-- The state after `function->eraseFromParent()`. -/
def State.erase (s : State) (f : Nat) : State :=
  { s with FunctionList := s.FunctionList.filter (fun g => g ≠ f) }

/-- The call `function->eraseFromParent()`. -/
def eraseFromParent (f : Nat) : M Unit :=
  fun s => some ((), s.erase f)

/-- The state after `new GlobalVariable(*module, ty, false, CommonLinkage, init,
Name)`; the new global's index is the old number of globals. -/
def State.addGlobal (s : State) (L : LLVM) (ty : Ty) (init : Value) (Name : String) : State :=
  { s with
    Globals := s.Globals ++
      [{ Name := uniqueName L s.moduleNames Name, ValueType := ty, Initializer := init }] }

/-- The call `new GlobalVariable(*module, ty, false, CommonLinkage, init, Name)`. -/
def GlobalVariableCreate (L : LLVM) (ty : Ty) (init : Value) (Name : String) : M Nat :=
  fun s => some (s.Globals.length, s.addGlobal L ty init Name)

/-! ## Blocks and the builder -/

/-- Appends `i` to the instruction list of block `b`. -/
def appendInst (blocks : List BasicBlock) (b : Nat) (i : Nat) : List BasicBlock :=
  match blocks[b]? with
  | some blk => blocks.set b { blk with Insts := blk.Insts ++ [i] }
  | none => blocks

/-- Puts `i` in front of the instruction list of block `b`. -/
def prependInst (blocks : List BasicBlock) (b : Nat) (i : Nat) : List BasicBlock :=
  match blocks[b]? with
  | some blk => blocks.set b { blk with Insts := i :: blk.Insts }
  | none => blocks

/-- Sets the parent of block `b`. -/
def setParent (blocks : List BasicBlock) (b : Nat) (f : Nat) : List BasicBlock :=
  match blocks[b]? with
  | some blk => blocks.set b { blk with Parent := some f }
  | none => blocks

/-- Appends block `b` to the block list of function `f`. -/
def appendBlock (fns : List Function) (f : Nat) (b : Nat) : List Function :=
  match fns[f]? with
  | some fn => fns.set f { fn with BasicBlocks := fn.BasicBlocks ++ [b] }
  | none => fns

/-- The state after the builder's `Insert`: the instruction is created (its index is
the old store size) and, when the builder has an insertion block, appended to it. -/
def State.addInst (s : State) (i : Instr) : State :=
  { s with
    Insts := s.Insts ++ [i],
    Blocks := match s.InsertBlock with
      | some b => appendInst s.Blocks b s.Insts.length
      | none => s.Blocks }

/-- The builder's `Insert`, behind every `builder->Create...` that makes an
instruction. -/
def Insert (i : Instr) : M Value :=
  fun s => some (.inst s.Insts.length, s.addInst i)

/-- The builder stands in a block that is attached to a function linked in the
module: the module read by `BB->getModule()` exists.  With a null insertion
block, a detached block or an unlinked function that read goes through a null
pointer. -/
def State.inModule (s : State) : Bool :=
  match s.InsertBlock with
  | none => false
  | some b =>
    match s.Blocks[b]? with
    | none => false
    | some blk =>
      match blk.Parent with
      | none => false
      | some f => decide (f ∈ s.FunctionList)

/-- The call `builder->CreateLoad(ty, ptr)`: no alignment is given, so it is read
from the data layout of the module of the insertion block before the load is
inserted. -/
def CreateLoad (ty : Ty) (ptr : Value) : M Value :=
  fun s => if s.inModule then Insert (.load ty ptr) s else none

/-- The call `builder->CreateStore(val, ptr)`: no alignment is given, so it is
read from the data layout of the module of the insertion block before the store
is inserted. -/
def CreateStore (val ptr : Value) : M Value :=
  fun s => if s.inModule then Insert (.store val ptr) s else none

/-- The state after `BasicBlock::Create(*context, Name, Parent)`: with a parent the
block is appended to the parent's block list (and the history of attachments),
without one it is left detached.  The new block's index is the old store size. -/
def State.addBlock (s : State) (Name : String) (Parent : Option Nat) : State :=
  { s with
    Blocks := s.Blocks ++ [{ Name := Name, Parent := Parent, Insts := [] }],
    Functions := match Parent with
      | some f => appendBlock s.Functions f s.Blocks.length
      | none => s.Functions,
    AttachLog := match Parent with
      | some f => s.AttachLog ++ [(f, s.Blocks.length)]
      | none => s.AttachLog }

/-- The call `BasicBlock::Create(*context, Name, Parent)`. -/
def BasicBlockCreate (Name : String) (Parent : Option Nat) : M Nat :=
  fun s => some (s.Blocks.length, s.addBlock Name Parent)

/-- The state after `function->insert(function->end(), BB)`. -/
def State.attach (s : State) (f : Nat) (BB : Nat) : State :=
  { s with
    Functions := appendBlock s.Functions f BB,
    Blocks := setParent s.Blocks BB f,
    AttachLog := s.AttachLog ++ [(f, BB)] }

/-- The call `function->insert(function->end(), BB)`; a null `function` is
dereferenced. -/
def FunctionInsert (function : Option Nat) (BB : Nat) : M Unit :=
  fun s =>
    match function with
    | none => none
    | some f => some ((), s.attach f BB)

/-- The state after `builder->SetInsertPoint(BB)`. -/
def State.setInsertBlock (s : State) (BB : Nat) : State :=
  { s with InsertBlock := some BB }

/-- The call `builder->SetInsertPoint(BB)`. -/
def SetInsertPoint (BB : Nat) : M Unit :=
  fun s => some ((), s.setInsertBlock BB)

/-- The call `builder->GetInsertBlock()`. -/
def GetInsertBlock : M (Option Nat) :=
  fun s => some (s.InsertBlock, s)

/-- The expression `builder->GetInsertBlock()->getParent()`; a null insertion
block is dereferenced. -/
def GetInsertBlockParent : M (Option Nat) :=
  fun s =>
    match s.InsertBlock with
    | none => none
    | some b =>
      match s.Blocks[b]? with
      | none => none
      | some blk => some (blk.Parent, s)

/-- The state after an alloca is put at the very start of block `entry`; the
instruction's index is the old store size. -/
def State.addAlloca (s : State) (entry : Nat) (ty : Ty) (VarName : String) : State :=
  { s with
    Insts := s.Insts ++ [.alloca ty VarName],
    Blocks := prependInst s.Blocks entry s.Insts.length }

/-- The entry block read by `fun->getEntryBlock()`: the first block of the list;
a null `fun` is dereferenced and an empty list has no front. -/
def State.getEntryBlock (s : State) (function : Option Nat) : Option Nat :=
  match function with
  | none => none
  | some f =>
    match s.Functions[f]? with
    | none => none
    | some fn => fn.BasicBlocks.head?

/-- Both `CreateEntryBlockAlloca` utilities: an alloca of type `ty` is put at the
very start of the entry block of `fun`, through a temporary builder. -/
def CreateEntryBlockAlloca (ty : Ty) (function : Option Nat) (VarName : String) : M Value :=
  fun s =>
    match s.getEntryBlock function with
    | none => none
    | some entry => some (.inst s.Insts.length, s.addAlloca entry ty VarName)

/-- The type read by `Alloca->getAllocatedType()`, defined on an alloca. -/
def State.allocatedType (s : State) (v : Value) : Option Ty :=
  match v with
  | .inst id =>
    match s.Insts[id]? with
    | some (.alloca ty _) => some ty
    | _ => none
  | _ => none

/-- The read `Alloca->getAllocatedType()`. -/
def getAllocatedType (v : Value) : M Ty :=
  fun s => (s.allocatedType v).map (fun ty => (ty, s))

/-- The read `GlobalVar->getValueType()`. -/
def getValueType (g : Nat) : M Ty :=
  fun s => (s.Globals[g]?).map (fun gv => (gv.ValueType, s))

/-- The range read by `function->args()`, as the arguments' names. -/
def getArgs (f : Nat) : M (List String) :=
  fun s => (s.Functions[f]?).map (fun fn => (fn.Args, s))

/-- The count read by `CalleeF->arg_size()`. -/
def argSize (f : Nat) : M Nat :=
  fun s => (s.Functions[f]?).map (fun fn => (fn.Args.length, s))

/-- The builder's two-operand creators (`CreateFAdd`, `CreateXor`, `CreateFCmpULT`
and so on): the folder is tried on two constants, else an instruction is made. -/
def CreateBinOp (L : LLVM) (op : Opcode) (l r : Value) : M Value :=
  match (if l.isConstant && r.isConstant then L.Fold op l r else none) with
  | some v => pure v
  | none => Insert (.binop op l r)

/-- The call `builder->CreateFPToUI(v, i32)`: the folder is tried on a constant,
else a conversion instruction is made. -/
def CreateFPToUI (L : LLVM) (v : Value) : M Value :=
  match (if v.isConstant then L.FoldCast v else none) with
  | some w => pure w
  | none => Insert (.fptoui v)

/-- The call `builder->CreateInBoundsGEP(ty, ptr, {i0, i1})`. -/
def CreateInBoundsGEP (L : LLVM) (ty : Ty) (ptr : Value) (idx : List Value) : M Value :=
  match (if ptr.isConstant && idx.all Value.isConstant then L.FoldGEP ty ptr idx else none) with
  | some v => pure v
  | none => Insert (.gep ty ptr idx)

/-- The state after `PN->addIncoming(V, BB)`. -/
def State.addIncoming (s : State) (PN : Value) (V : Value) (BB : Option Nat) : State :=
  match PN with
  | .inst id =>
    match s.Insts[id]? with
    | some (.phi inc) => { s with Insts := s.Insts.set id (.phi (inc ++ [(V, BB)])) }
    | _ => s
  | _ => s

/-- The call `PN->addIncoming(V, BB)`. -/
def addIncoming (PN : Value) (V : Value) (BB : Option Nat) : M Unit :=
  fun s => some ((), s.addIncoming PN V BB)

/-- The conversion of an `int` to `size_t` / `uint64_t`. -/
def toU64 (n : Int) : Nat := Int.toNat (n % 2 ^ 64)

/-- The constant `ConstantFP::get(Type::getDoubleTy(*context), 0.0)`. -/
def zeroFP : Value := .constFP 0

/-! ## The syntax tree -/

/-- A prototype node: the function's name and its parameter names. -/
structure PrototypeAST where
  Name : String
  Args : List String
  deriving DecidableEq, Repr

mutual
/-- Nodes held through an `ExprAST*`.  The right operand of a `BinaryExprAST` may
be the null pointer (negation). -/
inductive ExprAST where
  | NumberExprAST (Val : ℚ)
  | VariableExprAST (Name : String)
  | BinaryExprAST (Op : Char) (LHS : ExprAST) (RHS : Option ExprAST)
  | CallExprAST (Callee : String) (Args : List ExprAST)
  | IfExprAST (Cond : ExprAST) (TrueExp : ExprAST) (FalseExp : ExprAST)
  | BlockAST (Def : List VarBindingAST) (Stmts : List RootAST)
  | ArrayExprAST (Name : String) (Index : ExprAST)
/-- Nodes held through a `VarBindingAST*`: the class itself (`scalar`, whose
initializer may be null) and its subclass `ArrayBindingAST`. -/
inductive VarBindingAST where
  | scalar (Name : String) (Val : Option ExprAST)
  | ArrayBindingAST (Name : String) (Size : Int) (ExprList : List ExprAST)
/-- Nodes held through a `RootAST*`.  A `ForStmtAST` carries the two fields of its
`ForInitAST` (`Init`, `Binding`) in place. -/
inductive RootAST where
  | SeqAST (first : Option RootAST) (continuation : Option RootAST)
  | expr (e : ExprAST)
  | binding (b : VarBindingAST)
  | PrototypeAST (p : PrototypeAST)
  | FunctionAST (Proto : PrototypeAST) (Body : ExprAST)
  | GlobalVarAST (Name : String)
  | GlobalArrayAST (Name : String) (Size : Int)
  | AssignmentAST (Name : String) (Val : ExprAST)
  | ArrayAssignmentAST (Name : String) (Index : ExprAST) (Val : ExprAST)
  | IfStmtAST (Cond : ExprAST) (TrueStmt : RootAST) (FalseStmt : Option RootAST)
  | ForStmtAST (Init : RootAST) (Binding : Bool) (Cond : ExprAST) (Update : RootAST)
      (Body : RootAST)
end

/-- The accessor `VarBindingAST::getName`. -/
def VarBindingAST.getName : VarBindingAST → String
  | .scalar Name _ => Name
  | .ArrayBindingAST Name _ _ => Name

/-- The accessor `ForInitAST::getName` on the binding side: the unchecked cast of
`Init` to a `VarBindingAST*` is defined only on a binding node. -/
def ForInitAST.getName : RootAST → Option String
  | .binding b => some b.getName
  | _ => none

/-! ## Code generation -/

/-- The method `PrototypeAST::codegen`. -/
def PrototypeAST.codegen (L : LLVM) (p : PrototypeAST) : M (Option Nat) := do
  let F ← FunctionCreate L p.Name p.Args
  pure (some F)

/-- The parameter loop of `FunctionAST::codegen`, from argument index `i`. -/
def codegenParams (function : Nat) : Nat → List String → M Unit
  | _, [] => pure ()
  | i, a :: rest => do
      let Alloca ← CreateEntryBlockAlloca .double (some function) a
      let _ ← CreateStore (.arg function i) Alloca
      setNamed a (some Alloca)
      codegenParams function (i + 1) rest

/-- The restore loop of `BlockAST::codegen`: `NamedValues[Def[i]->getName()] =
AllocaTmp[i]` for `i` from `0` upwards. -/
def restoreNamed : List String → List (Option Value) → M Unit
  | [], _ => pure ()
  | _ :: _, [] => pure ()
  | n :: ns, v :: vs => do
      setNamed n v
      restoreNamed ns vs

/-- The store loop of `ArrayBindingAST::codegen`, from index `i`. -/
def storeElems (L : LLVM) (ty : Ty) (Alloca : Value) : Nat → List Value → M Unit
  | _, [] => pure ()
  | i, v :: vs => do
      let EP ← CreateInBoundsGEP L ty Alloca [.constInt 32 0, .constInt 32 i]
      let _ ← CreateStore v EP
      storeElems L ty Alloca (i + 1) vs

/-- The operator switch of `BinaryExprAST::codegen`. -/
def binaryOpcode (Op : Char) : Option Opcode :=
  if Op = '+' then some .FAdd
  else if Op = '-' then some .FSub
  else if Op = '*' then some .FMul
  else if Op = '/' then some .FDiv
  else if Op = '<' then some .FCmpULT
  else if Op = '=' then some .FCmpUEQ
  else if Op = '&' then some .And
  else if Op = '|' then some .Or
  else none

/-- The address computation shared by `ArrayExprAST::codegen` and
`ArrayAssignmentAST::codegen` once the index value is known. -/
def elementAddress (L : LLVM) (ty : Ty) (base : Value) (IndexFP : Value) : M Value := do
  let IndexInt ← CreateFPToUI L IndexFP
  CreateInBoundsGEP L ty base [.constInt 32 0, IndexInt]

/-- The shadowing step of `ForStmtAST::codegen`: when the initializer is a binding,
the entry under its name is saved and replaced by the counter's storage. -/
def shadowCounter (Init : RootAST) (Binding : Bool) (CounterAlloca : Value) :
    M (Option Value) :=
  if Binding then
    match ForInitAST.getName Init with
    | none => crash
    | some n => do
        let old ← getNamed n
        setNamed n (some CounterAlloca)
        pure old
  else pure none

/-- The restoring step of `ForStmtAST::codegen`: when the initializer is a binding,
the saved entry is written back under its name. -/
def restoreCounter (Init : RootAST) (Binding : Bool) (AllocaTmp : Option Value) : M Unit :=
  if Binding then
    match ForInitAST.getName Init with
    | none => crash
    | some n => setNamed n AllocaTmp
  else pure ()

mutual
/-- The `codegen` methods of the expression nodes. -/
def ExprAST.codegen (L : LLVM) : ExprAST → M (Option Value)
  | .NumberExprAST Val => pure (some (.constFP Val))
  | .VariableExprAST Name => do
      match (← getNamed Name) with
      | some Alloca => do
          let ty ← getAllocatedType Alloca
          let v ← CreateLoad ty Alloca
          pure (some v)
      | none => do
          match (← getGlobalVariable Name) with
          | some GlobalVar => do
              let ty ← getValueType GlobalVar
              let v ← CreateLoad ty (.global GlobalVar)
              pure (some v)
          | none => pure none
  | .BinaryExprAST Op LHS RHS => do
      let L1 ← LHS.codegen L
      match (if Op = '!' then L1 else none) with
      | some l => do
          let v ← CreateBinOp L .Xor l (.constInt 1 1)
          pure (some v)
      | none =>
        match RHS with
        | none => crash
        | some RHS => do
            let R1 ← RHS.codegen L
            match L1, R1 with
            | some l, some r =>
                match binaryOpcode Op with
                | some op => do
                    let v ← CreateBinOp L op l r
                    pure (some v)
                | none => pure none
            | _, _ => pure none
  | .CallExprAST Callee Args => do
      match (← getFunction Callee) with
      | none => pure none
      | some CalleeF => do
          let n ← argSize CalleeF
          if n ≠ Args.length then pure none
          else do
            match (← codegenArgs L Args) with
            | none => pure none
            | some ArgsV => do
                let v ← Insert (.call CalleeF ArgsV)
                pure (some v)
  | .IfExprAST Cond TrueExp FalseExp => do
      match (← Cond.codegen L) with
      | none => pure none
      | some CondV => do
          let function ← GetInsertBlockParent
          let TrueBB ← BasicBlockCreate "trueexp" function
          let FalseBB ← BasicBlockCreate "falseexp" none
          let MergeBB ← BasicBlockCreate "endcond" none
          let _ ← Insert (.condBr CondV TrueBB FalseBB)
          SetInsertPoint TrueBB
          match (← TrueExp.codegen L) with
          | none => pure none
          | some TrueV => do
              let _ ← Insert (.br MergeBB)
              let TrueBB1 ← GetInsertBlock
              FunctionInsert function FalseBB
              SetInsertPoint FalseBB
              match (← FalseExp.codegen L) with
              | none => pure none
              | some FalseV => do
                  let _ ← Insert (.br MergeBB)
                  let FalseBB1 ← GetInsertBlock
                  FunctionInsert function MergeBB
                  SetInsertPoint MergeBB
                  let PN ← Insert (.phi [])
                  addIncoming PN TrueV TrueBB1
                  addIncoming PN FalseV FalseBB1
                  pure (some PN)
  | .BlockAST Def Stmts => do
      match (← codegenDefs L Def []) with
      | none => pure none
      | some AllocaTmp => do
          match (← codegenStmts L Stmts none) with
          | none => pure none
          | some Val => do
              restoreNamed (Def.map VarBindingAST.getName) AllocaTmp
              pure Val
  | .ArrayExprAST Name Index => do
      match (← getNamed Name) with
      | some Alloca => do
          let ty ← getAllocatedType Alloca
          if ty.isArrayTy = false then pure none
          else do
            match (← Index.codegen L) with
            | none => pure none
            | some IndexFP => do
                let EP ← elementAddress L ty Alloca IndexFP
                let v ← CreateLoad .double EP
                pure (some v)
      | none => do
          match (← getGlobalVariable Name) with
          | some GlobalVar => do
              let ty ← getValueType GlobalVar
              if ty.isArrayTy = false then pure none
              else do
                match (← Index.codegen L) with
                | none => pure none
                | some IndexFP => do
                    let EP ← elementAddress L ty (.global GlobalVar) IndexFP
                    let v ← CreateLoad .double EP
                    pure (some v)
          | none => pure none
/-- The argument loop of `CallExprAST::codegen`; also the initializer loop of
`ArrayBindingAST::codegen`.  It stops at the first null value. -/
def codegenArgs (L : LLVM) : List ExprAST → M (Option (List Value))
  | [] => pure (some [])
  | arg :: rest => do
      match (← arg.codegen L) with
      | none => pure none
      | some v => do
          match (← codegenArgs L rest) with
          | none => pure none
          | some vs => pure (some (v :: vs))
/-- The binding loop of `BlockAST::codegen`; `AllocaTmp` collects the shadowed
entries.  The result is null when a binding fails. -/
def codegenDefs (L : LLVM) : List VarBindingAST → List (Option Value) →
    M (Option (List (Option Value)))
  | [], AllocaTmp => pure (some AllocaTmp)
  | d :: rest, AllocaTmp => do
      match (← d.codegen L) with
      | none => pure none
      | some BoundVal => do
          let old ← getNamed d.getName
          setNamed d.getName (some BoundVal)
          codegenDefs L rest (AllocaTmp ++ [old])
/-- The statement loop of `BlockAST::codegen`, `Val` being the value so far.  The
outer result is null when a statement fails. -/
def codegenStmts (L : LLVM) : List RootAST → Option Value → M (Option (Option Value))
  | [], Val => pure (some Val)
  | st :: rest, _ => do
      match (← st.codegen L) with
      | none => pure none
      | some v => codegenStmts L rest (some v)
/-- The methods `VarBindingAST::codegen` and `ArrayBindingAST::codegen`. -/
def VarBindingAST.codegen (L : LLVM) : VarBindingAST → M (Option Value)
  | .scalar Name Val => do
      let function ← GetInsertBlockParent
      let Alloca ← CreateEntryBlockAlloca .double function Name
      match Val with
      | some Val => do
          match (← Val.codegen L) with
          | none => pure none
          | some BoundVal => do
              let _ ← CreateStore BoundVal Alloca
              pure (some Alloca)
      | none => do
          let _ ← CreateStore zeroFP Alloca
          pure (some Alloca)
  | .ArrayBindingAST Name Size ExprList => do
      if ExprList.length ≠ 0 ∧ ExprList.length ≠ toU64 Size then pure none
      else do
        let function ← GetInsertBlockParent
        let Alloca ← CreateEntryBlockAlloca (.array (toU64 Size)) function Name
        match (← codegenArgs L ExprList) with
        | none => pure none
        | some Vals => do
            storeElems L (.array (toU64 Size)) Alloca 0 Vals
            pure (some Alloca)
/-- The `codegen` methods of the remaining nodes. -/
def RootAST.codegen (L : LLVM) : RootAST → M (Option Value)
  | .SeqAST first continuation =>
      match first, continuation with
      | none, none => pure none
      | none, some c => do
          let _ ← c.codegen L
          pure none
      | some f, none => do
          let _ ← f.codegen L
          crash
      | some f, some c => do
          let _ ← f.codegen L
          let _ ← c.codegen L
          pure none
  | .expr e => e.codegen L
  | .binding b => b.codegen L
  | .PrototypeAST p => do
      let F ← p.codegen L
      pure (F.map Value.func)
  | .FunctionAST Proto Body => do
      match (← getFunction Proto.Name) with
      | some _ => pure none
      | none => do
          match (← Proto.codegen L) with
          | none => pure none
          | some function => do
              let BB ← BasicBlockCreate "entry" (some function)
              SetInsertPoint BB
              let args ← getArgs function
              codegenParams function 0 args
              match (← Body.codegen L) with
              | some RetVal => do
                  let _ ← Insert (.ret RetVal)
                  pure (some (Value.func function))
              | none => do
                  eraseFromParent function
                  pure none
  | .GlobalVarAST Name => do
      match (← getGlobalVariable Name) with
      | some _ => pure none
      | none => do
          let g ← GlobalVariableCreate L .double zeroFP Name
          pure (some (Value.global g))
  | .GlobalArrayAST Name Size => do
      match (← getGlobalVariable Name) with
      | some _ => pure none
      | none => do
          let g ← GlobalVariableCreate L (.array (toU64 Size))
            (.nullValue (.array (toU64 Size))) Name
          pure (some (Value.global g))
  | .AssignmentAST Name Val => do
      let target : Option Value ←
        (do match (← getNamed Name) with
            | some a => pure (some a)
            | none => do
                let g ← getGlobalVariable Name
                pure (g.map Value.global))
      match target with
      | none => pure none
      | some Alloca => do
          match (← Val.codegen L) with
          | none => pure none
          | some BoundVal => do
              let _ ← CreateStore BoundVal Alloca
              pure (some Alloca)
  | .ArrayAssignmentAST Name Index Val => do
      let loc : Option (Option (Value × Value)) ← (do
        match (← getNamed Name) with
        | none => pure (some none)
        | some Alloca => do
            let ty ← getAllocatedType Alloca
            if ty.isArrayTy = false then pure none
            else do
              match (← Index.codegen L) with
              | none => pure none
              | some IndexFP => do
                  let EP ← elementAddress L ty Alloca IndexFP
                  pure (some (some (EP, Alloca))))
      match loc with
      | none => pure none
      | some local1 => do
          let glob : Option (Option (Value × Value)) ← (do
            match (← getGlobalVariable Name) with
            | none => pure (some local1)
            | some GlobalVar => do
                let ty ← getValueType GlobalVar
                if ty.isArrayTy = false then pure none
                else do
                  match (← Index.codegen L) with
                  | none => pure none
                  | some IndexFP => do
                      let EP ← elementAddress L ty (.global GlobalVar) IndexFP
                      pure (some (some (EP, Value.global GlobalVar))))
          match glob with
          | none => pure none
          | some none => pure none
          | some (some (EP, RetVal)) => do
              match (← Val.codegen L) with
              | none => pure none
              | some BoundVal => do
                  let _ ← CreateStore BoundVal EP
                  pure (some RetVal)
  | .IfStmtAST Cond TrueStmt FalseStmt => do
      match (← Cond.codegen L) with
      | none => pure none
      | some CondV => do
          let function ← GetInsertBlockParent
          let TrueBB ← BasicBlockCreate "truebb" function
          match FalseStmt with
          | some FalseStmt => do
              let FalseBB ← BasicBlockCreate "falsebb" none
              let MergeBB ← BasicBlockCreate "mergebb" none
              let _ ← Insert (.condBr CondV TrueBB FalseBB)
              SetInsertPoint TrueBB
              match (← TrueStmt.codegen L) with
              | none => pure none
              | some _ => do
                  let _ ← Insert (.br MergeBB)
                  FunctionInsert function FalseBB
                  SetInsertPoint FalseBB
                  match (← FalseStmt.codegen L) with
                  | none => pure none
                  | some _ => do
                      let _ ← Insert (.br MergeBB)
                      FunctionInsert function MergeBB
                      SetInsertPoint MergeBB
                      pure (some zeroFP)
          | none => do
              let MergeBB ← BasicBlockCreate "mergebb" none
              let _ ← Insert (.condBr CondV TrueBB MergeBB)
              SetInsertPoint TrueBB
              match (← TrueStmt.codegen L) with
              | none => pure none
              | some _ => do
                  let _ ← Insert (.br MergeBB)
                  FunctionInsert function MergeBB
                  SetInsertPoint MergeBB
                  pure (some zeroFP)
  | .ForStmtAST Init Binding Cond Update Body => do
      let function ← GetInsertBlockParent
      let HeaderBB ← BasicBlockCreate "loopheader" none
      let BodyBB ← BasicBlockCreate "loopbody" none
      let LatchBB ← BasicBlockCreate "loopupdate" none
      let ExitBB ← BasicBlockCreate "loopexit" none
      match (← Init.codegen L) with
      | none => pure none
      | some CounterAlloca => do
          let AllocaTmp ← shadowCounter Init Binding CounterAlloca
          let _ ← Insert (.br HeaderBB)
          FunctionInsert function HeaderBB
          SetInsertPoint HeaderBB
          match (← Cond.codegen L) with
          | none => pure none
          | some CondV => do
              let _ ← Insert (.condBr CondV BodyBB ExitBB)
              FunctionInsert function BodyBB
              SetInsertPoint BodyBB
              match (← Body.codegen L) with
              | none => pure none
              | some _ => do
                  let _ ← Insert (.br LatchBB)
                  FunctionInsert function LatchBB
                  SetInsertPoint LatchBB
                  match (← Update.codegen L) with
                  | none => pure none
                  | some _ => do
                      let _ ← Insert (.br HeaderBB)
                      FunctionInsert function ExitBB
                      SetInsertPoint ExitBB
                      restoreCounter Init Binding AllocaTmp
                      pure (some zeroFP)
end

/-- The method `driver::codegen`: generation starts at the root. -/
def driver.codegen (L : LLVM) (root : RootAST) : M (Option Value) :=
  root.codegen L

/-! ## Predicates and sample inputs of the specification -/

/-- Branch targets of an instruction. -/
def Instr.targets : Instr → List Nat
  | .br d => [d]
  | .condBr _ t f => [t, f]
  | _ => []

/-- A state predicate `I` that every operation of the generator keeps, as long as
the blocks it positions at, attaches or branches to satisfy `okB` and exist, the
functions it attaches to or allocates in satisfy `okF`, the functions it erases
satisfy `okE` and the phi nodes it extends satisfy `okI`.  Blocks, functions
and instructions made in a state satisfying `I` qualify. -/
structure Closed (L : LLVM) (I : State → Prop) (okB okF okE okI : Nat → Prop) : Prop where
  newB : ∀ s, I s → okB s.Blocks.length
  newF : ∀ s, I s → okF s.Functions.length ∧ okE s.Functions.length
  newI : ∀ s, I s → okI s.Insts.length
  parent : ∀ s c blk f, I s → s.InsertBlock = some c → s.Blocks[c]? = some blk →
    blk.Parent = some f → okF f
  addInst : ∀ s i, I s → (∀ t ∈ Instr.targets i, okB t ∧ t < s.Blocks.length) → I (s.addInst i)
  addBlock : ∀ s n p, I s → (∀ f, p = some f → okF f) → I (s.addBlock n p)
  attach : ∀ s f b, I s → okF f → okB b → b < s.Blocks.length → I (s.attach f b)
  setInsertBlock : ∀ s b, I s → okB b → b < s.Blocks.length → I (s.setInsertBlock b)
  addAlloca : ∀ s f entry ty n, I s → okF f → s.getEntryBlock (some f) = some entry →
    I (s.addAlloca entry ty n)
  setNamed : ∀ s n v, I s → I (s.setNamed n v)
  addIncoming : ∀ s id v bb, I s → okI id → I (s.addIncoming (.inst id) v bb)
  addFunction : ∀ s n a, I s → I (s.addFunction L n a)
  erase : ∀ s f, I s → okE f → I (s.erase f)
  addGlobal : ∀ s ty init n, I s → I (s.addGlobal L ty init n)

/-- What a generation step from `s` to `s1` keeps: the invariant, and the block
store does not shrink. -/
def Keeps (I : State → Prop) (s s1 : State) : Prop :=
  I s1 ∧ s.Blocks.length ≤ s1.Blocks.length

/-- The instruction list of block `b`, empty when there is no such block. -/
def State.instsOf (s : State) (b : Nat) : List Nat :=
  match s.Blocks[b]? with
  | some blk => blk.Insts
  | none => []

/-- The function block `b` is attached to, null when detached or absent. -/
def State.parentOf (s : State) (b : Nat) : Option Nat :=
  match s.Blocks[b]? with
  | some blk => blk.Parent
  | none => none

/-- The block list of function `f`, empty when there is no such function. -/
def State.blocksOf (s : State) (f : Nat) : List Nat :=
  match s.Functions[f]? with
  | some fn => fn.BasicBlocks
  | none => []

/-- The name of function `f`. -/
def State.nameOf (s : State) (f : Nat) : Option String :=
  (s.Functions[f]?).map (fun fn => fn.Name)

/-- Instruction `j` of the store is `x`. -/
def InstIs (j : Nat) (x : Instr) (s : State) : Prop :=
  s.Insts[j]? = some x

/-- Block `b` is not the insertion block and its last instruction is `j`. -/
def EndsWith (b j : Nat) (s : State) : Prop :=
  s.InsertBlock ≠ some b ∧ (s.instsOf b).getLast? = some j

/-- The insertion block is `c` or an existing block of index at least `n`; `n`
blocks exist. -/
def CurFrom (n : Nat) (c : Option Nat) (s : State) : Prop :=
  n ≤ s.Blocks.length ∧
    (s.InsertBlock = c ∨ ∃ c1, s.InsertBlock = some c1 ∧ n ≤ c1 ∧ c1 < s.Blocks.length)

/-- Well-formedness of the stores: block lists, instruction lists, branches and
the module's function list refer to objects that exist. -/
def State.WF (s : State) : Prop :=
  (∀ f b : Nat, b ∈ s.blocksOf f → b < s.Blocks.length) ∧
  (∀ b i : Nat, i ∈ s.instsOf b → i < s.Insts.length) ∧
  (∀ (i : Nat) (x : Instr), s.Insts[i]? = some x →
    ∀ t, t ∈ Instr.targets x → t < s.Blocks.length) ∧
  (∀ g : Nat, g ∈ s.FunctionList → g < s.Functions.length)

/-- Block `m` exists and every unconditional branch to it is one of `A`. -/
def BranchesTo (m : Nat) (A : List Nat) (s : State) : Prop :=
  m < s.Blocks.length ∧ ∀ i : Nat, s.Insts[i]? = some (.br m) → i ∈ A

/-- Instruction `j` exists and sits in no block but `b`. -/
def OnlyIn (j b : Nat) (s : State) : Prop :=
  j < s.Insts.length ∧ ∀ b1 : Nat, j ∈ s.instsOf b1 → b1 = b

/-- Block `b` exists, is detached, empty, in no block list, and is not the
insertion block. -/
def Untouched (b : Nat) (s : State) : Prop :=
  b < s.Blocks.length ∧ s.instsOf b = [] ∧ s.parentOf b = none ∧
    s.InsertBlock ≠ some b ∧ ∀ f : Nat, b ∉ s.blocksOf f

/-- The state a generation step leaves, the step's own state when it is undefined. -/
def stateAfter {α : Type} (m : M α) (s : State) : State :=
  match m s with
  | some (_, s1) => s1
  | none => s

/-- A library that folds no two-operand instruction and no address computation,
folds the conversion of a floating constant by truncation toward zero (poison
when out of range) and of no other constant, and renames by appending every
taken name. -/
def plainLLVM : LLVM :=
  { Fold := fun _ _ _ => none,
    FoldCast := fun v =>
      match v with
      | .constFP q =>
          some (if -1 < q ∧ q < 2 ^ 32 then .constInt 32 (Int.toNat (Rat.floor q)) else .poison)
      | _ => none,
    FoldGEP := fun _ _ _ => none,
    makeUniqueName := fun taken n => n ++ "." ++ String.join taken }

/-- The state in which `FunctionAST::codegen` generates the body of a function
`f` without parameters, defined first in a fresh session: `f` is created, its
entry block is attached and the builder is positioned there. -/
def sampleEntry : State :=
  ((State.init.addFunction plainLLVM "f" []).addBlock "entry" (some 0)).setInsertBlock 0

mutual
/-- No `BlockAST` node occurs in the expression. -/
def ExprAST.noBlock : ExprAST → Bool
  | .NumberExprAST _ => true
  | .VariableExprAST _ => true
  | .BinaryExprAST _ LHS none => LHS.noBlock
  | .BinaryExprAST _ LHS (some RHS) => LHS.noBlock && RHS.noBlock
  | .CallExprAST _ Args => noBlockList Args
  | .IfExprAST Cond TrueExp FalseExp => Cond.noBlock && TrueExp.noBlock && FalseExp.noBlock
  | .BlockAST _ _ => false
  | .ArrayExprAST _ Index => Index.noBlock
/-- No `BlockAST` node occurs in the expressions of the list. -/
def noBlockList : List ExprAST → Bool
  | [] => true
  | e :: es => e.noBlock && noBlockList es
end

/-- No `BlockAST` node occurs in the initializer expressions of the binding. -/
def VarBindingAST.noBlock : VarBindingAST → Bool
  | .scalar _ none => true
  | .scalar _ (some Val) => Val.noBlock
  | .ArrayBindingAST _ _ ExprList => noBlockList ExprList

/-- The block `{ var x = 1, x = 2; x }`: two bindings of one name. -/
def twiceBound (x : String) : ExprAST :=
  .BlockAST [.scalar x (some (.NumberExprAST 1)), .scalar x (some (.NumberExprAST 2))]
    [.expr (.VariableExprAST x)]

/-- The state `ForStmtAST::codegen` starts from after creating its four detached
blocks (header, body, latch, exit, in that order). -/
def loopBlocks (s : State) : State :=
  (((s.addBlock "loopheader" none).addBlock "loopbody" none).addBlock "loopupdate" none).addBlock
    "loopexit" none

/-- The step of `ForStmtAST::codegen` that enters block `bb` of function `g`: the
instruction `i` ends the current block, `bb` is attached and the builder is
positioned at it. -/
def enterBlock (s : State) (i : Instr) (g bb : Nat) : State :=
  ((s.addInst i).attach g bb).setInsertBlock bb

/-- The loop `for (var i = 0; i < 3; i = i + 1) i`. -/
def countingLoop : RootAST :=
  .ForStmtAST (.binding (.scalar "i" (some (.NumberExprAST 0)))) true
    (.BinaryExprAST '<' (.VariableExprAST "i") (some (.NumberExprAST 3)))
    (.AssignmentAST "i" (.BinaryExprAST '+' (.VariableExprAST "i") (some (.NumberExprAST 1))))
    (.expr (.VariableExprAST "i"))

/-- The loop `for (var i = { var i = 1, i = 2; i }; i < 3; i = i + 1) i`. -/
def loopOverTwiceBound : RootAST :=
  .ForStmtAST (.binding (.scalar "i" (some (twiceBound "i")))) true
    (.BinaryExprAST '<' (.VariableExprAST "i") (some (.NumberExprAST 3)))
    (.AssignmentAST "i" (.BinaryExprAST '+' (.VariableExprAST "i") (some (.NumberExprAST 1))))
    (.expr (.VariableExprAST "i"))

/-- Block `b` ends with the instruction `x`. -/
def State.endsWith (s : State) (b : Nat) (x : Instr) : Prop :=
  ∃ j, (s.instsOf b).getLast? = some j ∧ s.Insts[j]? = some x

/-- The state in which `IfExprAST::codegen` generates the true branch: from the
state `sc` left by the condition, the true block is created in function `g`,
the false and merge blocks are created detached, the conditional branch ends
the current block and the builder is positioned at the true block. -/
def ifBranchState (sc : State) (CondV : Value) (g : Nat) : State :=
  ((((sc.addBlock "trueexp" (some g)).addBlock "falseexp" none).addBlock "endcond" none).addInst
    (.condBr CondV sc.Blocks.length (sc.Blocks.length + 1))).setInsertBlock sc.Blocks.length

/-- The state `IfExprAST::codegen` returns in: from the state `sf` left by the
false branch, the branch to the merge block `m` ends the current block, `m` is
attached to function `g`, the builder is positioned at it and the phi node is
inserted and given its two incoming entries. -/
def mergeState (sf : State) (g m : Nat) (TrueV : Value) (tb : Option Nat) (FalseV : Value)
    (fb : Option Nat) : State :=
  (((enterBlock sf (.br m) g m).addInst (.phi [])).addIncoming (.inst (sf.Insts.length + 1))
    TrueV tb).addIncoming (.inst (sf.Insts.length + 1)) FalseV fb

/-- The conditional expression `if 1 then 2 else 3`. -/
def sampleIf : ExprAST :=
  .IfExprAST (.NumberExprAST 1) (.NumberExprAST 2) (.NumberExprAST 3)

/-- What the generation of a function body keeps, relative to the state `s0` in
which the definition of a function asked to be named `N` started (the function
itself is the one of index `s0.Functions.length`): the objects of `s0` are
unchanged, the builder works in new blocks, new blocks belong to new functions
and new functions hold new blocks, the functions of `s0` are linked as before,
followed by the function being defined and by later ones not named `N`, and the
name `N` is taken. -/
structure Fresh (s0 : State) (N : String) (s : State) : Prop where
  funs : ∀ (f : Nat) (fn : Function), s0.Functions[f]? = some fn → s.Functions[f]? = some fn
  blocks : ∀ (b : Nat) (blk : BasicBlock), s0.Blocks[b]? = some blk → s.Blocks[b]? = some blk
  insts : ∀ (i : Nat) (x : Instr), s0.Insts[i]? = some x → s.Insts[i]? = some x
  globals : ∃ rest, s.Globals = s0.Globals ++ rest
  cur : ∀ c : Nat, s.InsertBlock = some c → s0.Blocks.length ≤ c
  parents : ∀ b f : Nat, s0.Blocks.length ≤ b → s.parentOf b = some f →
    s0.Functions.length ≤ f
  lists : ∀ f b : Nat, s0.Functions.length ≤ f → b ∈ s.blocksOf f → s0.Blocks.length ≤ b
  linked : ∃ rest, s.FunctionList = s0.FunctionList ++ s0.Functions.length :: rest ∧
    ∀ g ∈ rest, s0.Functions.length < g ∧ s.nameOf g ≠ some N
  taken : N ∈ s.moduleNames
  nF : s0.Functions.length < s.Functions.length
  nB : s0.Blocks.length ≤ s.Blocks.length
  nI : s0.Insts.length ≤ s.Insts.length

/-- The state in which `FunctionAST::codegen` starts storing the parameters: the
function has been created, its entry block created and attached, and the
builder positioned there. -/
def functionEntry (L : LLVM) (Proto : PrototypeAST) (s : State) : State :=
  ((s.addFunction L Proto.Name Proto.Args).addBlock "entry" (some s.Functions.length)).setInsertBlock
    s.Blocks.length

/-- The state in which `FunctionAST::codegen` generates the body: the parameters
have been given storage in the entry block and registered in the symbol table. -/
def bodyEntry (L : LLVM) (Proto : PrototypeAST) (s : State) : State :=
  stateAfter (codegenParams s.Functions.length 0 (setArgNames L [] Proto.Args))
    (functionEntry L Proto s)

/-- A library that never folds and renames to a name longer than every taken one. -/
def freshLLVM : LLVM :=
  { Fold := fun _ _ _ => none, FoldCast := fun _ => none, FoldGEP := fun _ _ _ => none,
    makeUniqueName := fun taken n =>
      String.mk (n.data ++ List.replicate (1 + (taken.map String.length).sum) '.') }

/-- The module after the declaration `extern g(x)` in a fresh session. -/
def sampleModule : State := State.init.addFunction freshLLVM "g" ["x"]

/-- The prototype `f()`. -/
def sampleProto : PrototypeAST := { Name := "f", Args := [] }

/-- Block `b` holds exactly one terminator, as its last instruction. -/
def State.terminated (s : State) (b : Nat) : Prop :=
  ∃ (pre : List Nat) (j : Nat) (x : Instr), s.instsOf b = pre ++ [j] ∧
    s.Insts[j]? = some x ∧ x.isTerminator = true ∧
    ∀ i ∈ pre, ∃ y : Instr, s.Insts[i]? = some y ∧ y.isTerminator = false

/-- Block `b` holds no terminator. -/
def State.unterminated (s : State) (b : Nat) : Prop :=
  ∀ i ∈ s.instsOf b, ∃ y : Instr, s.Insts[i]? = some y ∧ y.isTerminator = false

/-- Function `F` is under construction: the builder stands in a block of `F`
that has no terminator yet, every other block of `F` holds exactly one
terminator, at its end, and no block is listed twice. -/
structure Open (F : Nat) (s : State) : Prop where
  wf : s.WF
  cur : ∃ c, s.InsertBlock = some c ∧ c ∈ s.blocksOf F ∧ s.parentOf c = some F ∧
    s.unterminated c
  others : ∀ b ∈ s.blocksOf F, s.InsertBlock ≠ some b → s.terminated b
  nodup : (s.blocksOf F).Nodup

/-- The state in which `IfStmtAST::codegen` generates the true statement of a
conditional with an else part: the true block is created in function `g`, the
false and merge blocks are created detached, the conditional branch ends the
current block and the builder is positioned at the true block. -/
def ifElseState (sc : State) (CondV : Value) (g : Nat) : State :=
  ((((sc.addBlock "truebb" (some g)).addBlock "falsebb" none).addBlock "mergebb" none).addInst
    (.condBr CondV sc.Blocks.length (sc.Blocks.length + 1))).setInsertBlock sc.Blocks.length

/-- The state in which `IfStmtAST::codegen` generates the true statement of a
conditional without an else part: the true block is created in function `g`,
the merge block is created detached, the conditional branch ends the current
block and the builder is positioned at the true block. -/
def ifThenState (sc : State) (CondV : Value) (g : Nat) : State :=
  (((sc.addBlock "truebb" (some g)).addBlock "mergebb" none).addInst
    (.condBr CondV sc.Blocks.length (sc.Blocks.length + 1))).setInsertBlock sc.Blocks.length

mutual
/-- No function definition occurs inside the expression. -/
def ExprAST.noFunction : ExprAST → Bool
  | .NumberExprAST _ => true
  | .VariableExprAST _ => true
  | .BinaryExprAST _ LHS none => LHS.noFunction
  | .BinaryExprAST _ LHS (some RHS) => LHS.noFunction && RHS.noFunction
  | .CallExprAST _ Args => noFunctionArgs Args
  | .IfExprAST Cond TrueExp FalseExp =>
      Cond.noFunction && TrueExp.noFunction && FalseExp.noFunction
  | .BlockAST Def Stmts => noFunctionDefs Def && noFunctionStmts Stmts
  | .ArrayExprAST _ Index => Index.noFunction
/-- No function definition occurs inside the expressions of the list. -/
def noFunctionArgs : List ExprAST → Bool
  | [] => true
  | e :: es => e.noFunction && noFunctionArgs es
/-- No function definition occurs inside the bindings of the list. -/
def noFunctionDefs : List VarBindingAST → Bool
  | [] => true
  | d :: ds => d.noFunction && noFunctionDefs ds
/-- No function definition occurs among or inside the statements of the list. -/
def noFunctionStmts : List RootAST → Bool
  | [] => true
  | st :: sts => st.noFunction && noFunctionStmts sts
/-- No function definition occurs inside the binding. -/
def VarBindingAST.noFunction : VarBindingAST → Bool
  | .scalar _ none => true
  | .scalar _ (some Val) => Val.noFunction
  | .ArrayBindingAST _ _ ExprList => noFunctionArgs ExprList
/-- The node is no function definition and none occurs inside it. -/
def RootAST.noFunction : RootAST → Bool
  | .SeqAST none none => true
  | .SeqAST none (some c) => c.noFunction
  | .SeqAST (some f) none => f.noFunction
  | .SeqAST (some f) (some c) => f.noFunction && c.noFunction
  | .expr e => e.noFunction
  | .binding b => b.noFunction
  | .PrototypeAST _ => true
  | .FunctionAST _ _ => false
  | .GlobalVarAST _ => true
  | .GlobalArrayAST _ _ => true
  | .AssignmentAST _ Val => Val.noFunction
  | .ArrayAssignmentAST _ Index Val => Index.noFunction && Val.noFunction
  | .IfStmtAST Cond TrueStmt none => Cond.noFunction && TrueStmt.noFunction
  | .IfStmtAST Cond TrueStmt (some FalseStmt) =>
      Cond.noFunction && TrueStmt.noFunction && FalseStmt.noFunction
  | .ForStmtAST Init _ Cond Update Body =>
      Init.noFunction && Cond.noFunction && Update.noFunction && Body.noFunction
end

/-- The blocks attached to function `F` since the history of attachments was
`base`, in the order of attachment. -/
def State.attachedSince (s : State) (base : List (Nat × Nat)) (F : Nat) : List Nat :=
  (((s.AttachLog.drop base.length).filter (fun p => p.1 = F)).map (fun p => p.2))

/-- Function `F` exists, the history of attachments extends `base`, and the
block list of `F` is the list of the blocks attached to `F` since, in the order
of attachment. -/
def AttachedInOrder (F : Nat) (base : List (Nat × Nat)) (s : State) : Prop :=
  F < s.Functions.length ∧ (∃ log, s.AttachLog = base ++ log) ∧
    s.blocksOf F = s.attachedSince base F

/-- The definition `def f() { def g() 1; 2 }`: the body of `f` is a block whose
first statement is the definition of `g`. -/
def nestedDefinition : RootAST :=
  .FunctionAST { Name := "f", Args := [] }
    (.BlockAST [] [.FunctionAST { Name := "g", Args := [] } (.NumberExprAST 1),
      .expr (.NumberExprAST 2)])

/-- The definition `def f() if 1 then 2 else 3`. -/
def sampleDefinition : RootAST :=
  .FunctionAST { Name := "f", Args := [] } sampleIf

/-- The state in the body of `def f()` after `global a[2]` and the local binding
`var a[2]`: the global array `a` exists and `a` is bound to a local array. -/
def localOverGlobal : State :=
  ((sampleEntry.addGlobal plainLLVM (.array 2) (.nullValue (.array 2)) "a").addAlloca 0
    (.array 2) "a").setNamed "a" (some (.inst 0))

/-- The assignment `a[0] = 1`. -/
def assignFirst : RootAST :=
  .ArrayAssignmentAST "a" (.NumberExprAST 0) (.NumberExprAST 1)

/-- The module after the declaration `extern f(x)` in a fresh session. -/
def declaredOnly : State :=
  stateAfter ((RootAST.PrototypeAST { Name := "f", Args := ["x"] }).codegen plainLLVM)
    State.init

/-- The module after the definition `def f(x) x` in a fresh session. -/
def definedOnce : State :=
  stateAfter ((RootAST.FunctionAST { Name := "f", Args := ["x"] }
    (.VariableExprAST "x")).codegen plainLLVM) State.init

/-- The module of `sampleEntry` with the global scalar `x`. -/
def globalX : State := sampleEntry.addGlobal plainLLVM .double zeroFP "x"

/-- The state in the body of `def f()` after `global x` and the local binding
`var x`: the local `x` (the alloca, instruction 0) shadows the global `x`. -/
def localOverGlobalX : State :=
  (globalX.addAlloca 0 .double "x").setNamed "x" (some (.inst 0))

/-- The state in the body of `def f()` after the local binding `var y`. -/
def boundY : State :=
  (sampleEntry.addAlloca 0 .double "y").setNamed "y" (some (.inst 0))

/-- The state in the body of `def f()` after the local binding `var a[2]`. -/
def localArray : State :=
  (sampleEntry.addAlloca 0 (.array 2) "a").setNamed "a" (some (.inst 0))

/-- The state in the body of `def f()` after the bindings of the block
`{ var x = 1; y }` have been generated and bound. -/
def boundX : State :=
  stateAfter (codegenDefs plainLLVM [.scalar "x" (some (.NumberExprAST 1))] []) sampleEntry

/-- The block `{ var x = 1; y }`, whose statement names an unknown variable. -/
def failingBlock : ExprAST :=
  .BlockAST [.scalar "x" (some (.NumberExprAST 1))] [.expr (.VariableExprAST "y")]

/-- The arguments `args` are generated one after the other, from left to right,
each in the state the one before left, all successfully: from state `s` they
give the values `vs`, in the order of `args`, and leave state `s2`. -/
def argsInOrder (L : LLVM) : List ExprAST → State → List Value → State → Prop
  | [], s, vs, s2 => vs = [] ∧ s2 = s
  | a :: rest, s, vs, s2 =>
      ∃ (v : Value) (s1 : State) (vs1 : List Value),
        a.codegen L s = some (some v, s1) ∧ argsInOrder L rest s1 vs1 s2 ∧ vs = v :: vs1

/-- The module of `sampleEntry` with the declaration `extern h(x, y)`, in the
body of `def f()` after the local binding `var y`. -/
def callerState : State :=
  ((sampleEntry.addFunction plainLLVM "h" ["x", "y"]).addAlloca 0 .double "y").setNamed "y"
    (some (.inst 0))

/-- The module of `sampleEntry` with the global array `x`, in the body of
`def f()` after the local binding `var x`: the local scalar `x` (the alloca,
instruction 0) shadows the global array `x`. -/
def scalarOverGlobalArray : State :=
  ((sampleEntry.addGlobal plainLLVM (.array 2) (.nullValue (.array 2)) "x").addAlloca 0
    .double "x").setNamed "x" (some (.inst 0))

/-- The prototype `g()`. -/
def protoG : PrototypeAST := { Name := "g", Args := [] }

/-- The definition `def g() x`, whose body reads a name that is no parameter of
`g`. -/
def readsX : RootAST := .FunctionAST protoG (.VariableExprAST "x")

/-- The block `{ var x = 1; }`: one binding and no statement. -/
def bindingOnly : ExprAST := .BlockAST [.scalar "x" (some (.NumberExprAST 1))] []

/-- The definition `def f() { var x = 1; }`. -/
def definesBindingOnly : RootAST := .FunctionAST { Name := "f", Args := [] } bindingOnly

/-- The instructions that store the values `vs` into the elements of the array
`base` of type `ty` from position `i` on, in the words of the specification: for
each value the address of the element with the indices 0 and its position, then
the store of the value at that address.  `first` is the place the first of these
instructions takes in the instruction store. -/
def elementStores (ty : Ty) (base : Value) : Nat → Nat → List Value → List Instr
  | _, _, [] => []
  | first, i, v :: vs =>
      .gep ty base [.constInt 32 0, .constInt 32 i] :: .store v (.inst first) ::
        elementStores ty base (first + 2) (i + 1) vs

/-- The binding `var a[2] = {1, 2}`. -/
def arrayOfTwo : VarBindingAST :=
  .ArrayBindingAST "a" 2 [.NumberExprAST 1, .NumberExprAST 2]

/-- The state in the body of `def f()` after storage for `var a[2]` has been
allocated. -/
def allocatedTwo : State := sampleEntry.addAlloca 0 (.array (toU64 2)) "a"
/-- Instruction `j` sits in block `b`. -/
def SitsIn (j b : Nat) (s : State) : Prop :=
  j ∈ s.instsOf b

/-- The state after the builder has made the instructions `is` one after the
other, each appended to the insertion block. -/
def State.addInsts (s : State) (is : List Instr) : State :=
  is.foldl State.addInst s

/-- The statement `if (1) x = 2` on the global `x`. -/
def sampleIfThen : RootAST :=
  .IfStmtAST (.NumberExprAST 1) (.AssignmentAST "x" (.NumberExprAST 2)) none

/-- The statement `if (1) x = 2 else x = 3` on the global `x`. -/
def sampleIfElse : RootAST :=
  .IfStmtAST (.NumberExprAST 1) (.AssignmentAST "x" (.NumberExprAST 2))
    (some (.AssignmentAST "x" (.NumberExprAST 3)))

/-- Function `F` exists, the history of attachments extends `base`, and the
block list of `F` is `bl` followed by the blocks attached to `F` since, in the
order of attachment. -/
def GrownBy (F : Nat) (base : List (Nat × Nat)) (bl : List Nat) (s : State) : Prop :=
  F < s.Functions.length ∧ (∃ log, s.AttachLog = base ++ log) ∧
    s.blocksOf F = bl ++ s.attachedSince base F

/-- The expression `if 1 then (if 1 then 2 else 3) else 4`: a conditional whose
true branch is a conditional. -/
def nestedIf : ExprAST :=
  .IfExprAST (.NumberExprAST 1) sampleIf (.NumberExprAST 4)

/-- Nothing in the statement opens a scope: no block (`BlockAST`) occurs in its
expressions, and neither a function definition nor a loop whose initializer is
a binding occurs in it. -/
def RootAST.noScope : RootAST → Bool
  | .SeqAST none none => true
  | .SeqAST none (some c) => c.noScope
  | .SeqAST (some f) none => f.noScope
  | .SeqAST (some f) (some c) => f.noScope && c.noScope
  | .expr e => e.noBlock
  | .binding b => b.noBlock
  | .PrototypeAST _ => true
  | .FunctionAST _ _ => false
  | .GlobalVarAST _ => true
  | .GlobalArrayAST _ _ => true
  | .AssignmentAST _ Val => Val.noBlock
  | .ArrayAssignmentAST _ Index Val => Index.noBlock && Val.noBlock
  | .IfStmtAST Cond TrueStmt none => Cond.noBlock && TrueStmt.noScope
  | .IfStmtAST Cond TrueStmt (some FalseStmt) =>
      Cond.noBlock && TrueStmt.noScope && FalseStmt.noScope
  | .ForStmtAST Init false Cond Update Body =>
      Init.noScope && Cond.noBlock && Update.noScope && Body.noScope
  | .ForStmtAST _ true _ _ _ => false

/-- The symbol table `outer` overridden by the bindings `bs` (name and storage),
in the words of the specification: the bindings are pushed in their order, so a
name resolves to the storage of its last binding in `bs`, else as in `outer`. -/
def boundOver (bs : List (String × Value)) (outer : List (String × Option Value)) :
    List (String × Option Value) :=
  (bs.map (fun p => (p.1, some p.2))).reverse ++ outer

/-- The binding `var x = { var y = 1, y = 2; y }`, whose initializer is a block
that binds `y` twice. -/
def bindsThroughBlock : VarBindingAST := .scalar "x" (some (twiceBound "y"))

/-- The block `{ var x = { var y = 1, y = 2; y }, z = y; z }`: the initializer
of `z` names `y`, which is bound neither outside the block nor by a binding of
the block. -/
def readsLeaked : ExprAST :=
  .BlockAST [bindsThroughBlock, .scalar "z" (some (.VariableExprAST "y"))]
    [.expr (.VariableExprAST "z")]

/-- The block `{ var x = 1, y = x; x = y; y }`. -/
def sampleBlock : ExprAST :=
  .BlockAST [.scalar "x" (some (.NumberExprAST 1)), .scalar "y" (some (.VariableExprAST "x"))]
    [.AssignmentAST "x" (.VariableExprAST "y"), .expr (.VariableExprAST "y")]

set_option maxHeartbeats 1000000 in
/-- The simplest cases of the generation functions, unfolded: a number literal is
its constant, the loops over an empty list return at once, and a node held
through a `RootAST*` delegates to its own method. -/
theorem codegen_unfolds (L : LLVM) (Val : ℚ) (e : ExprAST) (b : VarBindingAST)
    (tmp : List (Option Value)) (v : Option Value) :
    (ExprAST.NumberExprAST Val).codegen L = pure (some (.constFP Val)) ∧
    codegenArgs L [] = pure (some []) ∧
    codegenDefs L [] tmp = pure (some tmp) ∧
    codegenStmts L [] v = pure (some v) ∧
    (RootAST.expr e).codegen L = e.codegen L ∧
    (RootAST.binding b).codegen L = b.codegen L := by
  have h3 := @VarBindingAST.codegen.eq_1
  refine ⟨?_, ?_, ?_, ?_, ?_, ?_⟩
  · rw [ExprAST.codegen]
  · rw [codegenArgs]
  · rw [codegenDefs]
  · rw [codegenStmts]
  · rw [RootAST.codegen]
  · rw [RootAST.codegen]

/-! ## Reading the monad -/

theorem bind_apply {α β : Type} (m : M α) (f : α → M β) (s : State) :
    (m >>= f) s = match m s with
      | none => none
      | some (a, s1) => f a s1 := rfl

theorem pure_apply {α : Type} (a : α) (s : State) : (pure a : M α) s = some (a, s) := rfl

theorem bind_eq_some {α β : Type} {m : M α} {f : α → M β} {s : State} {r : β} {s' : State} :
    (m >>= f) s = some (r, s') ↔ ∃ a s1, m s = some (a, s1) ∧ f a s1 = some (r, s') := by
  rw [bind_apply]
  cases h : m s with
  | none => simp
  | some p =>
    obtain ⟨a, s1⟩ := p
    constructor
    · intro h1; exact ⟨a, s1, rfl, h1⟩
    · rintro ⟨a1, s2, h1, h2⟩
      cases h1; exact h2

theorem pure_eq_some {α : Type} {a r : α} {s s' : State} :
    (pure a : M α) s = some (r, s') ↔ a = r ∧ s = s' := by
  rw [pure_apply]
  constructor
  · intro h; cases h; exact ⟨rfl, rfl⟩
  · rintro ⟨rfl, rfl⟩; rfl

theorem crash_eq_some {α : Type} {r : α} {s s' : State} :
    (crash : M α) s = some (r, s') ↔ False := by
  simp [crash]

theorem Insert_eq_some {i : Instr} {s s' : State} {r : Value} :
    Insert i s = some (r, s') ↔ r = .inst s.Insts.length ∧ s' = s.addInst i := by
  unfold Insert
  constructor
  · intro h; cases h; exact ⟨rfl, rfl⟩
  · rintro ⟨rfl, rfl⟩; rfl

theorem CreateLoad_eq_some {ty : Ty} {p : Value} {s s' : State} {r : Value} :
    CreateLoad ty p s = some (r, s') ↔
      s.inModule = true ∧ r = .inst s.Insts.length ∧ s' = s.addInst (.load ty p) := by
  unfold CreateLoad
  cases h : s.inModule with
  | false => simp
  | true => simp [Insert_eq_some]

theorem CreateStore_eq_some {v p : Value} {s s' : State} {r : Value} :
    CreateStore v p s = some (r, s') ↔
      s.inModule = true ∧ r = .inst s.Insts.length ∧ s' = s.addInst (.store v p) := by
  unfold CreateStore
  cases h : s.inModule with
  | false => simp
  | true => simp [Insert_eq_some]

theorem CreateLoad_inModule {s : State} (h : s.inModule = true) (ty : Ty) (p : Value) :
    CreateLoad ty p s = some (.inst s.Insts.length, s.addInst (.load ty p)) :=
  CreateLoad_eq_some.mpr ⟨h, rfl, rfl⟩

theorem CreateStore_inModule {s : State} (h : s.inModule = true) (v p : Value) :
    CreateStore v p s = some (.inst s.Insts.length, s.addInst (.store v p)) :=
  CreateStore_eq_some.mpr ⟨h, rfl, rfl⟩

theorem BasicBlockCreate_eq_some {n : String} {p : Option Nat} {s s' : State} {r : Nat} :
    BasicBlockCreate n p s = some (r, s') ↔ r = s.Blocks.length ∧ s' = s.addBlock n p := by
  unfold BasicBlockCreate
  constructor
  · intro h; cases h; exact ⟨rfl, rfl⟩
  · rintro ⟨rfl, rfl⟩; rfl

theorem SetInsertPoint_eq_some {b : Nat} {s s' : State} {r : Unit} :
    SetInsertPoint b s = some (r, s') ↔ s' = s.setInsertBlock b := by
  unfold SetInsertPoint
  constructor
  · intro h; cases h; rfl
  · rintro rfl; rfl

theorem GetInsertBlock_eq_some {s s' : State} {r : Option Nat} :
    GetInsertBlock s = some (r, s') ↔ r = s.InsertBlock ∧ s = s' := by
  unfold GetInsertBlock
  constructor
  · intro h; cases h; exact ⟨rfl, rfl⟩
  · rintro ⟨rfl, rfl⟩; rfl

theorem getFunction_eq_some {n : String} {s s' : State} {r : Option Nat} :
    getFunction n s = some (r, s') ↔ r = s.getFunction n ∧ s = s' := by
  unfold getFunction
  constructor
  · intro h; cases h; exact ⟨rfl, rfl⟩
  · rintro ⟨rfl, rfl⟩; rfl

theorem getGlobalVariable_eq_some {n : String} {s s' : State} {r : Option Nat} :
    getGlobalVariable n s = some (r, s') ↔ r = s.getGlobalVariable n ∧ s = s' := by
  unfold getGlobalVariable
  constructor
  · intro h; cases h; exact ⟨rfl, rfl⟩
  · rintro ⟨rfl, rfl⟩; rfl

theorem setNamed_eq_some {n : String} {v : Option Value} {s s' : State} {r : Unit} :
    setNamed n v s = some (r, s') ↔ s' = s.setNamed n v := by
  unfold setNamed
  constructor
  · intro h; cases h; rfl
  · rintro rfl; rfl

theorem getNamed_eq_some {n : String} {s s' : State} {r : Option Value} :
    getNamed n s = some (r, s') ↔ r = lookupNamed s.NamedValues n ∧ s = s' := by
  unfold getNamed
  constructor
  · intro h; cases h; exact ⟨rfl, rfl⟩
  · rintro ⟨rfl, rfl⟩; rfl

theorem addIncoming_eq_some {PN V : Value} {BB : Option Nat} {s s' : State} {r : Unit} :
    addIncoming PN V BB s = some (r, s') ↔ s' = s.addIncoming PN V BB := by
  unfold addIncoming
  constructor
  · intro h; cases h; rfl
  · rintro rfl; rfl

theorem eraseFromParent_eq_some {f : Nat} {s s' : State} {r : Unit} :
    eraseFromParent f s = some (r, s') ↔ s' = s.erase f := by
  unfold eraseFromParent
  constructor
  · intro h; cases h; rfl
  · rintro rfl; rfl

theorem FunctionCreate_eq_some {L : LLVM} {n : String} {a : List String} {s s' : State} {r : Nat} :
    FunctionCreate L n a s = some (r, s') ↔ r = s.Functions.length ∧ s' = s.addFunction L n a := by
  unfold FunctionCreate
  constructor
  · intro h; cases h; exact ⟨rfl, rfl⟩
  · rintro ⟨rfl, rfl⟩; rfl

theorem GlobalVariableCreate_eq_some {L : LLVM} {ty : Ty} {init : Value} {n : String}
    {s s' : State} {r : Nat} :
    GlobalVariableCreate L ty init n s = some (r, s') ↔
      r = s.Globals.length ∧ s' = s.addGlobal L ty init n := by
  unfold GlobalVariableCreate
  constructor
  · intro h; cases h; exact ⟨rfl, rfl⟩
  · rintro ⟨rfl, rfl⟩; rfl

theorem FunctionInsert_eq_some {function : Option Nat} {b : Nat} {s s' : State} {r : Unit} :
    FunctionInsert function b s = some (r, s') ↔ ∃ f, function = some f ∧ s' = s.attach f b := by
  unfold FunctionInsert
  cases function with
  | none => simp
  | some f =>
    constructor
    · intro h; cases h; exact ⟨f, rfl, rfl⟩
    · rintro ⟨f1, h1, rfl⟩; cases h1; rfl

theorem GetInsertBlockParent_eq_some {s s' : State} {r : Option Nat} :
    GetInsertBlockParent s = some (r, s') ↔
      ∃ c blk, s.InsertBlock = some c ∧ s.Blocks[c]? = some blk ∧ r = blk.Parent ∧ s = s' := by
  unfold GetInsertBlockParent
  cases h1 : s.InsertBlock with
  | none => simp
  | some c =>
    cases h2 : s.Blocks[c]? with
    | none => simp [h2]
    | some blk =>
      simp only [h2, Option.some.injEq, Prod.mk.injEq, exists_and_left, exists_eq_left']
      constructor
      · rintro ⟨rfl, rfl⟩; exact ⟨rfl, rfl⟩
      · rintro ⟨rfl, rfl⟩; exact ⟨rfl, rfl⟩

theorem CreateEntryBlockAlloca_eq_some {ty : Ty} {function : Option Nat} {n : String}
    {s s' : State} {r : Value} :
    CreateEntryBlockAlloca ty function n s = some (r, s') ↔
      ∃ entry, s.getEntryBlock function = some entry ∧ r = .inst s.Insts.length ∧
        s' = s.addAlloca entry ty n := by
  unfold CreateEntryBlockAlloca
  cases h1 : s.getEntryBlock function with
  | none => simp
  | some entry =>
    simp only [Option.some.injEq, Prod.mk.injEq, exists_eq_left']
    constructor
    · rintro ⟨rfl, rfl⟩; exact ⟨rfl, rfl⟩
    · rintro ⟨rfl, rfl⟩; exact ⟨rfl, rfl⟩

theorem getAllocatedType_eq_some {v : Value} {s s' : State} {r : Ty} :
    getAllocatedType v s = some (r, s') ↔ s.allocatedType v = some r ∧ s = s' := by
  unfold getAllocatedType
  cases h1 : s.allocatedType v with
  | none => simp
  | some ty =>
    simp only [Option.map_some', Option.some.injEq, Prod.mk.injEq]

theorem getValueType_eq_some {g : Nat} {s s' : State} {r : Ty} :
    getValueType g s = some (r, s') ↔ ∃ gv, s.Globals[g]? = some gv ∧ r = gv.ValueType ∧ s = s' := by
  unfold getValueType
  cases h1 : s.Globals[g]? with
  | none => simp
  | some gv =>
    simp only [Option.map_some', Option.some.injEq, Prod.mk.injEq, exists_eq_left']
    constructor
    · rintro ⟨rfl, rfl⟩; exact ⟨rfl, rfl⟩
    · rintro ⟨rfl, rfl⟩; exact ⟨rfl, rfl⟩

theorem getArgs_eq_some {f : Nat} {s s' : State} {r : List String} :
    getArgs f s = some (r, s') ↔ ∃ fn, s.Functions[f]? = some fn ∧ r = fn.Args ∧ s = s' := by
  unfold getArgs
  cases h1 : s.Functions[f]? with
  | none => simp
  | some fn =>
    simp only [Option.map_some', Option.some.injEq, Prod.mk.injEq, exists_eq_left']
    constructor
    · rintro ⟨rfl, rfl⟩; exact ⟨rfl, rfl⟩
    · rintro ⟨rfl, rfl⟩; exact ⟨rfl, rfl⟩

theorem argSize_eq_some {f : Nat} {s s' : State} {r : Nat} :
    argSize f s = some (r, s') ↔ ∃ fn, s.Functions[f]? = some fn ∧ r = fn.Args.length ∧ s = s' := by
  unfold argSize
  cases h1 : s.Functions[f]? with
  | none => simp
  | some fn =>
    simp only [Option.map_some', Option.some.injEq, Prod.mk.injEq, exists_eq_left']
    constructor
    · rintro ⟨rfl, rfl⟩; exact ⟨rfl, rfl⟩
    · rintro ⟨rfl, rfl⟩; exact ⟨rfl, rfl⟩

/-! ## Sizes of the stores under the state functions -/

theorem length_appendInst (bs : List BasicBlock) (b i : Nat) :
    (appendInst bs b i).length = bs.length := by
  unfold appendInst; split <;> simp

theorem length_prependInst (bs : List BasicBlock) (b i : Nat) :
    (prependInst bs b i).length = bs.length := by
  unfold prependInst; split <;> simp

theorem length_setParent (bs : List BasicBlock) (b f : Nat) :
    (setParent bs b f).length = bs.length := by
  unfold setParent; split <;> simp

theorem length_appendBlock (fs : List Function) (f b : Nat) :
    (appendBlock fs f b).length = fs.length := by
  unfold appendBlock; split <;> simp

@[simp] theorem addInst_Blocks_length (s : State) (i : Instr) :
    (s.addInst i).Blocks.length = s.Blocks.length := by
  unfold State.addInst
  cases s.InsertBlock <;> simp [length_appendInst]

@[simp] theorem addBlock_Blocks_length (s : State) (n : String) (p : Option Nat) :
    (s.addBlock n p).Blocks.length = s.Blocks.length + 1 := by
  simp [State.addBlock]

@[simp] theorem attach_Blocks_length (s : State) (f b : Nat) :
    (s.attach f b).Blocks.length = s.Blocks.length := by
  simp [State.attach, length_setParent]

@[simp] theorem setInsertBlock_Blocks_length (s : State) (b : Nat) :
    (s.setInsertBlock b).Blocks.length = s.Blocks.length := rfl

@[simp] theorem addAlloca_Blocks_length (s : State) (e : Nat) (ty : Ty) (n : String) :
    (s.addAlloca e ty n).Blocks.length = s.Blocks.length := by
  simp [State.addAlloca, length_prependInst]

@[simp] theorem setNamed_Blocks_length (s : State) (n : String) (v : Option Value) :
    (s.setNamed n v).Blocks.length = s.Blocks.length := rfl

@[simp] theorem addIncoming_Blocks_length (s : State) (PN V : Value) (bb : Option Nat) :
    (s.addIncoming PN V bb).Blocks.length = s.Blocks.length := by
  unfold State.addIncoming
  split
  · split <;> rfl
  · rfl

@[simp] theorem addFunction_Blocks_length (s : State) (L : LLVM) (n : String) (a : List String) :
    (s.addFunction L n a).Blocks.length = s.Blocks.length := rfl

@[simp] theorem erase_Blocks_length (s : State) (f : Nat) :
    (s.erase f).Blocks.length = s.Blocks.length := rfl

@[simp] theorem addGlobal_Blocks_length (s : State) (L : LLVM) (ty : Ty) (v : Value)
    (n : String) : (s.addGlobal L ty v n).Blocks.length = s.Blocks.length := rfl

/-! ## Invariants closed under the builder's operations -/

theorem Keeps.refl {I : State → Prop} {s : State} (h : I s) : Keeps I s s :=
  ⟨h, le_refl _⟩

section
variable {L : LLVM} {I : State → Prop} {okB okF okE okI : Nat → Prop}

theorem Closed.plain (hC : Closed L I okB okF okE okI) {s : State} {i : Instr}
    (h : I s) (ht : Instr.targets i = []) : I (s.addInst i) :=
  hC.addInst s i h (by rw [ht]; intro t h0; cases h0)

theorem CreateBinOp_cases {L : LLVM} {op : Opcode} {l r : Value} {s s1 : State} {v : Value}
    (h : CreateBinOp L op l r s = some (v, s1)) :
    s1 = s ∨ (v = .inst s.Insts.length ∧ s1 = s.addInst (.binop op l r)) := by
  unfold CreateBinOp at h
  generalize (if l.isConstant && r.isConstant then L.Fold op l r else none) = o at h
  cases o with
  | some w => left; exact (pure_eq_some.mp h).2.symm
  | none => right; exact Insert_eq_some.mp h

theorem CreateFPToUI_cases {L : LLVM} {x : Value} {s s1 : State} {v : Value}
    (h : CreateFPToUI L x s = some (v, s1)) :
    s1 = s ∨ (v = .inst s.Insts.length ∧ s1 = s.addInst (.fptoui x)) := by
  unfold CreateFPToUI at h
  generalize (if x.isConstant then L.FoldCast x else none) = o at h
  cases o with
  | some w => left; exact (pure_eq_some.mp h).2.symm
  | none => right; exact Insert_eq_some.mp h

theorem CreateInBoundsGEP_cases {L : LLVM} {ty : Ty} {p : Value} {idx : List Value}
    {s s1 : State} {v : Value}
    (h : CreateInBoundsGEP L ty p idx s = some (v, s1)) :
    s1 = s ∨ (v = .inst s.Insts.length ∧ s1 = s.addInst (.gep ty p idx)) := by
  unfold CreateInBoundsGEP at h
  generalize (if p.isConstant && idx.all Value.isConstant then L.FoldGEP ty p idx else none) = o
    at h
  cases o with
  | some w => left; exact (pure_eq_some.mp h).2.symm
  | none => right; exact Insert_eq_some.mp h

theorem CreateBinOp_keeps (hC : Closed L I okB okF okE okI) {op : Opcode} {l r : Value}
    {s s1 : State} {v : Value} (hI : I s) (h : CreateBinOp L op l r s = some (v, s1)) :
    Keeps I s s1 := by
  rcases CreateBinOp_cases h with rfl | ⟨_, rfl⟩
  · exact Keeps.refl hI
  · exact ⟨hC.plain hI rfl, by simp⟩

theorem elementAddress_keeps (hC : Closed L I okB okF okE okI) {ty : Ty} {base x : Value}
    {s s1 : State} {v : Value} (hI : I s) (h : elementAddress L ty base x s = some (v, s1)) :
    Keeps I s s1 := by
  unfold elementAddress at h
  rw [bind_eq_some] at h
  obtain ⟨k, s2, h1, h2⟩ := h
  have hI2 : Keeps I s s2 := by
    rcases CreateFPToUI_cases h1 with rfl | ⟨_, rfl⟩
    · exact Keeps.refl hI
    · exact ⟨hC.plain hI rfl, by simp⟩
  rcases CreateInBoundsGEP_cases h2 with rfl | ⟨_, rfl⟩
  · exact hI2
  · exact ⟨hC.plain hI2.1 rfl, by simpa using hI2.2⟩

theorem storeElems_keeps (hC : Closed L I okB okF okE okI) (ty : Ty) (a : Value) :
    ∀ (vs : List Value) (i : Nat) (s s1 : State) (r : Unit), I s →
      storeElems L ty a i vs s = some (r, s1) → Keeps I s s1
  | [], i, s, s1, r, hI, h => by
      rw [storeElems, pure_eq_some] at h
      obtain ⟨_, rfl⟩ := h
      exact Keeps.refl hI
  | v :: vs, i, s, s1, r, hI, h => by
      rw [storeElems] at h
      simp only [bind_eq_some, Insert_eq_some, CreateLoad_eq_some, CreateStore_eq_some] at h
      obtain ⟨EP, s2, h1, _, _, ⟨_, _, rfl⟩, h3⟩ := h
      have k2 : Keeps I s s2 := by
        rcases CreateInBoundsGEP_cases h1 with rfl | ⟨_, rfl⟩
        · exact Keeps.refl hI
        · exact ⟨hC.plain hI rfl, by simp⟩
      have k3 := storeElems_keeps hC ty a vs (i + 1) _ _ _
        (hC.plain (i := .store v EP) k2.1 rfl) h3
      exact ⟨k3.1, by have := k3.2; have := k2.2; simp at *; omega⟩

theorem restoreNamed_keeps (hC : Closed L I okB okF okE okI) :
    ∀ (ns : List String) (vs : List (Option Value)) (s s1 : State) (r : Unit), I s →
      restoreNamed ns vs s = some (r, s1) → Keeps I s s1
  | [], vs, s, s1, r, hI, h => by
      rw [restoreNamed, pure_eq_some] at h
      obtain ⟨_, rfl⟩ := h
      exact Keeps.refl hI
  | n :: ns, [], s, s1, r, hI, h => by
      rw [restoreNamed, pure_eq_some] at h
      obtain ⟨_, rfl⟩ := h
      exact Keeps.refl hI
  | n :: ns, v :: vs, s, s1, r, hI, h => by
      rw [restoreNamed] at h
      simp only [bind_eq_some, setNamed_eq_some] at h
      obtain ⟨_, _, rfl, h3⟩ := h
      have k3 := restoreNamed_keeps hC ns vs _ _ _ (hC.setNamed _ n v hI) h3
      exact ⟨k3.1, by have := k3.2; simp at *; omega⟩

theorem getEntryBlock_addInst (s : State) (i : Instr) (f : Option Nat) :
    (s.addInst i).getEntryBlock f = s.getEntryBlock f := rfl

theorem getEntryBlock_setNamed (s : State) (n : String) (v : Option Value) (f : Option Nat) :
    (s.setNamed n v).getEntryBlock f = s.getEntryBlock f := rfl

theorem codegenParams_keeps (hC : Closed L I okB okF okE okI) (f : Nat) (hf : okF f) :
    ∀ (args : List String) (i : Nat) (s s1 : State) (r : Unit), I s →
      codegenParams f i args s = some (r, s1) → Keeps I s s1
  | [], i, s, s1, r, hI, h => by
      rw [codegenParams, pure_eq_some] at h
      obtain ⟨_, rfl⟩ := h
      exact Keeps.refl hI
  | a :: args, i, s, s1, r, hI, h => by
      rw [codegenParams] at h
      simp only [bind_eq_some, Insert_eq_some, CreateLoad_eq_some, CreateStore_eq_some, setNamed_eq_some,
        CreateEntryBlockAlloca_eq_some] at h
      obtain ⟨_, _, ⟨entry, he, rfl, rfl⟩, _, _, ⟨_, _, rfl⟩, _, _, rfl, h3⟩ := h
      have hI1 := hC.addAlloca s f entry .double a hI hf he
      have hI2 := hC.plain (i := .store (.arg f i) (.inst s.Insts.length)) hI1 rfl
      have hI3 := hC.setNamed _ a (some (.inst s.Insts.length)) hI2
      have k3 := codegenParams_keeps hC f hf args (i + 1) _ _ _ hI3 h3
      exact ⟨k3.1, by have := k3.2; simp at *; omega⟩

end

section
variable {L : LLVM} {I : State → Prop} {okB okF okE okI : Nat → Prop}

theorem Keeps.step {s s1 s2 : State} (h1 : Keeps I s s1) (h2 : Keeps I s1 s2) : Keeps I s s2 :=
  ⟨h2.1, le_trans h1.2 h2.2⟩

theorem Keeps.plainInst (hC : Closed L I okB okF okE okI) {s s1 : State} (i : Instr)
    (h : Keeps I s s1) (ht : Instr.targets i = []) : Keeps I s (s1.addInst i) :=
  ⟨hC.plain h.1 ht, by have := h.2; simp; omega⟩

theorem Keeps.setNamed (hC : Closed L I okB okF okE okI) {s s1 : State} (n : String)
    (v : Option Value) (h : Keeps I s s1) : Keeps I s (s1.setNamed n v) :=
  ⟨hC.setNamed _ n v h.1, by have := h.2; simp; omega⟩

theorem Keeps.addBlock (hC : Closed L I okB okF okE okI) {s s1 : State} (n : String)
    (p : Option Nat) (h : Keeps I s s1) (hp : ∀ f, p = some f → okF f) :
    Keeps I s (s1.addBlock n p) :=
  ⟨hC.addBlock _ n p h.1 hp, by have := h.2; simp; omega⟩

theorem Keeps.br (hC : Closed L I okB okF okE okI) {s s1 : State} (d : Nat)
    (h : Keeps I s s1) (hd : okB d) (hlt : d < s1.Blocks.length) :
    Keeps I s (s1.addInst (.br d)) :=
  ⟨hC.addInst _ _ h.1 (by
      intro t ht
      simp only [Instr.targets, List.mem_singleton] at ht
      subst ht; exact ⟨hd, hlt⟩),
    by have := h.2; simp; omega⟩

theorem Keeps.condBr (hC : Closed L I okB okF okE okI) {s s1 : State} (c : Value) (d e : Nat)
    (h : Keeps I s s1) (hd : okB d) (hlt : d < s1.Blocks.length)
    (he : okB e) (hlt2 : e < s1.Blocks.length) :
    Keeps I s (s1.addInst (.condBr c d e)) :=
  ⟨hC.addInst _ _ h.1 (by
      intro t ht
      simp only [Instr.targets, List.mem_cons, List.mem_singleton, List.not_mem_nil,
        or_false] at ht
      rcases ht with rfl | rfl
      · exact ⟨hd, hlt⟩
      · exact ⟨he, hlt2⟩),
    by have := h.2; simp; omega⟩

theorem Keeps.attach (hC : Closed L I okB okF okE okI) {s s1 : State} (f b : Nat)
    (h : Keeps I s s1) (hf : okF f) (hb : okB b) (hlt : b < s1.Blocks.length) :
    Keeps I s (s1.attach f b) :=
  ⟨hC.attach _ f b h.1 hf hb hlt, by have := h.2; simp; omega⟩

theorem Keeps.setInsertBlock (hC : Closed L I okB okF okE okI) {s s1 : State} (b : Nat)
    (h : Keeps I s s1) (hb : okB b) (hlt : b < s1.Blocks.length) :
    Keeps I s (s1.setInsertBlock b) :=
  ⟨hC.setInsertBlock _ b h.1 hb hlt, by have := h.2; simp; omega⟩

theorem Keeps.addIncoming (hC : Closed L I okB okF okE okI) {s s1 : State} (id : Nat)
    (v : Value) (bb : Option Nat) (h : Keeps I s s1) (hi : okI id) :
    Keeps I s (s1.addIncoming (.inst id) v bb) :=
  ⟨hC.addIncoming _ id v bb h.1 hi, by have := h.2; simp; omega⟩

theorem entryAlloca_keeps (hC : Closed L I okB okF okE okI) {s : State} {c0 entry : Nat}
    {blk0 : BasicBlock} (hI : I s) (hib : s.InsertBlock = some c0)
    (hblk : s.Blocks[c0]? = some blk0) (he : s.getEntryBlock blk0.Parent = some entry)
    (ty : Ty) (n : String) : Keeps I s (s.addAlloca entry ty n) := by
  cases hp : blk0.Parent with
  | none => rw [hp] at he; simp [State.getEntryBlock] at he
  | some f =>
    rw [hp] at he
    exact ⟨hC.addAlloca s f entry ty n hI (hC.parent _ _ _ _ hI hib hblk hp) he, by simp⟩

theorem shadowCounter_keeps (hC : Closed L I okB okF okE okI) {Init : RootAST} {Binding : Bool}
    {a : Value} {s s1 : State} {r : Option Value} (hI : I s)
    (h : shadowCounter Init Binding a s = some (r, s1)) : Keeps I s s1 := by
  unfold shadowCounter at h
  cases Binding with
  | true =>
    simp only [if_true] at h
    cases hn : ForInitAST.getName Init with
    | none => rw [hn] at h; simp only [crash_eq_some] at h
    | some n =>
      rw [hn] at h
      simp only [bind_eq_some, getNamed_eq_some, setNamed_eq_some, pure_eq_some] at h
      obtain ⟨_, _, ⟨rfl, rfl⟩, _, _, rfl, _, rfl⟩ := h
      exact (Keeps.refl hI).setNamed hC _ _
  | false =>
    simp only [Bool.false_eq_true, if_false] at h
    obtain ⟨_, rfl⟩ := pure_eq_some.mp h
    exact Keeps.refl hI

theorem restoreCounter_keeps (hC : Closed L I okB okF okE okI) {Init : RootAST} {Binding : Bool}
    {a : Option Value} {s s1 : State} {r : Unit} (hI : I s)
    (h : restoreCounter Init Binding a s = some (r, s1)) : Keeps I s s1 := by
  unfold restoreCounter at h
  cases Binding with
  | true =>
    simp only [if_true] at h
    cases hn : ForInitAST.getName Init with
    | none => rw [hn] at h; simp only [crash_eq_some] at h
    | some n =>
      rw [hn] at h
      rw [setNamed_eq_some] at h
      subst h
      exact (Keeps.refl hI).setNamed hC _ _
  | false =>
    simp only [Bool.false_eq_true, if_false] at h
    obtain ⟨_, rfl⟩ := pure_eq_some.mp h
    exact Keeps.refl hI

mutual
theorem ExprAST.codegen_keeps (hC : Closed L I okB okF okE okI) :
    ∀ (e : ExprAST) (s s1 : State) (r : Option Value), I s →
      e.codegen L s = some (r, s1) → Keeps I s s1
  | .NumberExprAST v, s, s1, r, hI, h => by
      rw [ExprAST.codegen, pure_eq_some] at h
      obtain ⟨_, rfl⟩ := h
      exact Keeps.refl hI
  | .VariableExprAST n, s, s1, r, hI, h => by
      rw [ExprAST.codegen] at h
      simp only [bind_eq_some, getNamed_eq_some] at h
      obtain ⟨ra, _, ⟨hl, rfl⟩, h⟩ := h
      cases ra with
      | some a =>
        simp only [bind_eq_some, getAllocatedType_eq_some, Insert_eq_some, CreateLoad_eq_some, CreateStore_eq_some, pure_eq_some] at h
        obtain ⟨ty, _, ⟨_, rfl⟩, _, _, ⟨_, _, rfl⟩, _, rfl⟩ := h
        exact Keeps.plainInst hC _ (Keeps.refl hI) rfl
      | none =>
        simp only [bind_eq_some, getGlobalVariable_eq_some] at h
        obtain ⟨rg, _, ⟨hg, rfl⟩, h⟩ := h
        cases rg with
        | none =>
          obtain ⟨_, rfl⟩ := pure_eq_some.mp h
          exact Keeps.refl hI
        | some g =>
          simp only [bind_eq_some, getValueType_eq_some, Insert_eq_some, CreateLoad_eq_some, CreateStore_eq_some, pure_eq_some] at h
          obtain ⟨ty, _, ⟨gv, _, _, rfl⟩, _, _, ⟨_, _, rfl⟩, _, rfl⟩ := h
          exact Keeps.plainInst hC _ (Keeps.refl hI) rfl
  | .BinaryExprAST Op LHS RHS, s, s1, r, hI, h => by
      rw [ExprAST.codegen] at h
      rw [bind_eq_some] at h
      obtain ⟨L1, s2, hl, h⟩ := h
      have k1 := ExprAST.codegen_keeps hC LHS _ _ _ hI hl
      generalize (if Op = '!' then L1 else none) = o at h
      cases o with
      | some l =>
        simp only [bind_eq_some, pure_eq_some] at h
        obtain ⟨v, s3, h3, _, rfl⟩ := h
        exact k1.step (CreateBinOp_keeps hC k1.1 h3)
      | none =>
        cases RHS with
        | none => simp only [crash_eq_some] at h
        | some RHS =>
          simp only [bind_eq_some] at h
          obtain ⟨R1, s3, hr, h⟩ := h
          have k2 := k1.step (ExprAST.codegen_keeps hC RHS _ _ _ k1.1 hr)
          cases L1 with
          | none => simp only [pure_eq_some] at h; obtain ⟨_, rfl⟩ := h; exact k2
          | some l =>
            cases R1 with
            | none => simp only [pure_eq_some] at h; obtain ⟨_, rfl⟩ := h; exact k2
            | some r1 =>
              simp only [] at h
              cases hop : binaryOpcode Op with
              | none =>
                rw [hop] at h
                simp only [pure_eq_some] at h; obtain ⟨_, rfl⟩ := h; exact k2
              | some op =>
                rw [hop] at h
                simp only [bind_eq_some, pure_eq_some] at h
                obtain ⟨v, s4, h4, _, rfl⟩ := h
                exact k2.step (CreateBinOp_keeps hC k2.1 h4)
  | .CallExprAST Callee Args, s, s1, r, hI, h => by
      rw [ExprAST.codegen] at h
      simp only [bind_eq_some, getFunction_eq_some] at h
      obtain ⟨rf, _, ⟨hf, rfl⟩, h⟩ := h
      cases rf with
      | none =>
        obtain ⟨_, rfl⟩ := pure_eq_some.mp h
        exact Keeps.refl hI
      | some CalleeF =>
        simp only [bind_eq_some, argSize_eq_some] at h
        obtain ⟨_, _, ⟨fn, hfn, rfl, rfl⟩, h⟩ := h
        split at h
        · simp only [pure_eq_some] at h; obtain ⟨_, rfl⟩ := h; exact Keeps.refl hI
        · simp only [bind_eq_some] at h
          obtain ⟨ra, s2, ha, h⟩ := h
          have k1 := codegenArgs_keeps hC Args _ _ _ hI ha
          cases ra with
          | none => simp only [pure_eq_some] at h; obtain ⟨_, rfl⟩ := h; exact k1
          | some ArgsV =>
            simp only [bind_eq_some, Insert_eq_some, CreateLoad_eq_some, CreateStore_eq_some, pure_eq_some] at h
            obtain ⟨_, _, ⟨_, rfl⟩, _, rfl⟩ := h
            exact Keeps.plainInst hC _ k1 rfl
  | .IfExprAST c t f, s, s1, r, hI, h => by
      rw [ExprAST.codegen] at h
      rw [bind_eq_some] at h
      obtain ⟨rc, s2, hc, h⟩ := h
      have k1 := ExprAST.codegen_keeps hC c _ _ _ hI hc
      cases rc with
      | none => obtain ⟨_, rfl⟩ := pure_eq_some.mp h; exact k1
      | some CondV =>
        simp only [bind_eq_some, BasicBlockCreate_eq_some, GetInsertBlockParent_eq_some,
          Insert_eq_some, CreateLoad_eq_some, CreateStore_eq_some, SetInsertPoint_eq_some] at h
        obtain ⟨_, _, ⟨c0, blk0, hib, hblk, rfl, rfl⟩, _, _, ⟨rfl, rfl⟩, _, _, ⟨rfl, rfl⟩,
          _, _, ⟨rfl, rfl⟩, _, _, ⟨rfl, rfl⟩, _, _, rfl, rt, s3, ht, h⟩ := h
        have hF : ∀ g, blk0.Parent = some g → okF g :=
          fun g hg => hC.parent s2 c0 blk0 g k1.1 hib hblk hg
        have kA := k1.addBlock hC "trueexp" blk0.Parent hF
        have kB := kA.addBlock hC "falseexp" none (by intro g hg; cases hg)
        have kC := kB.addBlock hC "endcond" none (by intro g hg; cases hg)
        have bT := hC.newB _ k1.1
        have bF := hC.newB _ kA.1
        have bM := hC.newB _ kB.1
        have kD := kC.condBr hC CondV _ _ bT (by simp; omega) bF (by simp)
        have kE := kD.setInsertBlock hC _ bT (by simp; omega)
        have k3 := kE.step (ExprAST.codegen_keeps hC t _ _ _ kE.1 ht)
        cases rt with
        | none => obtain ⟨_, rfl⟩ := pure_eq_some.mp h; exact k3
        | some TrueV =>
          simp only [bind_eq_some, BasicBlockCreate_eq_some, GetInsertBlock_eq_some,
            Insert_eq_some, CreateLoad_eq_some, CreateStore_eq_some, SetInsertPoint_eq_some, FunctionInsert_eq_some] at h
          obtain ⟨_, _, ⟨rfl, rfl⟩, _, _, ⟨rfl, rfl⟩, _, _, ⟨g, hg, rfl⟩, _, _, rfl,
            rf, s5, hfl, h⟩ := h
          have hle3 := (ExprAST.codegen_keeps hC t _ _ _ kE.1 ht).2
          simp only [setInsertBlock_Blocks_length, addInst_Blocks_length,
            addBlock_Blocks_length] at hle3
          have kF := k3.br hC _ bM (by simp; omega)
          have kG := kF.attach hC g _ (hF g hg) bF (by simp; omega)
          have kH := kG.setInsertBlock hC _ bF (by simp; omega)
          have k5 := kH.step (ExprAST.codegen_keeps hC f _ _ _ kH.1 hfl)
          cases rf with
          | none => obtain ⟨_, rfl⟩ := pure_eq_some.mp h; exact k5
          | some FalseV =>
            simp only [bind_eq_some, GetInsertBlock_eq_some, Insert_eq_some, CreateLoad_eq_some, CreateStore_eq_some,
              SetInsertPoint_eq_some, FunctionInsert_eq_some, addIncoming_eq_some,
              pure_eq_some] at h
            obtain ⟨_, _, ⟨rfl, rfl⟩, _, _, ⟨rfl, rfl⟩, _, _, ⟨g2, hg2, rfl⟩, _, _, rfl,
              _, _, ⟨rfl, rfl⟩, _, _, rfl, _, _, rfl, _, rfl⟩ := h
            have hle5 := (ExprAST.codegen_keeps hC f _ _ _ kH.1 hfl).2
            simp only [setInsertBlock_Blocks_length, addInst_Blocks_length,
              attach_Blocks_length] at hle5
            have kJ := k5.br hC _ bM (by simp; omega)
            have kK := kJ.attach hC g2 _ (hF g2 hg2) bM (by simp; omega)
            have kL := kK.setInsertBlock hC _ bM (by simp; omega)
            have iP := hC.newI _ kL.1
            have kM := kL.plainInst hC (.phi []) rfl
            exact (kM.addIncoming hC _ TrueV _ iP).addIncoming hC _ FalseV _ iP
  | .BlockAST Def Stmts, s, s1, r, hI, h => by
      rw [ExprAST.codegen] at h
      simp only [bind_eq_some] at h
      obtain ⟨rd, s2, hd, h⟩ := h
      have k1 := codegenDefs_keeps hC Def _ _ _ _ hI hd
      cases rd with
      | none => simp only [pure_eq_some] at h; obtain ⟨_, rfl⟩ := h; exact k1
      | some AllocaTmp =>
        simp only [bind_eq_some] at h
        obtain ⟨rs, s3, hs, h⟩ := h
        have k2 := k1.step (codegenStmts_keeps hC Stmts _ _ _ _ k1.1 hs)
        cases rs with
        | none => simp only [pure_eq_some] at h; obtain ⟨_, rfl⟩ := h; exact k2
        | some Val =>
          simp only [bind_eq_some, pure_eq_some] at h
          obtain ⟨_, s4, h4, _, rfl⟩ := h
          exact k2.step (restoreNamed_keeps hC _ _ _ _ _ k2.1 h4)
  | .ArrayExprAST n Index, s, s1, r, hI, h => by
      rw [ExprAST.codegen] at h
      simp only [bind_eq_some, getNamed_eq_some] at h
      obtain ⟨ra, _, ⟨hl, rfl⟩, h⟩ := h
      cases ra with
      | some a =>
        simp only [bind_eq_some, getAllocatedType_eq_some] at h
        obtain ⟨ty, _, ⟨hty, rfl⟩, h⟩ := h
        split at h
        · obtain ⟨_, rfl⟩ := pure_eq_some.mp h; exact Keeps.refl hI
        · simp only [bind_eq_some] at h
          obtain ⟨ri, s2, hi, h⟩ := h
          have k1 := ExprAST.codegen_keeps hC Index _ _ _ hI hi
          cases ri with
          | none => obtain ⟨_, rfl⟩ := pure_eq_some.mp h; exact k1
          | some IndexFP =>
            simp only [bind_eq_some, Insert_eq_some, CreateLoad_eq_some, CreateStore_eq_some, pure_eq_some] at h
            obtain ⟨EP, s3, he, _, _, ⟨_, _, rfl⟩, _, rfl⟩ := h
            exact (k1.step (elementAddress_keeps hC k1.1 he)).plainInst hC _ rfl
      | none =>
        simp only [bind_eq_some, getGlobalVariable_eq_some] at h
        obtain ⟨rg, _, ⟨hg, rfl⟩, h⟩ := h
        cases rg with
        | none => obtain ⟨_, rfl⟩ := pure_eq_some.mp h; exact Keeps.refl hI
        | some g =>
          simp only [bind_eq_some, getValueType_eq_some] at h
          obtain ⟨ty, _, ⟨gv, hgv, rfl, rfl⟩, h⟩ := h
          split at h
          · obtain ⟨_, rfl⟩ := pure_eq_some.mp h; exact Keeps.refl hI
          · simp only [bind_eq_some] at h
            obtain ⟨ri, s2, hi, h⟩ := h
            have k1 := ExprAST.codegen_keeps hC Index _ _ _ hI hi
            cases ri with
            | none => obtain ⟨_, rfl⟩ := pure_eq_some.mp h; exact k1
            | some IndexFP =>
              simp only [bind_eq_some, Insert_eq_some, CreateLoad_eq_some, CreateStore_eq_some, pure_eq_some] at h
              obtain ⟨EP, s3, he, _, _, ⟨_, _, rfl⟩, _, rfl⟩ := h
              exact (k1.step (elementAddress_keeps hC k1.1 he)).plainInst hC _ rfl
theorem codegenArgs_keeps (hC : Closed L I okB okF okE okI) :
    ∀ (es : List ExprAST) (s s1 : State) (r : Option (List Value)), I s →
      codegenArgs L es s = some (r, s1) → Keeps I s s1
  | [], s, s1, r, hI, h => by
      rw [codegenArgs, pure_eq_some] at h
      obtain ⟨_, rfl⟩ := h
      exact Keeps.refl hI
  | e :: es, s, s1, r, hI, h => by
      rw [codegenArgs] at h
      simp only [bind_eq_some] at h
      obtain ⟨re, s2, he, h⟩ := h
      have k1 := ExprAST.codegen_keeps hC e _ _ _ hI he
      cases re with
      | none => simp only [pure_eq_some] at h; obtain ⟨_, rfl⟩ := h; exact k1
      | some v =>
        simp only [bind_eq_some] at h
        obtain ⟨rr, s3, hr, h⟩ := h
        have k2 := k1.step (codegenArgs_keeps hC es _ _ _ k1.1 hr)
        cases rr with
        | none => simp only [pure_eq_some] at h; obtain ⟨_, rfl⟩ := h; exact k2
        | some vs => simp only [pure_eq_some] at h; obtain ⟨_, rfl⟩ := h; exact k2
theorem codegenDefs_keeps (hC : Closed L I okB okF okE okI) :
    ∀ (ds : List VarBindingAST) (tmp : List (Option Value)) (s s1 : State)
      (r : Option (List (Option Value))), I s →
      codegenDefs L ds tmp s = some (r, s1) → Keeps I s s1
  | [], tmp, s, s1, r, hI, h => by
      rw [codegenDefs, pure_eq_some] at h
      obtain ⟨_, rfl⟩ := h
      exact Keeps.refl hI
  | d :: ds, tmp, s, s1, r, hI, h => by
      rw [codegenDefs] at h
      simp only [bind_eq_some] at h
      obtain ⟨rd, s2, hd, h⟩ := h
      have k1 := VarBindingAST.binding_keeps hC d _ _ _ hI hd
      cases rd with
      | none => simp only [pure_eq_some] at h; obtain ⟨_, rfl⟩ := h; exact k1
      | some BoundVal =>
        simp only [bind_eq_some, getNamed_eq_some, setNamed_eq_some] at h
        obtain ⟨_, _, ⟨rfl, rfl⟩, _, _, rfl, h⟩ := h
        exact (k1.setNamed hC _ _).step
          (codegenDefs_keeps hC ds _ _ _ _ (hC.setNamed _ _ _ k1.1) h)
theorem codegenStmts_keeps (hC : Closed L I okB okF okE okI) :
    ∀ (sts : List RootAST) (v : Option Value) (s s1 : State)
      (r : Option (Option Value)), I s →
      codegenStmts L sts v s = some (r, s1) → Keeps I s s1
  | [], v, s, s1, r, hI, h => by
      rw [codegenStmts, pure_eq_some] at h
      obtain ⟨_, rfl⟩ := h
      exact Keeps.refl hI
  | st :: sts, v, s, s1, r, hI, h => by
      rw [codegenStmts] at h
      simp only [bind_eq_some] at h
      obtain ⟨rd, s2, hd, h⟩ := h
      have k1 := RootAST.root_keeps hC st _ _ _ hI hd
      cases rd with
      | none => simp only [pure_eq_some] at h; obtain ⟨_, rfl⟩ := h; exact k1
      | some w => exact k1.step (codegenStmts_keeps hC sts _ _ _ _ k1.1 h)
theorem VarBindingAST.binding_keeps (hC : Closed L I okB okF okE okI) :
    ∀ (b : VarBindingAST) (s s1 : State) (r : Option Value), I s →
      b.codegen L s = some (r, s1) → Keeps I s s1
  | .scalar n Val, s, s1, r, hI, h => by
      rw [VarBindingAST.codegen] at h
      simp only [bind_eq_some, GetInsertBlockParent_eq_some,
        CreateEntryBlockAlloca_eq_some] at h
      obtain ⟨_, _, ⟨c0, blk0, hib, hblk, rfl, rfl⟩, _, _, ⟨entry, he, rfl, rfl⟩, h⟩ := h
      have kA := entryAlloca_keeps hC hI hib hblk he .double n
      cases Val with
      | some Val =>
        simp only [bind_eq_some] at h
        obtain ⟨rv, s2, hv, h⟩ := h
        have k1 := kA.step (ExprAST.codegen_keeps hC Val _ _ _ kA.1 hv)
        cases rv with
        | none => obtain ⟨_, rfl⟩ := pure_eq_some.mp h; exact k1
        | some BoundVal =>
          simp only [bind_eq_some, Insert_eq_some, CreateLoad_eq_some, CreateStore_eq_some, pure_eq_some] at h
          obtain ⟨_, _, ⟨_, _, rfl⟩, _, rfl⟩ := h
          exact k1.plainInst hC _ rfl
      | none =>
        simp only [bind_eq_some, Insert_eq_some, CreateLoad_eq_some, CreateStore_eq_some, pure_eq_some] at h
        obtain ⟨_, _, ⟨_, _, rfl⟩, _, rfl⟩ := h
        exact kA.plainInst hC _ rfl
  | .ArrayBindingAST n Size ExprList, s, s1, r, hI, h => by
      rw [VarBindingAST.codegen] at h
      split at h
      · obtain ⟨_, rfl⟩ := pure_eq_some.mp h; exact Keeps.refl hI
      · simp only [bind_eq_some, GetInsertBlockParent_eq_some,
          CreateEntryBlockAlloca_eq_some] at h
        obtain ⟨_, _, ⟨c0, blk0, hib, hblk, rfl, rfl⟩, _, _, ⟨entry, he, rfl, rfl⟩,
          ra, s2, ha, h⟩ := h
        have kA := entryAlloca_keeps hC hI hib hblk he (.array (toU64 Size)) n
        have k1 := kA.step (codegenArgs_keeps hC ExprList _ _ _ kA.1 ha)
        cases ra with
        | none => obtain ⟨_, rfl⟩ := pure_eq_some.mp h; exact k1
        | some Vals =>
          simp only [bind_eq_some, pure_eq_some] at h
          obtain ⟨_, s3, hs, _, rfl⟩ := h
          exact k1.step (storeElems_keeps hC _ _ _ _ _ _ _ k1.1 hs)
theorem RootAST.root_keeps (hC : Closed L I okB okF okE okI) :
    ∀ (e : RootAST) (s s1 : State) (r : Option Value), I s →
      e.codegen L s = some (r, s1) → Keeps I s s1
  | .SeqAST none none, s, s1, r, hI, h => by
      rw [RootAST.codegen] at h
      obtain ⟨_, rfl⟩ := pure_eq_some.mp h
      exact Keeps.refl hI
  | .SeqAST none (some c), s, s1, r, hI, h => by
      rw [RootAST.codegen] at h
      simp only [bind_eq_some, pure_eq_some] at h
      obtain ⟨_, s2, hc, _, rfl⟩ := h
      exact RootAST.root_keeps hC c _ _ _ hI hc
  | .SeqAST (some f) none, s, s1, r, hI, h => by
      rw [RootAST.codegen] at h
      simp only [bind_eq_some, crash_eq_some, and_false, exists_false] at h
  | .SeqAST (some f) (some c), s, s1, r, hI, h => by
      rw [RootAST.codegen] at h
      simp only [bind_eq_some, pure_eq_some] at h
      obtain ⟨_, s2, hf, _, s3, hc, _, rfl⟩ := h
      have k1 := RootAST.root_keeps hC f _ _ _ hI hf
      exact k1.step (RootAST.root_keeps hC c _ _ _ k1.1 hc)
  | .expr e, s, s1, r, hI, h => by
      rw [RootAST.codegen] at h
      exact ExprAST.codegen_keeps hC e _ _ _ hI h
  | .binding b, s, s1, r, hI, h => by
      rw [RootAST.codegen] at h
      exact VarBindingAST.binding_keeps hC b _ _ _ hI h
  | .PrototypeAST p, s, s1, r, hI, h => by
      rw [RootAST.codegen] at h
      simp only [bind_eq_some, PrototypeAST.codegen, FunctionCreate_eq_some,
        pure_eq_some] at h
      obtain ⟨_, _, ⟨_, _, ⟨rfl, rfl⟩, rfl, rfl⟩, _, rfl⟩ := h
      exact ⟨hC.addFunction _ _ _ hI, by simp⟩
  | .FunctionAST Proto Body, s, s1, r, hI, h => by
      rw [RootAST.codegen] at h
      simp only [bind_eq_some, getFunction_eq_some] at h
      obtain ⟨rf, _, ⟨hf, rfl⟩, h⟩ := h
      cases rf with
      | some g => obtain ⟨_, rfl⟩ := pure_eq_some.mp h; exact Keeps.refl hI
      | none =>
        simp only [bind_eq_some, PrototypeAST.codegen, FunctionCreate_eq_some,
          pure_eq_some] at h
        obtain ⟨_, _, ⟨_, _, ⟨rfl, rfl⟩, rfl, rfl⟩, h⟩ := h
        simp only [bind_eq_some, BasicBlockCreate_eq_some, SetInsertPoint_eq_some,
          getArgs_eq_some] at h
        obtain ⟨_, _, ⟨rfl, rfl⟩, _, _, rfl, _, _, ⟨fn, hfn, rfl, rfl⟩, _, s3, hp,
          rb, s4, hb, h⟩ := h
        have hF := hC.newF _ hI
        have kA : Keeps I s (s.addFunction L Proto.Name Proto.Args) :=
          ⟨hC.addFunction _ _ _ hI, by simp⟩
        have kB := kA.addBlock hC "entry" (some s.Functions.length)
          (by intro g hg; cases hg; exact hF.1)
        have kC := kB.setInsertBlock hC _ (hC.newB _ kA.1) (by simp)
        have k3 := kC.step (codegenParams_keeps hC _ hF.1 _ _ _ _ _ kC.1 hp)
        have k4 := k3.step (ExprAST.codegen_keeps hC Body _ _ _ k3.1 hb)
        cases rb with
        | some RetVal =>
          simp only [bind_eq_some, Insert_eq_some, CreateLoad_eq_some, CreateStore_eq_some, pure_eq_some] at h
          obtain ⟨_, _, ⟨_, rfl⟩, _, rfl⟩ := h
          exact k4.plainInst hC _ rfl
        | none =>
          simp only [bind_eq_some, eraseFromParent_eq_some, pure_eq_some] at h
          obtain ⟨_, _, rfl, _, rfl⟩ := h
          exact ⟨hC.erase _ _ k4.1 hF.2, by have := k4.2; simp; omega⟩
  | .GlobalVarAST n, s, s1, r, hI, h => by
      rw [RootAST.codegen] at h
      simp only [bind_eq_some, getGlobalVariable_eq_some] at h
      obtain ⟨rg, _, ⟨hg, rfl⟩, h⟩ := h
      cases rg with
      | some g => obtain ⟨_, rfl⟩ := pure_eq_some.mp h; exact Keeps.refl hI
      | none =>
        simp only [bind_eq_some, GlobalVariableCreate_eq_some, pure_eq_some] at h
        obtain ⟨_, _, ⟨rfl, rfl⟩, _, rfl⟩ := h
        exact ⟨hC.addGlobal _ _ _ _ hI, by simp⟩
  | .GlobalArrayAST n Size, s, s1, r, hI, h => by
      rw [RootAST.codegen] at h
      simp only [bind_eq_some, getGlobalVariable_eq_some] at h
      obtain ⟨rg, _, ⟨hg, rfl⟩, h⟩ := h
      cases rg with
      | some g => obtain ⟨_, rfl⟩ := pure_eq_some.mp h; exact Keeps.refl hI
      | none =>
        simp only [bind_eq_some, GlobalVariableCreate_eq_some, pure_eq_some] at h
        obtain ⟨_, _, ⟨rfl, rfl⟩, _, rfl⟩ := h
        exact ⟨hC.addGlobal _ _ _ _ hI, by simp⟩
  | .AssignmentAST n Val, s, s1, r, hI, h => by
      rw [RootAST.codegen] at h
      simp only [bind_eq_some] at h
      obtain ⟨target, s2, ht, h⟩ := h
      have e2 : s = s2 := by
        simp only [bind_eq_some, getNamed_eq_some] at ht
        obtain ⟨ra, _, ⟨_, rfl⟩, ht⟩ := ht
        cases ra with
        | some a => exact (pure_eq_some.mp ht).2
        | none =>
          simp only [bind_eq_some, getGlobalVariable_eq_some, pure_eq_some] at ht
          obtain ⟨_, _, ⟨_, rfl⟩, _, rfl⟩ := ht
          rfl
      subst e2
      cases target with
      | none => obtain ⟨_, rfl⟩ := pure_eq_some.mp h; exact Keeps.refl hI
      | some Alloca =>
        simp only [bind_eq_some] at h
        obtain ⟨rv, s3, hv, h⟩ := h
        have k1 := ExprAST.codegen_keeps hC Val _ _ _ hI hv
        cases rv with
        | none => obtain ⟨_, rfl⟩ := pure_eq_some.mp h; exact k1
        | some BoundVal =>
          simp only [bind_eq_some, Insert_eq_some, CreateLoad_eq_some, CreateStore_eq_some, pure_eq_some] at h
          obtain ⟨_, _, ⟨_, _, rfl⟩, _, rfl⟩ := h
          exact k1.plainInst hC _ rfl
  | .ArrayAssignmentAST n Index Val, s, s1, r, hI, h => by
      rw [RootAST.codegen] at h
      simp only [bind_eq_some] at h
      obtain ⟨loc, s2, hloc, h⟩ := h
      have k1 : Keeps I s s2 := by
        simp only [bind_eq_some, getNamed_eq_some] at hloc
        obtain ⟨ra, _, ⟨_, rfl⟩, hloc⟩ := hloc
        cases ra with
        | none => obtain ⟨_, rfl⟩ := pure_eq_some.mp hloc; exact Keeps.refl hI
        | some a =>
          simp only [bind_eq_some, getAllocatedType_eq_some] at hloc
          obtain ⟨ty, _, ⟨hty, rfl⟩, hloc⟩ := hloc
          split at hloc
          · obtain ⟨_, rfl⟩ := pure_eq_some.mp hloc; exact Keeps.refl hI
          · simp only [bind_eq_some] at hloc
            obtain ⟨ri, s3, hi, hloc⟩ := hloc
            have k1 := ExprAST.codegen_keeps hC Index _ _ _ hI hi
            cases ri with
            | none => obtain ⟨_, rfl⟩ := pure_eq_some.mp hloc; exact k1
            | some IndexFP =>
              simp only [bind_eq_some, pure_eq_some] at hloc
              obtain ⟨EP, s4, he, _, rfl⟩ := hloc
              exact k1.step (elementAddress_keeps hC k1.1 he)
      cases loc with
      | none => obtain ⟨_, rfl⟩ := pure_eq_some.mp h; exact k1
      | some local1 =>
        simp only [bind_eq_some] at h
        obtain ⟨glob, s3, hglob, h⟩ := h
        have k2 : Keeps I s s3 := by
          simp only [bind_eq_some, getGlobalVariable_eq_some] at hglob
          obtain ⟨rg, _, ⟨_, rfl⟩, hglob⟩ := hglob
          cases rg with
          | none => obtain ⟨_, rfl⟩ := pure_eq_some.mp hglob; exact k1
          | some g =>
            simp only [bind_eq_some, getValueType_eq_some] at hglob
            obtain ⟨ty, _, ⟨gv, hgv, rfl, rfl⟩, hglob⟩ := hglob
            split at hglob
            · obtain ⟨_, rfl⟩ := pure_eq_some.mp hglob; exact k1
            · simp only [bind_eq_some] at hglob
              obtain ⟨ri, s4, hi, hglob⟩ := hglob
              have k2 := k1.step (ExprAST.codegen_keeps hC Index _ _ _ k1.1 hi)
              cases ri with
              | none => obtain ⟨_, rfl⟩ := pure_eq_some.mp hglob; exact k2
              | some IndexFP =>
                simp only [bind_eq_some, pure_eq_some] at hglob
                obtain ⟨EP, s5, he, _, rfl⟩ := hglob
                exact k2.step (elementAddress_keeps hC k2.1 he)
        match glob, h with
        | none, h => obtain ⟨_, rfl⟩ := pure_eq_some.mp h; exact k2
        | some none, h => obtain ⟨_, rfl⟩ := pure_eq_some.mp h; exact k2
        | some (some (EP, RetVal)), h =>
          simp only [bind_eq_some] at h
          obtain ⟨rv, s4, hv, h⟩ := h
          have k3 := k2.step (ExprAST.codegen_keeps hC Val _ _ _ k2.1 hv)
          cases rv with
          | none => obtain ⟨_, rfl⟩ := pure_eq_some.mp h; exact k3
          | some BoundVal =>
            simp only [bind_eq_some, Insert_eq_some, CreateLoad_eq_some, CreateStore_eq_some, pure_eq_some] at h
            obtain ⟨_, _, ⟨_, _, rfl⟩, _, rfl⟩ := h
            exact k3.plainInst hC _ rfl
  | .IfStmtAST Cond TrueStmt (some FalseStmt), s, s1, r, hI, h => by
      rw [RootAST.codegen] at h
      rw [bind_eq_some] at h
      obtain ⟨rc, s2, hc, h⟩ := h
      have k1 := ExprAST.codegen_keeps hC Cond _ _ _ hI hc
      cases rc with
      | none => obtain ⟨_, rfl⟩ := pure_eq_some.mp h; exact k1
      | some CondV =>
        simp only [bind_eq_some, BasicBlockCreate_eq_some, GetInsertBlockParent_eq_some,
          Insert_eq_some, CreateLoad_eq_some, CreateStore_eq_some, SetInsertPoint_eq_some] at h
        obtain ⟨_, _, ⟨c0, blk0, hib, hblk, rfl, rfl⟩, _, _, ⟨rfl, rfl⟩, _, _, ⟨rfl, rfl⟩,
          _, _, ⟨rfl, rfl⟩, _, _, ⟨rfl, rfl⟩, _, _, rfl, rt, s3, ht, h⟩ := h
        have hF : ∀ g, blk0.Parent = some g → okF g :=
          fun g hg => hC.parent s2 c0 blk0 g k1.1 hib hblk hg
        have kA := k1.addBlock hC "truebb" blk0.Parent hF
        have kB := kA.addBlock hC "falsebb" none (by intro g hg; cases hg)
        have kC := kB.addBlock hC "mergebb" none (by intro g hg; cases hg)
        have bT := hC.newB _ k1.1
        have bF := hC.newB _ kA.1
        have bM := hC.newB _ kB.1
        have kD := kC.condBr hC CondV _ _ bT (by simp; omega) bF (by simp)
        have kE := kD.setInsertBlock hC _ bT (by simp; omega)
        have k3 := kE.step (RootAST.root_keeps hC TrueStmt _ _ _ kE.1 ht)
        cases rt with
        | none => obtain ⟨_, rfl⟩ := pure_eq_some.mp h; exact k3
        | some TrueV =>
          simp only [bind_eq_some, Insert_eq_some, CreateLoad_eq_some, CreateStore_eq_some, SetInsertPoint_eq_some,
            FunctionInsert_eq_some] at h
          obtain ⟨_, _, ⟨rfl, rfl⟩, _, _, ⟨g, hg, rfl⟩, _, _, rfl, rf, s5, hfl, h⟩ := h
          have hle3 := (RootAST.root_keeps hC TrueStmt _ _ _ kE.1 ht).2
          simp only [setInsertBlock_Blocks_length, addInst_Blocks_length,
            addBlock_Blocks_length] at hle3
          have kF := k3.br hC _ bM (by simp; omega)
          have kG := kF.attach hC g _ (hF g hg) bF (by simp; omega)
          have kH := kG.setInsertBlock hC _ bF (by simp; omega)
          have k5 := kH.step (RootAST.root_keeps hC FalseStmt _ _ _ kH.1 hfl)
          cases rf with
          | none => obtain ⟨_, rfl⟩ := pure_eq_some.mp h; exact k5
          | some FalseV =>
            simp only [bind_eq_some, Insert_eq_some, CreateLoad_eq_some, CreateStore_eq_some, SetInsertPoint_eq_some,
              FunctionInsert_eq_some, pure_eq_some] at h
            obtain ⟨_, _, ⟨rfl, rfl⟩, _, _, ⟨g2, hg2, rfl⟩, _, _, rfl, _, rfl⟩ := h
            have hle5 := (RootAST.root_keeps hC FalseStmt _ _ _ kH.1 hfl).2
            simp only [setInsertBlock_Blocks_length, addInst_Blocks_length,
              attach_Blocks_length] at hle5
            have kJ := k5.br hC _ bM (by simp; omega)
            have kK := kJ.attach hC g2 _ (hF g2 hg2) bM (by simp; omega)
            exact kK.setInsertBlock hC _ bM (by simp; omega)
  | .IfStmtAST Cond TrueStmt none, s, s1, r, hI, h => by
      rw [RootAST.codegen] at h
      rw [bind_eq_some] at h
      obtain ⟨rc, s2, hc, h⟩ := h
      have k1 := ExprAST.codegen_keeps hC Cond _ _ _ hI hc
      cases rc with
      | none => obtain ⟨_, rfl⟩ := pure_eq_some.mp h; exact k1
      | some CondV =>
        simp only [bind_eq_some, BasicBlockCreate_eq_some, GetInsertBlockParent_eq_some,
          Insert_eq_some, CreateLoad_eq_some, CreateStore_eq_some, SetInsertPoint_eq_some] at h
        obtain ⟨_, _, ⟨c0, blk0, hib, hblk, rfl, rfl⟩, _, _, ⟨rfl, rfl⟩, _, _, ⟨rfl, rfl⟩,
          _, _, ⟨rfl, rfl⟩, _, _, rfl, rt, s3, ht, h⟩ := h
        have hF : ∀ g, blk0.Parent = some g → okF g :=
          fun g hg => hC.parent s2 c0 blk0 g k1.1 hib hblk hg
        have kA := k1.addBlock hC "truebb" blk0.Parent hF
        have kC := kA.addBlock hC "mergebb" none (by intro g hg; cases hg)
        have bT := hC.newB _ k1.1
        have bM := hC.newB _ kA.1
        have kD := kC.condBr hC CondV _ _ bT (by simp; omega) bM (by simp)
        have kE := kD.setInsertBlock hC _ bT (by simp; omega)
        have k3 := kE.step (RootAST.root_keeps hC TrueStmt _ _ _ kE.1 ht)
        cases rt with
        | none => obtain ⟨_, rfl⟩ := pure_eq_some.mp h; exact k3
        | some TrueV =>
          simp only [bind_eq_some, Insert_eq_some, CreateLoad_eq_some, CreateStore_eq_some, SetInsertPoint_eq_some,
            FunctionInsert_eq_some, pure_eq_some] at h
          obtain ⟨_, _, ⟨rfl, rfl⟩, _, _, ⟨g, hg, rfl⟩, _, _, rfl, _, rfl⟩ := h
          have hle3 := (RootAST.root_keeps hC TrueStmt _ _ _ kE.1 ht).2
          simp only [setInsertBlock_Blocks_length, addInst_Blocks_length,
            addBlock_Blocks_length] at hle3
          have kF := k3.br hC _ bM (by simp; omega)
          have kG := kF.attach hC g _ (hF g hg) bM (by simp; omega)
          exact kG.setInsertBlock hC _ bM (by simp; omega)
  | .ForStmtAST Init Binding Cond Update Body, s, s1, r, hI, h => by
      rw [RootAST.codegen] at h
      simp only [bind_eq_some, BasicBlockCreate_eq_some, GetInsertBlockParent_eq_some] at h
      obtain ⟨_, _, ⟨c0, blk0, hib, hblk, rfl, rfl⟩, _, _, ⟨rfl, rfl⟩, _, _, ⟨rfl, rfl⟩,
        _, _, ⟨rfl, rfl⟩, _, _, ⟨rfl, rfl⟩, ri, s2, hi, h⟩ := h
      have hF : ∀ g, blk0.Parent = some g → okF g :=
        fun g hg => hC.parent s c0 blk0 g hI hib hblk hg
      have kA := (Keeps.refl hI).addBlock hC "loopheader" none (by intro g hg; cases hg)
      have kB := kA.addBlock hC "loopbody" none (by intro g hg; cases hg)
      have kC := kB.addBlock hC "loopupdate" none (by intro g hg; cases hg)
      have kD := kC.addBlock hC "loopexit" none (by intro g hg; cases hg)
      have bH := hC.newB _ hI
      have bB := hC.newB _ kA.1
      have bL := hC.newB _ kB.1
      have bX := hC.newB _ kC.1
      have hle2 := (RootAST.root_keeps hC Init _ _ _ kD.1 hi).2
      simp only [addBlock_Blocks_length] at hle2
      have k2 := kD.step (RootAST.root_keeps hC Init _ _ _ kD.1 hi)
      cases ri with
      | none => obtain ⟨_, rfl⟩ := pure_eq_some.mp h; exact k2
      | some CounterAlloca =>
        simp only [bind_eq_some, Insert_eq_some, CreateLoad_eq_some, CreateStore_eq_some, SetInsertPoint_eq_some,
          FunctionInsert_eq_some] at h
        obtain ⟨AllocaTmp, s3, hsh, _, _, ⟨rfl, rfl⟩, _, _, ⟨g, hg, rfl⟩, _, _, rfl,
          rc, s4, hc, h⟩ := h
        have hle3 := (shadowCounter_keeps hC k2.1 hsh).2
        have k3 := k2.step (shadowCounter_keeps hC k2.1 hsh)
        have kE := k3.br hC _ bH (by omega)
        have kF := kE.attach hC g _ (hF g hg) bH (by simp; omega)
        have kG := kF.setInsertBlock hC _ bH (by simp; omega)
        have hle4 := (ExprAST.codegen_keeps hC Cond _ _ _ kG.1 hc).2
        simp only [setInsertBlock_Blocks_length, addInst_Blocks_length,
          attach_Blocks_length] at hle4
        have k4 := kG.step (ExprAST.codegen_keeps hC Cond _ _ _ kG.1 hc)
        cases rc with
        | none => obtain ⟨_, rfl⟩ := pure_eq_some.mp h; exact k4
        | some CondV =>
          simp only [bind_eq_some, Insert_eq_some, CreateLoad_eq_some, CreateStore_eq_some, SetInsertPoint_eq_some,
            FunctionInsert_eq_some] at h
          obtain ⟨_, _, ⟨rfl, rfl⟩, _, _, ⟨g2, hg2, rfl⟩, _, _, rfl, rb, s5, hb, h⟩ := h
          have kH := k4.condBr hC CondV _ _ bB (by simp; omega) bX (by simp; omega)
          have kJ := kH.attach hC g2 _ (hF g2 hg2) bB (by simp; omega)
          have kK := kJ.setInsertBlock hC _ bB (by simp; omega)
          have hle5 := (RootAST.root_keeps hC Body _ _ _ kK.1 hb).2
          simp only [setInsertBlock_Blocks_length, addInst_Blocks_length,
            attach_Blocks_length] at hle5
          have k5 := kK.step (RootAST.root_keeps hC Body _ _ _ kK.1 hb)
          cases rb with
          | none => obtain ⟨_, rfl⟩ := pure_eq_some.mp h; exact k5
          | some BodyV =>
            simp only [bind_eq_some, Insert_eq_some, CreateLoad_eq_some, CreateStore_eq_some, SetInsertPoint_eq_some,
              FunctionInsert_eq_some] at h
            obtain ⟨_, _, ⟨rfl, rfl⟩, _, _, ⟨g3, hg3, rfl⟩, _, _, rfl, ru, s6, hu, h⟩ := h
            have kM := k5.br hC _ bL (by simp; omega)
            have kN := kM.attach hC g3 _ (hF g3 hg3) bL (by simp; omega)
            have kO := kN.setInsertBlock hC _ bL (by simp; omega)
            have hle6 := (RootAST.root_keeps hC Update _ _ _ kO.1 hu).2
            simp only [setInsertBlock_Blocks_length, addInst_Blocks_length,
              attach_Blocks_length] at hle6
            have k6 := kO.step (RootAST.root_keeps hC Update _ _ _ kO.1 hu)
            cases ru with
            | none => obtain ⟨_, rfl⟩ := pure_eq_some.mp h; exact k6
            | some UpdateV =>
              simp only [bind_eq_some, Insert_eq_some, CreateLoad_eq_some, CreateStore_eq_some, SetInsertPoint_eq_some,
                FunctionInsert_eq_some, pure_eq_some] at h
              obtain ⟨_, _, ⟨rfl, rfl⟩, _, _, ⟨g4, hg4, rfl⟩, _, _, rfl, _, s7, hr,
                _, rfl⟩ := h
              have kP := k6.br hC _ bH (by omega)
              have kQ := kP.attach hC g4 _ (hF g4 hg4) bX (by simp; omega)
              have kR := kQ.setInsertBlock hC _ bX (by simp; omega)
              exact kR.step (restoreCounter_keeps hC kR.1 hr)
end

end

/-! ## Reading the stores -/

/-! ### Block lists of the helpers -/

theorem getElem?_appendInst (bs : List BasicBlock) (b i x : Nat) :
    (appendInst bs b i)[x]? =
      if x = b then (bs[x]?).map (fun blk => { blk with Insts := blk.Insts ++ [i] })
      else bs[x]? := by
  unfold appendInst
  cases h : bs[b]? with
  | none =>
    by_cases hx : x = b
    · subst hx; simp [h]
    · simp [hx]
  | some blk =>
    by_cases hx : x = b
    · subst hx
      have hlt : x < bs.length := by
        rcases Nat.lt_or_ge x bs.length with h1 | h1
        · exact h1
        · rw [List.getElem?_eq_none h1] at h; cases h
      simp [h, List.getElem?_set, hlt]
    · have : ¬ b = x := fun e => hx e.symm
      simp [hx, List.getElem?_set, this]

theorem getElem?_prependInst (bs : List BasicBlock) (b i x : Nat) :
    (prependInst bs b i)[x]? =
      if x = b then (bs[x]?).map (fun blk => { blk with Insts := i :: blk.Insts })
      else bs[x]? := by
  unfold prependInst
  cases h : bs[b]? with
  | none =>
    by_cases hx : x = b
    · subst hx; simp [h]
    · simp [hx]
  | some blk =>
    by_cases hx : x = b
    · subst hx
      have hlt : x < bs.length := by
        rcases Nat.lt_or_ge x bs.length with h1 | h1
        · exact h1
        · rw [List.getElem?_eq_none h1] at h; cases h
      simp [h, List.getElem?_set, hlt]
    · have : ¬ b = x := fun e => hx e.symm
      simp [hx, List.getElem?_set, this]

theorem getElem?_setParent (bs : List BasicBlock) (b f x : Nat) :
    (setParent bs b f)[x]? =
      if x = b then (bs[x]?).map (fun blk => { blk with Parent := some f })
      else bs[x]? := by
  unfold setParent
  cases h : bs[b]? with
  | none =>
    by_cases hx : x = b
    · subst hx; simp [h]
    · simp [hx]
  | some blk =>
    by_cases hx : x = b
    · subst hx
      have hlt : x < bs.length := by
        rcases Nat.lt_or_ge x bs.length with h1 | h1
        · exact h1
        · rw [List.getElem?_eq_none h1] at h; cases h
      simp [h, List.getElem?_set, hlt]
    · have : ¬ b = x := fun e => hx e.symm
      simp [hx, List.getElem?_set, this]

theorem getElem?_appendBlock (fs : List Function) (f b x : Nat) :
    (appendBlock fs f b)[x]? =
      if x = f then (fs[x]?).map (fun fn => { fn with BasicBlocks := fn.BasicBlocks ++ [b] })
      else fs[x]? := by
  unfold appendBlock
  cases h : fs[f]? with
  | none =>
    by_cases hx : x = f
    · subst hx; simp [h]
    · simp [hx]
  | some fn =>
    by_cases hx : x = f
    · subst hx
      have hlt : x < fs.length := by
        rcases Nat.lt_or_ge x fs.length with h1 | h1
        · exact h1
        · rw [List.getElem?_eq_none h1] at h; cases h
      simp [h, List.getElem?_set, hlt]
    · have : ¬ f = x := fun e => hx e.symm
      simp [hx, List.getElem?_set, this]

theorem instsOf_eq_nil_of_le {s : State} {b : Nat} (h : s.Blocks.length ≤ b) :
    s.instsOf b = [] := by
  unfold State.instsOf
  rw [List.getElem?_eq_none h]

theorem parentOf_eq_none_of_le {s : State} {b : Nat} (h : s.Blocks.length ≤ b) :
    s.parentOf b = none := by
  unfold State.parentOf
  rw [List.getElem?_eq_none h]

theorem blocksOf_eq_nil_of_le {s : State} {f : Nat} (h : s.Functions.length ≤ f) :
    s.blocksOf f = [] := by
  unfold State.blocksOf
  rw [List.getElem?_eq_none h]

/-! ### `addInst` -/

@[simp] theorem addInst_Insts (s : State) (i : Instr) : (s.addInst i).Insts = s.Insts ++ [i] := rfl
@[simp] theorem addInst_Functions (s : State) (i : Instr) :
    (s.addInst i).Functions = s.Functions := rfl
@[simp] theorem addInst_FunctionList (s : State) (i : Instr) :
    (s.addInst i).FunctionList = s.FunctionList := rfl
@[simp] theorem addInst_Globals (s : State) (i : Instr) : (s.addInst i).Globals = s.Globals := rfl
@[simp] theorem addInst_InsertBlock (s : State) (i : Instr) :
    (s.addInst i).InsertBlock = s.InsertBlock := rfl
@[simp] theorem addInst_NamedValues (s : State) (i : Instr) :
    (s.addInst i).NamedValues = s.NamedValues := rfl
@[simp] theorem addInst_AttachLog (s : State) (i : Instr) :
    (s.addInst i).AttachLog = s.AttachLog := rfl

theorem instsOf_addInst (s : State) (i : Instr) (b : Nat) :
    (s.addInst i).instsOf b =
      if s.InsertBlock = some b ∧ b < s.Blocks.length then s.instsOf b ++ [s.Insts.length]
      else s.instsOf b := by
  unfold State.instsOf State.addInst
  cases hc : s.InsertBlock with
  | none => simp
  | some c =>
    simp only [getElem?_appendInst, Option.some.injEq]
    by_cases hb : b = c
    · subst hb
      rcases Nat.lt_or_ge b s.Blocks.length with h1 | h1
      · simp [h1, List.getElem?_eq_getElem h1]
      · simp [List.getElem?_eq_none h1, Nat.not_lt.mpr h1]
    · have : ¬ c = b := fun e => hb e.symm
      simp [hb, this]

@[simp] theorem parentOf_addInst (s : State) (i : Instr) (b : Nat) :
    (s.addInst i).parentOf b = s.parentOf b := by
  unfold State.parentOf State.addInst
  cases hc : s.InsertBlock with
  | none => simp
  | some c =>
    simp only [getElem?_appendInst]
    by_cases hb : b = c
    · subst hb
      cases s.Blocks[b]? <;> simp
    · simp [hb]

@[simp] theorem blocksOf_addInst (s : State) (i : Instr) (f : Nat) :
    (s.addInst i).blocksOf f = s.blocksOf f := rfl

/-! ### `addAlloca` -/

@[simp] theorem addAlloca_Insts (s : State) (e : Nat) (ty : Ty) (n : String) :
    (s.addAlloca e ty n).Insts = s.Insts ++ [.alloca ty n] := rfl
@[simp] theorem addAlloca_Functions (s : State) (e : Nat) (ty : Ty) (n : String) :
    (s.addAlloca e ty n).Functions = s.Functions := rfl
@[simp] theorem addAlloca_FunctionList (s : State) (e : Nat) (ty : Ty) (n : String) :
    (s.addAlloca e ty n).FunctionList = s.FunctionList := rfl
@[simp] theorem addAlloca_Globals (s : State) (e : Nat) (ty : Ty) (n : String) :
    (s.addAlloca e ty n).Globals = s.Globals := rfl
@[simp] theorem addAlloca_InsertBlock (s : State) (e : Nat) (ty : Ty) (n : String) :
    (s.addAlloca e ty n).InsertBlock = s.InsertBlock := rfl
@[simp] theorem addAlloca_NamedValues (s : State) (e : Nat) (ty : Ty) (n : String) :
    (s.addAlloca e ty n).NamedValues = s.NamedValues := rfl
@[simp] theorem addAlloca_AttachLog (s : State) (e : Nat) (ty : Ty) (n : String) :
    (s.addAlloca e ty n).AttachLog = s.AttachLog := rfl

theorem instsOf_addAlloca (s : State) (e : Nat) (ty : Ty) (n : String) (b : Nat) :
    (s.addAlloca e ty n).instsOf b =
      if b = e ∧ b < s.Blocks.length then s.Insts.length :: s.instsOf b
      else s.instsOf b := by
  unfold State.instsOf State.addAlloca
  simp only [getElem?_prependInst]
  by_cases hb : b = e
  · subst hb
    rcases Nat.lt_or_ge b s.Blocks.length with h1 | h1
    · simp [h1, List.getElem?_eq_getElem h1]
    · simp [List.getElem?_eq_none h1, Nat.not_lt.mpr h1]
  · simp [hb]

@[simp] theorem parentOf_addAlloca (s : State) (e : Nat) (ty : Ty) (n : String) (b : Nat) :
    (s.addAlloca e ty n).parentOf b = s.parentOf b := by
  unfold State.parentOf State.addAlloca
  simp only [getElem?_prependInst]
  by_cases hb : b = e
  · subst hb
    cases s.Blocks[b]? <;> simp
  · simp [hb]

@[simp] theorem blocksOf_addAlloca (s : State) (e : Nat) (ty : Ty) (n : String) (f : Nat) :
    (s.addAlloca e ty n).blocksOf f = s.blocksOf f := rfl

/-! ### `addBlock` -/

@[simp] theorem addBlock_Insts (s : State) (n : String) (p : Option Nat) :
    (s.addBlock n p).Insts = s.Insts := rfl
@[simp] theorem addBlock_FunctionList (s : State) (n : String) (p : Option Nat) :
    (s.addBlock n p).FunctionList = s.FunctionList := rfl
@[simp] theorem addBlock_Globals (s : State) (n : String) (p : Option Nat) :
    (s.addBlock n p).Globals = s.Globals := rfl
@[simp] theorem addBlock_InsertBlock (s : State) (n : String) (p : Option Nat) :
    (s.addBlock n p).InsertBlock = s.InsertBlock := rfl
@[simp] theorem addBlock_NamedValues (s : State) (n : String) (p : Option Nat) :
    (s.addBlock n p).NamedValues = s.NamedValues := rfl
@[simp] theorem addBlock_Functions_length (s : State) (n : String) (p : Option Nat) :
    (s.addBlock n p).Functions.length = s.Functions.length := by
  unfold State.addBlock
  cases p <;> simp [length_appendBlock]

@[simp] theorem instsOf_addBlock (s : State) (n : String) (p : Option Nat) (b : Nat) :
    (s.addBlock n p).instsOf b = s.instsOf b := by
  unfold State.instsOf State.addBlock
  simp only
  rcases Nat.lt_trichotomy b s.Blocks.length with h1 | h1 | h1
  · rw [List.getElem?_append_left h1]
  · subst h1
    simp
  · rw [List.getElem?_eq_none (by simp; omega), List.getElem?_eq_none (by omega)]

theorem parentOf_addBlock (s : State) (n : String) (p : Option Nat) (b : Nat) :
    (s.addBlock n p).parentOf b = if b = s.Blocks.length then p else s.parentOf b := by
  unfold State.parentOf State.addBlock
  simp only
  rcases Nat.lt_trichotomy b s.Blocks.length with h1 | h1 | h1
  · rw [List.getElem?_append_left h1]
    simp [Nat.ne_of_lt h1]
  · subst h1
    simp
  · rw [List.getElem?_eq_none (by simp; omega), List.getElem?_eq_none (by omega)]
    simp [Nat.ne_of_gt h1]

theorem blocksOf_addBlock (s : State) (n : String) (p : Option Nat) (f : Nat) :
    (s.addBlock n p).blocksOf f =
      if p = some f ∧ f < s.Functions.length then s.blocksOf f ++ [s.Blocks.length]
      else s.blocksOf f := by
  unfold State.blocksOf State.addBlock
  cases p with
  | none => simp
  | some g =>
    simp only [getElem?_appendBlock, Option.some.injEq]
    by_cases hf : f = g
    · subst hf
      rcases Nat.lt_or_ge f s.Functions.length with h1 | h1
      · simp [h1, List.getElem?_eq_getElem h1]
      · simp [List.getElem?_eq_none h1, Nat.not_lt.mpr h1]
    · have : ¬ g = f := fun e => hf e.symm
      simp [hf, this]

theorem nameOf_addBlock (s : State) (n : String) (p : Option Nat) (f : Nat) :
    (s.addBlock n p).nameOf f = s.nameOf f := by
  unfold State.nameOf State.addBlock
  cases p with
  | none => rfl
  | some g =>
    simp only [getElem?_appendBlock]
    by_cases hf : f = g
    · subst hf
      cases s.Functions[f]? <;> simp
    · simp [hf]

/-! ### `attach` -/

@[simp] theorem attach_Insts (s : State) (f b : Nat) : (s.attach f b).Insts = s.Insts := rfl
@[simp] theorem attach_FunctionList (s : State) (f b : Nat) :
    (s.attach f b).FunctionList = s.FunctionList := rfl
@[simp] theorem attach_Globals (s : State) (f b : Nat) : (s.attach f b).Globals = s.Globals := rfl
@[simp] theorem attach_InsertBlock (s : State) (f b : Nat) :
    (s.attach f b).InsertBlock = s.InsertBlock := rfl
@[simp] theorem attach_NamedValues (s : State) (f b : Nat) :
    (s.attach f b).NamedValues = s.NamedValues := rfl
@[simp] theorem attach_Functions_length (s : State) (f b : Nat) :
    (s.attach f b).Functions.length = s.Functions.length := by
  simp [State.attach, length_appendBlock]

@[simp] theorem instsOf_attach (s : State) (f x b : Nat) :
    (s.attach f x).instsOf b = s.instsOf b := by
  unfold State.instsOf State.attach
  simp only [getElem?_setParent]
  by_cases hb : b = x
  · subst hb
    cases s.Blocks[b]? <;> simp
  · simp [hb]

theorem parentOf_attach (s : State) (f x b : Nat) :
    (s.attach f x).parentOf b =
      if b = x ∧ b < s.Blocks.length then some f else s.parentOf b := by
  unfold State.parentOf State.attach
  simp only [getElem?_setParent]
  by_cases hb : b = x
  · subst hb
    rcases Nat.lt_or_ge b s.Blocks.length with h1 | h1
    · simp [h1, List.getElem?_eq_getElem h1]
    · simp [List.getElem?_eq_none h1, Nat.not_lt.mpr h1]
  · simp [hb]

theorem blocksOf_attach (s : State) (f x g : Nat) :
    (s.attach f x).blocksOf g =
      if g = f ∧ g < s.Functions.length then s.blocksOf g ++ [x] else s.blocksOf g := by
  unfold State.blocksOf State.attach
  simp only [getElem?_appendBlock]
  by_cases hf : g = f
  · subst hf
    rcases Nat.lt_or_ge g s.Functions.length with h1 | h1
    · simp [h1, List.getElem?_eq_getElem h1]
    · simp [List.getElem?_eq_none h1, Nat.not_lt.mpr h1]
  · simp [hf]

theorem nameOf_attach (s : State) (f x g : Nat) :
    (s.attach f x).nameOf g = s.nameOf g := by
  unfold State.nameOf State.attach
  simp only [getElem?_appendBlock]
  by_cases hf : g = f
  · subst hf
    cases s.Functions[g]? <;> simp
  · simp [hf]

/-! ### `setInsertBlock`, `setNamed` -/

@[simp] theorem setInsertBlock_InsertBlock (s : State) (b : Nat) :
    (s.setInsertBlock b).InsertBlock = some b := rfl
@[simp] theorem setInsertBlock_Insts (s : State) (b : Nat) :
    (s.setInsertBlock b).Insts = s.Insts := rfl
@[simp] theorem setInsertBlock_Blocks (s : State) (b : Nat) :
    (s.setInsertBlock b).Blocks = s.Blocks := rfl
@[simp] theorem setInsertBlock_Functions (s : State) (b : Nat) :
    (s.setInsertBlock b).Functions = s.Functions := rfl
@[simp] theorem setInsertBlock_FunctionList (s : State) (b : Nat) :
    (s.setInsertBlock b).FunctionList = s.FunctionList := rfl
@[simp] theorem setInsertBlock_Globals (s : State) (b : Nat) :
    (s.setInsertBlock b).Globals = s.Globals := rfl
@[simp] theorem setInsertBlock_NamedValues (s : State) (b : Nat) :
    (s.setInsertBlock b).NamedValues = s.NamedValues := rfl
@[simp] theorem setInsertBlock_AttachLog (s : State) (b : Nat) :
    (s.setInsertBlock b).AttachLog = s.AttachLog := rfl
@[simp] theorem instsOf_setInsertBlock (s : State) (x b : Nat) :
    (s.setInsertBlock x).instsOf b = s.instsOf b := rfl
@[simp] theorem parentOf_setInsertBlock (s : State) (x b : Nat) :
    (s.setInsertBlock x).parentOf b = s.parentOf b := rfl
@[simp] theorem blocksOf_setInsertBlock (s : State) (x f : Nat) :
    (s.setInsertBlock x).blocksOf f = s.blocksOf f := rfl

@[simp] theorem setNamed_NamedValues (s : State) (n : String) (v : Option Value) :
    (s.setNamed n v).NamedValues = (n, v) :: s.NamedValues := rfl
@[simp] theorem setNamed_InsertBlock (s : State) (n : String) (v : Option Value) :
    (s.setNamed n v).InsertBlock = s.InsertBlock := rfl
@[simp] theorem setNamed_Insts (s : State) (n : String) (v : Option Value) :
    (s.setNamed n v).Insts = s.Insts := rfl
@[simp] theorem setNamed_Blocks (s : State) (n : String) (v : Option Value) :
    (s.setNamed n v).Blocks = s.Blocks := rfl
@[simp] theorem setNamed_Functions (s : State) (n : String) (v : Option Value) :
    (s.setNamed n v).Functions = s.Functions := rfl
@[simp] theorem setNamed_FunctionList (s : State) (n : String) (v : Option Value) :
    (s.setNamed n v).FunctionList = s.FunctionList := rfl
@[simp] theorem setNamed_Globals (s : State) (n : String) (v : Option Value) :
    (s.setNamed n v).Globals = s.Globals := rfl
@[simp] theorem setNamed_AttachLog (s : State) (n : String) (v : Option Value) :
    (s.setNamed n v).AttachLog = s.AttachLog := rfl
@[simp] theorem instsOf_setNamed (s : State) (n : String) (v : Option Value) (b : Nat) :
    (s.setNamed n v).instsOf b = s.instsOf b := rfl
@[simp] theorem parentOf_setNamed (s : State) (n : String) (v : Option Value) (b : Nat) :
    (s.setNamed n v).parentOf b = s.parentOf b := rfl
@[simp] theorem blocksOf_setNamed (s : State) (n : String) (v : Option Value) (f : Nat) :
    (s.setNamed n v).blocksOf f = s.blocksOf f := rfl

/-! ### `addIncoming` -/

@[simp] theorem addIncoming_Blocks (s : State) (PN V : Value) (bb : Option Nat) :
    (s.addIncoming PN V bb).Blocks = s.Blocks := by
  unfold State.addIncoming
  split
  · split <;> rfl
  · rfl
@[simp] theorem addIncoming_Functions (s : State) (PN V : Value) (bb : Option Nat) :
    (s.addIncoming PN V bb).Functions = s.Functions := by
  unfold State.addIncoming
  split
  · split <;> rfl
  · rfl
@[simp] theorem addIncoming_FunctionList (s : State) (PN V : Value) (bb : Option Nat) :
    (s.addIncoming PN V bb).FunctionList = s.FunctionList := by
  unfold State.addIncoming
  split
  · split <;> rfl
  · rfl
@[simp] theorem addIncoming_Globals (s : State) (PN V : Value) (bb : Option Nat) :
    (s.addIncoming PN V bb).Globals = s.Globals := by
  unfold State.addIncoming
  split
  · split <;> rfl
  · rfl
@[simp] theorem addIncoming_InsertBlock (s : State) (PN V : Value) (bb : Option Nat) :
    (s.addIncoming PN V bb).InsertBlock = s.InsertBlock := by
  unfold State.addIncoming
  split
  · split <;> rfl
  · rfl
@[simp] theorem addIncoming_NamedValues (s : State) (PN V : Value) (bb : Option Nat) :
    (s.addIncoming PN V bb).NamedValues = s.NamedValues := by
  unfold State.addIncoming
  split
  · split <;> rfl
  · rfl
@[simp] theorem addIncoming_AttachLog (s : State) (PN V : Value) (bb : Option Nat) :
    (s.addIncoming PN V bb).AttachLog = s.AttachLog := by
  unfold State.addIncoming
  split
  · split <;> rfl
  · rfl
@[simp] theorem addIncoming_Insts_length (s : State) (PN V : Value) (bb : Option Nat) :
    (s.addIncoming PN V bb).Insts.length = s.Insts.length := by
  unfold State.addIncoming
  split
  · split <;> simp
  · rfl
@[simp] theorem instsOf_addIncoming (s : State) (PN V : Value) (bb : Option Nat) (b : Nat) :
    (s.addIncoming PN V bb).instsOf b = s.instsOf b := by
  unfold State.instsOf; rw [addIncoming_Blocks]
@[simp] theorem parentOf_addIncoming (s : State) (PN V : Value) (bb : Option Nat) (b : Nat) :
    (s.addIncoming PN V bb).parentOf b = s.parentOf b := by
  unfold State.parentOf; rw [addIncoming_Blocks]
@[simp] theorem blocksOf_addIncoming (s : State) (PN V : Value) (bb : Option Nat) (f : Nat) :
    (s.addIncoming PN V bb).blocksOf f = s.blocksOf f := by
  unfold State.blocksOf; rw [addIncoming_Functions]

/-- An instruction that is not a phi is left alone by `addIncoming`. -/
theorem getElem?_addIncoming_of_not_phi (s : State) (PN V : Value) (bb : Option Nat) (i : Nat)
    (x : Instr) (hx : s.Insts[i]? = some x) (hphi : ∀ inc, x ≠ .phi inc) :
    (s.addIncoming PN V bb).Insts[i]? = some x := by
  unfold State.addIncoming
  split
  · rename_i id
    split
    · rename_i inc hid
      simp only [List.getElem?_set]
      by_cases h : id = i
      · subst h
        rw [hx] at hid
        cases hid
        exact absurd rfl (hphi inc)
      · simp [h, hx]
    · exact hx
  · exact hx

/-- An instruction other than the extended one is left alone by `addIncoming`. -/
theorem getElem?_addIncoming_of_ne (s : State) (id : Nat) (V : Value) (bb : Option Nat) (i : Nat)
    (h : id ≠ i) : (s.addIncoming (.inst id) V bb).Insts[i]? = s.Insts[i]? := by
  unfold State.addIncoming
  simp only
  split
  · simp [List.getElem?_set, h]
  · rfl

/-! ### `addFunction`, `erase`, `addGlobal` -/

@[simp] theorem addFunction_Insts (s : State) (L : LLVM) (n : String) (a : List String) :
    (s.addFunction L n a).Insts = s.Insts := rfl
@[simp] theorem addFunction_Blocks (s : State) (L : LLVM) (n : String) (a : List String) :
    (s.addFunction L n a).Blocks = s.Blocks := rfl
@[simp] theorem addFunction_Globals (s : State) (L : LLVM) (n : String) (a : List String) :
    (s.addFunction L n a).Globals = s.Globals := rfl
@[simp] theorem addFunction_InsertBlock (s : State) (L : LLVM) (n : String) (a : List String) :
    (s.addFunction L n a).InsertBlock = s.InsertBlock := rfl
@[simp] theorem addFunction_NamedValues (s : State) (L : LLVM) (n : String) (a : List String) :
    (s.addFunction L n a).NamedValues = s.NamedValues := rfl
@[simp] theorem addFunction_AttachLog (s : State) (L : LLVM) (n : String) (a : List String) :
    (s.addFunction L n a).AttachLog = s.AttachLog := rfl
@[simp] theorem addFunction_FunctionList (s : State) (L : LLVM) (n : String) (a : List String) :
    (s.addFunction L n a).FunctionList = s.FunctionList ++ [s.Functions.length] := rfl
@[simp] theorem addFunction_Functions_length (s : State) (L : LLVM) (n : String)
    (a : List String) : (s.addFunction L n a).Functions.length = s.Functions.length + 1 := by
  simp [State.addFunction]
@[simp] theorem instsOf_addFunction (s : State) (L : LLVM) (n : String) (a : List String)
    (b : Nat) : (s.addFunction L n a).instsOf b = s.instsOf b := rfl
@[simp] theorem parentOf_addFunction (s : State) (L : LLVM) (n : String) (a : List String)
    (b : Nat) : (s.addFunction L n a).parentOf b = s.parentOf b := rfl

@[simp] theorem blocksOf_addFunction (s : State) (L : LLVM) (n : String) (a : List String)
    (f : Nat) : (s.addFunction L n a).blocksOf f = s.blocksOf f := by
  unfold State.blocksOf State.addFunction
  simp only
  rcases Nat.lt_trichotomy f s.Functions.length with h1 | h1 | h1
  · rw [List.getElem?_append_left h1]
  · subst h1
    simp
  · rw [List.getElem?_eq_none (by simp; omega), List.getElem?_eq_none (by omega)]

theorem getElem?_addFunction_of_lt (s : State) (L : LLVM) (n : String) (a : List String)
    (f : Nat) (h : f < s.Functions.length) :
    (s.addFunction L n a).Functions[f]? = s.Functions[f]? := by
  unfold State.addFunction
  simp only
  rw [List.getElem?_append_left h]

@[simp] theorem erase_Insts (s : State) (f : Nat) : (s.erase f).Insts = s.Insts := rfl
@[simp] theorem erase_Blocks (s : State) (f : Nat) : (s.erase f).Blocks = s.Blocks := rfl
@[simp] theorem erase_Functions (s : State) (f : Nat) : (s.erase f).Functions = s.Functions := rfl
@[simp] theorem erase_Globals (s : State) (f : Nat) : (s.erase f).Globals = s.Globals := rfl
@[simp] theorem erase_InsertBlock (s : State) (f : Nat) :
    (s.erase f).InsertBlock = s.InsertBlock := rfl
@[simp] theorem erase_NamedValues (s : State) (f : Nat) :
    (s.erase f).NamedValues = s.NamedValues := rfl
@[simp] theorem erase_AttachLog (s : State) (f : Nat) : (s.erase f).AttachLog = s.AttachLog := rfl
@[simp] theorem erase_FunctionList (s : State) (f : Nat) :
    (s.erase f).FunctionList = s.FunctionList.filter (fun g => g ≠ f) := rfl
@[simp] theorem instsOf_erase (s : State) (f b : Nat) : (s.erase f).instsOf b = s.instsOf b := rfl
@[simp] theorem parentOf_erase (s : State) (f b : Nat) :
    (s.erase f).parentOf b = s.parentOf b := rfl
@[simp] theorem blocksOf_erase (s : State) (f g : Nat) :
    (s.erase f).blocksOf g = s.blocksOf g := rfl

@[simp] theorem addGlobal_Insts (s : State) (L : LLVM) (ty : Ty) (v : Value) (n : String) :
    (s.addGlobal L ty v n).Insts = s.Insts := rfl
@[simp] theorem addGlobal_Blocks (s : State) (L : LLVM) (ty : Ty) (v : Value) (n : String) :
    (s.addGlobal L ty v n).Blocks = s.Blocks := rfl
@[simp] theorem addGlobal_Functions (s : State) (L : LLVM) (ty : Ty) (v : Value) (n : String) :
    (s.addGlobal L ty v n).Functions = s.Functions := rfl
@[simp] theorem addGlobal_FunctionList (s : State) (L : LLVM) (ty : Ty) (v : Value)
    (n : String) : (s.addGlobal L ty v n).FunctionList = s.FunctionList := rfl
@[simp] theorem addGlobal_InsertBlock (s : State) (L : LLVM) (ty : Ty) (v : Value)
    (n : String) : (s.addGlobal L ty v n).InsertBlock = s.InsertBlock := rfl
@[simp] theorem addGlobal_NamedValues (s : State) (L : LLVM) (ty : Ty) (v : Value)
    (n : String) : (s.addGlobal L ty v n).NamedValues = s.NamedValues := rfl
@[simp] theorem addGlobal_AttachLog (s : State) (L : LLVM) (ty : Ty) (v : Value)
    (n : String) : (s.addGlobal L ty v n).AttachLog = s.AttachLog := rfl
@[simp] theorem instsOf_addGlobal (s : State) (L : LLVM) (ty : Ty) (v : Value) (n : String)
    (b : Nat) : (s.addGlobal L ty v n).instsOf b = s.instsOf b := rfl
@[simp] theorem parentOf_addGlobal (s : State) (L : LLVM) (ty : Ty) (v : Value) (n : String)
    (b : Nat) : (s.addGlobal L ty v n).parentOf b = s.parentOf b := rfl
@[simp] theorem blocksOf_addGlobal (s : State) (L : LLVM) (ty : Ty) (v : Value) (n : String)
    (f : Nat) : (s.addGlobal L ty v n).blocksOf f = s.blocksOf f := rfl

/-- The entry block of a function is the head of its block list. -/
theorem getEntryBlock_some {s : State} {f e : Nat} (h : s.getEntryBlock (some f) = some e) :
    ∃ rest, s.blocksOf f = e :: rest := by
  unfold State.getEntryBlock at h
  unfold State.blocksOf
  cases hf : s.Functions[f]? with
  | none => simp [hf] at h
  | some fn =>
    simp only [hf] at h
    cases hb : fn.BasicBlocks with
    | nil => simp [hb] at h
    | cons x rest =>
      simp only [hb, List.head?_cons, Option.some.injEq] at h
      subst h
      exact ⟨rest, hb⟩

/-! ### `inModule` -/

/-- The builder stands in the module exactly when its insertion block is attached
to a function of the module's list. -/
theorem inModule_iff {s : State} :
    s.inModule = true ↔
      ∃ b f, s.InsertBlock = some b ∧ s.parentOf b = some f ∧ f ∈ s.FunctionList := by
  unfold State.inModule State.parentOf
  cases hb : s.InsertBlock with
  | none => simp
  | some b =>
    cases hk : s.Blocks[b]? with
    | none => simp [hk]
    | some blk =>
      cases hp : blk.Parent with
      | none => simp [hk, hp]
      | some f => simp [hk, hp]

/-- A state with the same insertion block, the same parents and the same function
list stands in the module when the first does. -/
theorem inModule_congr {s t : State} (hI : t.InsertBlock = s.InsertBlock)
    (hP : ∀ b, t.parentOf b = s.parentOf b) (hF : t.FunctionList = s.FunctionList) :
    t.inModule = s.inModule := by
  have e : t.inModule = true ↔ s.inModule = true := by
    rw [inModule_iff, inModule_iff, hI, hF]
    simp only [hP]
  cases ht : t.inModule <;> cases hs : s.inModule <;> simp_all

@[simp] theorem inModule_addInst (s : State) (i : Instr) :
    (s.addInst i).inModule = s.inModule :=
  inModule_congr rfl (fun b => parentOf_addInst s i b) rfl

@[simp] theorem inModule_addAlloca (s : State) (e : Nat) (ty : Ty) (n : String) :
    (s.addAlloca e ty n).inModule = s.inModule :=
  inModule_congr rfl (fun b => parentOf_addAlloca s e ty n b) rfl

@[simp] theorem inModule_setNamed (s : State) (n : String) (v : Option Value) :
    (s.setNamed n v).inModule = s.inModule := rfl

@[simp] theorem inModule_addGlobal (s : State) (L : LLVM) (ty : Ty) (v : Value) (n : String) :
    (s.addGlobal L ty v n).inModule = s.inModule := rfl

@[simp] theorem inModule_addIncoming (s : State) (PN V : Value) (bb : Option Nat) :
    (s.addIncoming PN V bb).inModule = s.inModule :=
  inModule_congr (by simp) (fun b => parentOf_addIncoming s PN V bb b) (by simp)

theorem Closed.and {L : LLVM} {I1 I2 : State → Prop} {okB1 okF1 okE1 okI1 : Nat → Prop}
    {okB2 okF2 okE2 okI2 : Nat → Prop}
    (h1 : Closed L I1 okB1 okF1 okE1 okI1) (h2 : Closed L I2 okB2 okF2 okE2 okI2) :
    Closed L (fun s => I1 s ∧ I2 s) (fun x => okB1 x ∧ okB2 x) (fun x => okF1 x ∧ okF2 x)
      (fun x => okE1 x ∧ okE2 x) (fun x => okI1 x ∧ okI2 x) where
  newB := fun s h => ⟨h1.newB s h.1, h2.newB s h.2⟩
  newF := fun s h => ⟨⟨(h1.newF s h.1).1, (h2.newF s h.2).1⟩, (h1.newF s h.1).2, (h2.newF s h.2).2⟩
  newI := fun s h => ⟨h1.newI s h.1, h2.newI s h.2⟩
  parent := fun s c blk f h hc hb hp => ⟨h1.parent s c blk f h.1 hc hb hp, h2.parent s c blk f h.2 hc hb hp⟩
  addInst := fun s i h ht =>
    ⟨h1.addInst s i h.1 (fun t m => ⟨(ht t m).1.1, (ht t m).2⟩),
     h2.addInst s i h.2 (fun t m => ⟨(ht t m).1.2, (ht t m).2⟩)⟩
  addBlock := fun s n p h hp =>
    ⟨h1.addBlock s n p h.1 (fun f e => (hp f e).1), h2.addBlock s n p h.2 (fun f e => (hp f e).2)⟩
  attach := fun s f b h hf hb hlt =>
    ⟨h1.attach s f b h.1 hf.1 hb.1 hlt, h2.attach s f b h.2 hf.2 hb.2 hlt⟩
  setInsertBlock := fun s b h hb hlt =>
    ⟨h1.setInsertBlock s b h.1 hb.1 hlt, h2.setInsertBlock s b h.2 hb.2 hlt⟩
  addAlloca := fun s f e ty n h hf he =>
    ⟨h1.addAlloca s f e ty n h.1 hf.1 he, h2.addAlloca s f e ty n h.2 hf.2 he⟩
  setNamed := fun s n v h => ⟨h1.setNamed s n v h.1, h2.setNamed s n v h.2⟩
  addIncoming := fun s id v bb h hi =>
    ⟨h1.addIncoming s id v bb h.1 hi.1, h2.addIncoming s id v bb h.2 hi.2⟩
  addFunction := fun s n a h => ⟨h1.addFunction s n a h.1, h2.addFunction s n a h.2⟩
  erase := fun s f h he => ⟨h1.erase s f h.1 he.1, h2.erase s f h.2 he.2⟩
  addGlobal := fun s ty v n h => ⟨h1.addGlobal s ty v n h.1, h2.addGlobal s ty v n h.2⟩

/-- An instruction that is not a phi keeps its place and content. -/
theorem InstIs.instIs_closed (L : LLVM) (j : Nat) (x : Instr) (hx : ∀ inc, x ≠ .phi inc) :
    Closed L (InstIs j x) (fun _ => True) (fun _ => True) (fun _ => True) (fun _ => True) where
  newB := fun _ _ => trivial
  newF := fun _ _ => ⟨trivial, trivial⟩
  newI := fun _ _ => trivial
  parent := fun _ _ _ _ _ _ _ _ => trivial
  addInst := fun s i h _ => by
    unfold InstIs at *
    rw [addInst_Insts]
    have hlt : j < s.Insts.length := by
      rcases Nat.lt_or_ge j s.Insts.length with h1 | h1
      · exact h1
      · rw [List.getElem?_eq_none h1] at h; cases h
    rw [List.getElem?_append_left hlt]; exact h
  addBlock := fun s n p h _ => h
  attach := fun s f b h _ _ _ => h
  setInsertBlock := fun s b h _ _ => h
  addAlloca := fun s f e ty n h _ _ => by
    unfold InstIs at *
    rw [addAlloca_Insts]
    have hlt : j < s.Insts.length := by
      rcases Nat.lt_or_ge j s.Insts.length with h1 | h1
      · exact h1
      · rw [List.getElem?_eq_none h1] at h; cases h
    rw [List.getElem?_append_left hlt]; exact h
  setNamed := fun s n v h => h
  addIncoming := fun s id v bb h _ => getElem?_addIncoming_of_not_phi s _ v bb j x h hx
  addFunction := fun s n a h => h
  erase := fun s f h _ => h
  addGlobal := fun s ty v n h => h

theorem EndsWith.lt {b j : Nat} {s : State} (h : EndsWith b j s) : b < s.Blocks.length := by
  rcases Nat.lt_or_ge b s.Blocks.length with h1 | h1
  · exact h1
  · have := h.2
    rw [instsOf_eq_nil_of_le h1] at this
    cases this

/-- A block that is left keeps its last instruction. -/
theorem EndsWith.endsWith_closed (L : LLVM) (b j : Nat) :
    Closed L (EndsWith b j) (fun x => x ≠ b) (fun _ => True) (fun _ => True) (fun _ => True) where
  newB := fun s h => Nat.ne_of_gt h.lt
  newF := fun _ _ => ⟨trivial, trivial⟩
  newI := fun _ _ => trivial
  parent := fun _ _ _ _ _ _ _ _ => trivial
  addInst := fun s i h _ => by
    refine ⟨h.1, ?_⟩
    rw [instsOf_addInst]
    have : ¬ (s.InsertBlock = some b ∧ b < s.Blocks.length) := fun e => h.1 e.1
    rw [if_neg this]; exact h.2
  addBlock := fun s n p h _ => ⟨h.1, by rw [instsOf_addBlock]; exact h.2⟩
  attach := fun s f x h _ _ _ => ⟨h.1, by rw [instsOf_attach]; exact h.2⟩
  setInsertBlock := fun s x h hx _ => ⟨by
    rw [setInsertBlock_InsertBlock]
    intro e; cases e; exact hx rfl, h.2⟩
  addAlloca := fun s f e ty n h _ _ => by
    refine ⟨h.1, ?_⟩
    rw [instsOf_addAlloca]
    split
    · have h2 := h.2
      cases hl : s.instsOf b with
      | nil => rw [hl] at h2; cases h2
      | cons y ys => rw [hl] at h2; rw [List.getLast?_cons_cons]; exact h2
    · exact h.2
  setNamed := fun s n v h => h
  addIncoming := fun s id v bb h _ => ⟨by rw [addIncoming_InsertBlock]; exact h.1,
    by rw [instsOf_addIncoming]; exact h.2⟩
  addFunction := fun s n a h => h
  erase := fun s f h _ => h
  addGlobal := fun s ty v n h => h

/-- The builder only moves to blocks made later. -/
theorem CurFrom.curFrom_closed (L : LLVM) (n : Nat) (c : Option Nat) :
    Closed L (CurFrom n c) (fun x => n ≤ x) (fun _ => True) (fun _ => True) (fun _ => True) where
  newB := fun s h => h.1
  newF := fun _ _ => ⟨trivial, trivial⟩
  newI := fun _ _ => trivial
  parent := fun _ _ _ _ _ _ _ _ => trivial
  addInst := fun s i h _ => ⟨by rw [addInst_Blocks_length]; exact h.1,
    by rw [addInst_Blocks_length]; exact h.2⟩
  addBlock := fun s n p h _ => ⟨by rw [addBlock_Blocks_length]; exact Nat.le_succ_of_le h.1, by
    rw [addBlock_Blocks_length, addBlock_InsertBlock]
    rcases h.2 with h2 | ⟨c1, h2, h3, h4⟩
    · exact Or.inl h2
    · exact Or.inr ⟨c1, h2, h3, Nat.lt_succ_of_lt h4⟩⟩
  attach := fun s f x h _ _ _ => ⟨by rw [attach_Blocks_length]; exact h.1,
    by rw [attach_Blocks_length]; exact h.2⟩
  setInsertBlock := fun s x h hx hlt => ⟨h.1, Or.inr ⟨x, rfl, hx, hlt⟩⟩
  addAlloca := fun s f e ty n h _ _ => ⟨by rw [addAlloca_Blocks_length]; exact h.1,
    by rw [addAlloca_Blocks_length]; exact h.2⟩
  setNamed := fun s n v h => h
  addIncoming := fun s id v bb h _ => ⟨by rw [addIncoming_Blocks_length]; exact h.1,
    by rw [addIncoming_InsertBlock, addIncoming_Blocks_length]; exact h.2⟩
  addFunction := fun s n a h => h
  erase := fun s f h _ => h
  addGlobal := fun s ty v n h => h

theorem getElem?_lt_of_some {α : Type} {l : List α} {i : Nat} {x : α} (h : l[i]? = some x) :
    i < l.length := by
  rcases Nat.lt_or_ge i l.length with h1 | h1
  · exact h1
  · rw [List.getElem?_eq_none h1] at h; cases h

theorem getElem?_append_singleton {α : Type} {l : List α} {a x : α} {i : Nat}
    (h : (l ++ [a])[i]? = some x) : l[i]? = some x ∨ (i = l.length ∧ x = a) := by
  rcases Nat.lt_trichotomy i l.length with h1 | h1 | h1
  · rw [List.getElem?_append_left h1] at h; exact Or.inl h
  · subst h1
    simp at h
    exact Or.inr ⟨rfl, h.symm⟩
  · rw [List.getElem?_eq_none (by simp; omega)] at h; cases h

/-- The stores stay well-formed. -/
theorem State.wf_closed (L : LLVM) :
    Closed L State.WF (fun _ => True) (fun _ => True) (fun _ => True) (fun _ => True) where
  newB := fun _ _ => trivial
  newF := fun _ _ => ⟨trivial, trivial⟩
  newI := fun _ _ => trivial
  parent := fun _ _ _ _ _ _ _ _ => trivial
  addInst := fun s i h ht => by
    obtain ⟨h1, h2, h3, h4⟩ := h
    refine ⟨?_, ?_, ?_, h4⟩
    · intro f b hb
      rw [addInst_Blocks_length]; exact h1 f b hb
    · intro b j hj
      rw [instsOf_addInst] at hj
      rw [addInst_Insts, List.length_append, List.length_singleton]
      split at hj
      · rcases List.mem_append.mp hj with hj | hj
        · exact Nat.lt_succ_of_lt (h2 b j hj)
        · rw [List.mem_singleton] at hj; omega
      · exact Nat.lt_succ_of_lt (h2 b j hj)
    · intro j x hj t hm
      rw [addInst_Blocks_length]
      rw [addInst_Insts] at hj
      rcases getElem?_append_singleton hj with hj | ⟨_, rfl⟩
      · exact h3 j x hj t hm
      · exact (ht t hm).2
  addBlock := fun s n p h _ => by
    obtain ⟨h1, h2, h3, h4⟩ := h
    refine ⟨?_, ?_, ?_, ?_⟩
    · intro f b hb
      rw [blocksOf_addBlock] at hb
      rw [addBlock_Blocks_length]
      split at hb
      · rcases List.mem_append.mp hb with hb | hb
        · exact Nat.lt_succ_of_lt (h1 f b hb)
        · rw [List.mem_singleton] at hb; omega
      · exact Nat.lt_succ_of_lt (h1 f b hb)
    · intro b j hj
      rw [instsOf_addBlock] at hj
      exact h2 b j hj
    · intro j x hj t hm
      rw [addBlock_Blocks_length]
      exact Nat.lt_succ_of_lt (h3 j x hj t hm)
    · intro g hg
      rw [addBlock_Functions_length]; exact h4 g hg
  attach := fun s f x h _ _ hlt => by
    obtain ⟨h1, h2, h3, h4⟩ := h
    refine ⟨?_, ?_, ?_, ?_⟩
    · intro g b hb
      rw [blocksOf_attach] at hb
      rw [attach_Blocks_length]
      split at hb
      · rcases List.mem_append.mp hb with hb | hb
        · exact h1 g b hb
        · rw [List.mem_singleton] at hb; omega
      · exact h1 g b hb
    · intro b j hj
      rw [instsOf_attach] at hj
      exact h2 b j hj
    · intro j y hj t hm
      rw [attach_Blocks_length]
      exact h3 j y hj t hm
    · intro g hg
      rw [attach_Functions_length]; exact h4 g hg
  setInsertBlock := fun s b h _ _ => h
  addAlloca := fun s f e ty n h _ _ => by
    obtain ⟨h1, h2, h3, h4⟩ := h
    refine ⟨?_, ?_, ?_, h4⟩
    · intro g b hb
      rw [addAlloca_Blocks_length]; exact h1 g b hb
    · intro b j hj
      rw [instsOf_addAlloca] at hj
      rw [addAlloca_Insts, List.length_append, List.length_singleton]
      split at hj
      · rcases List.mem_cons.mp hj with hj | hj
        · omega
        · exact Nat.lt_succ_of_lt (h2 b j hj)
      · exact Nat.lt_succ_of_lt (h2 b j hj)
    · intro j x hj t hm
      rw [addAlloca_Blocks_length]
      rw [addAlloca_Insts] at hj
      rcases getElem?_append_singleton hj with hj | ⟨_, rfl⟩
      · exact h3 j x hj t hm
      · cases hm
  setNamed := fun s n v h => h
  addIncoming := fun s id v bb h _ => by
    obtain ⟨h1, h2, h3, h4⟩ := h
    refine ⟨?_, ?_, ?_, ?_⟩
    · intro g b hb
      rw [blocksOf_addIncoming] at hb
      rw [addIncoming_Blocks_length]; exact h1 g b hb
    · intro b j hj
      rw [instsOf_addIncoming] at hj
      rw [addIncoming_Insts_length]; exact h2 b j hj
    · intro j x hj t hm
      rw [addIncoming_Blocks_length]
      by_cases hid : id = j
      · subst hid
        unfold State.addIncoming at hj
        simp only at hj
        split at hj
        · rename_i inc _
          have hlt : id < s.Insts.length := by
            by_contra hge
            rw [List.getElem?_eq_none (by simp; omega)] at hj
            cases hj
          rw [List.getElem?_set_self hlt] at hj
          cases hj
          cases hm
        · exact h3 id x hj t hm
      · rw [getElem?_addIncoming_of_ne s id v bb j hid] at hj
        exact h3 j x hj t hm
    · intro g hg
      rw [addIncoming_FunctionList] at hg
      rw [addIncoming_Functions]; exact h4 g hg
  addFunction := fun s n a h => by
    obtain ⟨h1, h2, h3, h4⟩ := h
    refine ⟨?_, h2, h3, ?_⟩
    · intro g b hb
      rw [blocksOf_addFunction] at hb
      exact h1 g b hb
    · intro g hg
      rw [addFunction_FunctionList] at hg
      rw [addFunction_Functions_length]
      rcases List.mem_append.mp hg with hg | hg
      · exact Nat.lt_succ_of_lt (h4 g hg)
      · rw [List.mem_singleton] at hg; omega
  erase := fun s f h _ => by
    obtain ⟨h1, h2, h3, h4⟩ := h
    refine ⟨h1, h2, h3, ?_⟩
    intro g hg
    rw [erase_FunctionList] at hg
    exact h4 g (List.mem_filter.mp hg).1
  addGlobal := fun s ty v n h => h

/-- The state of a fresh session is well-formed. -/
theorem State.wf_init : State.init.WF := by
  refine ⟨?_, ?_, ?_, ?_⟩
  · intro f b hb; simp [State.blocksOf, State.init] at hb
  · intro b i hi; simp [State.instsOf, State.init] at hi
  · intro i x hx; simp [State.init] at hx
  · intro g hg; simp [State.init] at hg

/-- No new unconditional branch to `m` appears while branching to `m` is excluded. -/
theorem BranchesTo.branchesTo_closed (L : LLVM) (m : Nat) (A : List Nat) :
    Closed L (BranchesTo m A) (fun x => x ≠ m) (fun _ => True) (fun _ => True)
      (fun _ => True) where
  newB := fun s h => Nat.ne_of_gt h.1
  newF := fun _ _ => ⟨trivial, trivial⟩
  newI := fun _ _ => trivial
  parent := fun _ _ _ _ _ _ _ _ => trivial
  addInst := fun s i h ht => by
    refine ⟨by rw [addInst_Blocks_length]; exact h.1, ?_⟩
    intro j hj
    rw [addInst_Insts] at hj
    rcases getElem?_append_singleton hj with hj | ⟨_, rfl⟩
    · exact h.2 j hj
    · exact absurd rfl (ht m (by simp [Instr.targets])).1
  addBlock := fun s n p h _ =>
    ⟨by rw [addBlock_Blocks_length]; exact Nat.lt_succ_of_lt h.1, h.2⟩
  attach := fun s f x h _ _ _ => ⟨by rw [attach_Blocks_length]; exact h.1, h.2⟩
  setInsertBlock := fun s b h _ _ => h
  addAlloca := fun s f e ty n h _ _ => by
    refine ⟨by rw [addAlloca_Blocks_length]; exact h.1, ?_⟩
    intro j hj
    rw [addAlloca_Insts] at hj
    rcases getElem?_append_singleton hj with hj | ⟨_, h0⟩
    · exact h.2 j hj
    · cases h0
  setNamed := fun s n v h => h
  addIncoming := fun s id v bb h _ => by
    refine ⟨by rw [addIncoming_Blocks_length]; exact h.1, ?_⟩
    intro j hj
    by_cases hid : id = j
    · subst hid
      unfold State.addIncoming at hj
      simp only at hj
      split at hj
      · have hlt : id < s.Insts.length := by
          by_contra hge
          rw [List.getElem?_eq_none (by simp; omega)] at hj
          cases hj
        rw [List.getElem?_set_self hlt] at hj
        cases hj
      · exact h.2 id hj
    · rw [getElem?_addIncoming_of_ne s id v bb j hid] at hj
      exact h.2 j hj
  addFunction := fun s n a h => h
  erase := fun s f h _ => h
  addGlobal := fun s ty v n h => h

/-- An instruction stays in the one block it was put in. -/
theorem OnlyIn.onlyIn_closed (L : LLVM) (j b : Nat) :
    Closed L (OnlyIn j b) (fun _ => True) (fun _ => True) (fun _ => True) (fun _ => True) where
  newB := fun _ _ => trivial
  newF := fun _ _ => ⟨trivial, trivial⟩
  newI := fun _ _ => trivial
  parent := fun _ _ _ _ _ _ _ _ => trivial
  addInst := fun s i h _ => by
    refine ⟨by rw [addInst_Insts, List.length_append]; exact Nat.lt_add_right _ h.1, ?_⟩
    intro b1 hb
    rw [instsOf_addInst] at hb
    split at hb
    · rcases List.mem_append.mp hb with hb | hb
      · exact h.2 b1 hb
      · rw [List.mem_singleton] at hb
        have := h.1
        omega
    · exact h.2 b1 hb
  addBlock := fun s n p h _ => ⟨h.1, fun b1 hb => h.2 b1 (by rw [instsOf_addBlock] at hb; exact hb)⟩
  attach := fun s f x h _ _ _ => ⟨h.1, fun b1 hb => h.2 b1 (by rw [instsOf_attach] at hb; exact hb)⟩
  setInsertBlock := fun s b h _ _ => h
  addAlloca := fun s f e ty n h _ _ => by
    refine ⟨by rw [addAlloca_Insts, List.length_append]; exact Nat.lt_add_right _ h.1, ?_⟩
    intro b1 hb
    rw [instsOf_addAlloca] at hb
    split at hb
    · rcases List.mem_cons.mp hb with hb | hb
      · have := h.1
        omega
      · exact h.2 b1 hb
    · exact h.2 b1 hb
  setNamed := fun s n v h => h
  addIncoming := fun s id v bb h _ =>
    ⟨by rw [addIncoming_Insts_length]; exact h.1,
     fun b1 hb => h.2 b1 (by rw [instsOf_addIncoming] at hb; exact hb)⟩
  addFunction := fun s n a h => h
  erase := fun s f h _ => h
  addGlobal := fun s ty v n h => h

/-- A detached, empty block that the generator does not use stays so. -/
theorem Untouched.untouched_closed (L : LLVM) (b : Nat) :
    Closed L (Untouched b) (fun x => x ≠ b) (fun _ => True) (fun _ => True)
      (fun _ => True) where
  newB := fun s h => Nat.ne_of_gt h.1
  newF := fun _ _ => ⟨trivial, trivial⟩
  newI := fun _ _ => trivial
  parent := fun _ _ _ _ _ _ _ _ => trivial
  addInst := fun s i h _ => by
    obtain ⟨h1, h2, h3, h4, h5⟩ := h
    refine ⟨by rw [addInst_Blocks_length]; exact h1, ?_, by rw [parentOf_addInst]; exact h3,
      h4, h5⟩
    rw [instsOf_addInst]
    have : ¬ (s.InsertBlock = some b ∧ b < s.Blocks.length) := fun e => h4 e.1
    rw [if_neg this]; exact h2
  addBlock := fun s n p h _ => by
    obtain ⟨h1, h2, h3, h4, h5⟩ := h
    refine ⟨by rw [addBlock_Blocks_length]; exact Nat.lt_succ_of_lt h1,
      by rw [instsOf_addBlock]; exact h2, ?_, h4, ?_⟩
    · rw [parentOf_addBlock, if_neg (Nat.ne_of_lt h1)]; exact h3
    · intro f hb
      rw [blocksOf_addBlock] at hb
      split at hb
      · rcases List.mem_append.mp hb with hb | hb
        · exact h5 f hb
        · rw [List.mem_singleton] at hb; omega
      · exact h5 f hb
  attach := fun s f x h _ hx _ => by
    obtain ⟨h1, h2, h3, h4, h5⟩ := h
    refine ⟨by rw [attach_Blocks_length]; exact h1, by rw [instsOf_attach]; exact h2, ?_, h4, ?_⟩
    · rw [parentOf_attach]
      have : ¬ (b = x ∧ b < s.Blocks.length) := fun e => hx e.1.symm
      rw [if_neg this]; exact h3
    · intro g hb
      rw [blocksOf_attach] at hb
      split at hb
      · rcases List.mem_append.mp hb with hb | hb
        · exact h5 g hb
        · rw [List.mem_singleton] at hb; exact hx hb.symm
      · exact h5 g hb
  setInsertBlock := fun s x h hx _ => by
    obtain ⟨h1, h2, h3, h4, h5⟩ := h
    refine ⟨h1, h2, h3, ?_, h5⟩
    rw [setInsertBlock_InsertBlock]
    intro e; cases e; exact hx rfl
  addAlloca := fun s f e ty n h _ he => by
    obtain ⟨h1, h2, h3, h4, h5⟩ := h
    obtain ⟨rest, hr⟩ := getEntryBlock_some he
    have hne : b ≠ e := by
      intro e1; subst e1
      exact h5 f (by rw [hr]; exact List.mem_cons_self _ _)
    refine ⟨by rw [addAlloca_Blocks_length]; exact h1, ?_, by rw [parentOf_addAlloca]; exact h3,
      h4, h5⟩
    rw [instsOf_addAlloca]
    have : ¬ (b = e ∧ b < s.Blocks.length) := fun e1 => hne e1.1
    rw [if_neg this]; exact h2
  setNamed := fun s n v h => h
  addIncoming := fun s id v bb h _ => by
    obtain ⟨h1, h2, h3, h4, h5⟩ := h
    exact ⟨by rw [addIncoming_Blocks_length]; exact h1, by rw [instsOf_addIncoming]; exact h2,
      by rw [parentOf_addIncoming]; exact h3, by rw [addIncoming_InsertBlock]; exact h4,
      fun f => by rw [blocksOf_addIncoming]; exact h5 f⟩
  addFunction := fun s n a h => by
    obtain ⟨h1, h2, h3, h4, h5⟩ := h
    exact ⟨h1, h2, h3, h4, fun f => by rw [blocksOf_addFunction]; exact h5 f⟩
  erase := fun s f h _ => h
  addGlobal := fun s ty v n h => h

/-! ## Expressions without blocks leave the symbol table alone -/

theorem CreateBinOp_NamedValues {L : LLVM} {op : Opcode} {l r : Value} {s s1 : State}
    {v : Value} (h : CreateBinOp L op l r s = some (v, s1)) :
    s1.NamedValues = s.NamedValues := by
  rcases CreateBinOp_cases h with rfl | ⟨_, rfl⟩ <;> rfl

theorem elementAddress_NamedValues {L : LLVM} {ty : Ty} {base x : Value} {s s1 : State}
    {v : Value} (h : elementAddress L ty base x s = some (v, s1)) :
    s1.NamedValues = s.NamedValues := by
  unfold elementAddress at h
  rw [bind_eq_some] at h
  obtain ⟨k, s2, h1, h2⟩ := h
  have e1 : s2.NamedValues = s.NamedValues := by
    rcases CreateFPToUI_cases h1 with rfl | ⟨_, rfl⟩ <;> rfl
  have e2 : s1.NamedValues = s2.NamedValues := by
    rcases CreateInBoundsGEP_cases h2 with rfl | ⟨_, rfl⟩ <;> rfl
  rw [e2, e1]

theorem storeElems_NamedValues (L : LLVM) (ty : Ty) (a : Value) :
    ∀ (vs : List Value) (i : Nat) (s s1 : State) (r : Unit),
      storeElems L ty a i vs s = some (r, s1) → s1.NamedValues = s.NamedValues
  | [], i, s, s1, r, h => by
      rw [storeElems, pure_eq_some] at h
      obtain ⟨_, rfl⟩ := h
      rfl
  | v :: vs, i, s, s1, r, h => by
      rw [storeElems] at h
      simp only [bind_eq_some, Insert_eq_some, CreateLoad_eq_some, CreateStore_eq_some] at h
      obtain ⟨EP, s2, h1, _, _, ⟨_, _, rfl⟩, h3⟩ := h
      have e1 : s2.NamedValues = s.NamedValues := by
        rcases CreateInBoundsGEP_cases h1 with rfl | ⟨_, rfl⟩ <;> rfl
      rw [storeElems_NamedValues L ty a vs (i + 1) _ _ _ h3, addInst_NamedValues, e1]

mutual
theorem ExprAST.named_of_noBlock (L : LLVM) :
    ∀ (e : ExprAST) (s s1 : State) (r : Option Value), e.noBlock = true →
      e.codegen L s = some (r, s1) → s1.NamedValues = s.NamedValues
  | .NumberExprAST v, s, s1, r, _, h => by
      rw [ExprAST.codegen, pure_eq_some] at h
      obtain ⟨_, rfl⟩ := h
      rfl
  | .VariableExprAST n, s, s1, r, _, h => by
      rw [ExprAST.codegen] at h
      simp only [bind_eq_some, getNamed_eq_some] at h
      obtain ⟨ra, _, ⟨hl, rfl⟩, h⟩ := h
      cases ra with
      | some a =>
        simp only [bind_eq_some, getAllocatedType_eq_some, Insert_eq_some, CreateLoad_eq_some, CreateStore_eq_some, pure_eq_some] at h
        obtain ⟨ty, _, ⟨_, rfl⟩, _, _, ⟨_, _, rfl⟩, _, rfl⟩ := h
        rfl
      | none =>
        simp only [bind_eq_some, getGlobalVariable_eq_some] at h
        obtain ⟨rg, _, ⟨hg, rfl⟩, h⟩ := h
        cases rg with
        | none =>
          obtain ⟨_, rfl⟩ := pure_eq_some.mp h
          rfl
        | some g =>
          simp only [bind_eq_some, getValueType_eq_some, Insert_eq_some, CreateLoad_eq_some, CreateStore_eq_some, pure_eq_some] at h
          obtain ⟨ty, _, ⟨gv, _, _, rfl⟩, _, _, ⟨_, _, rfl⟩, _, rfl⟩ := h
          rfl
  | .BinaryExprAST Op LHS none, s, s1, r, hn, h => by
      rw [ExprAST.noBlock] at hn
      rw [ExprAST.codegen] at h
      rw [bind_eq_some] at h
      obtain ⟨L1, s2, hl, h⟩ := h
      have e1 := ExprAST.named_of_noBlock L LHS _ _ _ hn hl
      generalize (if Op = '!' then L1 else none) = o at h
      cases o with
      | some l =>
        simp only [bind_eq_some, pure_eq_some] at h
        obtain ⟨v, s3, h3, _, rfl⟩ := h
        rw [CreateBinOp_NamedValues h3, e1]
      | none => simp only [crash_eq_some] at h
  | .BinaryExprAST Op LHS (some RHS), s, s1, r, hn, h => by
      rw [ExprAST.noBlock, Bool.and_eq_true] at hn
      rw [ExprAST.codegen] at h
      rw [bind_eq_some] at h
      obtain ⟨L1, s2, hl, h⟩ := h
      have e1 := ExprAST.named_of_noBlock L LHS _ _ _ hn.1 hl
      generalize (if Op = '!' then L1 else none) = o at h
      cases o with
      | some l =>
        simp only [bind_eq_some, pure_eq_some] at h
        obtain ⟨v, s3, h3, _, rfl⟩ := h
        rw [CreateBinOp_NamedValues h3, e1]
      | none =>
        simp only [bind_eq_some] at h
        obtain ⟨R1, s3, hr, h⟩ := h
        have e2 := ExprAST.named_of_noBlock L RHS _ _ _ hn.2 hr
        cases L1 with
        | none => simp only [pure_eq_some] at h; obtain ⟨_, rfl⟩ := h; rw [e2, e1]
        | some l =>
          cases R1 with
          | none => simp only [pure_eq_some] at h; obtain ⟨_, rfl⟩ := h; rw [e2, e1]
          | some r1 =>
            simp only [] at h
            cases hop : binaryOpcode Op with
            | none =>
              rw [hop] at h
              simp only [pure_eq_some] at h; obtain ⟨_, rfl⟩ := h; rw [e2, e1]
            | some op =>
              rw [hop] at h
              simp only [bind_eq_some, pure_eq_some] at h
              obtain ⟨v, s4, h4, _, rfl⟩ := h
              rw [CreateBinOp_NamedValues h4, e2, e1]
  | .CallExprAST Callee Args, s, s1, r, hn, h => by
      rw [ExprAST.noBlock] at hn
      rw [ExprAST.codegen] at h
      simp only [bind_eq_some, getFunction_eq_some] at h
      obtain ⟨rf, _, ⟨hf, rfl⟩, h⟩ := h
      cases rf with
      | none =>
        obtain ⟨_, rfl⟩ := pure_eq_some.mp h
        rfl
      | some CalleeF =>
        simp only [bind_eq_some, argSize_eq_some] at h
        obtain ⟨_, _, ⟨fn, hfn, rfl, rfl⟩, h⟩ := h
        split at h
        · simp only [pure_eq_some] at h; obtain ⟨_, rfl⟩ := h; rfl
        · simp only [bind_eq_some] at h
          obtain ⟨ra, s2, ha, h⟩ := h
          have e1 := codegenArgs_named_of_noBlock L Args _ _ _ hn ha
          cases ra with
          | none => simp only [pure_eq_some] at h; obtain ⟨_, rfl⟩ := h; exact e1
          | some ArgsV =>
            simp only [bind_eq_some, Insert_eq_some, CreateLoad_eq_some, CreateStore_eq_some, pure_eq_some] at h
            obtain ⟨_, _, ⟨_, rfl⟩, _, rfl⟩ := h
            exact e1
  | .IfExprAST c t f, s, s1, r, hn, h => by
      rw [ExprAST.noBlock, Bool.and_eq_true, Bool.and_eq_true] at hn
      rw [ExprAST.codegen] at h
      rw [bind_eq_some] at h
      obtain ⟨rc, s2, hc, h⟩ := h
      have e1 := ExprAST.named_of_noBlock L c _ _ _ hn.1.1 hc
      cases rc with
      | none => obtain ⟨_, rfl⟩ := pure_eq_some.mp h; exact e1
      | some CondV =>
        simp only [bind_eq_some, BasicBlockCreate_eq_some, GetInsertBlockParent_eq_some,
          Insert_eq_some, CreateLoad_eq_some, CreateStore_eq_some, SetInsertPoint_eq_some] at h
        obtain ⟨_, _, ⟨c0, blk0, hib, hblk, rfl, rfl⟩, _, _, ⟨rfl, rfl⟩, _, _, ⟨rfl, rfl⟩,
          _, _, ⟨rfl, rfl⟩, _, _, ⟨rfl, rfl⟩, _, _, rfl, rt, s3, ht, h⟩ := h
        have e2 := ExprAST.named_of_noBlock L t _ _ _ hn.1.2 ht
        simp only [setInsertBlock_NamedValues, addInst_NamedValues, addBlock_NamedValues] at e2
        cases rt with
        | none => obtain ⟨_, rfl⟩ := pure_eq_some.mp h; rw [e2, e1]
        | some TrueV =>
          simp only [bind_eq_some, BasicBlockCreate_eq_some, GetInsertBlock_eq_some,
            Insert_eq_some, CreateLoad_eq_some, CreateStore_eq_some, SetInsertPoint_eq_some, FunctionInsert_eq_some] at h
          obtain ⟨_, _, ⟨rfl, rfl⟩, _, _, ⟨rfl, rfl⟩, _, _, ⟨g, hg, rfl⟩, _, _, rfl,
            rf, s5, hfl, h⟩ := h
          have e3 := ExprAST.named_of_noBlock L f _ _ _ hn.2 hfl
          simp only [setInsertBlock_NamedValues, addInst_NamedValues,
            attach_NamedValues] at e3
          cases rf with
          | none => obtain ⟨_, rfl⟩ := pure_eq_some.mp h; rw [e3, e2, e1]
          | some FalseV =>
            simp only [bind_eq_some, GetInsertBlock_eq_some, Insert_eq_some, CreateLoad_eq_some, CreateStore_eq_some,
              SetInsertPoint_eq_some, FunctionInsert_eq_some, addIncoming_eq_some,
              pure_eq_some] at h
            obtain ⟨_, _, ⟨rfl, rfl⟩, _, _, ⟨rfl, rfl⟩, _, _, ⟨g2, hg2, rfl⟩, _, _, rfl,
              _, _, ⟨rfl, rfl⟩, _, _, rfl, _, _, rfl, _, rfl⟩ := h
            simp only [addIncoming_NamedValues, setInsertBlock_NamedValues,
              addInst_NamedValues, attach_NamedValues]
            rw [e3, e2, e1]
  | .BlockAST Def Stmts, s, s1, r, hn, h => by
      rw [ExprAST.noBlock] at hn
      cases hn
  | .ArrayExprAST n Index, s, s1, r, hn, h => by
      rw [ExprAST.noBlock] at hn
      rw [ExprAST.codegen] at h
      simp only [bind_eq_some, getNamed_eq_some] at h
      obtain ⟨ra, _, ⟨hl, rfl⟩, h⟩ := h
      cases ra with
      | some a =>
        simp only [bind_eq_some, getAllocatedType_eq_some] at h
        obtain ⟨ty, _, ⟨hty, rfl⟩, h⟩ := h
        split at h
        · obtain ⟨_, rfl⟩ := pure_eq_some.mp h; rfl
        · simp only [bind_eq_some] at h
          obtain ⟨ri, s2, hi, h⟩ := h
          have e1 := ExprAST.named_of_noBlock L Index _ _ _ hn hi
          cases ri with
          | none => obtain ⟨_, rfl⟩ := pure_eq_some.mp h; exact e1
          | some IndexFP =>
            simp only [bind_eq_some, Insert_eq_some, CreateLoad_eq_some, CreateStore_eq_some, pure_eq_some] at h
            obtain ⟨EP, s3, he, _, _, ⟨_, _, rfl⟩, _, rfl⟩ := h
            rw [addInst_NamedValues, elementAddress_NamedValues he, e1]
      | none =>
        simp only [bind_eq_some, getGlobalVariable_eq_some] at h
        obtain ⟨rg, _, ⟨hg, rfl⟩, h⟩ := h
        cases rg with
        | none => obtain ⟨_, rfl⟩ := pure_eq_some.mp h; rfl
        | some g =>
          simp only [bind_eq_some, getValueType_eq_some] at h
          obtain ⟨ty, _, ⟨gv, hgv, rfl, rfl⟩, h⟩ := h
          split at h
          · obtain ⟨_, rfl⟩ := pure_eq_some.mp h; rfl
          · simp only [bind_eq_some] at h
            obtain ⟨ri, s2, hi, h⟩ := h
            have e1 := ExprAST.named_of_noBlock L Index _ _ _ hn hi
            cases ri with
            | none => obtain ⟨_, rfl⟩ := pure_eq_some.mp h; exact e1
            | some IndexFP =>
              simp only [bind_eq_some, Insert_eq_some, CreateLoad_eq_some, CreateStore_eq_some, pure_eq_some] at h
              obtain ⟨EP, s3, he, _, _, ⟨_, _, rfl⟩, _, rfl⟩ := h
              rw [addInst_NamedValues, elementAddress_NamedValues he, e1]
theorem codegenArgs_named_of_noBlock (L : LLVM) :
    ∀ (es : List ExprAST) (s s1 : State) (r : Option (List Value)), noBlockList es = true →
      codegenArgs L es s = some (r, s1) → s1.NamedValues = s.NamedValues
  | [], s, s1, r, _, h => by
      rw [codegenArgs, pure_eq_some] at h
      obtain ⟨_, rfl⟩ := h
      rfl
  | e :: es, s, s1, r, hn, h => by
      rw [noBlockList, Bool.and_eq_true] at hn
      rw [codegenArgs] at h
      simp only [bind_eq_some] at h
      obtain ⟨re, s2, he, h⟩ := h
      have e1 := ExprAST.named_of_noBlock L e _ _ _ hn.1 he
      cases re with
      | none => simp only [pure_eq_some] at h; obtain ⟨_, rfl⟩ := h; exact e1
      | some v =>
        simp only [bind_eq_some] at h
        obtain ⟨rr, s3, hr, h⟩ := h
        have e2 := codegenArgs_named_of_noBlock L es _ _ _ hn.2 hr
        cases rr with
        | none => simp only [pure_eq_some] at h; obtain ⟨_, rfl⟩ := h; rw [e2, e1]
        | some vs => simp only [pure_eq_some] at h; obtain ⟨_, rfl⟩ := h; rw [e2, e1]
end

/-- A binding without blocks: the symbol table is left alone, the value returned
is the alloca made first, and that instruction is still the alloca afterwards. -/
theorem binding_of_noBlock (L : LLVM) (b : VarBindingAST) (s s1 : State) (a : Value)
    (hn : b.noBlock = true) (h : b.codegen L s = some (some a, s1)) :
    s1.NamedValues = s.NamedValues ∧ a = .inst s.Insts.length ∧
      ∃ ty, s1.Insts[s.Insts.length]? = some (.alloca ty b.getName) := by
  have hphi : ∀ (ty : Ty) (n : String) inc, Instr.alloca ty n ≠ .phi inc := by
    intro ty n inc e; cases e
  cases b with
  | scalar n Val =>
    rw [VarBindingAST.codegen] at h
    simp only [bind_eq_some, GetInsertBlockParent_eq_some,
      CreateEntryBlockAlloca_eq_some] at h
    obtain ⟨_, _, ⟨c0, blk0, hib, hblk, rfl, rfl⟩, _, _, ⟨entry, he, rfl, rfl⟩, h⟩ := h
    have hA : InstIs s.Insts.length (.alloca .double n) (s.addAlloca entry .double n) := by
      simp [InstIs]
    cases Val with
    | some Val =>
      simp only [bind_eq_some] at h
      obtain ⟨rv, s2, hv, h⟩ := h
      have e1 := ExprAST.named_of_noBlock L Val _ _ _ hn hv
      have k1 := ExprAST.codegen_keeps (InstIs.instIs_closed L _ _ (hphi .double n)) Val _ _ _ hA hv
      cases rv with
      | none => obtain ⟨h0, _⟩ := pure_eq_some.mp h; cases h0
      | some BoundVal =>
        simp only [bind_eq_some, Insert_eq_some, CreateLoad_eq_some, CreateStore_eq_some, pure_eq_some] at h
        obtain ⟨_, _, ⟨_, _, rfl⟩, h0, rfl⟩ := h
        cases h0
        refine ⟨by rw [addInst_NamedValues, e1]; rfl, rfl, .double, ?_⟩
        exact (InstIs.instIs_closed L _ _ (hphi .double n)).plain k1.1 rfl
    | none =>
      simp only [bind_eq_some, Insert_eq_some, CreateLoad_eq_some, CreateStore_eq_some, pure_eq_some] at h
      obtain ⟨_, _, ⟨_, _, rfl⟩, h0, rfl⟩ := h
      cases h0
      refine ⟨rfl, rfl, .double, ?_⟩
      exact (InstIs.instIs_closed L _ _ (hphi .double n)).plain hA rfl
  | ArrayBindingAST n Size ExprList =>
    rw [VarBindingAST.codegen] at h
    split at h
    · obtain ⟨h0, _⟩ := pure_eq_some.mp h; cases h0
    · simp only [bind_eq_some, GetInsertBlockParent_eq_some,
        CreateEntryBlockAlloca_eq_some] at h
      obtain ⟨_, _, ⟨c0, blk0, hib, hblk, rfl, rfl⟩, _, _, ⟨entry, he, rfl, rfl⟩,
        ra, s2, ha, h⟩ := h
      have hA : InstIs s.Insts.length (.alloca (.array (toU64 Size)) n)
          (s.addAlloca entry (.array (toU64 Size)) n) := by
        simp [InstIs]
      have e1 := codegenArgs_named_of_noBlock L ExprList _ _ _ hn ha
      have k1 := codegenArgs_keeps (InstIs.instIs_closed L _ _ (hphi (.array (toU64 Size)) n))
        ExprList _ _ _ hA ha
      cases ra with
      | none => obtain ⟨h0, _⟩ := pure_eq_some.mp h; cases h0
      | some Vals =>
        simp only [bind_eq_some, pure_eq_some] at h
        obtain ⟨_, s3, hs, h0, rfl⟩ := h
        cases h0
        have k2 := storeElems_keeps (InstIs.instIs_closed L _ _ (hphi (.array (toU64 Size)) n))
          _ _ _ _ _ _ _ k1.1 hs
        refine ⟨by rw [storeElems_NamedValues L _ _ _ _ _ _ _ hs, e1]; rfl, rfl, _, k2.1⟩

theorem lookupNamed_setNamed_self (s : State) (n : String) (v : Option Value) :
    lookupNamed (s.setNamed n v).NamedValues n = v := by
  simp [State.setNamed, lookupNamed]

/-! ## Claims C2 to C6 and C10 -/

/-- C2, evaluated at the failing input: in the body of `def f()`, the block
`{ var x = 1, x = 2; x }` generates successfully, yet afterwards `x` resolves to
the storage of the first binding although `x` was unbound before the block. -/
theorem BlockAST_twice_bound_leaks :
    ((twiceBound "x").codegen plainLLVM sampleEntry).map
        (fun r => (r.1.isSome, lookupNamed r.2.NamedValues "x")) =
      some (true, some (.inst 0)) ∧
    lookupNamed sampleEntry.NamedValues "x" = none := by
  decide!

/-- C3, evaluated at the failing input: in the body of `def f()`, where `i` is
unbound, the loop `for (var i = { var i = 1, i = 2; i }; i < 3; i = i + 1) i`
generates successfully, yet afterwards `i` resolves to storage the block of the
initializer allocated (instruction 1): the entry the loop saves and puts back is
the one that block left, not the one before the loop.  So not every counted loop
that binds its counter and generates successfully leaves the lookup of the
counter's name as it was. -/
theorem ForStmtAST_binding_not_restored :
    lookupNamed sampleEntry.NamedValues "i" = none ∧
    loopOverTwiceBound.codegen plainLLVM sampleEntry =
      some (some zeroFP, stateAfter (loopOverTwiceBound.codegen plainLLVM) sampleEntry) ∧
    lookupNamed (stateAfter (loopOverTwiceBound.codegen plainLLVM) sampleEntry).NamedValues
      "i" = some (.inst 1) ∧
    (stateAfter (loopOverTwiceBound.codegen plainLLVM) sampleEntry).Insts[1]? =
      some (.alloca .double "i") ∧
    ¬ (∀ (b : VarBindingAST) (Cond : ExprAST) (Update Body : RootAST) (s s1 : State)
        (v : Value),
        (RootAST.ForStmtAST (.binding b) true Cond Update Body).codegen plainLLVM s =
          some (some v, s1) →
        lookupNamed s1.NamedValues b.getName = lookupNamed s.NamedValues b.getName) := by
  refine ⟨by decide!, by decide!, by decide!, by decide!, ?_⟩
  intro hall
  have h := hall (.scalar "i" (some (twiceBound "i")))
    (.BinaryExprAST '<' (.VariableExprAST "i") (some (.NumberExprAST 3)))
    (.AssignmentAST "i" (.BinaryExprAST '+' (.VariableExprAST "i") (some (.NumberExprAST 1))))
    (.expr (.VariableExprAST "i")) sampleEntry
    (stateAfter (loopOverTwiceBound.codegen plainLLVM) sampleEntry) zeroFP (by decide!)
  revert h
  decide!

/-- Where the loop does restore: for a counted loop whose initializer is a
binding with no block inside its initializer expressions and whose generation
succeeds, the loop condition is generated in a state where the initializer's
name resolves to the storage the loop has just allocated, and after the loop the
lookup of that name equals the lookup before the loop. -/
theorem ForStmtAST_binding_scope (L : LLVM) (b : VarBindingAST) (Cond : ExprAST)
    (Update Body : RootAST) (s s1 : State) (v : Value) (hb : b.noBlock = true)
    (h : (RootAST.ForStmtAST (.binding b) true Cond Update Body).codegen L s =
      some (some v, s1)) :
    (∃ (s2 s4 : State) (g : Nat) (ty : Ty) (CondV : Value),
      b.codegen L (loopBlocks s) = some (some (.inst s.Insts.length), s2) ∧
      Cond.codegen L
          (enterBlock (s2.setNamed b.getName (some (.inst s.Insts.length)))
            (.br s.Blocks.length) g s.Blocks.length) =
        some (some CondV, s4) ∧
      lookupNamed
          (enterBlock (s2.setNamed b.getName (some (.inst s.Insts.length)))
            (.br s.Blocks.length) g s.Blocks.length).NamedValues b.getName =
        some (.inst s.Insts.length) ∧
      (enterBlock (s2.setNamed b.getName (some (.inst s.Insts.length)))
          (.br s.Blocks.length) g s.Blocks.length).Insts[s.Insts.length]? =
        some (.alloca ty b.getName)) ∧
    lookupNamed s1.NamedValues b.getName = lookupNamed s.NamedValues b.getName := by
  rw [RootAST.codegen] at h
  simp only [bind_eq_some, BasicBlockCreate_eq_some, GetInsertBlockParent_eq_some] at h
  obtain ⟨_, _, ⟨c0, blk0, hib, hblk, rfl, rfl⟩, _, _, ⟨rfl, rfl⟩, _, _, ⟨rfl, rfl⟩,
    _, _, ⟨rfl, rfl⟩, _, _, ⟨rfl, rfl⟩, ri, s2, hi, h⟩ := h
  rw [RootAST.codegen] at hi
  cases ri with
  | none => obtain ⟨h0, _⟩ := pure_eq_some.mp h; cases h0
  | some CounterAlloca =>
    obtain ⟨e2, rfl, ty, hty⟩ := binding_of_noBlock L b _ _ _ hb hi
    simp only [addBlock_Insts, addBlock_NamedValues] at hi hty e2
    simp only [bind_eq_some, Insert_eq_some, CreateLoad_eq_some, CreateStore_eq_some, SetInsertPoint_eq_some, FunctionInsert_eq_some,
      shadowCounter, ForInitAST.getName, if_true, getNamed_eq_some, setNamed_eq_some,
      pure_eq_some, addBlock_Insts] at h
    obtain ⟨_, _, ⟨_, _, ⟨rfl, rfl⟩, _, _, rfl, rfl, rfl⟩, _, _, ⟨rfl, rfl⟩, _, _,
      ⟨g, hg, rfl⟩, _, _, rfl, rc, s4, hc, h⟩ := h
    cases rc with
    | none => have h0 := (pure_eq_some.mp h).1; cases h0
    | some CondV =>
      simp only [bind_eq_some, Insert_eq_some, CreateLoad_eq_some, CreateStore_eq_some, SetInsertPoint_eq_some,
        FunctionInsert_eq_some, pure_eq_some] at h
      obtain ⟨_, _, ⟨rfl, rfl⟩, _, _, ⟨g2, hg2, rfl⟩, _, _, rfl, rb, s5, hbd, h⟩ := h
      cases rb with
      | none => have h0 := (pure_eq_some.mp h).1; cases h0
      | some BodyV =>
        simp only [bind_eq_some, Insert_eq_some, CreateLoad_eq_some, CreateStore_eq_some, SetInsertPoint_eq_some,
          FunctionInsert_eq_some, pure_eq_some] at h
        obtain ⟨_, _, ⟨rfl, rfl⟩, _, _, ⟨g3, hg3, rfl⟩, _, _, rfl, ru, s6, hu, h⟩ := h
        cases ru with
        | none => have h0 := (pure_eq_some.mp h).1; cases h0
        | some UpdateV =>
          simp only [bind_eq_some, Insert_eq_some, CreateLoad_eq_some, CreateStore_eq_some, SetInsertPoint_eq_some,
            FunctionInsert_eq_some, pure_eq_some, restoreCounter, ForInitAST.getName,
            if_true, setNamed_eq_some] at h
          obtain ⟨_, _, ⟨rfl, rfl⟩, _, _, ⟨g4, hg4, rfl⟩, _, _, rfl, _, _, rfl, _, rfl⟩ := h
          have hlt : s.Insts.length < s2.Insts.length := by
            rcases Nat.lt_or_ge s.Insts.length s2.Insts.length with h1 | h1
            · exact h1
            · rw [List.getElem?_eq_none h1] at hty; cases hty
          refine ⟨⟨s2, s4, g, ty, CondV, hi, hc, ?_, ?_⟩, ?_⟩
          · simp [enterBlock, lookupNamed]
          · simp only [enterBlock, setInsertBlock_Insts, attach_Insts, addInst_Insts,
              setNamed_Insts]
            rw [List.getElem?_append_left hlt]
            exact hty
          · rw [lookupNamed_setNamed_self, e2]

/-- The loop `for (var i = 0; i < 3; i = i + 1) i` in the body of `def f()`
restores the lookup of `i`. -/
theorem ForStmtAST_binding_scope_witness :
    (VarBindingAST.scalar "i" (some (.NumberExprAST 0))).noBlock = true ∧
    countingLoop.codegen plainLLVM sampleEntry =
      some (some zeroFP, stateAfter (countingLoop.codegen plainLLVM) sampleEntry) ∧
    lookupNamed (stateAfter (countingLoop.codegen plainLLVM) sampleEntry).NamedValues "i" =
      lookupNamed sampleEntry.NamedValues "i" :=
  ⟨by decide!, by decide!,
    (ForStmtAST_binding_scope plainLLVM (.scalar "i" (some (.NumberExprAST 0)))
      (.BinaryExprAST '<' (.VariableExprAST "i") (some (.NumberExprAST 3)))
      (.AssignmentAST "i"
        (.BinaryExprAST '+' (.VariableExprAST "i") (some (.NumberExprAST 1))))
      (.expr (.VariableExprAST "i")) sampleEntry
      (stateAfter (countingLoop.codegen plainLLVM) sampleEntry) zeroFP
      (by decide!) (by decide!)).2⟩

/-- C4: a call whose callee name is not a function of the module returns no value
and leaves the whole state, hence the instruction stream, unchanged: no argument
is generated and no call is emitted. -/
theorem CallExprAST_undefined_callee (L : LLVM) (Callee : String) (Args : List ExprAST)
    (s : State) (h : s.getFunction Callee = none) :
    (ExprAST.CallExprAST Callee Args).codegen L s = some (none, s) := by
  rw [ExprAST.codegen]
  simp only [bind_apply, getFunction, h, pure_apply]

/-- C4, at the call `f(1)` in a fresh session. -/
theorem CallExprAST_undefined_callee_witness :
    State.init.getFunction "f" = none ∧
    (ExprAST.CallExprAST "f" [.NumberExprAST 1]).codegen plainLLVM State.init =
      some (none, State.init) :=
  ⟨by decide!, CallExprAST_undefined_callee plainLLVM "f" [.NumberExprAST 1] State.init
    (by decide!)⟩

/-- C5: a call whose callee exists but takes a number of parameters different from
the number of arguments returns no value and leaves the whole state unchanged:
no argument is generated and no call is emitted. -/
theorem CallExprAST_arity_mismatch (L : LLVM) (Callee : String) (Args : List ExprAST)
    (s : State) (CalleeF : Nat) (fn : Function)
    (hf : s.getFunction Callee = some CalleeF) (hfn : s.Functions[CalleeF]? = some fn)
    (hne : fn.Args.length ≠ Args.length) :
    (ExprAST.CallExprAST Callee Args).codegen L s = some (none, s) := by
  rw [ExprAST.codegen]
  simp only [bind_apply, getFunction, hf, argSize, hfn, Option.map_some', ne_eq, hne,
    not_false_eq_true, if_true, pure_apply]

/-- C5, at the call `f(1, 2)` after the declaration `extern f(x)`. -/
theorem CallExprAST_arity_mismatch_witness :
    (State.init.addFunction plainLLVM "f" ["x"]).getFunction "f" = some 0 ∧
    (ExprAST.CallExprAST "f" [.NumberExprAST 1, .NumberExprAST 2]).codegen plainLLVM
        (State.init.addFunction plainLLVM "f" ["x"]) =
      some (none, State.init.addFunction plainLLVM "f" ["x"]) :=
  ⟨by decide!,
    CallExprAST_arity_mismatch plainLLVM "f" [.NumberExprAST 1, .NumberExprAST 2]
      (State.init.addFunction plainLLVM "f" ["x"]) 0
      { Name := "f", Args := ["x"], BasicBlocks := [] } (by decide!) (by decide!)
      (by decide!)⟩

/-- C6: a global scalar declaration and a global array declaration whose name is
already a global of the module both return failure and leave the whole state
unchanged, so the existing global keeps its type and initializer and no global
is created. -/
theorem GlobalVarAST_redefinition (L : LLVM) (Name : String) (Size : Int) (s : State) (g : Nat)
    (h : s.getGlobalVariable Name = some g) :
    (RootAST.GlobalVarAST Name).codegen L s = some (none, s) ∧
    (RootAST.GlobalArrayAST Name Size).codegen L s = some (none, s) := by
  constructor
  · rw [RootAST.codegen]
    simp only [bind_apply, getGlobalVariable, h, pure_apply]
  · rw [RootAST.codegen]
    simp only [bind_apply, getGlobalVariable, h, pure_apply]

/-- C6, at the redeclaration of `g` after `global g`. -/
theorem GlobalVarAST_redefinition_witness :
    (State.init.addGlobal plainLLVM .double zeroFP "g").getGlobalVariable "g" = some 0 ∧
    (RootAST.GlobalVarAST "g").codegen plainLLVM
        (State.init.addGlobal plainLLVM .double zeroFP "g") =
      some (none, State.init.addGlobal plainLLVM .double zeroFP "g") :=
  ⟨by decide!,
    (GlobalVarAST_redefinition plainLLVM "g" 4
      (State.init.addGlobal plainLLVM .double zeroFP "g") 0 (by decide!)).1⟩

/-- C10: a local array binding whose initializer list is non-empty and of a length
different from the declared size returns failure and leaves the whole state
unchanged: nothing is allocated, generated or stored.  The size is an `int` and
the list a vector that fits in memory. -/
theorem ArrayBindingAST_size_mismatch (L : LLVM) (Name : String) (Size : Int)
    (ExprList : List ExprAST) (s : State)
    (hSize : -2 ^ 31 ≤ Size ∧ Size < 2 ^ 31) (hlen : ExprList.length < 2 ^ 63)
    (hne : ExprList ≠ []) (hdiff : (ExprList.length : Int) ≠ Size) :
    (VarBindingAST.ArrayBindingAST Name Size ExprList).codegen L s = some (none, s) := by
  have h1 : ExprList.length ≠ 0 := by
    intro h0; exact hne (List.length_eq_zero.mp h0)
  have h2 : ExprList.length ≠ toU64 Size := by
    unfold toU64
    omega
  rw [VarBindingAST.codegen]
  simp only [ne_eq, h1, not_false_eq_true, h2, and_self, if_true, pure_apply]

/-- C10, at `var a[3] = {1, 2}`. -/
theorem ArrayBindingAST_size_mismatch_witness :
    (VarBindingAST.ArrayBindingAST "a" 3 [.NumberExprAST 1, .NumberExprAST 2]).codegen
        plainLLVM sampleEntry = some (none, sampleEntry) :=
  ArrayBindingAST_size_mismatch plainLLVM "a" 3 [.NumberExprAST 1, .NumberExprAST 2]
    sampleEntry (by decide) (by decide) (List.cons_ne_nil _ _) (by decide)

/-! ## Claim C8: the merge of a conditional expression -/

/-- The steps of a successful `IfExprAST::codegen`, one after the other. -/
theorem IfExprAST_shape (L : LLVM) (Cond TrueExp FalseExp : ExprAST) (s s1 : State) (v : Value)
    (h : (ExprAST.IfExprAST Cond TrueExp FalseExp).codegen L s = some (some v, s1)) :
    ∃ (CondV TrueV FalseV : Value) (sc st sf : State) (origin g : Nat),
      Cond.codegen L s = some (some CondV, sc) ∧
      sc.InsertBlock = some origin ∧ sc.parentOf origin = some g ∧
      origin < sc.Blocks.length ∧
      TrueExp.codegen L (ifBranchState sc CondV g) = some (some TrueV, st) ∧
      FalseExp.codegen L
          (enterBlock st (.br (sc.Blocks.length + 2)) g (sc.Blocks.length + 1)) =
        some (some FalseV, sf) ∧
      v = .inst (sf.Insts.length + 1) ∧
      s1 = mergeState sf g (sc.Blocks.length + 2) TrueV st.InsertBlock FalseV
        sf.InsertBlock := by
  rw [ExprAST.codegen] at h
  rw [bind_eq_some] at h
  obtain ⟨rc, sc, hc, h⟩ := h
  cases rc with
  | none => have h0 := (pure_eq_some.mp h).1; cases h0
  | some CondV =>
    simp only [bind_eq_some, BasicBlockCreate_eq_some, GetInsertBlockParent_eq_some,
      Insert_eq_some, CreateLoad_eq_some, CreateStore_eq_some, SetInsertPoint_eq_some] at h
    obtain ⟨_, _, ⟨c0, blk0, hib, hblk, rfl, rfl⟩, _, _, ⟨rfl, rfl⟩, _, _, ⟨rfl, rfl⟩,
      _, _, ⟨rfl, rfl⟩, _, _, ⟨rfl, rfl⟩, _, _, rfl, rt, st, ht, h⟩ := h
    cases rt with
    | none => have h0 := (pure_eq_some.mp h).1; cases h0
    | some TrueV =>
      simp only [bind_eq_some, BasicBlockCreate_eq_some, GetInsertBlock_eq_some,
        Insert_eq_some, CreateLoad_eq_some, CreateStore_eq_some, SetInsertPoint_eq_some, FunctionInsert_eq_some] at h
      obtain ⟨_, _, ⟨rfl, rfl⟩, _, _, ⟨rfl, rfl⟩, _, _, ⟨g, hg, rfl⟩, _, _, rfl,
        rf, sf, hfl, h⟩ := h
      cases rf with
      | none => have h0 := (pure_eq_some.mp h).1; cases h0
      | some FalseV =>
        simp only [bind_eq_some, GetInsertBlock_eq_some, Insert_eq_some, CreateLoad_eq_some, CreateStore_eq_some,
          SetInsertPoint_eq_some, FunctionInsert_eq_some, addIncoming_eq_some,
          pure_eq_some] at h
        obtain ⟨_, _, ⟨rfl, rfl⟩, _, _, ⟨rfl, rfl⟩, _, _, ⟨g2, hg2, rfl⟩, _, _, rfl,
          _, _, ⟨rfl, rfl⟩, _, _, rfl, _, _, rfl, h0, rfl⟩ := h
        rw [hg] at hg2
        cases hg2
        rw [hg] at ht
        simp only [addBlock_Blocks_length] at ht hfl h0
        refine ⟨CondV, TrueV, FalseV, sc, st, sf, c0, g, hc, hib, ?_, getElem?_lt_of_some hblk,
          ht, hfl, ?_, ?_⟩
        · simp [State.parentOf, hblk, hg]
        · cases h0
          simp
        · simp [mergeState, enterBlock]

section
variable {L : LLVM} {I : State → Prop} {okB okF okE okI : Nat → Prop}

theorem enterBlock_keeps (hC : Closed L I okB okF okE okI) {s : State} {i : Instr} {g bb : Nat}
    (hI : I s) (ht : ∀ t ∈ Instr.targets i, okB t ∧ t < s.Blocks.length) (hg : okF g)
    (hb : okB bb) (hlt : bb < s.Blocks.length) : I (enterBlock s i g bb) := by
  unfold enterBlock
  exact hC.setInsertBlock _ _ (hC.attach _ _ _ (hC.addInst _ _ hI ht) hg hb (by simpa using hlt))
    hb (by simpa using hlt)

theorem ifBranchState_keeps (hC : Closed L I okB okF okE okI) {sc : State} {CondV : Value}
    {g : Nat} (hI : I sc) (hg : okF g) : I (ifBranchState sc CondV g) := by
  unfold ifBranchState
  have hA := hC.addBlock sc "trueexp" (some g) hI (by intro f e; cases e; exact hg)
  have hB := hC.addBlock _ "falseexp" none hA (by intro f e; cases e)
  have hD := hC.addBlock _ "endcond" none hB (by intro f e; cases e)
  have bT := hC.newB _ hI
  have bF := hC.newB _ hA
  rw [addBlock_Blocks_length] at bF
  refine hC.setInsertBlock _ _ (hC.addInst _ _ hD ?_) bT (by simp; omega)
  intro t ht
  simp only [Instr.targets, List.mem_cons, List.mem_singleton, List.not_mem_nil, or_false] at ht
  rcases ht with rfl | rfl
  · exact ⟨bT, by simp; omega⟩
  · exact ⟨bF, by simp⟩

theorem phi_keeps (hC : Closed L I okB okF okE okI) {s : State} {tv fv : Value}
    {tb fb : Option Nat} (hI : I s) :
    I (((s.addInst (.phi [])).addIncoming (.inst s.Insts.length) tv tb).addIncoming
      (.inst s.Insts.length) fv fb) := by
  have hi := hC.newI _ hI
  exact hC.addIncoming _ _ _ _ (hC.addIncoming _ _ _ _ (hC.plain hI rfl) hi) hi

theorem mergeState_eq (sf : State) (g m : Nat) (tv fv : Value) (tb fb : Option Nat) :
    mergeState sf g m tv tb fv fb =
      (((enterBlock sf (.br m) g m).addInst (.phi [])).addIncoming
        (.inst (enterBlock sf (.br m) g m).Insts.length) tv tb).addIncoming
        (.inst (enterBlock sf (.br m) g m).Insts.length) fv fb := by
  simp [mergeState, enterBlock]

theorem mergeState_keeps (hC : Closed L I okB okF okE okI) {sf : State} {g m : Nat}
    {tv fv : Value} {tb fb : Option Nat} (hI : I sf) (hm : okB m) (hlt : m < sf.Blocks.length)
    (hg : okF g) : I (mergeState sf g m tv tb fv fb) := by
  rw [mergeState_eq]
  refine phi_keeps hC (enterBlock_keeps hC hI ?_ hg hm hlt)
  intro t ht
  simp only [Instr.targets, List.mem_singleton] at ht
  subst ht
  exact ⟨hm, hlt⟩

end

/-! ### Facts established when an instruction is appended -/

theorem enterBlock_Insts (s : State) (i : Instr) (g bb : Nat) :
    (enterBlock s i g bb).Insts = s.Insts ++ [i] := rfl

theorem enterBlock_InsertBlock (s : State) (i : Instr) (g bb : Nat) :
    (enterBlock s i g bb).InsertBlock = some bb := rfl

theorem enterBlock_Blocks_length (s : State) (i : Instr) (g bb : Nat) :
    (enterBlock s i g bb).Blocks.length = s.Blocks.length := by
  simp [enterBlock]

theorem instsOf_enterBlock (s : State) (i : Instr) (g bb b : Nat) :
    (enterBlock s i g bb).instsOf b = (s.addInst i).instsOf b := by
  simp [enterBlock]

theorem ifBranchState_Blocks_length (sc : State) (CondV : Value) (g : Nat) :
    (ifBranchState sc CondV g).Blocks.length = sc.Blocks.length + 3 := by
  simp [ifBranchState]

theorem instsOf_addInst_cur {s : State} {c : Nat} (i : Instr) (hc : s.InsertBlock = some c)
    (hlt : c < s.Blocks.length) : (s.addInst i).instsOf c = s.instsOf c ++ [s.Insts.length] := by
  rw [instsOf_addInst, if_pos ⟨hc, hlt⟩]

theorem instsOf_addInst_other {s : State} {b : Nat} (i : Instr) (hc : s.InsertBlock ≠ some b) :
    (s.addInst i).instsOf b = s.instsOf b := by
  rw [instsOf_addInst, if_neg (fun e => hc e.1)]

/-- After the current block `c` is ended by `i` and the builder has moved to
another block, `c` ends with the new instruction. -/
theorem EndsWith_enterBlock {s : State} {c : Nat} (i : Instr) (g bb : Nat)
    (hc : s.InsertBlock = some c) (hlt : c < s.Blocks.length) (hne : bb ≠ c) :
    EndsWith c s.Insts.length (enterBlock s i g bb) ∧
      InstIs s.Insts.length i (enterBlock s i g bb) := by
  refine ⟨⟨?_, ?_⟩, ?_⟩
  · rw [enterBlock_InsertBlock]
    intro e; cases e; exact hne rfl
  · rw [instsOf_enterBlock, instsOf_addInst_cur i hc hlt, List.getLast?_append]
    simp
  · simp [InstIs, enterBlock_Insts]

theorem EndsWith_ifBranchState {sc : State} {origin : Nat} (CondV : Value) (g : Nat)
    (hc : sc.InsertBlock = some origin) (hlt : origin < sc.Blocks.length) :
    EndsWith origin sc.Insts.length (ifBranchState sc CondV g) ∧
      InstIs sc.Insts.length (.condBr CondV sc.Blocks.length (sc.Blocks.length + 1))
        (ifBranchState sc CondV g) := by
  refine ⟨⟨?_, ?_⟩, ?_⟩
  · simp only [ifBranchState, setInsertBlock_InsertBlock]
    intro e; cases e; omega
  · simp only [ifBranchState, instsOf_setInsertBlock]
    rw [instsOf_addInst_cur _ (by simpa using hc) (by simp; omega)]
    simp [List.getLast?_append]
  · simp [InstIs, ifBranchState]

/-- In a well-formed state the instruction appended to the current block sits in
that block only. -/
theorem OnlyIn_addInst {s : State} {c : Nat} (i : Instr) (hwf : s.WF)
    (hc : s.InsertBlock = some c) : OnlyIn s.Insts.length c (s.addInst i) := by
  refine ⟨by simp, ?_⟩
  intro b1 hb
  rw [instsOf_addInst] at hb
  split at hb
  · rename_i h1
    rw [hc] at h1
    cases h1.1
    rfl
  · exact absurd (hwf.2.1 b1 _ hb) (Nat.lt_irrefl _)

/-- In a well-formed state nothing branches to a block that does not exist yet. -/
theorem BranchesTo_of_wf {s : State} {m : Nat} (hwf : s.WF) (hm : s.Blocks.length ≤ m)
    (i : Nat) : s.Insts[i]? ≠ some (.br m) := by
  intro h
  have := hwf.2.2.1 i _ h m (by simp [Instr.targets])
  omega

theorem BranchesTo_addInst_br {s : State} {m : Nat} {A : List Nat} (h : BranchesTo m A s) :
    BranchesTo m (s.Insts.length :: A) (s.addInst (.br m)) := by
  refine ⟨by rw [addInst_Blocks_length]; exact h.1, ?_⟩
  intro j hj
  rw [addInst_Insts] at hj
  rcases getElem?_append_singleton hj with hj | ⟨rfl, _⟩
  · exact List.mem_cons_of_mem _ (h.2 j hj)
  · exact List.mem_cons_self _ _

theorem BranchesTo_mono {s : State} {m : Nat} {A B : List Nat} (h : BranchesTo m A s)
    (hAB : ∀ x, x ∈ A → x ∈ B) : BranchesTo m B s :=
  ⟨h.1, fun j hj => hAB j (h.2 j hj)⟩

theorem endsWith_of {s : State} {b j : Nat} {x : Instr} (h1 : EndsWith b j s)
    (h2 : InstIs j x s) : s.endsWith b x :=
  ⟨j, h1.2, h2⟩

theorem sampleEntry_wf : sampleEntry.WF :=
  (State.wf_closed plainLLVM).setInsertBlock _ _
    ((State.wf_closed plainLLVM).addBlock _ _ _
      ((State.wf_closed plainLLVM).addFunction _ _ _ State.wf_init) (fun _ _ => trivial))
    trivial (by decide)

theorem getElem?_addIncoming_phi (s : State) (id : Nat) (V : Value) (bb : Option Nat)
    (inc : List (Value × Option Nat)) (h : s.Insts[id]? = some (.phi inc)) :
    (s.addIncoming (.inst id) V bb).Insts[id]? = some (.phi (inc ++ [(V, bb)])) := by
  have hlt := getElem?_lt_of_some h
  unfold State.addIncoming
  simp only [h]
  rw [List.getElem?_set_self hlt]

theorem notPhi_br (m : Nat) : ∀ inc, Instr.br m ≠ .phi inc := by
  intro inc e; cases e

theorem notPhi_condBr (c : Value) (t f : Nat) : ∀ inc, Instr.condBr c t f ≠ .phi inc := by
  intro inc e; cases e

/-- C8: a conditional expression whose condition and branches generate
successfully returns a phi node that sits in the merge block and has exactly
two incoming entries, the true-branch value with the block current when the true
branch was finished and the false-branch value with the block current when the
false branch was finished; those two blocks are exactly the blocks ending with
an unconditional branch to the merge block, and the origin block ends with the
conditional branch on the condition to the true and the false block.  The
stores are assumed well-formed, as they are in every state generation reaches. -/
theorem IfExprAST_merge (L : LLVM) (Cond TrueExp FalseExp : ExprAST) (s s1 : State)
    (v : Value) (hwf : s.WF)
    (h : (ExprAST.IfExprAST Cond TrueExp FalseExp).codegen L s = some (some v, s1)) :
    ∃ (CondV TrueV FalseV : Value) (sc st sf : State) (origin tb fb g : Nat),
      Cond.codegen L s = some (some CondV, sc) ∧
      sc.InsertBlock = some origin ∧ sc.parentOf origin = some g ∧
      TrueExp.codegen L (ifBranchState sc CondV g) = some (some TrueV, st) ∧
      st.InsertBlock = some tb ∧
      FalseExp.codegen L
          (enterBlock st (.br (sc.Blocks.length + 2)) g (sc.Blocks.length + 1)) =
        some (some FalseV, sf) ∧
      sf.InsertBlock = some fb ∧
      v = .inst (sf.Insts.length + 1) ∧
      s1.Insts[sf.Insts.length + 1]? = some (.phi [(TrueV, some tb), (FalseV, some fb)]) ∧
      sf.Insts.length + 1 ∈ s1.instsOf (sc.Blocks.length + 2) ∧
      s1.InsertBlock = some (sc.Blocks.length + 2) ∧
      tb ≠ fb ∧
      (∀ b, s1.endsWith b (.br (sc.Blocks.length + 2)) ↔ (b = tb ∨ b = fb)) ∧
      s1.endsWith origin (.condBr CondV sc.Blocks.length (sc.Blocks.length + 1)) := by
  obtain ⟨CondV, TrueV, FalseV, sc, st, sf, origin, g, hc, hib, hpar, holt, ht, hf, rfl, rfl⟩ :=
    IfExprAST_shape L Cond TrueExp FalseExp s s1 v h
  -- well-formedness along the way
  have wfC := (ExprAST.codegen_keeps (State.wf_closed L) Cond _ _ _ hwf hc).1
  have wfA : (ifBranchState sc CondV g).WF := ifBranchState_keeps (State.wf_closed L) wfC trivial
  have kT := ExprAST.codegen_keeps (State.wf_closed L) TrueExp _ _ _ wfA ht
  have wfT := kT.1
  have leT : sc.Blocks.length + 3 ≤ st.Blocks.length := by
    have := kT.2; rw [ifBranchState_Blocks_length] at this; exact this
  have wfB : (enterBlock st (.br (sc.Blocks.length + 2)) g (sc.Blocks.length + 1)).WF :=
    enterBlock_keeps (State.wf_closed L) wfT
      (by intro t hm; simp only [Instr.targets, List.mem_singleton] at hm; subst hm
          exact ⟨trivial, by omega⟩) trivial trivial (by omega)
  have kF := ExprAST.codegen_keeps (State.wf_closed L) FalseExp _ _ _ wfB hf
  have wfF := kF.1
  have leF : st.Blocks.length ≤ sf.Blocks.length := by
    have := kF.2; rw [enterBlock_Blocks_length] at this; exact this
  -- where the builder stands after each branch
  have cT : CurFrom (sc.Blocks.length + 3) (some sc.Blocks.length) (ifBranchState sc CondV g) :=
    ⟨by rw [ifBranchState_Blocks_length], Or.inl rfl⟩
  have cT1 := (ExprAST.codegen_keeps (CurFrom.curFrom_closed L _ _) TrueExp _ _ _ cT ht).1
  obtain ⟨tb, htb, htblt, htbv⟩ : ∃ tb, st.InsertBlock = some tb ∧ tb < st.Blocks.length ∧
      (tb = sc.Blocks.length ∨ sc.Blocks.length + 3 ≤ tb) := by
    rcases cT1.2 with h1 | ⟨c1, h1, h2, h3⟩
    · exact ⟨_, h1, by omega, Or.inl rfl⟩
    · exact ⟨c1, h1, h3, Or.inr h2⟩
  have cF : CurFrom st.Blocks.length (some (sc.Blocks.length + 1))
      (enterBlock st (.br (sc.Blocks.length + 2)) g (sc.Blocks.length + 1)) :=
    ⟨by rw [enterBlock_Blocks_length], Or.inl rfl⟩
  have cF1 := (ExprAST.codegen_keeps (CurFrom.curFrom_closed L _ _) FalseExp _ _ _ cF hf).1
  obtain ⟨fb, hfb, hfblt, hfbv⟩ : ∃ fb, sf.InsertBlock = some fb ∧ fb < sf.Blocks.length ∧
      (fb = sc.Blocks.length + 1 ∨ st.Blocks.length ≤ fb) := by
    rcases cF1.2 with h1 | ⟨c1, h1, h2, h3⟩
    · exact ⟨_, h1, by omega, Or.inl rfl⟩
    · exact ⟨c1, h1, h3, Or.inr h2⟩
  have hne : tb ≠ fb := by omega
  -- the origin block keeps its conditional branch
  have hO : EndsWith origin sc.Insts.length
        (mergeState sf g (sc.Blocks.length + 2) TrueV st.InsertBlock FalseV sf.InsertBlock) ∧
      InstIs sc.Insts.length (.condBr CondV sc.Blocks.length (sc.Blocks.length + 1))
        (mergeState sf g (sc.Blocks.length + 2) TrueV st.InsertBlock FalseV sf.InsertBlock) := by
    have hcl := (EndsWith.endsWith_closed L origin sc.Insts.length).and
      (InstIs.instIs_closed L sc.Insts.length _ (notPhi_condBr CondV sc.Blocks.length
        (sc.Blocks.length + 1)))
    have h1 := EndsWith_ifBranchState CondV g hib holt
    have h2 := (ExprAST.codegen_keeps hcl TrueExp _ _ _ h1 ht).1
    have h3 : (fun s => EndsWith origin sc.Insts.length s ∧
        InstIs sc.Insts.length (.condBr CondV sc.Blocks.length (sc.Blocks.length + 1)) s)
        (enterBlock st (.br (sc.Blocks.length + 2)) g (sc.Blocks.length + 1)) :=
      enterBlock_keeps hcl h2
        (by intro t hm; simp only [Instr.targets, List.mem_singleton] at hm; subst hm
            exact ⟨⟨by omega, trivial⟩, by omega⟩) ⟨trivial, trivial⟩ ⟨by omega, trivial⟩
        (by omega)
    have h4 := (ExprAST.codegen_keeps hcl FalseExp _ _ _ h3 hf).1
    exact mergeState_keeps hcl h4 ⟨by omega, trivial⟩ (by omega) ⟨trivial, trivial⟩
  -- the block where the true branch finished keeps its branch to the merge block
  have hT : (EndsWith tb st.Insts.length
        (mergeState sf g (sc.Blocks.length + 2) TrueV st.InsertBlock FalseV sf.InsertBlock) ∧
      InstIs st.Insts.length (.br (sc.Blocks.length + 2))
        (mergeState sf g (sc.Blocks.length + 2) TrueV st.InsertBlock FalseV sf.InsertBlock)) ∧
      OnlyIn st.Insts.length tb
        (mergeState sf g (sc.Blocks.length + 2) TrueV st.InsertBlock FalseV sf.InsertBlock) := by
    have hcl := ((EndsWith.endsWith_closed L tb st.Insts.length).and
      (InstIs.instIs_closed L st.Insts.length _ (notPhi_br (sc.Blocks.length + 2)))).and
      (OnlyIn.onlyIn_closed L st.Insts.length tb)
    have h1 := EndsWith_enterBlock (.br (sc.Blocks.length + 2)) g (sc.Blocks.length + 1)
      htb htblt (by omega)
    have h1o : OnlyIn st.Insts.length tb
        (enterBlock st (.br (sc.Blocks.length + 2)) g (sc.Blocks.length + 1)) := by
      have := OnlyIn_addInst (.br (sc.Blocks.length + 2)) wfT htb
      unfold enterBlock
      exact (OnlyIn.onlyIn_closed L _ _).setInsertBlock _ _
        ((OnlyIn.onlyIn_closed L _ _).attach _ _ _ this trivial trivial (by simp; omega))
        trivial (by simp; omega)
    have h4 := (ExprAST.codegen_keeps hcl FalseExp _ _ _ ⟨h1, h1o⟩ hf).1
    exact mergeState_keeps hcl h4 ⟨⟨by omega, trivial⟩, trivial⟩ (by omega)
      ⟨⟨trivial, trivial⟩, trivial⟩
  -- the block where the false branch finished ends with its branch to the merge block
  have hF : (EndsWith fb sf.Insts.length
        (mergeState sf g (sc.Blocks.length + 2) TrueV st.InsertBlock FalseV sf.InsertBlock) ∧
      InstIs sf.Insts.length (.br (sc.Blocks.length + 2))
        (mergeState sf g (sc.Blocks.length + 2) TrueV st.InsertBlock FalseV sf.InsertBlock)) ∧
      OnlyIn sf.Insts.length fb
        (mergeState sf g (sc.Blocks.length + 2) TrueV st.InsertBlock FalseV sf.InsertBlock) := by
    have hcl := ((EndsWith.endsWith_closed L fb sf.Insts.length).and
      (InstIs.instIs_closed L sf.Insts.length _ (notPhi_br (sc.Blocks.length + 2)))).and
      (OnlyIn.onlyIn_closed L sf.Insts.length fb)
    have h1 := EndsWith_enterBlock (.br (sc.Blocks.length + 2)) g (sc.Blocks.length + 2)
      hfb hfblt (by omega)
    have h1o : OnlyIn sf.Insts.length fb
        (enterBlock sf (.br (sc.Blocks.length + 2)) g (sc.Blocks.length + 2)) := by
      have := OnlyIn_addInst (.br (sc.Blocks.length + 2)) wfF hfb
      unfold enterBlock
      exact (OnlyIn.onlyIn_closed L _ _).setInsertBlock _ _
        ((OnlyIn.onlyIn_closed L _ _).attach _ _ _ this trivial trivial (by simp; omega))
        trivial (by simp; omega)
    rw [mergeState_eq]
    exact phi_keeps hcl ⟨h1, h1o⟩
  -- no other instruction branches to the merge block
  have hB : BranchesTo (sc.Blocks.length + 2) [sf.Insts.length, st.Insts.length]
      (mergeState sf g (sc.Blocks.length + 2) TrueV st.InsertBlock FalseV sf.InsertBlock) := by
    have h0 : BranchesTo (sc.Blocks.length + 2) [] (ifBranchState sc CondV g) := by
      refine ⟨by rw [ifBranchState_Blocks_length]; omega, ?_⟩
      intro j hj
      have hj1 : (sc.Insts ++ [Instr.condBr CondV sc.Blocks.length (sc.Blocks.length + 1)])[j]? =
          some (.br (sc.Blocks.length + 2)) := hj
      rcases getElem?_append_singleton hj1 with hj1 | ⟨_, h0⟩
      · exact absurd hj1 (BranchesTo_of_wf wfC (by omega) j)
      · cases h0
    have h1 := (ExprAST.codegen_keeps (BranchesTo.branchesTo_closed L _ _) TrueExp _ _ _ h0 ht).1
    have h2 := BranchesTo_addInst_br h1
    have h3 : BranchesTo (sc.Blocks.length + 2) [st.Insts.length]
        (enterBlock st (.br (sc.Blocks.length + 2)) g (sc.Blocks.length + 1)) := by
      unfold enterBlock
      exact (BranchesTo.branchesTo_closed L _ _).setInsertBlock _ _
        ((BranchesTo.branchesTo_closed L _ _).attach _ _ _ h2 trivial (by omega)
          (by simp; omega)) (by omega) (by simp; omega)
    have h4 := (ExprAST.codegen_keeps (BranchesTo.branchesTo_closed L _ _) FalseExp _ _ _ h3 hf).1
    have h5 := BranchesTo_addInst_br h4
    have h6 : BranchesTo (sc.Blocks.length + 2) [sf.Insts.length, st.Insts.length]
        (enterBlock sf (.br (sc.Blocks.length + 2)) g (sc.Blocks.length + 2)) := by
      refine ⟨by rw [enterBlock_Blocks_length]; omega, fun j hj => h5.2 j ?_⟩
      rw [enterBlock_Insts] at hj
      rw [addInst_Insts]
      exact hj
    rw [mergeState_eq]
    exact phi_keeps (BranchesTo.branchesTo_closed L _ _) h6
  refine ⟨CondV, TrueV, FalseV, sc, st, sf, origin, tb, fb, g, hc, hib, hpar, ht, htb, hf, hfb,
    rfl, ?_, ?_, ?_, hne, ?_, endsWith_of hO.1 hO.2⟩
  · rw [mergeState_eq, enterBlock_Insts, List.length_append, List.length_singleton]
    rw [htb, hfb]
    have h0 : ((enterBlock sf (.br (sc.Blocks.length + 2)) g (sc.Blocks.length + 2)).addInst
        (.phi [])).Insts[sf.Insts.length + 1]? = some (.phi []) := by
      rw [addInst_Insts, enterBlock_Insts, List.getElem?_append_right (by simp)]
      simp
    exact getElem?_addIncoming_phi _ _ _ _ _ (getElem?_addIncoming_phi _ _ _ _ _ h0)
  · simp only [mergeState, instsOf_addIncoming]
    rw [instsOf_addInst_cur _ (enterBlock_InsertBlock _ _ _ _)
      (by rw [enterBlock_Blocks_length]; omega)]
    simp [enterBlock_Insts]
  · simp [mergeState, enterBlock]
  · intro b
    constructor
    · rintro ⟨j, hj1, hj2⟩
      have hmem := hB.2 j hj2
      have hjb : j ∈ (mergeState sf g (sc.Blocks.length + 2) TrueV st.InsertBlock FalseV
          sf.InsertBlock).instsOf b := List.mem_of_mem_getLast? hj1
      simp only [List.mem_cons, List.mem_singleton, List.not_mem_nil, or_false] at hmem
      rcases hmem with rfl | rfl
      · exact Or.inr (hF.2.2 b hjb)
      · exact Or.inl (hT.2.2 b hjb)
    · rintro (rfl | rfl)
      · exact endsWith_of hT.1.1 hT.1.2
      · exact endsWith_of hF.1.1 hF.1.2

/-- C8, at `if 1 then 2 else 3` in the body of `def f()`. -/
theorem IfExprAST_merge_witness :
    sampleEntry.WF ∧
    sampleIf.codegen plainLLVM sampleEntry =
      some (some (.inst 3), stateAfter (sampleIf.codegen plainLLVM) sampleEntry) ∧
    ∃ (CondV TrueV FalseV : Value) (sc st sf : State) (origin tb fb g : Nat),
      (ExprAST.NumberExprAST 1).codegen plainLLVM sampleEntry = some (some CondV, sc) ∧
      sc.InsertBlock = some origin ∧ sc.parentOf origin = some g ∧
      (ExprAST.NumberExprAST 2).codegen plainLLVM (ifBranchState sc CondV g) =
        some (some TrueV, st) ∧
      st.InsertBlock = some tb ∧
      (ExprAST.NumberExprAST 3).codegen plainLLVM
          (enterBlock st (.br (sc.Blocks.length + 2)) g (sc.Blocks.length + 1)) =
        some (some FalseV, sf) ∧
      sf.InsertBlock = some fb ∧
      Value.inst 3 = .inst (sf.Insts.length + 1) ∧
      (stateAfter (sampleIf.codegen plainLLVM) sampleEntry).Insts[sf.Insts.length + 1]? =
        some (.phi [(TrueV, some tb), (FalseV, some fb)]) ∧
      sf.Insts.length + 1 ∈
        (stateAfter (sampleIf.codegen plainLLVM) sampleEntry).instsOf (sc.Blocks.length + 2) ∧
      (stateAfter (sampleIf.codegen plainLLVM) sampleEntry).InsertBlock =
        some (sc.Blocks.length + 2) ∧
      tb ≠ fb ∧
      (∀ b, (stateAfter (sampleIf.codegen plainLLVM) sampleEntry).endsWith b
          (.br (sc.Blocks.length + 2)) ↔ (b = tb ∨ b = fb)) ∧
      (stateAfter (sampleIf.codegen plainLLVM) sampleEntry).endsWith origin
        (.condBr CondV sc.Blocks.length (sc.Blocks.length + 1)) :=
  ⟨sampleEntry_wf, by decide!,
    IfExprAST_merge plainLLVM (.NumberExprAST 1) (.NumberExprAST 2) (.NumberExprAST 3)
      sampleEntry (stateAfter (sampleIf.codegen plainLLVM) sampleEntry) (.inst 3)
      sampleEntry_wf (by decide!)⟩

/-! ## Claim C9: the control flow of a counted loop -/

/-- The steps of a successful `ForStmtAST::codegen`, one after the other. -/
theorem ForStmtAST_shape (L : LLVM) (Init : RootAST) (Binding : Bool) (Cond : ExprAST)
    (Update Body : RootAST) (s s1 : State) (v : Value)
    (h : (RootAST.ForStmtAST Init Binding Cond Update Body).codegen L s = some (some v, s1)) :
    ∃ (CounterAlloca CondV BodyV UpdateV : Value) (AllocaTmp : Option Value)
      (si sn sc sb su : State) (origin g : Nat),
      s.InsertBlock = some origin ∧ s.parentOf origin = some g ∧ origin < s.Blocks.length ∧
      Init.codegen L (loopBlocks s) = some (some CounterAlloca, si) ∧
      shadowCounter Init Binding CounterAlloca si = some (AllocaTmp, sn) ∧
      Cond.codegen L (enterBlock sn (.br s.Blocks.length) g s.Blocks.length) =
        some (some CondV, sc) ∧
      Body.codegen L
          (enterBlock sc (.condBr CondV (s.Blocks.length + 1) (s.Blocks.length + 3)) g
            (s.Blocks.length + 1)) = some (some BodyV, sb) ∧
      Update.codegen L (enterBlock sb (.br (s.Blocks.length + 2)) g (s.Blocks.length + 2)) =
        some (some UpdateV, su) ∧
      restoreCounter Init Binding AllocaTmp
          (enterBlock su (.br s.Blocks.length) g (s.Blocks.length + 3)) = some ((), s1) ∧
      v = zeroFP := by
  rw [RootAST.codegen] at h
  simp only [bind_eq_some, BasicBlockCreate_eq_some, GetInsertBlockParent_eq_some] at h
  obtain ⟨_, _, ⟨c0, blk0, hib, hblk, rfl, rfl⟩, _, _, ⟨rfl, rfl⟩, _, _, ⟨rfl, rfl⟩,
    _, _, ⟨rfl, rfl⟩, _, _, ⟨rfl, rfl⟩, ri, si, hi, h⟩ := h
  cases ri with
  | none => obtain ⟨h0, _⟩ := pure_eq_some.mp h; cases h0
  | some CounterAlloca =>
    simp only [bind_eq_some, Insert_eq_some, CreateLoad_eq_some, CreateStore_eq_some, SetInsertPoint_eq_some, FunctionInsert_eq_some] at h
    obtain ⟨AllocaTmp, sn, hsh, _, _, ⟨rfl, rfl⟩, _, _, ⟨g, hg, rfl⟩, _, _, rfl, rc, sc,
      hc, h⟩ := h
    cases rc with
    | none => have h0 := (pure_eq_some.mp h).1; cases h0
    | some CondV =>
      simp only [bind_eq_some, Insert_eq_some, CreateLoad_eq_some, CreateStore_eq_some, SetInsertPoint_eq_some,
        FunctionInsert_eq_some] at h
      obtain ⟨_, _, ⟨rfl, rfl⟩, _, _, ⟨g2, hg2, rfl⟩, _, _, rfl, rb, sb, hbd, h⟩ := h
      cases rb with
      | none => have h0 := (pure_eq_some.mp h).1; cases h0
      | some BodyV =>
        simp only [bind_eq_some, Insert_eq_some, CreateLoad_eq_some, CreateStore_eq_some, SetInsertPoint_eq_some,
          FunctionInsert_eq_some] at h
        obtain ⟨_, _, ⟨rfl, rfl⟩, _, _, ⟨g3, hg3, rfl⟩, _, _, rfl, ru, su, hu, h⟩ := h
        cases ru with
        | none => have h0 := (pure_eq_some.mp h).1; cases h0
        | some UpdateV =>
          simp only [bind_eq_some, Insert_eq_some, CreateLoad_eq_some, CreateStore_eq_some, SetInsertPoint_eq_some,
            FunctionInsert_eq_some, pure_eq_some] at h
          obtain ⟨_, _, ⟨rfl, rfl⟩, _, _, ⟨g4, hg4, rfl⟩, _, _, rfl, _, _, hr, h0, rfl⟩ := h
          rw [hg] at hg2 hg3 hg4
          cases hg2; cases hg3; cases hg4
          simp only [addBlock_Blocks_length] at hc hbd hu hr
          refine ⟨CounterAlloca, CondV, BodyV, UpdateV, AllocaTmp, si, sn, sc, sb, su, c0, g,
            hib, ?_, getElem?_lt_of_some hblk, hi, hsh, hc, hbd, hu, hr, ?_⟩
          · simp [State.parentOf, hblk, hg]
          · cases h0; rfl

theorem targets_br {P : Nat → Prop} {n : Nat} (h : P n) : ∀ t ∈ Instr.targets (.br n), P t := by
  intro t ht
  simp only [Instr.targets, List.mem_singleton] at ht
  subst ht; exact h

theorem targets_condBr {P : Nat → Prop} {c : Value} {n m : Nat} (h1 : P n) (h2 : P m) :
    ∀ t ∈ Instr.targets (.condBr c n m), P t := by
  intro t ht
  simp only [Instr.targets, List.mem_cons, List.mem_singleton, List.not_mem_nil, or_false] at ht
  rcases ht with rfl | rfl
  · exact h1
  · exact h2

theorem shadowCounter_cases {Init : RootAST} {Binding : Bool} {a : Value} {s s1 : State}
    {r : Option Value} (h : shadowCounter Init Binding a s = some (r, s1)) :
    s1 = s ∨ ∃ n v, s1 = s.setNamed n v := by
  unfold shadowCounter at h
  cases Binding with
  | true =>
    simp only [if_true] at h
    cases hn : ForInitAST.getName Init with
    | none => rw [hn] at h; simp only [crash_eq_some] at h
    | some n =>
      rw [hn] at h
      simp only [bind_eq_some, getNamed_eq_some, setNamed_eq_some, pure_eq_some] at h
      obtain ⟨_, _, ⟨rfl, rfl⟩, _, _, rfl, _, rfl⟩ := h
      exact Or.inr ⟨_, _, rfl⟩
  | false =>
    simp only [Bool.false_eq_true, if_false] at h
    exact Or.inl (pure_eq_some.mp h).2.symm

theorem restoreCounter_cases {Init : RootAST} {Binding : Bool} {a : Option Value} {s s1 : State}
    {r : Unit} (h : restoreCounter Init Binding a s = some (r, s1)) :
    s1 = s ∨ ∃ n v, s1 = s.setNamed n v := by
  unfold restoreCounter at h
  cases Binding with
  | true =>
    simp only [if_true] at h
    cases hn : ForInitAST.getName Init with
    | none => rw [hn] at h; simp only [crash_eq_some] at h
    | some n =>
      rw [hn] at h
      rw [setNamed_eq_some] at h
      exact Or.inr ⟨_, _, h⟩
  | false =>
    simp only [Bool.false_eq_true, if_false] at h
    exact Or.inl (pure_eq_some.mp h).2.symm

section
variable {L : LLVM} {I : State → Prop} {okB okF okE okI : Nat → Prop}

/-- Entering a block keeps an invariant that no appended instruction disturbs. -/
theorem enterBlock_keeps_of (hC : Closed L I okB okF okE okI)
    (hadd : ∀ s i, I s → I (s.addInst i)) {s : State} {i : Instr} {g bb : Nat}
    (hI : I s) (hg : okF g) (hb : okB bb) (hlt : bb < s.Blocks.length) :
    I (enterBlock s i g bb) := by
  unfold enterBlock
  exact hC.setInsertBlock _ _ (hC.attach _ _ _ (hadd _ _ hI) hg hb (by simpa using hlt))
    hb (by simpa using hlt)

/-- The last step of the loop: from the end of the update to the exit block. -/
theorem loopExit_keeps (hC : Closed L I okB okF okE okI)
    (hadd : ∀ s i, I s → I (s.addInst i)) {Init : RootAST} {Binding : Bool}
    {a : Option Value} {su s1 : State} {n g : Nat} (hI : I su)
    (hlt : n + 3 < su.Blocks.length) (hg : okF g) (h3 : okB (n + 3))
    (hr : restoreCounter Init Binding a (enterBlock su (.br n) g (n + 3)) = some ((), s1)) :
    I s1 :=
  (restoreCounter_keeps hC (enterBlock_keeps_of hC hadd hI hg h3 hlt) hr).1

/-- From the end of the body to the exit block. -/
theorem loopLatch_keeps (hC : Closed L I okB okF okE okI)
    (hadd : ∀ s i, I s → I (s.addInst i)) {Init Update : RootAST}
    {Binding : Bool} {a : Option Value} {sb su s1 : State} {n g : Nat} {r : Option Value}
    (hI : I sb) (hlt : n + 3 < sb.Blocks.length) (hg : okF g) (h2 : okB (n + 2))
    (h3 : okB (n + 3))
    (hu : Update.codegen L (enterBlock sb (.br (n + 2)) g (n + 2)) = some (r, su))
    (hr : restoreCounter Init Binding a (enterBlock su (.br n) g (n + 3)) = some ((), s1)) :
    I s1 := by
  have k := RootAST.root_keeps hC Update _ _ _
    (enterBlock_keeps_of hC hadd hI hg h2 (by omega)) hu
  have hl := k.2
  rw [enterBlock_Blocks_length] at hl
  exact loopExit_keeps hC hadd k.1 (by omega) hg h3 hr

/-- From the end of the condition to the exit block. -/
theorem loopBody_keeps (hC : Closed L I okB okF okE okI)
    (hadd : ∀ s i, I s → I (s.addInst i)) {Init Update Body : RootAST}
    {Binding : Bool} {a : Option Value} {sc sb su s1 : State} {n g : Nat} {CondV : Value}
    {r1 r2 : Option Value}
    (hI : I sc) (hlt : n + 3 < sc.Blocks.length) (hg : okF g) (h1 : okB (n + 1))
    (h2 : okB (n + 2)) (h3 : okB (n + 3))
    (hbd : Body.codegen L (enterBlock sc (.condBr CondV (n + 1) (n + 3)) g (n + 1)) =
      some (r1, sb))
    (hu : Update.codegen L (enterBlock sb (.br (n + 2)) g (n + 2)) = some (r2, su))
    (hr : restoreCounter Init Binding a (enterBlock su (.br n) g (n + 3)) = some ((), s1)) :
    I s1 := by
  have k := RootAST.root_keeps hC Body _ _ _
    (enterBlock_keeps_of hC hadd hI hg h1 (by omega)) hbd
  have hl := k.2
  rw [enterBlock_Blocks_length] at hl
  exact loopLatch_keeps hC hadd k.1 (by omega) hg h2 h3 hu hr

theorem loopBlocks_keeps (hC : Closed L I okB okF okE okI) {s : State} (hI : I s) :
    I (loopBlocks s) := by
  unfold loopBlocks
  have hn : ∀ f, (none : Option Nat) = some f → okF f := by intro f e; cases e
  exact hC.addBlock _ _ _ (hC.addBlock _ _ _ (hC.addBlock _ _ _ (hC.addBlock _ _ _ hI hn) hn) hn)
    hn

end

theorem EndsWith_addInst {b j : Nat} {x : Instr} (s : State) (i : Instr)
    (h : EndsWith b j s ∧ InstIs j x s) :
    EndsWith b j (s.addInst i) ∧ InstIs j x (s.addInst i) := by
  obtain ⟨⟨h1, h2⟩, h3⟩ := h
  refine ⟨⟨by simpa using h1, by rw [instsOf_addInst_other i h1]; exact h2⟩, ?_⟩
  unfold InstIs at h3 ⊢
  rw [addInst_Insts, List.getElem?_append_left (getElem?_lt_of_some h3)]
  exact h3

theorem Untouched_addInst {s : State} {b : Nat} (i : Instr) (h : Untouched b s) :
    Untouched b (s.addInst i) := by
  obtain ⟨h1, h2, h3, h4, h5⟩ := h
  refine ⟨by rw [addInst_Blocks_length]; exact h1, ?_, by rw [parentOf_addInst]; exact h3,
    h4, h5⟩
  rw [instsOf_addInst_other i h4]; exact h2

theorem Untouched_enterBlock {L : LLVM} {s : State} {b : Nat} (i : Instr) (g bb : Nat)
    (h : Untouched b s) (hne : bb ≠ b) (hlt : bb < s.Blocks.length) :
    Untouched b (enterBlock s i g bb) := by
  unfold enterBlock
  exact (Untouched.untouched_closed L b).setInsertBlock _ _
    ((Untouched.untouched_closed L b).attach _ _ _ (Untouched_addInst i h) trivial hne
      (by simpa using hlt)) hne (by simpa using hlt)

theorem loopBlocks_Blocks_length (s : State) :
    (loopBlocks s).Blocks.length = s.Blocks.length + 4 := by
  simp [loopBlocks]

theorem loopBlocks_InsertBlock (s : State) : (loopBlocks s).InsertBlock = s.InsertBlock := by
  simp [loopBlocks]

theorem Untouched_loopBlocks {s : State} {origin : Nat} (hwf : s.WF)
    (hib : s.InsertBlock = some origin) (hlt : origin < s.Blocks.length) :
    Untouched (s.Blocks.length + 3) (loopBlocks s) := by
  refine ⟨by rw [loopBlocks_Blocks_length]; omega, ?_, ?_, ?_, ?_⟩
  · simp only [loopBlocks, instsOf_addBlock]
    unfold State.instsOf
    rw [List.getElem?_eq_none (by omega)]
  · simp [loopBlocks, parentOf_addBlock]
  · rw [loopBlocks_InsertBlock, hib]
    intro e; cases e; omega
  · intro f hm
    have : (loopBlocks s).blocksOf f = s.blocksOf f := by
      simp [loopBlocks, blocksOf_addBlock]
    rw [this] at hm
    have := hwf.1 f _ hm
    omega

theorem CurFrom.current {n : Nat} {c : Nat} {s : State} (h : CurFrom n (some c) s)
    (hc : c < s.Blocks.length) :
    ∃ b, s.InsertBlock = some b ∧ b < s.Blocks.length ∧ (b = c ∨ n ≤ b) := by
  rcases h.2 with h1 | ⟨c1, h1, h2, h3⟩
  · exact ⟨c, h1, hc, Or.inl rfl⟩
  · exact ⟨c1, h1, h3, Or.inr h2⟩

/-- C9: a counted loop whose initializer, condition, body and update generate
successfully leaves this control flow: the block where the initializer finished
ends with a branch to the header, where the condition is generated; the block
where the condition finished ends with the conditional branch on the condition
to the body block and the exit block; the block where the body finished ends
with a branch to the latch, where the update is generated; the block where the
update finished ends with a branch back to the header; the builder stands at the
exit block, which exists and is empty; and the result is the constant 0.0.  The
stores are assumed well-formed, as they are in every state generation reaches. -/
theorem ForStmtAST_control_flow (L : LLVM) (Init : RootAST) (Binding : Bool) (Cond : ExprAST)
    (Update Body : RootAST) (s s1 : State) (v : Value) (hwf : s.WF)
    (h : (RootAST.ForStmtAST Init Binding Cond Update Body).codegen L s = some (some v, s1)) :
    ∃ (CounterAlloca CondV BodyV UpdateV : Value) (AllocaTmp : Option Value)
      (si sn sc sb su : State) (g ib cb bb ub : Nat),
      Init.codegen L (loopBlocks s) = some (some CounterAlloca, si) ∧
      si.InsertBlock = some ib ∧
      shadowCounter Init Binding CounterAlloca si = some (AllocaTmp, sn) ∧
      Cond.codegen L (enterBlock sn (.br s.Blocks.length) g s.Blocks.length) =
        some (some CondV, sc) ∧
      sc.InsertBlock = some cb ∧
      Body.codegen L
          (enterBlock sc (.condBr CondV (s.Blocks.length + 1) (s.Blocks.length + 3)) g
            (s.Blocks.length + 1)) = some (some BodyV, sb) ∧
      sb.InsertBlock = some bb ∧
      Update.codegen L (enterBlock sb (.br (s.Blocks.length + 2)) g (s.Blocks.length + 2)) =
        some (some UpdateV, su) ∧
      su.InsertBlock = some ub ∧
      s1.endsWith ib (.br s.Blocks.length) ∧
      s1.endsWith cb (.condBr CondV (s.Blocks.length + 1) (s.Blocks.length + 3)) ∧
      s1.endsWith bb (.br (s.Blocks.length + 2)) ∧
      s1.endsWith ub (.br s.Blocks.length) ∧
      s1.InsertBlock = some (s.Blocks.length + 3) ∧
      s.Blocks.length + 3 < s1.Blocks.length ∧
      s1.instsOf (s.Blocks.length + 3) = [] ∧
      v = zeroFP := by
  obtain ⟨CounterAlloca, CondV, BodyV, UpdateV, AllocaTmp, si, sn, sc, sb, su, origin, g,
    hib, hpar, holt, hi, hsh, hc, hbd, hu, hr, rfl⟩ :=
    ForStmtAST_shape L Init Binding Cond Update Body s s1 v h
  -- the block store only grows
  have kI := RootAST.root_keeps (State.wf_closed L) Init _ _ _
    (loopBlocks_keeps (State.wf_closed L) hwf) hi
  have lI : s.Blocks.length + 4 ≤ si.Blocks.length := by
    have := kI.2; rw [loopBlocks_Blocks_length] at this; exact this
  have kN := shadowCounter_keeps (State.wf_closed L) kI.1 hsh
  have lN := kN.2
  have kC := ExprAST.codegen_keeps (State.wf_closed L) Cond _ _ _
    (enterBlock_keeps (State.wf_closed L) kN.1 (targets_br ⟨trivial, by omega⟩) trivial trivial
      (by omega)) hc
  have lC := kC.2
  rw [enterBlock_Blocks_length] at lC
  have kB := RootAST.root_keeps (State.wf_closed L) Body _ _ _
    (enterBlock_keeps (State.wf_closed L) kC.1
      (targets_condBr ⟨trivial, by omega⟩ ⟨trivial, by omega⟩) trivial trivial (by omega)) hbd
  have lB := kB.2
  rw [enterBlock_Blocks_length] at lB
  have kU := RootAST.root_keeps (State.wf_closed L) Update _ _ _
    (enterBlock_keeps (State.wf_closed L) kB.1 (targets_br ⟨trivial, by omega⟩) trivial trivial
      (by omega)) hu
  have lU := kU.2
  rw [enterBlock_Blocks_length] at lU
  -- where the builder stands after each part
  have hsnI : sn.InsertBlock = si.InsertBlock := by
    rcases shadowCounter_cases hsh with e | ⟨_, _, e⟩ <;> subst e <;> rfl
  obtain ⟨ib, hibI, hiblt, hibv⟩ :=
    (RootAST.root_keeps (CurFrom.curFrom_closed L _ _) Init _ _ _
      (show CurFrom (s.Blocks.length + 4) (some origin) (loopBlocks s) from
        ⟨by rw [loopBlocks_Blocks_length], Or.inl (by rw [loopBlocks_InsertBlock, hib])⟩)
      hi).1.current (by omega)
  obtain ⟨cb, hcbI, hcblt, hcbv⟩ :=
    (ExprAST.codegen_keeps (CurFrom.curFrom_closed L _ _) Cond _ _ _
      (show CurFrom sn.Blocks.length (some s.Blocks.length)
          (enterBlock sn (.br s.Blocks.length) g s.Blocks.length) from
        ⟨by rw [enterBlock_Blocks_length], Or.inl rfl⟩) hc).1.current (by omega)
  obtain ⟨bb, hbbI, hbblt, hbbv⟩ :=
    (RootAST.root_keeps (CurFrom.curFrom_closed L _ _) Body _ _ _
      (show CurFrom sc.Blocks.length (some (s.Blocks.length + 1))
          (enterBlock sc (.condBr CondV (s.Blocks.length + 1) (s.Blocks.length + 3)) g
            (s.Blocks.length + 1)) from
        ⟨by rw [enterBlock_Blocks_length], Or.inl rfl⟩) hbd).1.current (by omega)
  obtain ⟨ub, hubI, hublt, hubv⟩ :=
    (RootAST.root_keeps (CurFrom.curFrom_closed L _ _) Update _ _ _
      (show CurFrom sb.Blocks.length (some (s.Blocks.length + 2))
          (enterBlock sb (.br (s.Blocks.length + 2)) g (s.Blocks.length + 2)) from
        ⟨by rw [enterBlock_Blocks_length], Or.inl rfl⟩) hu).1.current (by omega)
  -- the four block endings
  have eI : s1.endsWith ib (.br s.Blocks.length) := by
    have hcl := (EndsWith.endsWith_closed L ib sn.Insts.length).and
      (InstIs.instIs_closed L sn.Insts.length _ (notPhi_br s.Blocks.length))
    have h1 := EndsWith_enterBlock (.br s.Blocks.length) g s.Blocks.length
      (hsnI.trans hibI) (by omega) (by omega)
    have h2 := ExprAST.codegen_keeps hcl Cond _ _ _ h1 hc
    have h3 := loopBody_keeps hcl EndsWith_addInst h2.1 (by omega) ⟨trivial, trivial⟩
      ⟨by omega, trivial⟩ ⟨by omega, trivial⟩ ⟨by omega, trivial⟩ hbd hu hr
    exact endsWith_of h3.1 h3.2
  have eC : s1.endsWith cb (.condBr CondV (s.Blocks.length + 1) (s.Blocks.length + 3)) := by
    have hcl := (EndsWith.endsWith_closed L cb sc.Insts.length).and
      (InstIs.instIs_closed L sc.Insts.length _
        (notPhi_condBr CondV (s.Blocks.length + 1) (s.Blocks.length + 3)))
    have h1 := EndsWith_enterBlock (.condBr CondV (s.Blocks.length + 1) (s.Blocks.length + 3))
      g (s.Blocks.length + 1) hcbI hcblt (by omega)
    have h2 := RootAST.root_keeps hcl Body _ _ _ h1 hbd
    have h3 := loopLatch_keeps hcl EndsWith_addInst h2.1 (by omega) ⟨trivial, trivial⟩
      ⟨by omega, trivial⟩ ⟨by omega, trivial⟩ hu hr
    exact endsWith_of h3.1 h3.2
  have eB : s1.endsWith bb (.br (s.Blocks.length + 2)) := by
    have hcl := (EndsWith.endsWith_closed L bb sb.Insts.length).and
      (InstIs.instIs_closed L sb.Insts.length _ (notPhi_br (s.Blocks.length + 2)))
    have h1 := EndsWith_enterBlock (.br (s.Blocks.length + 2)) g (s.Blocks.length + 2)
      hbbI hbblt (by omega)
    have h2 := RootAST.root_keeps hcl Update _ _ _ h1 hu
    have h3 := loopExit_keeps hcl EndsWith_addInst h2.1 (by omega) ⟨trivial, trivial⟩
      ⟨by omega, trivial⟩ hr
    exact endsWith_of h3.1 h3.2
  have eU : s1.endsWith ub (.br s.Blocks.length) := by
    have hcl := (EndsWith.endsWith_closed L ub su.Insts.length).and
      (InstIs.instIs_closed L su.Insts.length _ (notPhi_br s.Blocks.length))
    have h1 := EndsWith_enterBlock (.br s.Blocks.length) g (s.Blocks.length + 3)
      hubI hublt (by omega)
    have h3 := (restoreCounter_keeps hcl h1 hr).1
    exact endsWith_of h3.1 h3.2
  -- the exit block stays untouched until it is attached
  have uE : Untouched (s.Blocks.length + 3) su := by
    have hcl := Untouched.untouched_closed L (s.Blocks.length + 3)
    have h1 := (RootAST.root_keeps hcl Init _ _ _ (Untouched_loopBlocks hwf hib holt) hi).1
    have h2 := (shadowCounter_keeps hcl h1 hsh).1
    have h3 := (ExprAST.codegen_keeps hcl Cond _ _ _
      (Untouched_enterBlock (L := L) (.br s.Blocks.length) g s.Blocks.length h2 (by omega)
        (by omega)) hc).1
    have h4 := (RootAST.root_keeps hcl Body _ _ _
      (Untouched_enterBlock (L := L) _ g (s.Blocks.length + 1) h3 (by omega) (by omega)) hbd).1
    exact (RootAST.root_keeps hcl Update _ _ _
      (Untouched_enterBlock (L := L) _ g (s.Blocks.length + 2) h4 (by omega) (by omega)) hu).1
  have hE : (enterBlock su (.br s.Blocks.length) g (s.Blocks.length + 3)).instsOf
      (s.Blocks.length + 3) = [] := by
    rw [instsOf_enterBlock, instsOf_addInst_other _ uE.2.2.2.1]
    exact uE.2.1
  refine ⟨CounterAlloca, CondV, BodyV, UpdateV, AllocaTmp, si, sn, sc, sb, su, g, ib, cb, bb, ub,
    hi, hibI, hsh, hc, hcbI, hbd, hbbI, hu, hubI, eI, eC, eB, eU, ?_, ?_, ?_, rfl⟩
  · rcases restoreCounter_cases hr with e | ⟨_, _, e⟩ <;> rw [e] <;> rfl
  · rcases restoreCounter_cases hr with e | ⟨_, _, e⟩ <;> rw [e] <;>
      simp only [setNamed_Blocks, enterBlock_Blocks_length] <;> omega
  · rcases restoreCounter_cases hr with e | ⟨_, _, e⟩ <;> rw [e]
    · exact hE
    · rw [instsOf_setNamed]; exact hE

/-- C9, at `for (var i = 0; i < 3; i = i + 1) i` in the body of `def f()`. -/
theorem ForStmtAST_control_flow_witness :
    sampleEntry.WF ∧
    countingLoop.codegen plainLLVM sampleEntry =
      some (some zeroFP, stateAfter (countingLoop.codegen plainLLVM) sampleEntry) ∧
    ∃ (CounterAlloca CondV BodyV UpdateV : Value) (AllocaTmp : Option Value)
      (si sn sc sb su : State) (g ib cb bb ub : Nat),
      (RootAST.binding (.scalar "i" (some (.NumberExprAST 0)))).codegen plainLLVM
        (loopBlocks sampleEntry) = some (some CounterAlloca, si) ∧
      si.InsertBlock = some ib ∧
      shadowCounter (.binding (.scalar "i" (some (.NumberExprAST 0)))) true CounterAlloca si =
        some (AllocaTmp, sn) ∧
      (ExprAST.BinaryExprAST '<' (.VariableExprAST "i") (some (.NumberExprAST 3))).codegen
          plainLLVM (enterBlock sn (.br sampleEntry.Blocks.length) g sampleEntry.Blocks.length) =
        some (some CondV, sc) ∧
      sc.InsertBlock = some cb ∧
      (RootAST.expr (.VariableExprAST "i")).codegen plainLLVM
          (enterBlock sc
            (.condBr CondV (sampleEntry.Blocks.length + 1) (sampleEntry.Blocks.length + 3)) g
            (sampleEntry.Blocks.length + 1)) = some (some BodyV, sb) ∧
      sb.InsertBlock = some bb ∧
      (RootAST.AssignmentAST "i"
          (.BinaryExprAST '+' (.VariableExprAST "i") (some (.NumberExprAST 1)))).codegen
          plainLLVM
          (enterBlock sb (.br (sampleEntry.Blocks.length + 2)) g
            (sampleEntry.Blocks.length + 2)) = some (some UpdateV, su) ∧
      su.InsertBlock = some ub ∧
      (stateAfter (countingLoop.codegen plainLLVM) sampleEntry).endsWith ib
        (.br sampleEntry.Blocks.length) ∧
      (stateAfter (countingLoop.codegen plainLLVM) sampleEntry).endsWith cb
        (.condBr CondV (sampleEntry.Blocks.length + 1) (sampleEntry.Blocks.length + 3)) ∧
      (stateAfter (countingLoop.codegen plainLLVM) sampleEntry).endsWith bb
        (.br (sampleEntry.Blocks.length + 2)) ∧
      (stateAfter (countingLoop.codegen plainLLVM) sampleEntry).endsWith ub
        (.br sampleEntry.Blocks.length) ∧
      (stateAfter (countingLoop.codegen plainLLVM) sampleEntry).InsertBlock =
        some (sampleEntry.Blocks.length + 3) ∧
      sampleEntry.Blocks.length + 3 <
        (stateAfter (countingLoop.codegen plainLLVM) sampleEntry).Blocks.length ∧
      (stateAfter (countingLoop.codegen plainLLVM) sampleEntry).instsOf
        (sampleEntry.Blocks.length + 3) = [] ∧
      zeroFP = zeroFP :=
  ⟨sampleEntry_wf, by decide!,
    ForStmtAST_control_flow plainLLVM (.binding (.scalar "i" (some (.NumberExprAST 0)))) true
      (.BinaryExprAST '<' (.VariableExprAST "i") (some (.NumberExprAST 3)))
      (.AssignmentAST "i"
        (.BinaryExprAST '+' (.VariableExprAST "i") (some (.NumberExprAST 1))))
      (.expr (.VariableExprAST "i")) sampleEntry
      (stateAfter (countingLoop.codegen plainLLVM) sampleEntry) zeroFP sampleEntry_wf
      (by decide!)⟩

/-! ## Objects created before a function definition stay as they are -/

theorem mem_moduleNames {s : State} {N : String} :
    N ∈ s.moduleNames ↔
      (∃ f, f ∈ s.FunctionList ∧ s.nameOf f = some N) ∨ (∃ gv, gv ∈ s.Globals ∧ gv.Name = N) := by
  unfold State.moduleNames State.nameOf
  simp only [List.mem_append, List.mem_filterMap, List.mem_map]

theorem moduleNames_congr {s s1 : State} {N : String} (h : N ∈ s.moduleNames)
    (hl : ∀ f, f ∈ s.FunctionList → f ∈ s1.FunctionList)
    (hn : ∀ f, f ∈ s.FunctionList → s.nameOf f = some N → s1.nameOf f = some N)
    (hg : ∀ gv, gv ∈ s.Globals → gv ∈ s1.Globals) : N ∈ s1.moduleNames := by
  rw [mem_moduleNames] at h ⊢
  rcases h with ⟨f, h1, h2⟩ | ⟨gv, h1, h2⟩
  · exact Or.inl ⟨f, hl f h1, hn f h1 h2⟩
  · exact Or.inr ⟨gv, hg gv h1, h2⟩

theorem getElem?_addInst_Blocks {s : State} (i : Instr) {b : Nat} (h : s.InsertBlock ≠ some b) :
    (s.addInst i).Blocks[b]? = s.Blocks[b]? := by
  unfold State.addInst
  cases hc : s.InsertBlock with
  | none => rfl
  | some c =>
    simp only [getElem?_appendInst]
    rw [if_neg]
    intro e; subst e; exact h hc

theorem getElem?_addAlloca_Blocks (s : State) (e : Nat) (ty : Ty) (n : String) {b : Nat}
    (h : b ≠ e) : (s.addAlloca e ty n).Blocks[b]? = s.Blocks[b]? := by
  unfold State.addAlloca
  simp only [getElem?_prependInst]
  rw [if_neg h]

theorem getElem?_attach_Blocks (s : State) (f x : Nat) {b : Nat} (h : b ≠ x) :
    (s.attach f x).Blocks[b]? = s.Blocks[b]? := by
  unfold State.attach
  simp only [getElem?_setParent]
  rw [if_neg h]

theorem getElem?_attach_Functions (s : State) (f x : Nat) {g : Nat} (h : g ≠ f) :
    (s.attach f x).Functions[g]? = s.Functions[g]? := by
  unfold State.attach
  simp only [getElem?_appendBlock]
  rw [if_neg h]

theorem getElem?_addBlock_Blocks (s : State) (n : String) (p : Option Nat) {b : Nat}
    (h : b < s.Blocks.length) : (s.addBlock n p).Blocks[b]? = s.Blocks[b]? := by
  unfold State.addBlock
  simp only
  rw [List.getElem?_append_left h]

theorem getElem?_addBlock_Functions (s : State) (n : String) (p : Option Nat) {g : Nat}
    (h : ∀ f, p = some f → g ≠ f) : (s.addBlock n p).Functions[g]? = s.Functions[g]? := by
  unfold State.addBlock
  cases p with
  | none => rfl
  | some f =>
    simp only [getElem?_appendBlock]
    rw [if_neg (h f rfl)]

/-- A step that leaves the module alone keeps the module part of `Fresh`. -/
theorem fresh_of_module {s0 s s1 : State} {N : String} (h : Fresh s0 N s)
    (hF : s1.Functions = s.Functions) (hL : s1.FunctionList = s.FunctionList)
    (hG : s1.Globals = s.Globals)
    (blocks : ∀ (b : Nat) (blk : BasicBlock), s0.Blocks[b]? = some blk →
      s1.Blocks[b]? = some blk)
    (insts : ∀ (i : Nat) (x : Instr), s0.Insts[i]? = some x → s1.Insts[i]? = some x)
    (cur : ∀ c : Nat, s1.InsertBlock = some c → s0.Blocks.length ≤ c)
    (parents : ∀ b f : Nat, s0.Blocks.length ≤ b → s1.parentOf b = some f →
      s0.Functions.length ≤ f)
    (nB : s0.Blocks.length ≤ s1.Blocks.length) (nI : s0.Insts.length ≤ s1.Insts.length) :
    Fresh s0 N s1 where
  funs := by rw [hF]; exact h.funs
  blocks := blocks
  insts := insts
  globals := by rw [hG]; exact h.globals
  cur := cur
  parents := parents
  lists := by
    intro f b hf hb
    have : s1.blocksOf f = s.blocksOf f := by unfold State.blocksOf; rw [hF]
    rw [this] at hb
    exact h.lists f b hf hb
  linked := by
    obtain ⟨rest, h1, h2⟩ := h.linked
    refine ⟨rest, by rw [hL]; exact h1, ?_⟩
    intro g hg
    have : s1.nameOf g = s.nameOf g := by unfold State.nameOf; rw [hF]
    rw [this]
    exact h2 g hg
  taken := by
    have : s1.moduleNames = s.moduleNames := by unfold State.moduleNames; rw [hF, hL, hG]
    rw [this]; exact h.taken
  nF := by rw [hF]; exact h.nF
  nB := nB
  nI := nI

/-- A step that leaves blocks, instructions and the builder alone keeps that
part of `Fresh`. -/
theorem fresh_of_blocks {s0 s s1 : State} {N : String} (h : Fresh s0 N s)
    (hB : s1.Blocks = s.Blocks) (hI : s1.Insts = s.Insts)
    (hC : s1.InsertBlock = s.InsertBlock)
    (funs : ∀ (f : Nat) (fn : Function), s0.Functions[f]? = some fn →
      s1.Functions[f]? = some fn)
    (globals : ∃ rest, s1.Globals = s0.Globals ++ rest)
    (lists : ∀ f b : Nat, s0.Functions.length ≤ f → b ∈ s1.blocksOf f →
      s0.Blocks.length ≤ b)
    (linked : ∃ rest, s1.FunctionList = s0.FunctionList ++ s0.Functions.length :: rest ∧
      ∀ g ∈ rest, s0.Functions.length < g ∧ s1.nameOf g ≠ some N)
    (taken : N ∈ s1.moduleNames) (nF : s0.Functions.length < s1.Functions.length) :
    Fresh s0 N s1 where
  funs := funs
  blocks := by rw [hB]; exact h.blocks
  insts := by rw [hI]; exact h.insts
  globals := globals
  cur := by rw [hC]; exact h.cur
  parents := by
    intro b f hb hp
    have : s1.parentOf b = s.parentOf b := by unfold State.parentOf; rw [hB]
    rw [this] at hp
    exact h.parents b f hb hp
  lists := lists
  linked := linked
  taken := taken
  nF := nF
  nB := by rw [hB]; exact h.nB
  nI := by rw [hI]; exact h.nI

theorem fresh_addInst {s0 s : State} {N : String} (h : Fresh s0 N s) (i : Instr) :
    Fresh s0 N (s.addInst i) := by
  refine fresh_of_module h rfl rfl rfl ?_ ?_ ?_ ?_ ?_ ?_
  · intro b blk hb
    rw [getElem?_addInst_Blocks]
    · exact h.blocks b blk hb
    · intro e
      have := h.cur b e
      have := getElem?_lt_of_some hb
      omega
  · intro j x hx
    have := h.insts j x hx
    rw [addInst_Insts, List.getElem?_append_left (getElem?_lt_of_some this)]
    exact this
  · intro c hc; exact h.cur c hc
  · intro b f hb hp
    rw [parentOf_addInst] at hp
    exact h.parents b f hb hp
  · rw [addInst_Blocks_length]; exact h.nB
  · rw [addInst_Insts, List.length_append]; have := h.nI; omega

theorem fresh_addAlloca {s0 s : State} {N : String} (h : Fresh s0 N s) (f entry : Nat)
    (ty : Ty) (n : String) (hf : s0.Functions.length ≤ f)
    (he : s.getEntryBlock (some f) = some entry) : Fresh s0 N (s.addAlloca entry ty n) := by
  obtain ⟨rest, hr⟩ := getEntryBlock_some he
  have hge : s0.Blocks.length ≤ entry :=
    h.lists f entry hf (by rw [hr]; exact List.mem_cons_self _ _)
  refine fresh_of_module h rfl rfl rfl ?_ ?_ ?_ ?_ ?_ ?_
  · intro b blk hb
    rw [getElem?_addAlloca_Blocks]
    · exact h.blocks b blk hb
    · have := getElem?_lt_of_some hb
      omega
  · intro j x hx
    have := h.insts j x hx
    rw [addAlloca_Insts, List.getElem?_append_left (getElem?_lt_of_some this)]
    exact this
  · intro c hc; exact h.cur c hc
  · intro b g hb hp
    rw [parentOf_addAlloca] at hp
    exact h.parents b g hb hp
  · rw [addAlloca_Blocks_length]; exact h.nB
  · rw [addAlloca_Insts, List.length_append]; have := h.nI; omega

theorem fresh_setInsertBlock {s0 s : State} {N : String} (h : Fresh s0 N s) (b : Nat)
    (hb : s0.Blocks.length ≤ b) : Fresh s0 N (s.setInsertBlock b) := by
  refine fresh_of_module h rfl rfl rfl h.blocks h.insts ?_ h.parents h.nB h.nI
  intro c hc
  rw [setInsertBlock_InsertBlock] at hc
  cases hc; exact hb

theorem fresh_setNamed {s0 s : State} {N : String} (h : Fresh s0 N s) (n : String)
    (v : Option Value) : Fresh s0 N (s.setNamed n v) :=
  fresh_of_module h rfl rfl rfl h.blocks h.insts h.cur h.parents h.nB h.nI

theorem fresh_addIncoming {s0 s : State} {N : String} (h : Fresh s0 N s) (id : Nat)
    (v : Value) (bb : Option Nat) (hid : s0.Insts.length ≤ id) :
    Fresh s0 N (s.addIncoming (.inst id) v bb) := by
  refine fresh_of_module h (by simp) (by simp) (by simp) ?_ ?_ ?_ ?_ ?_ ?_
  · rw [addIncoming_Blocks]; exact h.blocks
  · intro j x hx
    rw [getElem?_addIncoming_of_ne]
    · exact h.insts j x hx
    · have := getElem?_lt_of_some hx
      omega
  · rw [addIncoming_InsertBlock]; exact h.cur
  · intro b f hb hp
    rw [parentOf_addIncoming] at hp
    exact h.parents b f hb hp
  · rw [addIncoming_Blocks]; exact h.nB
  · rw [addIncoming_Insts_length]; exact h.nI

theorem fresh_addBlock {s0 s : State} {N : String} (h : Fresh s0 N s) (n : String)
    (p : Option Nat) (hp : ∀ f, p = some f → s0.Functions.length ≤ f) :
    Fresh s0 N (s.addBlock n p) where
  funs := by
    intro f fn hf
    rw [getElem?_addBlock_Functions]
    · exact h.funs f fn hf
    · intro g hg e
      have := hp g hg
      have := getElem?_lt_of_some hf
      omega
  blocks := by
    intro b blk hb
    have := h.blocks b blk hb
    rw [getElem?_addBlock_Blocks _ _ _ (getElem?_lt_of_some this)]
    exact this
  insts := by rw [addBlock_Insts]; exact h.insts
  globals := by rw [addBlock_Globals]; exact h.globals
  cur := by rw [addBlock_InsertBlock]; exact h.cur
  parents := by
    intro b f hb hpar
    rw [parentOf_addBlock] at hpar
    split at hpar
    · exact hp f hpar
    · exact h.parents b f hb hpar
  lists := by
    intro f b hf hb
    rw [blocksOf_addBlock] at hb
    split at hb
    · rcases List.mem_append.mp hb with hb | hb
      · exact h.lists f b hf hb
      · rw [List.mem_singleton] at hb
        rw [hb]; exact h.nB
    · exact h.lists f b hf hb
  linked := by
    obtain ⟨rest, h1, h2⟩ := h.linked
    refine ⟨rest, by rw [addBlock_FunctionList]; exact h1, ?_⟩
    intro g hg
    rw [nameOf_addBlock]
    exact h2 g hg
  taken := moduleNames_congr h.taken (fun f hf => hf)
    (fun f _ hn => by rw [nameOf_addBlock]; exact hn) (fun gv hg => hg)
  nF := by rw [addBlock_Functions_length]; exact h.nF
  nB := by rw [addBlock_Blocks_length]; exact Nat.le_succ_of_le h.nB
  nI := by rw [addBlock_Insts]; exact h.nI

theorem fresh_attach {s0 s : State} {N : String} (h : Fresh s0 N s) (f b : Nat)
    (hf : s0.Functions.length ≤ f) (hb : s0.Blocks.length ≤ b) :
    Fresh s0 N (s.attach f b) where
  funs := by
    intro g fn hg
    rw [getElem?_attach_Functions]
    · exact h.funs g fn hg
    · have := getElem?_lt_of_some hg
      omega
  blocks := by
    intro x blk hx
    rw [getElem?_attach_Blocks]
    · exact h.blocks x blk hx
    · have := getElem?_lt_of_some hx
      omega
  insts := by rw [attach_Insts]; exact h.insts
  globals := by rw [attach_Globals]; exact h.globals
  cur := by rw [attach_InsertBlock]; exact h.cur
  parents := by
    intro x g hx hpar
    rw [parentOf_attach] at hpar
    split at hpar
    · cases hpar; exact hf
    · exact h.parents x g hx hpar
  lists := by
    intro g x hg hx
    rw [blocksOf_attach] at hx
    split at hx
    · rcases List.mem_append.mp hx with hx | hx
      · exact h.lists g x hg hx
      · rw [List.mem_singleton] at hx
        rw [hx]; exact hb
    · exact h.lists g x hg hx
  linked := by
    obtain ⟨rest, h1, h2⟩ := h.linked
    refine ⟨rest, by rw [attach_FunctionList]; exact h1, ?_⟩
    intro g hg
    rw [nameOf_attach]
    exact h2 g hg
  taken := moduleNames_congr h.taken (fun f hf => hf)
    (fun f _ hn => by rw [nameOf_attach]; exact hn) (fun gv hg => hg)
  nF := by rw [attach_Functions_length]; exact h.nF
  nB := by rw [attach_Blocks_length]; exact h.nB
  nI := by rw [attach_Insts]; exact h.nI

theorem uniqueName_ne {L : LLVM} (hL : ∀ taken n, L.makeUniqueName taken n ∉ taken)
    {taken : List String} {N : String} (hN : N ∈ taken) (n : String) :
    uniqueName L taken n ≠ N := by
  unfold uniqueName
  split
  · intro e
    exact hL taken n (by rw [e]; exact hN)
  · rename_i hn
    intro e
    exact hn (by rw [e]; exact hN)

theorem nameOf_addFunction_of_lt (s : State) (L : LLVM) (n : String) (a : List String)
    {f : Nat} (h : f < s.Functions.length) : (s.addFunction L n a).nameOf f = s.nameOf f := by
  unfold State.nameOf
  rw [getElem?_addFunction_of_lt _ _ _ _ _ h]

theorem nameOf_addFunction_new (s : State) (L : LLVM) (n : String) (a : List String) :
    (s.addFunction L n a).nameOf s.Functions.length = some (uniqueName L s.moduleNames n) := by
  unfold State.nameOf State.addFunction
  simp

theorem nameOf_lt {s : State} {f : Nat} {n : String} (h : s.nameOf f = some n) :
    f < s.Functions.length := by
  unfold State.nameOf at h
  cases hf : s.Functions[f]? with
  | none => rw [hf] at h; cases h
  | some fn => exact getElem?_lt_of_some hf

theorem moduleNames_addFunction {s : State} {N : String} (L : LLVM) (n : String)
    (a : List String) (h : N ∈ s.moduleNames) : N ∈ (s.addFunction L n a).moduleNames :=
  moduleNames_congr h
    (fun f hf => by rw [addFunction_FunctionList]; exact List.mem_append_left _ hf)
    (fun f _ hn => by rw [nameOf_addFunction_of_lt _ _ _ _ (nameOf_lt hn)]; exact hn)
    (fun gv hg => hg)

theorem fresh_addFunction {L : LLVM} (hL : ∀ taken n, L.makeUniqueName taken n ∉ taken)
    {s0 s : State} {N : String} (h : Fresh s0 N s) (n : String) (a : List String) :
    Fresh s0 N (s.addFunction L n a) := by
  refine fresh_of_blocks h rfl rfl rfl ?_ h.globals ?_ ?_ (moduleNames_addFunction L n a h.taken)
    ?_
  · intro f fn hf
    have := h.funs f fn hf
    rw [getElem?_addFunction_of_lt _ _ _ _ _ (getElem?_lt_of_some this)]
    exact this
  · intro f b hf hb
    rw [blocksOf_addFunction] at hb
    exact h.lists f b hf hb
  · obtain ⟨rest, h1, h2⟩ := h.linked
    refine ⟨rest ++ [s.Functions.length], ?_, ?_⟩
    · rw [addFunction_FunctionList, h1]; simp
    · intro g hg
      rcases List.mem_append.mp hg with hg | hg
      · refine ⟨(h2 g hg).1, ?_⟩
        rcases Nat.lt_or_ge g s.Functions.length with hlt | hge
        · rw [nameOf_addFunction_of_lt _ _ _ _ hlt]; exact (h2 g hg).2
        · rcases Nat.eq_or_lt_of_le hge with e | hgt
          · rw [← e, nameOf_addFunction_new]
            intro e1
            exact uniqueName_ne hL h.taken n (Option.some.inj e1)
          · intro e1
            have := nameOf_lt e1
            rw [addFunction_Functions_length] at this
            omega
      · rw [List.mem_singleton] at hg
        subst hg
        refine ⟨h.nF, ?_⟩
        rw [nameOf_addFunction_new]
        intro e1
        exact uniqueName_ne hL h.taken n (Option.some.inj e1)
  · rw [addFunction_Functions_length]; exact Nat.lt_succ_of_lt h.nF

theorem fresh_addGlobal {s0 s : State} {N : String} (h : Fresh s0 N s) (L : LLVM) (ty : Ty)
    (init : Value) (n : String) : Fresh s0 N (s.addGlobal L ty init n) := by
  refine fresh_of_blocks h rfl rfl rfl h.funs ?_ h.lists h.linked ?_ h.nF
  · obtain ⟨rest, hr⟩ := h.globals
    exact ⟨rest ++ [_], by unfold State.addGlobal; simp only; rw [hr, List.append_assoc]⟩
  · exact moduleNames_congr h.taken (fun f hf => hf) (fun f _ hn => hn)
      (fun gv hg => by unfold State.addGlobal; exact List.mem_append_left _ hg)

theorem fresh_erase {s0 s : State} {N : String} (h : Fresh s0 N s)
    (h0 : ∀ g, g ∈ s0.FunctionList → g < s0.Functions.length) (f : Nat)
    (hf : s0.Functions.length < f) : Fresh s0 N (s.erase f) := by
  obtain ⟨rest, h1, h2⟩ := h.linked
  refine fresh_of_blocks h rfl rfl rfl h.funs h.globals h.lists ?_ ?_ h.nF
  · refine ⟨rest.filter (fun g => g ≠ f), ?_, ?_⟩
    · rw [erase_FunctionList, h1, List.filter_append, List.filter_cons]
      have e1 : s0.FunctionList.filter (fun g => decide (g ≠ f)) = s0.FunctionList := by
        rw [List.filter_eq_self]
        intro g hg
        have := h0 g hg
        simp only [decide_eq_true_eq]
        omega
      have e2 : decide (s0.Functions.length ≠ f) = true := by
        simp only [decide_eq_true_eq]; omega
      rw [e1, if_pos e2]
    · intro g hg
      exact h2 g (List.mem_of_mem_filter hg)
  · have ht := h.taken
    rw [mem_moduleNames] at ht ⊢
    rcases ht with ⟨g, hg1, hg2⟩ | hgv
    · refine Or.inl ⟨g, ?_, hg2⟩
      rw [erase_FunctionList, List.mem_filter]
      refine ⟨hg1, ?_⟩
      simp only [decide_eq_true_eq]
      intro e
      subst e
      rw [h1] at hg1
      rcases List.mem_append.mp hg1 with hm | hm
      · have := h0 g hm; omega
      · rcases List.mem_cons.mp hm with hm | hm
        · omega
        · exact (h2 g hm).2 hg2
    · exact Or.inr hgv

/-! ## Claim C7: a function whose body fails -/

theorem fresh_closed (L : LLVM) (hL : ∀ taken n, L.makeUniqueName taken n ∉ taken)
    (s0 : State) (N : String) (h0 : ∀ g, g ∈ s0.FunctionList → g < s0.Functions.length) :
    Closed L (Fresh s0 N) (fun x => s0.Blocks.length ≤ x) (fun f => s0.Functions.length ≤ f)
      (fun f => s0.Functions.length < f) (fun i => s0.Insts.length ≤ i) where
  newB := fun _ h => h.nB
  newF := fun _ h => ⟨Nat.le_of_lt h.nF, h.nF⟩
  newI := fun _ h => h.nI
  parent := fun s c blk f h hc hblk hp =>
    h.parents c f (h.cur c hc) (by unfold State.parentOf; rw [hblk]; exact hp)
  addInst := fun _ i h _ => fresh_addInst h i
  addBlock := fun _ n p h hp => fresh_addBlock h n p hp
  attach := fun _ f b h hf hb _ => fresh_attach h f b hf hb
  setInsertBlock := fun _ b h hb _ => fresh_setInsertBlock h b hb
  addAlloca := fun _ f entry ty n h hf he => fresh_addAlloca h f entry ty n hf he
  setNamed := fun _ n v h => fresh_setNamed h n v
  addIncoming := fun _ id v bb h hid => fresh_addIncoming h id v bb hid
  addFunction := fun _ n a h => fresh_addFunction hL h n a
  erase := fun _ f h hf => fresh_erase h h0 f hf
  addGlobal := fun _ ty init n h => fresh_addGlobal h L ty init n

theorem fresh_functionEntry (L : LLVM) (Proto : PrototypeAST) (s : State) :
    Fresh s Proto.Name (functionEntry L Proto s) where
  funs := by
    intro f fn hf
    have hlt := getElem?_lt_of_some hf
    unfold functionEntry
    rw [setInsertBlock_Functions, getElem?_addBlock_Functions,
      getElem?_addFunction_of_lt _ _ _ _ _ hlt]
    · exact hf
    · intro g hg e
      cases hg
      omega
  blocks := by
    intro b blk hb
    have hlt := getElem?_lt_of_some hb
    unfold functionEntry
    rw [setInsertBlock_Blocks, getElem?_addBlock_Blocks _ _ _ (by simpa using hlt),
      addFunction_Blocks]
    exact hb
  insts := by
    intro i x hx
    simpa [functionEntry] using hx
  globals := ⟨[], by simp [functionEntry]⟩
  cur := by
    intro c hc
    simp only [functionEntry, setInsertBlock_InsertBlock, Option.some.injEq] at hc
    omega
  parents := by
    intro b f hb hp
    simp only [functionEntry, parentOf_setInsertBlock, parentOf_addBlock, addFunction_Blocks,
      parentOf_addFunction] at hp
    split at hp
    · cases hp; exact le_refl _
    · rw [parentOf_eq_none_of_le hb] at hp; cases hp
  lists := by
    intro f b hf hb
    simp only [functionEntry, blocksOf_setInsertBlock, blocksOf_addBlock, addFunction_Blocks,
      blocksOf_addFunction, blocksOf_eq_nil_of_le hf, List.nil_append] at hb
    split at hb
    · rw [List.mem_singleton] at hb; omega
    · cases hb
  linked := ⟨[], by simp [functionEntry], by intro g hg; cases hg⟩
  taken := by
    by_cases hN : Proto.Name ∈ s.moduleNames
    · exact moduleNames_congr (moduleNames_addFunction L Proto.Name Proto.Args hN)
        (fun f hf => hf)
        (fun f _ hn => by
          unfold functionEntry
          have : ∀ st : State, ∀ b : Nat, (st.setInsertBlock b).nameOf f = st.nameOf f :=
            fun _ _ => rfl
          rw [this, nameOf_addBlock]; exact hn)
        (fun gv hg => hg)
    · rw [mem_moduleNames]
      refine Or.inl ⟨s.Functions.length, by simp [functionEntry], ?_⟩
      have : ∀ st : State, ∀ b : Nat,
          (st.setInsertBlock b).nameOf s.Functions.length = st.nameOf s.Functions.length :=
        fun _ _ => rfl
      unfold functionEntry
      rw [this, nameOf_addBlock, nameOf_addFunction_new]
      unfold uniqueName
      rw [if_neg hN]
  nF := by simp [functionEntry]
  nB := by simp [functionEntry]
  nI := by simp [functionEntry]

/-- After the entry block of a new function is attached and the builder is
positioned there, the builder stands in the module. -/
theorem inModule_functionEntry (L : LLVM) (Proto : PrototypeAST) (s : State) :
    (functionEntry L Proto s).inModule = true := by
  simp [functionEntry, State.inModule, State.addBlock, State.addFunction,
    State.setInsertBlock]

theorem codegenParams_total (f : Nat) :
    ∀ (args : List String) (i : Nat) (s : State) (e : Nat),
      s.getEntryBlock (some f) = some e → s.inModule = true →
      ∃ s1, codegenParams f i args s = some ((), s1)
  | [], i, s, e, _, _ => ⟨s, by rw [codegenParams]; rfl⟩
  | a :: args, i, s, e, he, hm => by
      have hrec := codegenParams_total f args (i + 1)
        (((s.addAlloca e .double a).addInst
          (.store (.arg f i) (.inst s.Insts.length))).setNamed a (some (.inst s.Insts.length))) e
        (by
          have : ∀ st : State, st.Functions = s.Functions →
              st.getEntryBlock (some f) = some e := by
            intro st hst
            unfold State.getEntryBlock at he ⊢
            rw [hst]; exact he
          exact this _ (by simp))
        (by simpa using hm)
      obtain ⟨s1, hs1⟩ := hrec
      refine ⟨s1, ?_⟩
      rw [codegenParams]
      simp only [bind_eq_some, Insert_eq_some, CreateLoad_eq_some, CreateStore_eq_some, setNamed_eq_some]
      refine ⟨.inst s.Insts.length, s.addAlloca e .double a, ?_, _, _,
        ⟨by simpa using hm, rfl, rfl⟩, (), _, rfl, ?_⟩
      · unfold CreateEntryBlockAlloca
        rw [he]
      · exact hs1

theorem freshLLVM_unique (taken : List String) (n : String) :
    freshLLVM.makeUniqueName taken n ∉ taken := by
  intro hm
  have h1 := List.le_sum_of_mem (List.mem_map_of_mem String.length hm)
  have h2 : (freshLLVM.makeUniqueName taken n).length =
      n.data.length + (1 + (taken.map String.length).sum) := by
    show (n.data ++ List.replicate (1 + (taken.map String.length).sum) '.').length = _
    rw [List.length_append, List.length_replicate]
  omega

theorem find?_congr_mem {α : Type} (p q : α → Bool) :
    ∀ l : List α, (∀ x ∈ l, p x = q x) → l.find? p = l.find? q
  | [], _ => rfl
  | a :: l, h => by
      rw [List.find?_cons, List.find?_cons, h a (List.mem_cons_self _ _),
        find?_congr_mem p q l (fun x hx => h x (List.mem_cons_of_mem _ hx))]

theorem getEntryBlock_functionEntry (L : LLVM) (Proto : PrototypeAST) (s : State) :
    (functionEntry L Proto s).getEntryBlock (some s.Functions.length) =
      some s.Blocks.length := by
  simp [functionEntry, State.getEntryBlock, State.addBlock, State.addFunction, appendBlock,
    State.setInsertBlock]

theorem getArgs_functionEntry (L : LLVM) (Proto : PrototypeAST) (s : State) :
    getArgs s.Functions.length (functionEntry L Proto s) =
      some (setArgNames L [] Proto.Args, functionEntry L Proto s) := by
  simp [getArgs, functionEntry, State.addBlock, State.addFunction, appendBlock,
    State.setInsertBlock]

/-- How `FunctionAST::codegen` runs when the name is free and the body fails. -/
theorem FunctionAST_failure_run (L : LLVM) (Proto : PrototypeAST) (Body : ExprAST)
    (s sP sB : State) (hnew : s.getFunction Proto.Name = none)
    (hP : codegenParams s.Functions.length 0 (setArgNames L [] Proto.Args)
      (functionEntry L Proto s) = some ((), sP))
    (hbody : Body.codegen L sP = some (none, sB)) :
    (RootAST.FunctionAST Proto Body).codegen L s =
      some (none, sB.erase s.Functions.length) := by
  have hargs := getArgs_functionEntry L Proto s
  unfold functionEntry at hargs hP
  rw [RootAST.codegen]
  simp only [bind_apply, getFunction, hnew, PrototypeAST.codegen, FunctionCreate,
    BasicBlockCreate, SetInsertPoint, pure_apply, addFunction_Blocks, hargs, hP, hbody,
    eraseFromParent]

/-- C7: when no function of the module has the definition's name and the
generation of the body fails, `FunctionAST::codegen` returns failure, leaving the
state the body left with the new function unlinked; afterwards no function of
the module has that name, the functions linked before are still linked, in the
same order and found under the same names, and every function, block,
instruction and global that existed before is unchanged.  The library's
renaming is assumed to give a name that is not taken, and the stores to be
well-formed. -/
theorem FunctionAST_body_failure (L : LLVM)
    (hL : ∀ taken n, L.makeUniqueName taken n ∉ taken) (Proto : PrototypeAST)
    (Body : ExprAST) (s sB : State) (hwf : s.WF)
    (hnew : s.getFunction Proto.Name = none)
    (hbody : Body.codegen L (bodyEntry L Proto s) = some (none, sB)) :
    (RootAST.FunctionAST Proto Body).codegen L s =
      some (none, sB.erase s.Functions.length) ∧
    (sB.erase s.Functions.length).getFunction Proto.Name = none ∧
    (∃ rest, (sB.erase s.Functions.length).FunctionList = s.FunctionList ++ rest) ∧
    (∀ (n : String) (f : Nat), s.getFunction n = some f →
      (sB.erase s.Functions.length).getFunction n = some f) ∧
    (∀ (f : Nat) (fn : Function), s.Functions[f]? = some fn →
      (sB.erase s.Functions.length).Functions[f]? = some fn) ∧
    (∀ (b : Nat) (blk : BasicBlock), s.Blocks[b]? = some blk →
      (sB.erase s.Functions.length).Blocks[b]? = some blk) ∧
    (∀ (i : Nat) (x : Instr), s.Insts[i]? = some x →
      (sB.erase s.Functions.length).Insts[i]? = some x) ∧
    (∃ rest, (sB.erase s.Functions.length).Globals = s.Globals ++ rest) := by
  obtain ⟨sP, hP⟩ := codegenParams_total s.Functions.length (setArgNames L [] Proto.Args) 0
    _ _ (getEntryBlock_functionEntry L Proto s) (inModule_functionEntry L Proto s)
  have hbe : bodyEntry L Proto s = sP := by
    unfold bodyEntry stateAfter
    rw [hP]
  rw [hbe] at hbody
  have hcl := fresh_closed L hL s Proto.Name hwf.2.2.2
  have hfP := (codegenParams_keeps hcl s.Functions.length (le_refl _) _ _ _ _ _
    (fresh_functionEntry L Proto s) hP).1
  have hfB := (ExprAST.codegen_keeps hcl Body _ _ _ hfP hbody).1
  obtain ⟨rest, hl1, hl2⟩ := hfB.linked
  have hlist : (sB.erase s.Functions.length).FunctionList = s.FunctionList ++ rest := by
    rw [erase_FunctionList, hl1, List.filter_append, List.filter_cons]
    have e1 : s.FunctionList.filter (fun g => decide (g ≠ s.Functions.length)) =
        s.FunctionList := by
      rw [List.filter_eq_self]
      intro g hg
      have := hwf.2.2.2 g hg
      simp only [decide_eq_true_eq]
      omega
    have e2 : rest.filter (fun g => decide (g ≠ s.Functions.length)) = rest := by
      rw [List.filter_eq_self]
      intro g hg
      have := (hl2 g hg).1
      simp only [decide_eq_true_eq]
      omega
    rw [e1, e2]
    simp
  have hold : ∀ g, g ∈ s.FunctionList →
      (sB.erase s.Functions.length).Functions[g]? = s.Functions[g]? := by
    intro g hg
    have hlt := hwf.2.2.2 g hg
    have hsome : s.Functions[g]? = some (s.Functions.get ⟨g, hlt⟩) :=
      List.getElem?_eq_getElem hlt
    rw [erase_Functions, hfB.funs g _ hsome, hsome]
  have hfind : ∀ n : String, (sB.erase s.Functions.length).getFunction n =
      (s.getFunction n).or (rest.find? (fun f =>
        ((sB.erase s.Functions.length).Functions[f]?).any (fun fn => fn.Name = n))) := by
    intro n
    unfold State.getFunction
    rw [hlist, List.find?_append]
    congr 1
    exact find?_congr_mem _ _ _ (fun g hg => by rw [hold g hg])
  refine ⟨FunctionAST_failure_run L Proto Body s sP sB hnew hP hbody, ?_, ⟨rest, hlist⟩, ?_,
    hfB.funs, hfB.blocks, hfB.insts, hfB.globals⟩
  · rw [hfind, hnew, Option.none_or, List.find?_eq_none]
    intro g hg
    have hne := (hl2 g hg).2
    unfold State.nameOf at hne
    rw [erase_Functions]
    cases hfn : sB.Functions[g]? with
    | none => simp
    | some fn =>
      rw [hfn] at hne
      simp only [Option.map_some', ne_eq, Option.some.injEq] at hne
      simpa using hne
  · intro n f hf
    rw [hfind, hf]
    rfl

/-- C7, at `def f() x` after `extern g(x)`: the body names an unknown variable. -/
theorem FunctionAST_body_failure_witness :
    (∀ taken n, freshLLVM.makeUniqueName taken n ∉ taken) ∧ sampleModule.WF ∧
    sampleModule.getFunction sampleProto.Name = none ∧
    (ExprAST.VariableExprAST "x").codegen freshLLVM (bodyEntry freshLLVM sampleProto sampleModule) =
      some (none, bodyEntry freshLLVM sampleProto sampleModule) ∧
    (RootAST.FunctionAST sampleProto (.VariableExprAST "x")).codegen freshLLVM sampleModule =
      some (none,
        (bodyEntry freshLLVM sampleProto sampleModule).erase sampleModule.Functions.length) ∧
    ((bodyEntry freshLLVM sampleProto sampleModule).erase
      sampleModule.Functions.length).getFunction sampleProto.Name = none ∧
    (∀ (n : String) (f : Nat), sampleModule.getFunction n = some f →
      ((bodyEntry freshLLVM sampleProto sampleModule).erase
        sampleModule.Functions.length).getFunction n = some f) ∧
    (∀ (f : Nat) (fn : Function), sampleModule.Functions[f]? = some fn →
      ((bodyEntry freshLLVM sampleProto sampleModule).erase
        sampleModule.Functions.length).Functions[f]? = some fn) :=
  have hw : sampleModule.WF :=
    (State.wf_closed freshLLVM).addFunction _ _ _ State.wf_init
  have hr := FunctionAST_body_failure freshLLVM freshLLVM_unique sampleProto
    (.VariableExprAST "x") sampleModule (bodyEntry freshLLVM sampleProto sampleModule) hw
    (by decide!) (by decide!)
  ⟨freshLLVM_unique, hw, by decide!, by decide!, hr.1, hr.2.1, hr.2.2.2.1, hr.2.2.2.2.1⟩

/-! ## Claim C1: the blocks of a function under construction -/

/-- A step that changes no block list of `F` and keeps which instructions are
terminators keeps `F` open. -/
theorem open_of_same {F : Nat} {s s1 : State} (h : Open F s) (hwf : s1.WF)
    (hc : s1.InsertBlock = s.InsertBlock) (hl : s1.blocksOf F = s.blocksOf F)
    (hi : ∀ b ∈ s.blocksOf F, s1.instsOf b = s.instsOf b)
    (hp : ∀ b ∈ s.blocksOf F, s1.parentOf b = s.parentOf b)
    (hx : ∀ (i : Nat) (y : Instr), s.Insts[i]? = some y →
      ∃ y1 : Instr, s1.Insts[i]? = some y1 ∧ y1.isTerminator = y.isTerminator) :
    Open F s1 where
  wf := hwf
  cur := by
    obtain ⟨c, h1, h2, h3, h4⟩ := h.cur
    refine ⟨c, by rw [hc]; exact h1, by rw [hl]; exact h2, by rw [hp c h2]; exact h3, ?_⟩
    intro i hi1
    rw [hi c h2] at hi1
    obtain ⟨y, hy1, hy2⟩ := h4 i hi1
    obtain ⟨y1, hy3, hy4⟩ := hx i y hy1
    exact ⟨y1, hy3, by rw [hy4]; exact hy2⟩
  others := by
    intro b hb hne
    rw [hl] at hb
    rw [hc] at hne
    obtain ⟨pre, j, x, h1, h2, h3, h4⟩ := h.others b hb hne
    obtain ⟨x1, hx1, hx2⟩ := hx j x h2
    refine ⟨pre, j, x1, by rw [hi b hb]; exact h1, hx1, by rw [hx2]; exact h3, ?_⟩
    intro i hi1
    obtain ⟨y, hy1, hy2⟩ := h4 i hi1
    obtain ⟨y1, hy3, hy4⟩ := hx i y hy1
    exact ⟨y1, hy3, by rw [hy4]; exact hy2⟩
  nodup := by rw [hl]; exact h.nodup

/-- A step that adds one instruction that is no terminator, at the end of the
current block or at the start of some block, keeps `F` open. -/
theorem open_of_insert {F : Nat} {s s1 : State} {x : Instr} (h : Open F s) (hwf : s1.WF)
    (hc : s1.InsertBlock = s.InsertBlock) (hl : s1.blocksOf F = s.blocksOf F)
    (hi : ∀ b ∈ s.blocksOf F, s1.instsOf b = s.instsOf b ∨
      (s1.instsOf b = s.instsOf b ++ [s.Insts.length] ∧ s.InsertBlock = some b) ∨
      s1.instsOf b = s.Insts.length :: s.instsOf b)
    (hp : ∀ b ∈ s.blocksOf F, s1.parentOf b = s.parentOf b)
    (hx : s1.Insts = s.Insts ++ [x]) (hnt : x.isTerminator = false) :
    Open F s1 := by
  have hold : ∀ (i : Nat) (y : Instr), s.Insts[i]? = some y → s1.Insts[i]? = some y := by
    intro i y hy
    rw [hx, List.getElem?_append_left (getElem?_lt_of_some hy)]
    exact hy
  have hnew : s1.Insts[s.Insts.length]? = some x := by
    rw [hx]; simp
  refine ⟨hwf, ?_, ?_, by rw [hl]; exact h.nodup⟩
  · obtain ⟨c, h1, h2, h3, h4⟩ := h.cur
    refine ⟨c, by rw [hc]; exact h1, by rw [hl]; exact h2, by rw [hp c h2]; exact h3, ?_⟩
    intro i hi1
    have hmem : i ∈ s.instsOf c ∨ i = s.Insts.length := by
      rcases hi c h2 with e | ⟨e, _⟩ | e
      · rw [e] at hi1; exact Or.inl hi1
      · rw [e] at hi1
        rcases List.mem_append.mp hi1 with hm | hm
        · exact Or.inl hm
        · exact Or.inr (List.mem_singleton.mp hm)
      · rw [e] at hi1
        rcases List.mem_cons.mp hi1 with hm | hm
        · exact Or.inr hm
        · exact Or.inl hm
    rcases hmem with hm | hm
    · obtain ⟨y, hy1, hy2⟩ := h4 i hm
      exact ⟨y, hold i y hy1, hy2⟩
    · rw [hm]; exact ⟨x, hnew, hnt⟩
  · intro b hb hne
    rw [hl] at hb
    rw [hc] at hne
    obtain ⟨pre, j, y, h1, h2, h3, h4⟩ := h.others b hb hne
    rcases hi b hb with e | ⟨_, e⟩ | e
    · refine ⟨pre, j, y, by rw [e]; exact h1, hold j y h2, h3, ?_⟩
      intro i hi1
      obtain ⟨z, hz1, hz2⟩ := h4 i hi1
      exact ⟨z, hold i z hz1, hz2⟩
    · exact absurd e hne
    · refine ⟨s.Insts.length :: pre, j, y, by rw [e, h1]; rfl, hold j y h2, h3, ?_⟩
      intro i hi1
      rcases List.mem_cons.mp hi1 with hm | hm
      · rw [hm]; exact ⟨x, hnew, hnt⟩
      · obtain ⟨z, hz1, hz2⟩ := h4 i hm
        exact ⟨z, hold i z hz1, hz2⟩

/-- A step that ends the current block with a terminator and moves the builder
to a new, empty block at the end of the block list of `F` keeps `F` open. -/
theorem open_of_enter {F : Nat} {s s1 : State} {c b : Nat} {x : Instr} (h : Open F s)
    (hwf : s1.WF) (hcur : s.InsertBlock = some c) (hc : s1.InsertBlock = some b)
    (hl : s1.blocksOf F = s.blocksOf F ++ [b]) (hb : b ∉ s.blocksOf F)
    (hbi : s1.instsOf b = []) (hbp : s1.parentOf b = some F)
    (hci : s1.instsOf c = s.instsOf c ++ [s.Insts.length])
    (hi : ∀ b1 ∈ s.blocksOf F, b1 ≠ c → s1.instsOf b1 = s.instsOf b1)
    (hx : s1.Insts = s.Insts ++ [x]) (ht : x.isTerminator = true) :
    Open F s1 := by
  have hold : ∀ (i : Nat) (y : Instr), s.Insts[i]? = some y → s1.Insts[i]? = some y := by
    intro i y hy
    rw [hx, List.getElem?_append_left (getElem?_lt_of_some hy)]
    exact hy
  have hnew : s1.Insts[s.Insts.length]? = some x := by
    rw [hx]; simp
  obtain ⟨c1, h1, h2, h3, h4⟩ := h.cur
  rw [hcur] at h1
  cases h1
  refine ⟨hwf, ?_, ?_, ?_⟩
  · refine ⟨b, hc, by rw [hl]; simp, hbp, ?_⟩
    intro i hi1
    rw [hbi] at hi1
    cases hi1
  · intro b1 hb1 hne
    rw [hl] at hb1
    rcases List.mem_append.mp hb1 with hm | hm
    · by_cases e : b1 = c
      · subst e
        refine ⟨s.instsOf b1, s.Insts.length, x, hci, hnew, ht, ?_⟩
        intro i hi1
        obtain ⟨z, hz1, hz2⟩ := h4 i hi1
        exact ⟨z, hold i z hz1, hz2⟩
      · obtain ⟨pre, j, y, e1, e2, e3, e4⟩ := h.others b1 hm (by
          rw [hcur]; intro e5; cases e5; exact e rfl)
        refine ⟨pre, j, y, by rw [hi b1 hm e]; exact e1, hold j y e2, e3, ?_⟩
        intro i hi1
        obtain ⟨z, hz1, hz2⟩ := e4 i hi1
        exact ⟨z, hold i z hz1, hz2⟩
    · rw [List.mem_singleton] at hm
      subst hm
      exact absurd hc hne
  · rw [hl]
    exact List.Nodup.append h.nodup (List.nodup_singleton b)
      (by
        intro a ha1 ha2
        rw [List.mem_singleton] at ha2
        subst ha2
        exact hb ha1)

theorem Open.exists {F : Nat} {s : State} (h : Open F s) : F < s.Functions.length := by
  obtain ⟨c, _, h2, _, _⟩ := h.cur
  rcases Nat.lt_or_ge F s.Functions.length with h1 | h1
  · exact h1
  · rw [blocksOf_eq_nil_of_le h1] at h2; cases h2

theorem Open.block_lt {F : Nat} {s : State} (h : Open F s) {b : Nat} (hb : b ∈ s.blocksOf F) :
    b < s.Blocks.length := h.wf.1 F b hb

theorem open_addInst {L : LLVM} {F : Nat} {s : State} (h : Open F s) (i : Instr)
    (hnt : i.isTerminator = false) (ht : Instr.targets i = []) : Open F (s.addInst i) := by
  refine open_of_insert h ((State.wf_closed L).plain h.wf ht) (by simp) (by simp) ?_
    (by intro b _; simp) (addInst_Insts s i) hnt
  intro b _
  rw [instsOf_addInst]
  split
  · rename_i hc
    exact Or.inr (Or.inl ⟨rfl, hc.1⟩)
  · exact Or.inl rfl

theorem open_addAlloca {L : LLVM} {F : Nat} {s : State} (h : Open F s) (f e : Nat) (ty : Ty)
    (n : String) (he : s.getEntryBlock (some f) = some e) : Open F (s.addAlloca e ty n) := by
  refine open_of_insert h ((State.wf_closed L).addAlloca s f e ty n h.wf trivial he) (by simp)
    (by simp) ?_ (by intro b _; simp) (addAlloca_Insts s e ty n) rfl
  intro b _
  rw [instsOf_addAlloca]
  split
  · exact Or.inr (Or.inr rfl)
  · exact Or.inl rfl

theorem open_setNamed {F : Nat} {s : State} (h : Open F s) (n : String) (v : Option Value) :
    Open F (s.setNamed n v) :=
  open_of_same h h.wf rfl rfl (fun _ _ => rfl) (fun _ _ => rfl) (fun _ y hy => ⟨y, hy, rfl⟩)

theorem open_addGlobal {L : LLVM} {F : Nat} {s : State} (h : Open F s) (ty : Ty) (init : Value)
    (n : String) : Open F (s.addGlobal L ty init n) :=
  open_of_same h ((State.wf_closed L).addGlobal s ty init n h.wf) rfl (by simp)
    (fun _ _ => by simp) (fun _ _ => by simp) (fun _ y hy => ⟨y, hy, rfl⟩)

theorem open_addFunction {L : LLVM} {F : Nat} {s : State} (h : Open F s) (n : String)
    (a : List String) : Open F (s.addFunction L n a) :=
  open_of_same h ((State.wf_closed L).addFunction s n a h.wf) rfl (by simp)
    (fun _ _ => by simp) (fun _ _ => by simp) (fun _ y hy => ⟨y, hy, rfl⟩)

theorem open_addIncoming {L : LLVM} {F : Nat} {s : State} (h : Open F s) (id : Nat) (v : Value)
    (bb : Option Nat) : Open F (s.addIncoming (.inst id) v bb) := by
  refine open_of_same h ((State.wf_closed L).addIncoming s id v bb h.wf trivial) (by simp)
    (by simp) (fun _ _ => by simp) (fun _ _ => by simp) ?_
  intro i y hy
  by_cases e : id = i
  · subst e
    unfold State.addIncoming
    simp only
    split
    · rename_i inc hphi
      rw [hy] at hphi
      cases hphi
      exact ⟨_, List.getElem?_set_self (getElem?_lt_of_some hy), rfl⟩
    · exact ⟨y, hy, rfl⟩
  · exact ⟨y, by rw [getElem?_addIncoming_of_ne _ _ _ _ _ e]; exact hy, rfl⟩

theorem open_addBlock_none {L : LLVM} {F : Nat} {s : State} (h : Open F s) (n : String) :
    Open F (s.addBlock n none) := by
  refine open_of_same h ((State.wf_closed L).addBlock s n none h.wf (fun _ _ => trivial))
    (by simp) ?_ (fun _ _ => by simp) ?_ (fun _ y hy => ⟨y, by simpa using hy, rfl⟩)
  · rw [blocksOf_addBlock, if_neg]
    intro e; cases e.1
  · intro b hb
    rw [parentOf_addBlock, if_neg (Nat.ne_of_lt (h.block_lt hb))]

/-- Ending the current block with a terminator and entering the detached, empty
block `b`, attached to `F` at that moment, keeps `F` open. -/
theorem open_enterBlock {L : LLVM} {F : Nat} {s : State} {b : Nat} (h : Open F s) (i : Instr)
    (hb : Untouched b s) (hi : i.isTerminator = true)
    (ht : ∀ t ∈ Instr.targets i, t < s.Blocks.length) : Open F (enterBlock s i F b) := by
  obtain ⟨c, h1, h2, h3, h4⟩ := h.cur
  have hclt := h.block_lt h2
  refine open_of_enter h ?_ h1 (enterBlock_InsertBlock _ _ _ _) ?_ (hb.2.2.2.2 F) ?_ ?_ ?_ ?_
    (enterBlock_Insts s i F b) hi
  · exact enterBlock_keeps (State.wf_closed L) h.wf (fun t hm => ⟨trivial, ht t hm⟩) trivial
      trivial hb.1
  · simp only [enterBlock, blocksOf_setInsertBlock, blocksOf_attach, blocksOf_addInst,
      addInst_Functions]
    rw [if_pos ⟨trivial, h.exists⟩]
  · rw [instsOf_enterBlock, instsOf_addInst_other _ hb.2.2.2.1]
    exact hb.2.1
  · simp only [enterBlock, parentOf_setInsertBlock, parentOf_attach, addInst_Blocks_length]
    rw [if_pos ⟨trivial, hb.1⟩]
  · rw [instsOf_enterBlock, instsOf_addInst_cur _ h1 hclt]
  · intro b1 _ hne
    rw [instsOf_enterBlock, instsOf_addInst_other]
    rw [h1]
    intro e; cases e; exact hne rfl

/-- Ending the current block with a terminator and entering the new, empty block
`b` that the prepared state `t` has at the end of the block list of `F` keeps
`F` open. -/
theorem open_of_prepared {L : LLVM} {F : Nat} {s t : State} {b : Nat} (h : Open F s)
    (x : Instr) (hwf : t.WF) (hcur : t.InsertBlock = s.InsertBlock) (hins : t.Insts = s.Insts)
    (hl : t.blocksOf F = s.blocksOf F ++ [b]) (hb : b ∉ s.blocksOf F)
    (hbi : t.instsOf b = []) (hbp : t.parentOf b = some F) (hblt : b < t.Blocks.length)
    (hlen : s.Blocks.length ≤ t.Blocks.length)
    (hi : ∀ b1 ∈ s.blocksOf F, t.instsOf b1 = s.instsOf b1)
    (hx : x.isTerminator = true) (ht : ∀ d ∈ Instr.targets x, d < t.Blocks.length) :
    Open F ((t.addInst x).setInsertBlock b) := by
  obtain ⟨c, h1, h2, h3, h4⟩ := h.cur
  have hclt := h.block_lt h2
  have hne : b ≠ c := by intro e; subst e; exact hb h2
  have htc : t.InsertBlock = some c := by rw [hcur]; exact h1
  refine open_of_enter h ?_ h1 rfl ?_ hb ?_ ?_ ?_ ?_ ?_ hx
  · exact (State.wf_closed L).setInsertBlock _ _
      ((State.wf_closed L).addInst t x hwf (fun d hd => ⟨trivial, ht d hd⟩)) trivial
      (by simpa using hblt)
  · simp only [blocksOf_setInsertBlock, blocksOf_addInst]; exact hl
  · rw [instsOf_setInsertBlock, instsOf_addInst_other]
    · exact hbi
    · rw [htc]; intro e; cases e; exact hne rfl
  · simp only [parentOf_setInsertBlock, parentOf_addInst]; exact hbp
  · rw [instsOf_setInsertBlock, instsOf_addInst_cur _ htc (by omega), hi c h2, hins]
  · intro b1 hb1 hne1
    rw [instsOf_setInsertBlock, instsOf_addInst_other]
    · exact hi b1 hb1
    · rw [htc]; intro e; cases e; exact hne1 rfl
  · simp only [setInsertBlock_Insts, addInst_Insts, hins]

theorem blocksOf_addBlock_some {F : Nat} {s : State} (n : String) (h : F < s.Functions.length) :
    (s.addBlock n (some F)).blocksOf F = s.blocksOf F ++ [s.Blocks.length] := by
  rw [blocksOf_addBlock, if_pos ⟨rfl, h⟩]

theorem blocksOf_addBlock_none (s : State) (n : String) (f : Nat) :
    (s.addBlock n none).blocksOf f = s.blocksOf f := by
  rw [blocksOf_addBlock, if_neg]
  intro e; cases e.1

theorem not_mem_blocksOf_new {s : State} (hwf : s.WF) (f : Nat) {b : Nat}
    (hb : s.Blocks.length ≤ b) : b ∉ s.blocksOf f := by
  intro hm
  have := hwf.1 f b hm
  omega

/-- The branch states of the conditionals keep `F` open. -/
theorem open_branch3 {L : LLVM} {F : Nat} {s : State} (h : Open F s) (n1 n2 n3 : String)
    (v : Value) :
    Open F (((((s.addBlock n1 (some F)).addBlock n2 none).addBlock n3 none).addInst
      (.condBr v s.Blocks.length (s.Blocks.length + 1))).setInsertBlock s.Blocks.length) := by
  have hcl := State.wf_closed L
  refine open_of_prepared (L := L) h _ ?_ (by simp) (by simp) ?_
    (not_mem_blocksOf_new h.wf F (le_refl _)) ?_ ?_ (by simp; omega) (by simp; omega)
    (fun _ _ => by simp) rfl
    (targets_condBr (by simp; omega) (by simp))
  · exact hcl.addBlock _ _ _ (hcl.addBlock _ _ _ (hcl.addBlock _ _ _ h.wf (fun _ _ => trivial))
      (fun _ _ => trivial)) (fun _ _ => trivial)
  · rw [blocksOf_addBlock_none, blocksOf_addBlock_none, blocksOf_addBlock_some n1 h.exists]
  · simp only [instsOf_addBlock]
    exact instsOf_eq_nil_of_le (le_refl _)
  · simp only [parentOf_addBlock, addBlock_Blocks_length]
    rw [if_neg (by omega), if_neg (by omega), if_pos trivial]

theorem open_branch2 {L : LLVM} {F : Nat} {s : State} (h : Open F s) (n1 n3 : String)
    (v : Value) :
    Open F ((((s.addBlock n1 (some F)).addBlock n3 none).addInst
      (.condBr v s.Blocks.length (s.Blocks.length + 1))).setInsertBlock s.Blocks.length) := by
  have hcl := State.wf_closed L
  refine open_of_prepared (L := L) h _ ?_ (by simp) (by simp) ?_
    (not_mem_blocksOf_new h.wf F (le_refl _)) ?_ ?_ (by simp; omega) (by simp; omega)
    (fun _ _ => by simp) rfl
    (targets_condBr (by simp; omega) (by simp))
  · exact hcl.addBlock _ _ _ (hcl.addBlock _ _ _ h.wf (fun _ _ => trivial)) (fun _ _ => trivial)
  · rw [blocksOf_addBlock_none, blocksOf_addBlock_some n1 h.exists]
  · simp only [instsOf_addBlock]
    exact instsOf_eq_nil_of_le (le_refl _)
  · simp [parentOf_addBlock]

section
variable {L : LLVM} {F : Nat}

theorem CreateBinOp_open {op : Opcode} {l r : Value} {s s1 : State} {v : Value}
    (hO : Open F s) (h : CreateBinOp L op l r s = some (v, s1)) : Open F s1 := by
  rcases CreateBinOp_cases h with rfl | ⟨_, rfl⟩
  · exact hO
  · exact open_addInst (L := L) hO _ rfl rfl

theorem elementAddress_open {ty : Ty} {base x : Value} {s s1 : State} {v : Value}
    (hO : Open F s) (h : elementAddress L ty base x s = some (v, s1)) : Open F s1 := by
  unfold elementAddress at h
  rw [bind_eq_some] at h
  obtain ⟨k, s2, h1, h2⟩ := h
  have hO2 : Open F s2 := by
    rcases CreateFPToUI_cases h1 with rfl | ⟨_, rfl⟩
    · exact hO
    · exact open_addInst (L := L) hO _ rfl rfl
  rcases CreateInBoundsGEP_cases h2 with rfl | ⟨_, rfl⟩
  · exact hO2
  · exact open_addInst (L := L) hO2 _ rfl rfl

theorem storeElems_open (ty : Ty) (a : Value) :
    ∀ (vs : List Value) (i : Nat) (s s1 : State) (r : Unit), Open F s →
      storeElems L ty a i vs s = some (r, s1) → Open F s1
  | [], i, s, s1, r, hO, h => by
      rw [storeElems, pure_eq_some] at h
      obtain ⟨_, rfl⟩ := h
      exact hO
  | v :: vs, i, s, s1, r, hO, h => by
      rw [storeElems] at h
      simp only [bind_eq_some, Insert_eq_some, CreateLoad_eq_some, CreateStore_eq_some] at h
      obtain ⟨EP, s2, h1, _, _, ⟨_, _, rfl⟩, h3⟩ := h
      have k2 : Open F s2 := by
        rcases CreateInBoundsGEP_cases h1 with rfl | ⟨_, rfl⟩
        · exact hO
        · exact open_addInst (L := L) hO _ rfl rfl
      exact storeElems_open ty a vs (i + 1) _ _ _
        (open_addInst (L := L) k2 (.store v EP) rfl rfl) h3

theorem restoreNamed_open :
    ∀ (ns : List String) (vs : List (Option Value)) (s s1 : State) (r : Unit), Open F s →
      restoreNamed ns vs s = some (r, s1) → Open F s1
  | [], vs, s, s1, r, hO, h => by
      rw [restoreNamed, pure_eq_some] at h
      obtain ⟨_, rfl⟩ := h
      exact hO
  | n :: ns, [], s, s1, r, hO, h => by
      rw [restoreNamed, pure_eq_some] at h
      obtain ⟨_, rfl⟩ := h
      exact hO
  | n :: ns, v :: vs, s, s1, r, hO, h => by
      rw [restoreNamed] at h
      simp only [bind_eq_some, setNamed_eq_some] at h
      obtain ⟨_, _, rfl, h3⟩ := h
      exact restoreNamed_open ns vs _ _ _ (open_setNamed hO n v) h3

theorem shadowCounter_open {Init : RootAST} {Binding : Bool} {a : Value} {s s1 : State}
    {r : Option Value} (hO : Open F s) (h : shadowCounter Init Binding a s = some (r, s1)) :
    Open F s1 := by
  rcases shadowCounter_cases h with rfl | ⟨n, v, rfl⟩
  · exact hO
  · exact open_setNamed hO n v

theorem restoreCounter_open {Init : RootAST} {Binding : Bool} {a : Option Value} {s s1 : State}
    {r : Unit} (hO : Open F s) (h : restoreCounter Init Binding a s = some (r, s1)) :
    Open F s1 := by
  rcases restoreCounter_cases h with rfl | ⟨n, v, rfl⟩
  · exact hO
  · exact open_setNamed hO n v

theorem open_entryAlloca (L : LLVM) {s : State} {function : Option Nat} {entry : Nat}
    (hO : Open F s)
    (he : s.getEntryBlock function = some entry) (ty : Ty) (n : String) :
    Open F (s.addAlloca entry ty n) := by
  cases function with
  | none => simp [State.getEntryBlock] at he
  | some f => exact open_addAlloca (L := L) hO f entry ty n he

/-- The function the builder's block belongs to is the open one. -/
theorem Open.parent_eq {s : State} (hO : Open F s) {c0 : Nat} {blk0 : BasicBlock}
    (hib : s.InsertBlock = some c0) (hblk : s.Blocks[c0]? = some blk0) :
    blk0.Parent = some F := by
  obtain ⟨c, h1, _, h3, _⟩ := hO.cur
  rw [hib] at h1
  cases h1
  unfold State.parentOf at h3
  rw [hblk] at h3
  exact h3

theorem Open.parentOf_eq {s : State} (hO : Open F s) {c g : Nat}
    (hib : s.InsertBlock = some c) (hp : s.parentOf c = some g) : g = F := by
  obtain ⟨c1, h1, _, h3, _⟩ := hO.cur
  rw [hib] at h1
  cases h1
  rw [hp] at h3
  exact Option.some.inj h3

theorem Open.cur_lt {s : State} (hO : Open F s) {c : Nat} (hib : s.InsertBlock = some c) :
    c < s.Blocks.length := by
  obtain ⟨c1, h1, h2, _, _⟩ := hO.cur
  rw [hib] at h1
  cases h1
  exact hO.block_lt h2

end

/-- A block created detached is untouched. -/
theorem Untouched_addBlock_new {s : State} (hwf : s.WF)
    (hc : ∀ c, s.InsertBlock = some c → c < s.Blocks.length) (n : String) :
    Untouched s.Blocks.length (s.addBlock n none) := by
  refine ⟨by simp, ?_, ?_, ?_, ?_⟩
  · rw [instsOf_addBlock]; exact instsOf_eq_nil_of_le (le_refl _)
  · rw [parentOf_addBlock, if_pos rfl]
  · rw [addBlock_InsertBlock]
    intro e
    have := hc _ e
    omega
  · intro f
    rw [blocksOf_addBlock_none]
    exact not_mem_blocksOf_new hwf f (le_refl _)

theorem Untouched_addBlock {L : LLVM} {s : State} {b : Nat} (h : Untouched b s) (n : String)
    (p : Option Nat) : Untouched b (s.addBlock n p) :=
  (Untouched.untouched_closed L b).addBlock s n p h (fun _ _ => trivial)

theorem Untouched_setInsertBlock {L : LLVM} {s : State} {b : Nat} (h : Untouched b s) (x : Nat)
    (hx : x ≠ b) (hlt : x < s.Blocks.length) : Untouched b (s.setInsertBlock x) :=
  (Untouched.untouched_closed L b).setInsertBlock s x h hx hlt

/-- The steps of a successful `IfStmtAST::codegen` with an else part. -/
theorem IfStmtAST_else_shape (L : LLVM) (Cond : ExprAST) (TrueStmt FalseStmt : RootAST)
    (s s1 : State) (v : Value)
    (h : (RootAST.IfStmtAST Cond TrueStmt (some FalseStmt)).codegen L s = some (some v, s1)) :
    ∃ (CondV TrueV FalseV : Value) (sc st sf : State) (origin g : Nat),
      Cond.codegen L s = some (some CondV, sc) ∧
      sc.InsertBlock = some origin ∧ sc.parentOf origin = some g ∧
      TrueStmt.codegen L (ifElseState sc CondV g) = some (some TrueV, st) ∧
      FalseStmt.codegen L
          (enterBlock st (.br (sc.Blocks.length + 2)) g (sc.Blocks.length + 1)) =
        some (some FalseV, sf) ∧
      v = zeroFP ∧
      s1 = enterBlock sf (.br (sc.Blocks.length + 2)) g (sc.Blocks.length + 2) := by
  rw [RootAST.codegen] at h
  rw [bind_eq_some] at h
  obtain ⟨rc, sc, hc, h⟩ := h
  cases rc with
  | none => have h0 := (pure_eq_some.mp h).1; cases h0
  | some CondV =>
    simp only [bind_eq_some, BasicBlockCreate_eq_some, GetInsertBlockParent_eq_some,
      Insert_eq_some, CreateLoad_eq_some, CreateStore_eq_some, SetInsertPoint_eq_some] at h
    obtain ⟨_, _, ⟨c0, blk0, hib, hblk, rfl, rfl⟩, _, _, ⟨rfl, rfl⟩, _, _, ⟨rfl, rfl⟩,
      _, _, ⟨rfl, rfl⟩, _, _, ⟨rfl, rfl⟩, _, _, rfl, rt, st, ht, h⟩ := h
    cases rt with
    | none => have h0 := (pure_eq_some.mp h).1; cases h0
    | some TrueV =>
      simp only [bind_eq_some, Insert_eq_some, CreateLoad_eq_some, CreateStore_eq_some, SetInsertPoint_eq_some,
        FunctionInsert_eq_some] at h
      obtain ⟨_, _, ⟨rfl, rfl⟩, _, _, ⟨g, hg, rfl⟩, _, _, rfl, rf, sf, hfl, h⟩ := h
      cases rf with
      | none => have h0 := (pure_eq_some.mp h).1; cases h0
      | some FalseV =>
        simp only [bind_eq_some, Insert_eq_some, CreateLoad_eq_some, CreateStore_eq_some, SetInsertPoint_eq_some,
          FunctionInsert_eq_some, pure_eq_some] at h
        obtain ⟨_, _, ⟨rfl, rfl⟩, _, _, ⟨g2, hg2, rfl⟩, _, _, rfl, h0, rfl⟩ := h
        rw [hg] at hg2
        cases hg2
        rw [hg] at ht
        simp only [addBlock_Blocks_length] at ht hfl h0
        refine ⟨CondV, TrueV, FalseV, sc, st, sf, c0, g, hc, hib, ?_, ht, hfl, ?_, ?_⟩
        · simp [State.parentOf, hblk, hg]
        · cases h0; rfl
        · simp [enterBlock]

/-- The steps of a successful `IfStmtAST::codegen` without an else part. -/
theorem IfStmtAST_then_shape (L : LLVM) (Cond : ExprAST) (TrueStmt : RootAST)
    (s s1 : State) (v : Value)
    (h : (RootAST.IfStmtAST Cond TrueStmt none).codegen L s = some (some v, s1)) :
    ∃ (CondV TrueV : Value) (sc st : State) (origin g : Nat),
      Cond.codegen L s = some (some CondV, sc) ∧
      sc.InsertBlock = some origin ∧ sc.parentOf origin = some g ∧
      TrueStmt.codegen L (ifThenState sc CondV g) = some (some TrueV, st) ∧
      v = zeroFP ∧
      s1 = enterBlock st (.br (sc.Blocks.length + 1)) g (sc.Blocks.length + 1) := by
  rw [RootAST.codegen] at h
  rw [bind_eq_some] at h
  obtain ⟨rc, sc, hc, h⟩ := h
  cases rc with
  | none => have h0 := (pure_eq_some.mp h).1; cases h0
  | some CondV =>
    simp only [bind_eq_some, BasicBlockCreate_eq_some, GetInsertBlockParent_eq_some,
      Insert_eq_some, CreateLoad_eq_some, CreateStore_eq_some, SetInsertPoint_eq_some] at h
    obtain ⟨_, _, ⟨c0, blk0, hib, hblk, rfl, rfl⟩, _, _, ⟨rfl, rfl⟩, _, _, ⟨rfl, rfl⟩,
      _, _, ⟨rfl, rfl⟩, _, _, rfl, rt, st, ht, h⟩ := h
    cases rt with
    | none => have h0 := (pure_eq_some.mp h).1; cases h0
    | some TrueV =>
      simp only [bind_eq_some, Insert_eq_some, CreateLoad_eq_some, CreateStore_eq_some, SetInsertPoint_eq_some,
        FunctionInsert_eq_some, pure_eq_some] at h
      obtain ⟨_, _, ⟨rfl, rfl⟩, _, _, ⟨g, hg, rfl⟩, _, _, rfl, h0, rfl⟩ := h
      rw [hg] at ht
      simp only [addBlock_Blocks_length] at ht h0
      refine ⟨CondV, TrueV, sc, st, c0, g, hc, hib, ?_, ht, ?_, ?_⟩
      · simp [State.parentOf, hblk, hg]
      · cases h0; rfl
      · simp [enterBlock]

section
variable {F : Nat}

/-- The false and merge blocks are untouched when the true branch starts. -/
theorem Untouched_branch3 (L : LLVM) {s : State} (hO : Open F s) (n1 n2 n3 : String) (v : Value)
    (g : Nat) :
    Untouched (s.Blocks.length + 1)
      (((((s.addBlock n1 (some g)).addBlock n2 none).addBlock n3 none).addInst
        (.condBr v s.Blocks.length (s.Blocks.length + 1))).setInsertBlock s.Blocks.length) ∧
    Untouched (s.Blocks.length + 2)
      (((((s.addBlock n1 (some g)).addBlock n2 none).addBlock n3 none).addInst
        (.condBr v s.Blocks.length (s.Blocks.length + 1))).setInsertBlock s.Blocks.length) := by
  obtain ⟨c, hc, hm, _, _⟩ := hO.cur
  have hclt := hO.block_lt hm
  have hcl := State.wf_closed L
  have w1 : (s.addBlock n1 (some g)).WF := hcl.addBlock _ _ _ hO.wf (fun _ _ => trivial)
  have w2 : ((s.addBlock n1 (some g)).addBlock n2 none).WF :=
    hcl.addBlock _ _ _ w1 (fun _ _ => trivial)
  have u1 := Untouched_addBlock_new w1 (n := n2) (by
    intro c1 h1
    rw [addBlock_InsertBlock, hc] at h1
    cases h1
    rw [addBlock_Blocks_length]; omega)
  have u2 := Untouched_addBlock_new w2 (n := n3) (by
    intro c1 h1
    rw [addBlock_InsertBlock, addBlock_InsertBlock, hc] at h1
    cases h1
    rw [addBlock_Blocks_length, addBlock_Blocks_length]; omega)
  rw [addBlock_Blocks_length] at u1
  rw [addBlock_Blocks_length, addBlock_Blocks_length] at u2
  constructor
  · exact Untouched_setInsertBlock (L := L)
      (Untouched_addInst _ (Untouched_addBlock (L := L) u1 n3 none)) _ (by omega)
      (by simp; omega)
  · exact Untouched_setInsertBlock (L := L) (Untouched_addInst _ u2) _ (by omega)
      (by simp; omega)

/-- The merge block is untouched when the true statement starts. -/
theorem Untouched_branch2 (L : LLVM) {s : State} (hO : Open F s) (n1 n3 : String) (v : Value)
    (g : Nat) :
    Untouched (s.Blocks.length + 1)
      ((((s.addBlock n1 (some g)).addBlock n3 none).addInst
        (.condBr v s.Blocks.length (s.Blocks.length + 1))).setInsertBlock s.Blocks.length) := by
  obtain ⟨c, hc, hm, _, _⟩ := hO.cur
  have hclt := hO.block_lt hm
  have hcl := State.wf_closed L
  have w1 : (s.addBlock n1 (some g)).WF := hcl.addBlock _ _ _ hO.wf (fun _ _ => trivial)
  have u1 := Untouched_addBlock_new w1 (n := n3) (by
    intro c1 h1
    rw [addBlock_InsertBlock, hc] at h1
    cases h1
    rw [addBlock_Blocks_length]; omega)
  rw [addBlock_Blocks_length] at u1
  exact Untouched_setInsertBlock (L := L) (Untouched_addInst _ u1) _ (by omega)
    (by simp; omega)

/-- A conditional with two branches keeps `F` open when its branches do. -/
theorem open_twoBranches (L : LLVM) {sc st sf : State} {origin g : Nat} (n1 n2 n3 : String)
    (CondV : Value) (hO : Open F sc) (hib : sc.InsertBlock = some origin)
    (hpar : sc.parentOf origin = some g)
    (hOt : Open F (((((sc.addBlock n1 (some g)).addBlock n2 none).addBlock n3 none).addInst
        (.condBr CondV sc.Blocks.length (sc.Blocks.length + 1))).setInsertBlock
          sc.Blocks.length) → Open F st)
    (hUt : ∀ b, Untouched b
        (((((sc.addBlock n1 (some g)).addBlock n2 none).addBlock n3 none).addInst
          (.condBr CondV sc.Blocks.length (sc.Blocks.length + 1))).setInsertBlock
            sc.Blocks.length) → Untouched b st)
    (hOf : Open F (enterBlock st (.br (sc.Blocks.length + 2)) g (sc.Blocks.length + 1)) →
      Open F sf)
    (hUf : ∀ b, Untouched b
        (enterBlock st (.br (sc.Blocks.length + 2)) g (sc.Blocks.length + 1)) →
      Untouched b sf) :
    Open F (enterBlock sf (.br (sc.Blocks.length + 2)) g (sc.Blocks.length + 2)) := by
  have hg := hO.parentOf_eq hib hpar
  subst hg
  have hu := Untouched_branch3 L hO n1 n2 n3 CondV g
  have oT := hOt (open_branch3 (L := L) hO n1 n2 n3 CondV)
  have uF := hUt _ hu.1
  have uM := hUt _ hu.2
  have oB := open_enterBlock (L := L) oT (.br (sc.Blocks.length + 2)) uF rfl
    (targets_br uM.1)
  have uM2 := Untouched_enterBlock (L := L) (.br (sc.Blocks.length + 2)) g
    (sc.Blocks.length + 1) uM (by omega) uF.1
  have oF := hOf oB
  have uM3 := hUf _ uM2
  exact open_enterBlock (L := L) oF (.br (sc.Blocks.length + 2)) uM3 rfl (targets_br uM3.1)

/-- A conditional with one branch keeps `F` open when its branch does. -/
theorem open_oneBranch (L : LLVM) {sc st : State} {origin g : Nat} (n1 n3 : String)
    (CondV : Value) (hO : Open F sc) (hib : sc.InsertBlock = some origin)
    (hpar : sc.parentOf origin = some g)
    (hOt : Open F ((((sc.addBlock n1 (some g)).addBlock n3 none).addInst
        (.condBr CondV sc.Blocks.length (sc.Blocks.length + 1))).setInsertBlock
          sc.Blocks.length) → Open F st)
    (hUt : ∀ b, Untouched b
        ((((sc.addBlock n1 (some g)).addBlock n3 none).addInst
          (.condBr CondV sc.Blocks.length (sc.Blocks.length + 1))).setInsertBlock
            sc.Blocks.length) → Untouched b st) :
    Open F (enterBlock st (.br (sc.Blocks.length + 1)) g (sc.Blocks.length + 1)) := by
  have hg := hO.parentOf_eq hib hpar
  subst hg
  have hu := Untouched_branch2 L hO n1 n3 CondV g
  have oT := hOt (open_branch2 (L := L) hO n1 n3 CondV)
  have uM := hUt _ hu
  exact open_enterBlock (L := L) oT (.br (sc.Blocks.length + 1)) uM rfl (targets_br uM.1)

/-- The four blocks of a loop are untouched when the initializer starts. -/
theorem Untouched_loopBlocks_all (L : LLVM) {s : State} (hO : Open F s) :
    Untouched s.Blocks.length (loopBlocks s) ∧ Untouched (s.Blocks.length + 1) (loopBlocks s) ∧
    Untouched (s.Blocks.length + 2) (loopBlocks s) ∧
    Untouched (s.Blocks.length + 3) (loopBlocks s) := by
  obtain ⟨c, hc, hm, _, _⟩ := hO.cur
  have hclt := hO.block_lt hm
  have hcl := State.wf_closed L
  have w1 : (s.addBlock "loopheader" none).WF :=
    hcl.addBlock _ _ _ hO.wf (fun _ _ => trivial)
  have w2 : ((s.addBlock "loopheader" none).addBlock "loopbody" none).WF :=
    hcl.addBlock _ _ _ w1 (fun _ _ => trivial)
  have w3 : (((s.addBlock "loopheader" none).addBlock "loopbody" none).addBlock "loopupdate"
      none).WF := hcl.addBlock _ _ _ w2 (fun _ _ => trivial)
  have u0 := Untouched_addBlock_new hO.wf (n := "loopheader") (by
    intro c1 h1
    rw [hc] at h1
    cases h1
    exact hclt)
  have u1 := Untouched_addBlock_new w1 (n := "loopbody") (by
    intro c1 h1
    rw [addBlock_InsertBlock, hc] at h1
    cases h1
    rw [addBlock_Blocks_length]; omega)
  have u2 := Untouched_addBlock_new w2 (n := "loopupdate") (by
    intro c1 h1
    rw [addBlock_InsertBlock, addBlock_InsertBlock, hc] at h1
    cases h1
    rw [addBlock_Blocks_length, addBlock_Blocks_length]; omega)
  have u3 := Untouched_addBlock_new w3 (n := "loopexit") (by
    intro c1 h1
    rw [addBlock_InsertBlock, addBlock_InsertBlock, addBlock_InsertBlock, hc] at h1
    cases h1
    rw [addBlock_Blocks_length, addBlock_Blocks_length, addBlock_Blocks_length]; omega)
  rw [addBlock_Blocks_length] at u1
  rw [addBlock_Blocks_length, addBlock_Blocks_length] at u2
  rw [addBlock_Blocks_length, addBlock_Blocks_length, addBlock_Blocks_length] at u3
  exact ⟨Untouched_addBlock (L := L) (Untouched_addBlock (L := L)
      (Untouched_addBlock (L := L) u0 _ _) _ _) _ _,
    Untouched_addBlock (L := L) (Untouched_addBlock (L := L) u1 _ _) _ _,
    Untouched_addBlock (L := L) u2 _ _, u3⟩

/-- A loop keeps `F` open when its parts do. -/
theorem open_loop (L : LLVM) {Init : RootAST} {Binding : Bool} {s si sn sc sb su s1 : State}
    {origin g : Nat} {a CondV : Value} {tmp : Option Value}
    (hO : Open F s) (hib : s.InsertBlock = some origin) (hpar : s.parentOf origin = some g)
    (hOi : Open F (loopBlocks s) → Open F si)
    (hUi : ∀ b, Untouched b (loopBlocks s) → Untouched b si)
    (hsh : shadowCounter Init Binding a si = some (tmp, sn))
    (hOc : Open F (enterBlock sn (.br s.Blocks.length) g s.Blocks.length) → Open F sc)
    (hUc : ∀ b, Untouched b (enterBlock sn (.br s.Blocks.length) g s.Blocks.length) →
      Untouched b sc)
    (hOb : Open F (enterBlock sc (.condBr CondV (s.Blocks.length + 1) (s.Blocks.length + 3)) g
      (s.Blocks.length + 1)) → Open F sb)
    (hUb : ∀ b, Untouched b
      (enterBlock sc (.condBr CondV (s.Blocks.length + 1) (s.Blocks.length + 3)) g
        (s.Blocks.length + 1)) → Untouched b sb)
    (hOu : Open F (enterBlock sb (.br (s.Blocks.length + 2)) g (s.Blocks.length + 2)) →
      Open F su)
    (hUu : ∀ b, Untouched b (enterBlock sb (.br (s.Blocks.length + 2)) g (s.Blocks.length + 2)) →
      Untouched b su)
    (hr : restoreCounter Init Binding tmp
      (enterBlock su (.br s.Blocks.length) g (s.Blocks.length + 3)) = some ((), s1)) :
    Open F s1 := by
  have hg := hO.parentOf_eq hib hpar
  subst hg
  obtain ⟨u0, u1, u2, u3⟩ := Untouched_loopBlocks_all L hO
  have o0 : Open g (loopBlocks s) := by
    unfold loopBlocks
    exact open_addBlock_none (L := L) (open_addBlock_none (L := L)
      (open_addBlock_none (L := L) (open_addBlock_none (L := L) hO _) _) _) _
  have oN := shadowCounter_open (hOi o0) hsh
  have n0 := (shadowCounter_keeps (Untouched.untouched_closed L _) (hUi _ u0) hsh).1
  have n1 := (shadowCounter_keeps (Untouched.untouched_closed L _) (hUi _ u1) hsh).1
  have n2 := (shadowCounter_keeps (Untouched.untouched_closed L _) (hUi _ u2) hsh).1
  have n3 := (shadowCounter_keeps (Untouched.untouched_closed L _) (hUi _ u3) hsh).1
  have oC := hOc (open_enterBlock (L := L) oN (.br s.Blocks.length) n0 rfl (targets_br n0.1))
  have c1 := hUc _ (Untouched_enterBlock (L := L) (.br s.Blocks.length) g s.Blocks.length n1
    (by omega) n0.1)
  have c2 := hUc _ (Untouched_enterBlock (L := L) (.br s.Blocks.length) g s.Blocks.length n2
    (by omega) n0.1)
  have c3 := hUc _ (Untouched_enterBlock (L := L) (.br s.Blocks.length) g s.Blocks.length n3
    (by omega) n0.1)
  have oB := hOb (open_enterBlock (L := L) oC
    (.condBr CondV (s.Blocks.length + 1) (s.Blocks.length + 3)) c1 rfl
    (targets_condBr c1.1 c3.1))
  have b2 := hUb _ (Untouched_enterBlock (L := L)
    (.condBr CondV (s.Blocks.length + 1) (s.Blocks.length + 3)) g (s.Blocks.length + 1) c2
    (by omega) c1.1)
  have b3 := hUb _ (Untouched_enterBlock (L := L)
    (.condBr CondV (s.Blocks.length + 1) (s.Blocks.length + 3)) g (s.Blocks.length + 1) c3
    (by omega) c1.1)
  have oU := hOu (open_enterBlock (L := L) oB (.br (s.Blocks.length + 2)) b2 rfl
    (targets_br b2.1))
  have e3 := hUu _ (Untouched_enterBlock (L := L) (.br (s.Blocks.length + 2)) g
    (s.Blocks.length + 2) b3 (by omega) b2.1)
  exact restoreCounter_open (open_enterBlock (L := L) oU (.br s.Blocks.length) e3 rfl
    (targets_br (Nat.lt_of_le_of_lt (Nat.le_add_right _ 3) e3.1))) hr

end

section
variable {L : LLVM} {F : Nat}

mutual
theorem ExprAST.open_of_success :
    ∀ (e : ExprAST) (s s1 : State) (v : Value), e.noFunction = true → Open F s →
      e.codegen L s = some (some v, s1) → Open F s1
  | .NumberExprAST q, s, s1, v, _, hO, h => by
      rw [ExprAST.codegen, pure_eq_some] at h
      obtain ⟨_, rfl⟩ := h
      exact hO
  | .VariableExprAST n, s, s1, v, _, hO, h => by
      rw [ExprAST.codegen] at h
      simp only [bind_eq_some, getNamed_eq_some] at h
      obtain ⟨ra, _, ⟨hl, rfl⟩, h⟩ := h
      cases ra with
      | some a =>
        simp only [bind_eq_some, getAllocatedType_eq_some, Insert_eq_some, CreateLoad_eq_some, CreateStore_eq_some, pure_eq_some] at h
        obtain ⟨ty, _, ⟨_, rfl⟩, _, _, ⟨_, _, rfl⟩, _, rfl⟩ := h
        exact open_addInst (L := L) hO _ rfl rfl
      | none =>
        simp only [bind_eq_some, getGlobalVariable_eq_some] at h
        obtain ⟨rg, _, ⟨hg, rfl⟩, h⟩ := h
        cases rg with
        | none => have h0 := (pure_eq_some.mp h).1; cases h0
        | some g =>
          simp only [bind_eq_some, getValueType_eq_some, Insert_eq_some, CreateLoad_eq_some, CreateStore_eq_some, pure_eq_some] at h
          obtain ⟨ty, _, ⟨gv, _, _, rfl⟩, _, _, ⟨_, _, rfl⟩, _, rfl⟩ := h
          exact open_addInst (L := L) hO _ rfl rfl
  | .BinaryExprAST Op LHS RHS, s, s1, v, hn, hO, h => by
      rw [ExprAST.codegen] at h
      rw [bind_eq_some] at h
      obtain ⟨L1, s2, hl, h⟩ := h
      cases RHS with
      | none =>
        rw [ExprAST.noFunction] at hn
        cases L1 with
        | none => simp only [ite_self, crash_eq_some] at h
        | some l =>
          have k1 := ExprAST.open_of_success LHS _ _ _ hn hO hl
          generalize (if Op = '!' then some l else none) = o at h
          cases o with
          | some l1 =>
            simp only [bind_eq_some, pure_eq_some] at h
            obtain ⟨w, s3, h3, _, rfl⟩ := h
            exact CreateBinOp_open k1 h3
          | none => simp only [crash_eq_some] at h
      | some RHS =>
        rw [ExprAST.noFunction, Bool.and_eq_true] at hn
        cases L1 with
        | none =>
          simp only [ite_self, bind_eq_some, pure_eq_some] at h
          obtain ⟨R1, s3, hr, h0, _⟩ := h
          cases h0
        | some l =>
          have k1 := ExprAST.open_of_success LHS _ _ _ hn.1 hO hl
          generalize (if Op = '!' then some l else none) = o at h
          cases o with
          | some l1 =>
            simp only [bind_eq_some, pure_eq_some] at h
            obtain ⟨w, s3, h3, _, rfl⟩ := h
            exact CreateBinOp_open k1 h3
          | none =>
            simp only [bind_eq_some] at h
            obtain ⟨R1, s3, hr, h⟩ := h
            cases R1 with
            | none => simp only [pure_eq_some] at h; obtain ⟨h0, _⟩ := h; cases h0
            | some r1 =>
              have k2 := ExprAST.open_of_success RHS _ _ _ hn.2 k1 hr
              simp only [] at h
              cases hop : binaryOpcode Op with
              | none =>
                rw [hop] at h
                simp only [pure_eq_some] at h; obtain ⟨h0, _⟩ := h; cases h0
              | some op =>
                rw [hop] at h
                simp only [bind_eq_some, pure_eq_some] at h
                obtain ⟨w, s4, h4, _, rfl⟩ := h
                exact CreateBinOp_open k2 h4
  | .CallExprAST Callee Args, s, s1, v, hn, hO, h => by
      rw [ExprAST.noFunction] at hn
      rw [ExprAST.codegen] at h
      simp only [bind_eq_some, getFunction_eq_some] at h
      obtain ⟨rf, _, ⟨hf, rfl⟩, h⟩ := h
      cases rf with
      | none => have h0 := (pure_eq_some.mp h).1; cases h0
      | some CalleeF =>
        simp only [bind_eq_some, argSize_eq_some] at h
        obtain ⟨_, _, ⟨fn, hfn, rfl, rfl⟩, h⟩ := h
        split at h
        · have h0 := (pure_eq_some.mp h).1; cases h0
        · simp only [bind_eq_some] at h
          obtain ⟨ra, s2, ha, h⟩ := h
          cases ra with
          | none => have h0 := (pure_eq_some.mp h).1; cases h0
          | some ArgsV =>
            have k1 := codegenArgs_open Args _ _ _ hn hO ha
            simp only [bind_eq_some, Insert_eq_some, CreateLoad_eq_some, CreateStore_eq_some, pure_eq_some] at h
            obtain ⟨_, _, ⟨_, rfl⟩, _, rfl⟩ := h
            exact open_addInst (L := L) k1 _ rfl rfl
  | .IfExprAST c t f, s, s1, v, hn, hO, h => by
      rw [ExprAST.noFunction, Bool.and_eq_true, Bool.and_eq_true] at hn
      obtain ⟨CondV, TrueV, FalseV, sc, st, sf, origin, g, hc, hib, hpar, _, ht, hf, _, rfl⟩ :=
        IfExprAST_shape L c t f s s1 v h
      have k1 := ExprAST.open_of_success c _ _ _ hn.1.1 hO hc
      have k2 := open_twoBranches L "trueexp" "falseexp" "endcond" CondV k1 hib hpar
        (fun o => ExprAST.open_of_success t _ _ _ hn.1.2 o ht)
        (fun b u => (ExprAST.codegen_keeps (Untouched.untouched_closed L b) t _ _ _ u ht).1)
        (fun o => ExprAST.open_of_success f _ _ _ hn.2 o hf)
        (fun b u => (ExprAST.codegen_keeps (Untouched.untouched_closed L b) f _ _ _ u hf).1)
      rw [mergeState_eq]
      exact open_addIncoming (L := L) (open_addIncoming (L := L)
        (open_addInst (L := L) k2 (.phi []) rfl rfl) _ _ _) _ _ _
  | .BlockAST Def Stmts, s, s1, v, hn, hO, h => by
      rw [ExprAST.noFunction, Bool.and_eq_true] at hn
      rw [ExprAST.codegen] at h
      simp only [bind_eq_some] at h
      obtain ⟨rd, s2, hd, h⟩ := h
      cases rd with
      | none => have h0 := (pure_eq_some.mp h).1; cases h0
      | some AllocaTmp =>
        have k1 := codegenDefs_open Def _ _ _ _ hn.1 hO hd
        simp only [bind_eq_some] at h
        obtain ⟨rs, s3, hs, h⟩ := h
        cases rs with
        | none => have h0 := (pure_eq_some.mp h).1; cases h0
        | some Val =>
          have k2 := codegenStmts_open Stmts _ _ _ _ hn.2 k1 hs
          simp only [bind_eq_some, pure_eq_some] at h
          obtain ⟨_, s4, h4, _, rfl⟩ := h
          exact restoreNamed_open _ _ _ _ _ k2 h4
  | .ArrayExprAST n Index, s, s1, v, hn, hO, h => by
      rw [ExprAST.noFunction] at hn
      rw [ExprAST.codegen] at h
      simp only [bind_eq_some, getNamed_eq_some] at h
      obtain ⟨ra, _, ⟨hl, rfl⟩, h⟩ := h
      cases ra with
      | some a =>
        simp only [bind_eq_some, getAllocatedType_eq_some] at h
        obtain ⟨ty, _, ⟨hty, rfl⟩, h⟩ := h
        split at h
        · have h0 := (pure_eq_some.mp h).1; cases h0
        · simp only [bind_eq_some] at h
          obtain ⟨ri, s2, hi, h⟩ := h
          cases ri with
          | none => have h0 := (pure_eq_some.mp h).1; cases h0
          | some IndexFP =>
            have k1 := ExprAST.open_of_success Index _ _ _ hn hO hi
            simp only [bind_eq_some, Insert_eq_some, CreateLoad_eq_some, CreateStore_eq_some, pure_eq_some] at h
            obtain ⟨EP, s3, he, _, _, ⟨_, _, rfl⟩, _, rfl⟩ := h
            exact open_addInst (L := L) (elementAddress_open k1 he) _ rfl rfl
      | none =>
        simp only [bind_eq_some, getGlobalVariable_eq_some] at h
        obtain ⟨rg, _, ⟨hg, rfl⟩, h⟩ := h
        cases rg with
        | none => have h0 := (pure_eq_some.mp h).1; cases h0
        | some g =>
          simp only [bind_eq_some, getValueType_eq_some] at h
          obtain ⟨ty, _, ⟨gv, hgv, rfl, rfl⟩, h⟩ := h
          split at h
          · have h0 := (pure_eq_some.mp h).1; cases h0
          · simp only [bind_eq_some] at h
            obtain ⟨ri, s2, hi, h⟩ := h
            cases ri with
            | none => have h0 := (pure_eq_some.mp h).1; cases h0
            | some IndexFP =>
              have k1 := ExprAST.open_of_success Index _ _ _ hn hO hi
              simp only [bind_eq_some, Insert_eq_some, CreateLoad_eq_some, CreateStore_eq_some, pure_eq_some] at h
              obtain ⟨EP, s3, he, _, _, ⟨_, _, rfl⟩, _, rfl⟩ := h
              exact open_addInst (L := L) (elementAddress_open k1 he) _ rfl rfl
theorem codegenArgs_open :
    ∀ (es : List ExprAST) (s s1 : State) (vs : List Value), noFunctionArgs es = true →
      Open F s → codegenArgs L es s = some (some vs, s1) → Open F s1
  | [], s, s1, vs, _, hO, h => by
      rw [codegenArgs, pure_eq_some] at h
      obtain ⟨_, rfl⟩ := h
      exact hO
  | e :: es, s, s1, vs, hn, hO, h => by
      rw [noFunctionArgs, Bool.and_eq_true] at hn
      rw [codegenArgs] at h
      simp only [bind_eq_some] at h
      obtain ⟨re, s2, he, h⟩ := h
      cases re with
      | none => have h0 := (pure_eq_some.mp h).1; cases h0
      | some w =>
        have k1 := ExprAST.open_of_success e _ _ _ hn.1 hO he
        simp only [bind_eq_some] at h
        obtain ⟨rr, s3, hr, h⟩ := h
        cases rr with
        | none => have h0 := (pure_eq_some.mp h).1; cases h0
        | some ws =>
          have k2 := codegenArgs_open es _ _ _ hn.2 k1 hr
          simp only [pure_eq_some] at h; obtain ⟨_, rfl⟩ := h; exact k2
theorem codegenDefs_open :
    ∀ (ds : List VarBindingAST) (tmp : List (Option Value)) (s s1 : State)
      (r : List (Option Value)), noFunctionDefs ds = true → Open F s →
      codegenDefs L ds tmp s = some (some r, s1) → Open F s1
  | [], tmp, s, s1, r, _, hO, h => by
      rw [codegenDefs, pure_eq_some] at h
      obtain ⟨_, rfl⟩ := h
      exact hO
  | d :: ds, tmp, s, s1, r, hn, hO, h => by
      rw [noFunctionDefs, Bool.and_eq_true] at hn
      rw [codegenDefs] at h
      simp only [bind_eq_some] at h
      obtain ⟨rd, s2, hd, h⟩ := h
      cases rd with
      | none => have h0 := (pure_eq_some.mp h).1; cases h0
      | some BoundVal =>
        have k1 := VarBindingAST.open_of_bound d _ _ _ hn.1 hO hd
        simp only [bind_eq_some, getNamed_eq_some, setNamed_eq_some] at h
        obtain ⟨_, _, ⟨rfl, rfl⟩, _, _, rfl, h⟩ := h
        exact codegenDefs_open ds _ _ _ _ hn.2 (open_setNamed k1 _ _) h
theorem codegenStmts_open :
    ∀ (sts : List RootAST) (v0 : Option Value) (s s1 : State) (r : Option Value),
      noFunctionStmts sts = true → Open F s →
      codegenStmts L sts v0 s = some (some r, s1) → Open F s1
  | [], v0, s, s1, r, _, hO, h => by
      rw [codegenStmts, pure_eq_some] at h
      obtain ⟨_, rfl⟩ := h
      exact hO
  | st :: sts, v0, s, s1, r, hn, hO, h => by
      rw [noFunctionStmts, Bool.and_eq_true] at hn
      rw [codegenStmts] at h
      simp only [bind_eq_some] at h
      obtain ⟨rd, s2, hd, h⟩ := h
      cases rd with
      | none => have h0 := (pure_eq_some.mp h).1; cases h0
      | some w =>
        have k1 := RootAST.open_of_done st _ _ _ hn.1 hO hd
        exact codegenStmts_open sts _ _ _ _ hn.2 k1 h
theorem VarBindingAST.open_of_bound :
    ∀ (b : VarBindingAST) (s s1 : State) (v : Value), b.noFunction = true → Open F s →
      b.codegen L s = some (some v, s1) → Open F s1
  | .scalar n Val, s, s1, v, hn, hO, h => by
      rw [VarBindingAST.codegen] at h
      simp only [bind_eq_some, GetInsertBlockParent_eq_some,
        CreateEntryBlockAlloca_eq_some] at h
      obtain ⟨_, _, ⟨c0, blk0, hib, hblk, rfl, rfl⟩, _, _, ⟨entry, he, rfl, rfl⟩, h⟩ := h
      have kA := open_entryAlloca L hO he .double n
      cases Val with
      | some Val =>
        rw [VarBindingAST.noFunction] at hn
        simp only [bind_eq_some] at h
        obtain ⟨rv, s2, hv, h⟩ := h
        cases rv with
        | none => have h0 := (pure_eq_some.mp h).1; cases h0
        | some BoundVal =>
          have k1 := ExprAST.open_of_success Val _ _ _ hn kA hv
          simp only [bind_eq_some, Insert_eq_some, CreateLoad_eq_some, CreateStore_eq_some, pure_eq_some] at h
          obtain ⟨_, _, ⟨_, _, rfl⟩, _, rfl⟩ := h
          exact open_addInst (L := L) k1 _ rfl rfl
      | none =>
        simp only [bind_eq_some, Insert_eq_some, CreateLoad_eq_some, CreateStore_eq_some, pure_eq_some] at h
        obtain ⟨_, _, ⟨_, _, rfl⟩, _, rfl⟩ := h
        exact open_addInst (L := L) kA _ rfl rfl
  | .ArrayBindingAST n Size ExprList, s, s1, v, hn, hO, h => by
      rw [VarBindingAST.noFunction] at hn
      rw [VarBindingAST.codegen] at h
      split at h
      · have h0 := (pure_eq_some.mp h).1; cases h0
      · simp only [bind_eq_some, GetInsertBlockParent_eq_some,
          CreateEntryBlockAlloca_eq_some] at h
        obtain ⟨_, _, ⟨c0, blk0, hib, hblk, rfl, rfl⟩, _, _, ⟨entry, he, rfl, rfl⟩,
          ra, s2, ha, h⟩ := h
        have kA := open_entryAlloca L hO he (.array (toU64 Size)) n
        cases ra with
        | none => have h0 := (pure_eq_some.mp h).1; cases h0
        | some Vals =>
          have k1 := codegenArgs_open ExprList _ _ _ hn kA ha
          simp only [bind_eq_some, pure_eq_some] at h
          obtain ⟨_, s3, hs, _, rfl⟩ := h
          exact storeElems_open _ _ _ _ _ _ _ k1 hs
theorem RootAST.open_of_done :
    ∀ (e : RootAST) (s s1 : State) (v : Value), e.noFunction = true → Open F s →
      e.codegen L s = some (some v, s1) → Open F s1
  | .SeqAST none none, s, s1, v, _, hO, h => by
      rw [RootAST.codegen] at h
      have h0 := (pure_eq_some.mp h).1; cases h0
  | .SeqAST none (some c), s, s1, v, _, hO, h => by
      rw [RootAST.codegen] at h
      simp only [bind_eq_some, pure_eq_some] at h
      obtain ⟨_, s2, _, h0, _⟩ := h
      cases h0
  | .SeqAST (some f) none, s, s1, v, _, hO, h => by
      rw [RootAST.codegen] at h
      simp only [bind_eq_some, crash_eq_some, and_false, exists_false] at h
  | .SeqAST (some f) (some c), s, s1, v, _, hO, h => by
      rw [RootAST.codegen] at h
      simp only [bind_eq_some, pure_eq_some] at h
      obtain ⟨_, s2, _, _, s3, _, h0, _⟩ := h
      cases h0
  | .expr e, s, s1, v, hn, hO, h => by
      rw [RootAST.noFunction] at hn
      rw [RootAST.codegen] at h
      exact ExprAST.open_of_success e _ _ _ hn hO h
  | .binding b, s, s1, v, hn, hO, h => by
      rw [RootAST.noFunction] at hn
      rw [RootAST.codegen] at h
      exact VarBindingAST.open_of_bound b _ _ _ hn hO h
  | .PrototypeAST p, s, s1, v, _, hO, h => by
      rw [RootAST.codegen] at h
      simp only [bind_eq_some, PrototypeAST.codegen, FunctionCreate_eq_some,
        pure_eq_some] at h
      obtain ⟨_, _, ⟨_, _, ⟨rfl, rfl⟩, rfl, rfl⟩, _, rfl⟩ := h
      exact open_addFunction hO _ _
  | .FunctionAST Proto Body, s, s1, v, hn, hO, h => by
      rw [RootAST.noFunction] at hn
      cases hn
  | .GlobalVarAST n, s, s1, v, _, hO, h => by
      rw [RootAST.codegen] at h
      simp only [bind_eq_some, getGlobalVariable_eq_some] at h
      obtain ⟨rg, _, ⟨hg, rfl⟩, h⟩ := h
      cases rg with
      | some g => have h0 := (pure_eq_some.mp h).1; cases h0
      | none =>
        simp only [bind_eq_some, GlobalVariableCreate_eq_some, pure_eq_some] at h
        obtain ⟨_, _, ⟨rfl, rfl⟩, _, rfl⟩ := h
        exact open_addGlobal hO _ _ _
  | .GlobalArrayAST n Size, s, s1, v, _, hO, h => by
      rw [RootAST.codegen] at h
      simp only [bind_eq_some, getGlobalVariable_eq_some] at h
      obtain ⟨rg, _, ⟨hg, rfl⟩, h⟩ := h
      cases rg with
      | some g => have h0 := (pure_eq_some.mp h).1; cases h0
      | none =>
        simp only [bind_eq_some, GlobalVariableCreate_eq_some, pure_eq_some] at h
        obtain ⟨_, _, ⟨rfl, rfl⟩, _, rfl⟩ := h
        exact open_addGlobal hO _ _ _
  | .AssignmentAST n Val, s, s1, v, hn, hO, h => by
      rw [RootAST.noFunction] at hn
      rw [RootAST.codegen] at h
      simp only [bind_eq_some] at h
      obtain ⟨target, s2, ht, h⟩ := h
      have e2 : s = s2 := by
        simp only [bind_eq_some, getNamed_eq_some] at ht
        obtain ⟨ra, _, ⟨_, rfl⟩, ht⟩ := ht
        cases ra with
        | some a => exact (pure_eq_some.mp ht).2
        | none =>
          simp only [bind_eq_some, getGlobalVariable_eq_some, pure_eq_some] at ht
          obtain ⟨_, _, ⟨_, rfl⟩, _, rfl⟩ := ht
          rfl
      subst e2
      cases target with
      | none => have h0 := (pure_eq_some.mp h).1; cases h0
      | some Alloca =>
        simp only [bind_eq_some] at h
        obtain ⟨rv, s3, hv, h⟩ := h
        cases rv with
        | none => have h0 := (pure_eq_some.mp h).1; cases h0
        | some BoundVal =>
          have k1 := ExprAST.open_of_success Val _ _ _ hn hO hv
          simp only [bind_eq_some, Insert_eq_some, CreateLoad_eq_some, CreateStore_eq_some, pure_eq_some] at h
          obtain ⟨_, _, ⟨_, _, rfl⟩, _, rfl⟩ := h
          exact open_addInst (L := L) k1 _ rfl rfl
  | .ArrayAssignmentAST n Index Val, s, s1, v, hn, hO, h => by
      rw [RootAST.noFunction, Bool.and_eq_true] at hn
      rw [RootAST.codegen] at h
      simp only [bind_eq_some] at h
      obtain ⟨loc, s2, hloc, h⟩ := h
      have k1 : loc = none ∨ Open F s2 := by
        simp only [bind_eq_some, getNamed_eq_some] at hloc
        obtain ⟨ra, _, ⟨_, rfl⟩, hloc⟩ := hloc
        cases ra with
        | none => obtain ⟨_, rfl⟩ := pure_eq_some.mp hloc; exact Or.inr hO
        | some a =>
          simp only [bind_eq_some, getAllocatedType_eq_some] at hloc
          obtain ⟨ty, _, ⟨hty, rfl⟩, hloc⟩ := hloc
          split at hloc
          · obtain ⟨_, rfl⟩ := pure_eq_some.mp hloc; exact Or.inr hO
          · simp only [bind_eq_some] at hloc
            obtain ⟨ri, s3, hi, hloc⟩ := hloc
            cases ri with
            | none => exact Or.inl (pure_eq_some.mp hloc).1.symm
            | some IndexFP =>
              have k1 := ExprAST.open_of_success Index _ _ _ hn.1 hO hi
              simp only [bind_eq_some, pure_eq_some] at hloc
              obtain ⟨EP, s4, he, _, rfl⟩ := hloc
              exact Or.inr (elementAddress_open k1 he)
      cases loc with
      | none => have h0 := (pure_eq_some.mp h).1; cases h0
      | some local1 =>
        have k1 : Open F s2 := by
          rcases k1 with e | k
          · cases e
          · exact k
        simp only [bind_eq_some] at h
        obtain ⟨glob, s3, hglob, h⟩ := h
        have k2 : glob = none ∨ Open F s3 := by
          simp only [bind_eq_some, getGlobalVariable_eq_some] at hglob
          obtain ⟨rg, _, ⟨_, rfl⟩, hglob⟩ := hglob
          cases rg with
          | none => obtain ⟨_, rfl⟩ := pure_eq_some.mp hglob; exact Or.inr k1
          | some g =>
            simp only [bind_eq_some, getValueType_eq_some] at hglob
            obtain ⟨ty, _, ⟨gv, hgv, rfl, rfl⟩, hglob⟩ := hglob
            split at hglob
            · obtain ⟨_, rfl⟩ := pure_eq_some.mp hglob; exact Or.inr k1
            · simp only [bind_eq_some] at hglob
              obtain ⟨ri, s4, hi, hglob⟩ := hglob
              cases ri with
              | none => exact Or.inl (pure_eq_some.mp hglob).1.symm
              | some IndexFP =>
                have k2 := ExprAST.open_of_success Index _ _ _ hn.1 k1 hi
                simp only [bind_eq_some, pure_eq_some] at hglob
                obtain ⟨EP, s5, he, _, rfl⟩ := hglob
                exact Or.inr (elementAddress_open k2 he)
        match glob, h, k2 with
        | none, h, _ => have h0 := (pure_eq_some.mp h).1; cases h0
        | some none, h, _ => have h0 := (pure_eq_some.mp h).1; cases h0
        | some (some (EP, RetVal)), h, k2 =>
          have k2 : Open F s3 := by
            rcases k2 with e | k
            · cases e
            · exact k
          simp only [bind_eq_some] at h
          obtain ⟨rv, s4, hv, h⟩ := h
          cases rv with
          | none => have h0 := (pure_eq_some.mp h).1; cases h0
          | some BoundVal =>
            have k3 := ExprAST.open_of_success Val _ _ _ hn.2 k2 hv
            simp only [bind_eq_some, Insert_eq_some, CreateLoad_eq_some, CreateStore_eq_some, pure_eq_some] at h
            obtain ⟨_, _, ⟨_, _, rfl⟩, _, rfl⟩ := h
            exact open_addInst (L := L) k3 _ rfl rfl
  | .IfStmtAST Cond TrueStmt (some FalseStmt), s, s1, v, hn, hO, h => by
      rw [RootAST.noFunction, Bool.and_eq_true, Bool.and_eq_true] at hn
      obtain ⟨CondV, TrueV, FalseV, sc, st, sf, origin, g, hc, hib, hpar, ht, hf, _, rfl⟩ :=
        IfStmtAST_else_shape L Cond TrueStmt FalseStmt s s1 v h
      have k1 := ExprAST.open_of_success Cond _ _ _ hn.1.1 hO hc
      exact open_twoBranches L "truebb" "falsebb" "mergebb" CondV k1 hib hpar
        (fun o => RootAST.open_of_done TrueStmt _ _ _ hn.1.2 o ht)
        (fun b u => (RootAST.root_keeps (Untouched.untouched_closed L b) TrueStmt _ _ _ u ht).1)
        (fun o => RootAST.open_of_done FalseStmt _ _ _ hn.2 o hf)
        (fun b u => (RootAST.root_keeps (Untouched.untouched_closed L b) FalseStmt _ _ _ u hf).1)
  | .IfStmtAST Cond TrueStmt none, s, s1, v, hn, hO, h => by
      rw [RootAST.noFunction, Bool.and_eq_true] at hn
      obtain ⟨CondV, TrueV, sc, st, origin, g, hc, hib, hpar, ht, _, rfl⟩ :=
        IfStmtAST_then_shape L Cond TrueStmt s s1 v h
      have k1 := ExprAST.open_of_success Cond _ _ _ hn.1 hO hc
      exact open_oneBranch L "truebb" "mergebb" CondV k1 hib hpar
        (fun o => RootAST.open_of_done TrueStmt _ _ _ hn.2 o ht)
        (fun b u => (RootAST.root_keeps (Untouched.untouched_closed L b) TrueStmt _ _ _ u ht).1)
  | .ForStmtAST Init Binding Cond Update Body, s, s1, v, hn, hO, h => by
      rw [RootAST.noFunction, Bool.and_eq_true, Bool.and_eq_true, Bool.and_eq_true] at hn
      obtain ⟨CounterAlloca, CondV, BodyV, UpdateV, AllocaTmp, si, sn, sc, sb, su, origin, g,
        hib, hpar, _, hi, hsh, hc, hbd, hu, hr, _⟩ :=
        ForStmtAST_shape L Init Binding Cond Update Body s s1 v h
      exact open_loop L hO hib hpar
        (fun o => RootAST.open_of_done Init _ _ _ hn.1.1.1 o hi)
        (fun b u => (RootAST.root_keeps (Untouched.untouched_closed L b) Init _ _ _ u hi).1)
        hsh
        (fun o => ExprAST.open_of_success Cond _ _ _ hn.1.1.2 o hc)
        (fun b u => (ExprAST.codegen_keeps (Untouched.untouched_closed L b) Cond _ _ _ u hc).1)
        (fun o => RootAST.open_of_done Body _ _ _ hn.2 o hbd)
        (fun b u => (RootAST.root_keeps (Untouched.untouched_closed L b) Body _ _ _ u hbd).1)
        (fun o => RootAST.open_of_done Update _ _ _ hn.1.2 o hu)
        (fun b u => (RootAST.root_keeps (Untouched.untouched_closed L b) Update _ _ _ u hu).1)
        hr
end

end

theorem attachedSince_append {s : State} {base log : List (Nat × Nat)} (F : Nat)
    (h : s.AttachLog = base ++ log) :
    s.attachedSince base F = (log.filter (fun p => p.1 = F)).map (fun p => p.2) := by
  unfold State.attachedSince
  rw [h, List.drop_left]

theorem AttachedInOrder.of_same {F : Nat} {base : List (Nat × Nat)} {s s1 : State}
    (h : AttachedInOrder F base s) (hF : s.Functions.length ≤ s1.Functions.length)
    (hl : s1.AttachLog = s.AttachLog) (hb : s1.blocksOf F = s.blocksOf F) :
    AttachedInOrder F base s1 := by
  obtain ⟨h1, ⟨log, h2⟩, h3⟩ := h
  refine ⟨Nat.lt_of_lt_of_le h1 hF, ⟨log, by rw [hl]; exact h2⟩, ?_⟩
  rw [hb, h3]
  unfold State.attachedSince
  rw [hl]

theorem AttachedInOrder.of_attach {F : Nat} {base : List (Nat × Nat)} {s s1 : State}
    (h : AttachedInOrder F base s) (f b : Nat)
    (hF : s.Functions.length ≤ s1.Functions.length)
    (hl : s1.AttachLog = s.AttachLog ++ [(f, b)])
    (hb : s1.blocksOf F = if F = f ∧ F < s.Functions.length then s.blocksOf F ++ [b]
      else s.blocksOf F) :
    AttachedInOrder F base s1 := by
  obtain ⟨h1, ⟨log, h2⟩, h3⟩ := h
  refine ⟨Nat.lt_of_lt_of_le h1 hF, ⟨log ++ [(f, b)], by rw [hl, h2, List.append_assoc]⟩, ?_⟩
  rw [hb, h3, attachedSince_append F h2,
    attachedSince_append F (show s1.AttachLog = base ++ (log ++ [(f, b)]) by
      rw [hl, h2, List.append_assoc])]
  by_cases e : f = F
  · subst e
    rw [if_pos ⟨rfl, h1⟩]
    simp [List.filter_append]
  · have e1 : ¬ (F = f ∧ F < s.Functions.length) := fun e2 => e e2.1.symm
    rw [if_neg e1]
    simp [List.filter_append, e]

theorem attachedInOrder_closed (L : LLVM) (F : Nat) (base : List (Nat × Nat)) :
    Closed L (AttachedInOrder F base) (fun _ => True) (fun _ => True) (fun _ => True)
      (fun _ => True) where
  newB := fun _ _ => trivial
  newF := fun _ _ => ⟨trivial, trivial⟩
  newI := fun _ _ => trivial
  parent := fun _ _ _ _ _ _ _ _ => trivial
  addInst := fun s i h _ => h.of_same (by simp) rfl (by simp)
  addBlock := fun s n p h _ => by
    cases p with
    | none => exact h.of_same (by simp) rfl (blocksOf_addBlock_none s n F)
    | some f =>
      refine h.of_attach f s.Blocks.length (by simp) rfl ?_
      rw [blocksOf_addBlock]
      by_cases e : F = f
      · subst e
        simp
      · have e1 : ¬ (some f = some F ∧ F < s.Functions.length) := by
          intro e2; exact e (Option.some.inj e2.1).symm
        have e3 : ¬ (F = f ∧ F < s.Functions.length) := fun e2 => e e2.1
        rw [if_neg e1, if_neg e3]
  attach := fun s f b h _ _ _ => h.of_attach f b (by simp) rfl (blocksOf_attach s f b F)
  setInsertBlock := fun s b h _ _ => h.of_same (by simp) rfl rfl
  addAlloca := fun s f e ty n h _ _ => h.of_same (by simp) rfl (by simp)
  setNamed := fun s n v h => h.of_same (by simp) rfl rfl
  addIncoming := fun s id v bb h _ => h.of_same (by simp) (by simp) (by simp)
  addFunction := fun s n a h => h.of_same (by simp) rfl (by simp)
  erase := fun s f h _ => h.of_same (by simp) rfl rfl
  addGlobal := fun s ty init n h => h.of_same (by simp) rfl (by simp)

theorem open_functionEntry (L : LLVM) (Proto : PrototypeAST) {s : State} (hwf : s.WF) :
    Open s.Functions.length (functionEntry L Proto s) := by
  have hcl := State.wf_closed L
  have hl : (functionEntry L Proto s).blocksOf s.Functions.length = [s.Blocks.length] := by
    unfold functionEntry
    rw [blocksOf_setInsertBlock, blocksOf_addBlock_some _ (by simp), blocksOf_addFunction,
      blocksOf_eq_nil_of_le (le_refl _)]
    simp
  have hi : (functionEntry L Proto s).instsOf s.Blocks.length = [] := by
    unfold functionEntry
    rw [instsOf_setInsertBlock, instsOf_addBlock, instsOf_addFunction]
    exact instsOf_eq_nil_of_le (le_refl _)
  refine ⟨?_, ⟨s.Blocks.length, rfl, by rw [hl]; simp, ?_, ?_⟩, ?_, by rw [hl]; simp⟩
  · exact hcl.setInsertBlock _ _ (hcl.addBlock _ _ _ (hcl.addFunction _ _ _ hwf)
      (fun _ _ => trivial)) trivial (by simp)
  · unfold functionEntry
    rw [parentOf_setInsertBlock, parentOf_addBlock, addFunction_Blocks, if_pos rfl]
  · intro i hm
    rw [hi] at hm
    cases hm
  · intro b hb hne
    rw [hl, List.mem_singleton] at hb
    subst hb
    exact absurd rfl hne

theorem codegenParams_open (L : LLVM) {F : Nat} (f : Nat) :
    ∀ (args : List String) (i : Nat) (s s1 : State) (r : Unit), Open F s →
      codegenParams f i args s = some (r, s1) → Open F s1
  | [], i, s, s1, r, hO, h => by
      rw [codegenParams, pure_eq_some] at h
      obtain ⟨_, rfl⟩ := h
      exact hO
  | a :: args, i, s, s1, r, hO, h => by
      rw [codegenParams] at h
      simp only [bind_eq_some, Insert_eq_some, CreateLoad_eq_some, CreateStore_eq_some, setNamed_eq_some,
        CreateEntryBlockAlloca_eq_some] at h
      obtain ⟨_, _, ⟨entry, he, rfl, rfl⟩, _, _, ⟨_, _, rfl⟩, _, _, rfl, h3⟩ := h
      exact codegenParams_open L f args (i + 1) _ _ _
        (open_setNamed (open_addInst (L := L) (open_addAlloca (L := L) hO f entry .double a he)
          (.store (.arg f i) (.inst s.Insts.length)) rfl rfl) a _) h3

/-- The return that ends the body leaves every block of `F` with exactly one
terminator, at its end. -/
theorem terminated_of_ret {F : Nat} {s : State} (hO : Open F s) (v : Value) :
    (∀ b ∈ (s.addInst (.ret v)).blocksOf F, (s.addInst (.ret v)).terminated b) ∧
      ((s.addInst (.ret v)).blocksOf F).Nodup := by
  have hold : ∀ (i : Nat) (y : Instr), s.Insts[i]? = some y →
      (s.addInst (.ret v)).Insts[i]? = some y := by
    intro i y hy
    rw [addInst_Insts, List.getElem?_append_left (getElem?_lt_of_some hy)]
    exact hy
  obtain ⟨c, h1, h2, h3, h4⟩ := hO.cur
  refine ⟨?_, by rw [blocksOf_addInst]; exact hO.nodup⟩
  intro b hb
  rw [blocksOf_addInst] at hb
  by_cases e : b = c
  · subst e
    refine ⟨s.instsOf b, s.Insts.length, .ret v, instsOf_addInst_cur _ h1 (hO.block_lt h2),
      by simp, rfl, ?_⟩
    intro i hi
    obtain ⟨y, hy1, hy2⟩ := h4 i hi
    exact ⟨y, hold i y hy1, hy2⟩
  · have hne : s.InsertBlock ≠ some b := by
      rw [h1]; intro e1; cases e1; exact e rfl
    obtain ⟨pre, j, y, e1, e2, e3, e4⟩ := hO.others b hb hne
    refine ⟨pre, j, y, by rw [instsOf_addInst_other _ hne]; exact e1, hold j y e2, e3, ?_⟩
    intro i hi
    obtain ⟨z, hz1, hz2⟩ := e4 i hi
    exact ⟨z, hold i z hz1, hz2⟩

/-- C1 (as stated), refuted at `def f() { def g() 1; 2 }` in a fresh session: the
definition of `f` succeeds, yet the builder was left in the entry block of the
nested `g`, so the return of `f` lands there: the entry block of `f` is attached
to `f` and holds no instruction, hence no terminator, and the entry block of `g`
holds two returns. -/
theorem FunctionAST_nested_unterminated :
    State.init.WF ∧
    nestedDefinition.codegen plainLLVM State.init =
      some (some (.func 0), stateAfter (nestedDefinition.codegen plainLLVM) State.init) ∧
    (stateAfter (nestedDefinition.codegen plainLLVM) State.init).blocksOf 0 = [0] ∧
    (stateAfter (nestedDefinition.codegen plainLLVM) State.init).instsOf 0 = [] ∧
    ¬ (stateAfter (nestedDefinition.codegen plainLLVM) State.init).terminated 0 ∧
    (stateAfter (nestedDefinition.codegen plainLLVM) State.init).blocksOf 1 = [1] ∧
    (stateAfter (nestedDefinition.codegen plainLLVM) State.init).instsOf 1 = [0, 1] ∧
    (stateAfter (nestedDefinition.codegen plainLLVM) State.init).Insts =
      [.ret (.constFP 1), .ret (.constFP 2)] := by
  refine ⟨State.wf_init, by decide!, by decide!, by decide!, ?_, by decide!, by decide!,
    by decide!⟩
  rintro ⟨pre, j, x, h, _⟩
  have e : (stateAfter (nestedDefinition.codegen plainLLVM) State.init).instsOf 0 = [] := by
    decide!
  rw [e] at h
  cases pre <;> cases h

/-- C1 (amended): when the body holds no nested function definition and the
stores are well-formed, a function definition whose generation succeeds returns
the new function, every block attached to it holds exactly one terminator, as
its last instruction, no block is listed twice, and the block list is the list
of the blocks attached to the function during the call, in the order of
attachment. -/
theorem FunctionAST_blocks_terminated (L : LLVM) (Proto : PrototypeAST) (Body : ExprAST)
    (s s1 : State) (v : Value) (hwf : s.WF) (hno : Body.noFunction = true)
    (h : (RootAST.FunctionAST Proto Body).codegen L s = some (some v, s1)) :
    v = .func s.Functions.length ∧
    (∀ b ∈ s1.blocksOf s.Functions.length, s1.terminated b) ∧
    (s1.blocksOf s.Functions.length).Nodup ∧
    (∃ log, s1.AttachLog = s.AttachLog ++ log) ∧
    s1.blocksOf s.Functions.length = s1.attachedSince s.AttachLog s.Functions.length := by
  rw [RootAST.codegen] at h
  simp only [bind_eq_some, getFunction_eq_some] at h
  obtain ⟨rf, _, ⟨hf, rfl⟩, h⟩ := h
  cases rf with
  | some g => have h0 := (pure_eq_some.mp h).1; cases h0
  | none =>
    simp only [bind_eq_some, PrototypeAST.codegen, FunctionCreate_eq_some,
      pure_eq_some] at h
    obtain ⟨_, _, ⟨_, _, ⟨rfl, rfl⟩, rfl, rfl⟩, h⟩ := h
    simp only [bind_eq_some, BasicBlockCreate_eq_some, SetInsertPoint_eq_some,
      getArgs_eq_some] at h
    obtain ⟨_, _, ⟨rfl, rfl⟩, _, _, rfl, _, _, ⟨fn, hfn, rfl, rfl⟩, _, s3, hp,
      rb, s4, hb, h⟩ := h
    cases rb with
    | none =>
      simp only [bind_eq_some, eraseFromParent_eq_some, pure_eq_some] at h
      obtain ⟨_, _, _, h0, _⟩ := h
      cases h0
    | some RetVal =>
      simp only [bind_eq_some, Insert_eq_some, CreateLoad_eq_some, CreateStore_eq_some, pure_eq_some] at h
      obtain ⟨_, _, ⟨_, rfl⟩, h0, rfl⟩ := h
      have o0 : Open s.Functions.length (functionEntry L Proto s) :=
        open_functionEntry L Proto hwf
      have o3 := codegenParams_open L _ _ _ _ _ _ o0 hp
      have o4 := ExprAST.open_of_success Body _ _ _ hno o3 hb
      have hcl := attachedInOrder_closed L s.Functions.length s.AttachLog
      have a0 : AttachedInOrder s.Functions.length s.AttachLog
          (s.addFunction L Proto.Name Proto.Args) := by
        refine ⟨by simp, ⟨[], by simp⟩, ?_⟩
        rw [blocksOf_addFunction, blocksOf_eq_nil_of_le (le_refl _)]
        unfold State.attachedSince
        simp
      have a1 : AttachedInOrder s.Functions.length s.AttachLog (functionEntry L Proto s) :=
        hcl.setInsertBlock _ _ (hcl.addBlock _ _ _ a0 (fun _ _ => trivial)) trivial (by simp)
      have a3 := (codegenParams_keeps hcl _ trivial _ _ _ _ _ a1 hp).1
      have a4 := (ExprAST.codegen_keeps hcl Body _ _ _ a3 hb).1
      have a5 := hcl.plain (i := .ret RetVal) a4 rfl
      have t5 := terminated_of_ret o4 RetVal
      exact ⟨(Option.some.inj h0).symm, t5.1, t5.2, a5.2.1, a5.2.2⟩

/-- C1 (amended), at `def f() if 1 then 2 else 3` in a fresh session. -/
theorem FunctionAST_blocks_terminated_witness :
    State.init.WF ∧ sampleIf.noFunction = true ∧
    sampleDefinition.codegen plainLLVM State.init =
      some (some (.func 0), stateAfter (sampleDefinition.codegen plainLLVM) State.init) ∧
    Value.func 0 = .func State.init.Functions.length ∧
    (∀ b ∈ (stateAfter (sampleDefinition.codegen plainLLVM) State.init).blocksOf
        State.init.Functions.length,
      (stateAfter (sampleDefinition.codegen plainLLVM) State.init).terminated b) ∧
    ((stateAfter (sampleDefinition.codegen plainLLVM) State.init).blocksOf
      State.init.Functions.length).Nodup ∧
    (∃ log, (stateAfter (sampleDefinition.codegen plainLLVM) State.init).AttachLog =
      State.init.AttachLog ++ log) ∧
    (stateAfter (sampleDefinition.codegen plainLLVM) State.init).blocksOf
        State.init.Functions.length =
      (stateAfter (sampleDefinition.codegen plainLLVM) State.init).attachedSince
        State.init.AttachLog State.init.Functions.length :=
  ⟨State.wf_init, by decide!, by decide!,
    FunctionAST_blocks_terminated plainLLVM { Name := "f", Args := [] } sampleIf State.init
      (stateAfter (sampleDefinition.codegen plainLLVM) State.init) (.func 0) State.wf_init
      (by decide!) (by decide!)⟩

/-! ## Claims C11 to C14: array assignment, definitions and prototypes of a taken name -/

/-- C11, evaluated at the failing input: with `a` bound to a local array (the
alloca, instruction 0) and a global array `a` in the module, the assignment
`a[0] = 1` computes the element address of the local array (instruction 1),
then computes the one of the global array (instruction 2), stores to the
global's element and returns the global, whereas the read `a[0]` in the same
state loads from the local array. -/
theorem ArrayAssignmentAST_global_overrides_local :
    lookupNamed localOverGlobal.NamedValues "a" = some (.inst 0) ∧
    localOverGlobal.allocatedType (.inst 0) = some (.array 2) ∧
    localOverGlobal.getGlobalVariable "a" = some 0 ∧
    assignFirst.codegen plainLLVM localOverGlobal =
      some (some (.global 0), stateAfter (assignFirst.codegen plainLLVM) localOverGlobal) ∧
    (stateAfter (assignFirst.codegen plainLLVM) localOverGlobal).Insts =
      [.alloca (.array 2) "a",
       .gep (.array 2) (.inst 0) [.constInt 32 0, .constInt 32 0],
       .gep (.array 2) (.global 0) [.constInt 32 0, .constInt 32 0],
       .store (.constFP 1) (.inst 2)] ∧
    (stateAfter ((ExprAST.ArrayExprAST "a" (.NumberExprAST 0)).codegen plainLLVM)
        localOverGlobal).Insts =
      [.alloca (.array 2) "a",
       .gep (.array 2) (.inst 0) [.constInt 32 0, .constInt 32 0],
       .load .double (.inst 1)] := by
  refine ⟨by decide!, by decide!, by decide!, by decide!, by decide!, by decide!⟩

/-- A definition whose name is a function of the module fails at once. -/
theorem FunctionAST_name_taken (L : LLVM) (Proto : PrototypeAST) (Body : ExprAST) (s : State)
    (g : Nat) (h : s.getFunction Proto.Name = some g) :
    (RootAST.FunctionAST Proto Body).codegen L s = some (none, s) := by
  rw [RootAST.codegen]
  simp only [bind_apply, getFunction, h, pure_apply]

/-- C12 (as stated), refuted at `def f(x) x` after `extern f(x)`: the definition
fails, the declaration is not reused and stays without a body, and the state is
the one before the call. -/
theorem FunctionAST_declaration_not_reused :
    declaredOnly.getFunction "f" = some 0 ∧ declaredOnly.blocksOf 0 = [] ∧
    (RootAST.FunctionAST { Name := "f", Args := ["x"] } (.VariableExprAST "x")).codegen
        plainLLVM declaredOnly = some (none, declaredOnly) := by
  refine ⟨by decide!, by decide!, by decide!⟩

/-- C12 (amended): a function definition whose name is present in the module as
a declaration without body fails and leaves the whole state unchanged: the
declaration is not reused and no body is generated into it. -/
theorem FunctionAST_over_declaration (L : LLVM) (Proto : PrototypeAST) (Body : ExprAST)
    (s : State) (g : Nat) (hg : s.getFunction Proto.Name = some g)
    (hd : s.blocksOf g = []) :
    (RootAST.FunctionAST Proto Body).codegen L s = some (none, s) ∧
    (stateAfter ((RootAST.FunctionAST Proto Body).codegen L) s).blocksOf g = [] := by
  have h := FunctionAST_name_taken L Proto Body s g hg
  refine ⟨h, ?_⟩
  unfold stateAfter
  rw [h]
  exact hd

/-- C12 (amended), at `def f(x) x` after `extern f(x)`. -/
theorem FunctionAST_over_declaration_witness :
    declaredOnly.getFunction "f" = some 0 ∧ declaredOnly.blocksOf 0 = [] ∧
    (RootAST.FunctionAST { Name := "f", Args := ["x"] } (.VariableExprAST "x")).codegen
        plainLLVM declaredOnly = some (none, declaredOnly) ∧
    (stateAfter ((RootAST.FunctionAST { Name := "f", Args := ["x"] }
      (.VariableExprAST "x")).codegen plainLLVM) declaredOnly).blocksOf 0 = [] :=
  ⟨by decide!, by decide!,
    FunctionAST_over_declaration plainLLVM { Name := "f", Args := ["x"] }
      (.VariableExprAST "x") declaredOnly 0 (by decide!) (by decide!)⟩

/-- C13: a function definition whose name is a function of the module that has a
body returns failure and leaves the whole state unchanged: functions, blocks,
instructions, globals, symbol table and builder position are those before the
call, so the existing function keeps its blocks and no function is created. -/
theorem FunctionAST_redefinition (L : LLVM) (Proto : PrototypeAST) (Body : ExprAST)
    (s : State) (g : Nat) (hg : s.getFunction Proto.Name = some g)
    (hb : s.blocksOf g ≠ []) :
    (RootAST.FunctionAST Proto Body).codegen L s = some (none, s) ∧
    (stateAfter ((RootAST.FunctionAST Proto Body).codegen L) s).blocksOf g ≠ [] ∧
    (stateAfter ((RootAST.FunctionAST Proto Body).codegen L) s).Functions.length =
      s.Functions.length := by
  have h := FunctionAST_name_taken L Proto Body s g hg
  have e : stateAfter ((RootAST.FunctionAST Proto Body).codegen L) s = s := by
    unfold stateAfter; rw [h]
  rw [e]
  exact ⟨h, hb, rfl⟩

/-- C13, at the second `def f(x) x` of a session. -/
theorem FunctionAST_redefinition_witness :
    definedOnce.getFunction "f" = some 0 ∧ definedOnce.blocksOf 0 ≠ [] ∧
    (RootAST.FunctionAST { Name := "f", Args := ["x"] } (.VariableExprAST "x")).codegen
        plainLLVM definedOnce = some (none, definedOnce) ∧
    (stateAfter ((RootAST.FunctionAST { Name := "f", Args := ["x"] }
      (.VariableExprAST "x")).codegen plainLLVM) definedOnce).blocksOf 0 ≠ [] ∧
    (stateAfter ((RootAST.FunctionAST { Name := "f", Args := ["x"] }
      (.VariableExprAST "x")).codegen plainLLVM) definedOnce).Functions.length =
        definedOnce.Functions.length :=
  ⟨by decide!, by decide!,
    FunctionAST_redefinition plainLLVM { Name := "f", Args := ["x"] }
      (.VariableExprAST "x") definedOnce 0 (by decide!) (by decide!)⟩

/-- C14 (as stated), refuted at the second `extern f(x)` of a session: the
prototype returns a new function object, and the module then holds two
functions, the second renamed by the library. -/
theorem PrototypeAST_redeclaration_creates :
    declaredOnly.getFunction "f" = some 0 ∧ declaredOnly.FunctionList = [0] ∧
    (PrototypeAST.mk "f" ["x"]).codegen plainLLVM declaredOnly =
      some (some 1, declaredOnly.addFunction plainLLVM "f" ["x"]) ∧
    (declaredOnly.addFunction plainLLVM "f" ["x"]).FunctionList = [0, 1] ∧
    (declaredOnly.addFunction plainLLVM "f" ["x"]).Functions =
      [{ Name := "f", Args := ["x"], BasicBlocks := [] },
       { Name := "f.f", Args := ["x"], BasicBlocks := [] }] := by
  refine ⟨by decide!, by decide!, by decide!, by decide!, by decide!⟩

/-- C14 (amended): a prototype whose name is already a function of the module
does not fail: it creates and returns a new function object, linked after the
functions of the module, which are unchanged; the new object gets the name the
library chooses for a taken name. -/
theorem PrototypeAST_always_creates (L : LLVM) (p : PrototypeAST) (s : State) (g : Nat)
    (fn : Function) (hg : s.getFunction p.Name = some g) (hfn : s.Functions[g]? = some fn) :
    p.codegen L s = some (some s.Functions.length, s.addFunction L p.Name p.Args) ∧
    (s.addFunction L p.Name p.Args).FunctionList = s.FunctionList ++ [s.Functions.length] ∧
    (s.addFunction L p.Name p.Args).Functions.length = s.Functions.length + 1 ∧
    (s.addFunction L p.Name p.Args).Functions[g]? = some fn ∧
    (s.addFunction L p.Name p.Args).nameOf s.Functions.length =
      some (L.makeUniqueName s.moduleNames p.Name) := by
  refine ⟨rfl, rfl, by simp, ?_, ?_⟩
  · rw [getElem?_addFunction_of_lt _ _ _ _ _ (getElem?_lt_of_some hfn)]
    exact hfn
  · rw [nameOf_addFunction_new]
    unfold uniqueName
    rw [if_pos]
    rw [mem_moduleNames]
    refine Or.inl ⟨g, ?_, ?_⟩
    · exact List.mem_of_find?_eq_some hg
    · have hp := List.find?_some hg
      unfold State.nameOf
      rw [hfn] at hp ⊢
      simpa using hp

/-- C14 (amended), at the second `extern f(x)` of a session. -/
theorem PrototypeAST_always_creates_witness :
    declaredOnly.getFunction "f" = some 0 ∧
    declaredOnly.Functions[0]? = some { Name := "f", Args := ["x"], BasicBlocks := [] } ∧
    (PrototypeAST.mk "f" ["x"]).codegen plainLLVM declaredOnly =
      some (some declaredOnly.Functions.length, declaredOnly.addFunction plainLLVM "f" ["x"]) ∧
    (declaredOnly.addFunction plainLLVM "f" ["x"]).FunctionList =
      declaredOnly.FunctionList ++ [declaredOnly.Functions.length] ∧
    (declaredOnly.addFunction plainLLVM "f" ["x"]).Functions.length =
      declaredOnly.Functions.length + 1 ∧
    (declaredOnly.addFunction plainLLVM "f" ["x"]).Functions[0]? =
      some { Name := "f", Args := ["x"], BasicBlocks := [] } ∧
    (declaredOnly.addFunction plainLLVM "f" ["x"]).nameOf declaredOnly.Functions.length =
      some (plainLLVM.makeUniqueName declaredOnly.moduleNames "f") :=
  ⟨by decide!, by decide!,
    PrototypeAST_always_creates plainLLVM (PrototypeAST.mk "f" ["x"]) declaredOnly 0
      { Name := "f", Args := ["x"], BasicBlocks := [] } (by decide!) (by decide!)⟩

/-! ## Claims C15 to C18: variable reads, operator failures, block failures, arrays as scalars -/

theorem getGlobalVariable_some {s : State} {n : String} {g : Nat}
    (h : s.getGlobalVariable n = some g) : ∃ gv, s.Globals[g]? = some gv ∧ gv.Name = n := by
  have hp := List.find?_some h
  cases hg : s.Globals[g]? with
  | none => rw [hg] at hp; simp at hp
  | some gv =>
    rw [hg] at hp
    exact ⟨gv, rfl, by simpa using hp⟩

/-- A load made while the builder stands in no block of a function of the module
is undefined. -/
theorem CreateLoad_outside {s : State} (h : s.inModule = false) (ty : Ty) (p : Value) :
    CreateLoad ty p s = none := by
  unfold CreateLoad
  rw [h]
  rfl

/-- A store made while the builder stands in no block of a function of the
module is undefined. -/
theorem CreateStore_outside {s : State} (h : s.inModule = false) (v p : Value) :
    CreateStore v p s = none := by
  unfold CreateStore
  rw [h]
  rfl

/-- The premise of the load cases of a variable read is needed: a read that
resolves to local storage, or else to a global, while the builder stands in no
block of a function of the module is undefined, as is the read of a global at
top level in a fresh session. -/
theorem VariableExprAST_outside_module (L : LLVM) (n : String) (s : State)
    (hm : s.inModule = false) :
    (∀ (a : Value) (ty : Ty), lookupNamed s.NamedValues n = some a →
      s.allocatedType a = some ty → (ExprAST.VariableExprAST n).codegen L s = none) ∧
    (∀ (g : Nat) (gv : GlobalVariable), lookupNamed s.NamedValues n = none →
      s.getGlobalVariable n = some g → s.Globals[g]? = some gv →
      (ExprAST.VariableExprAST n).codegen L s = none) ∧
    (ExprAST.VariableExprAST "x").codegen plainLLVM
      (State.init.addGlobal plainLLVM .double zeroFP "x") = none := by
  refine ⟨?_, ?_, by decide!⟩
  · intro a ty ha hty
    rw [ExprAST.codegen]
    simp only [bind_apply, getNamed, ha, getAllocatedType, hty, Option.map_some',
      CreateLoad_outside hm]
  · intro g gv hn hg hgv
    rw [ExprAST.codegen]
    simp only [bind_apply, getNamed, hn, getGlobalVariable, hg, getValueType, hgv,
      Option.map_some', CreateLoad_outside hm]

/-- C15: a variable read resolves local first, then global.  While the builder
stands in a block of a function of the module (the loads read the module through
that block): with a local binding, one load from the local slot, of the slot's
type, is appended to the insertion block and returned, whatever the globals of
the module; without one and with a global of that name, one load from the global
is appended and returned.  Without either, no value is returned and the state is
unchanged, wherever the builder stands. -/
theorem VariableExprAST_lookup (L : LLVM) (n : String) (s : State) :
    (∀ (a : Value) (ty : Ty), s.inModule = true → lookupNamed s.NamedValues n = some a →
      s.allocatedType a = some ty →
      (ExprAST.VariableExprAST n).codegen L s =
        some (some (.inst s.Insts.length), s.addInst (.load ty a))) ∧
    (∀ g : Nat, s.inModule = true → lookupNamed s.NamedValues n = none →
      s.getGlobalVariable n = some g →
      ∃ gv : GlobalVariable, s.Globals[g]? = some gv ∧ gv.Name = n ∧
        (ExprAST.VariableExprAST n).codegen L s =
          some (some (.inst s.Insts.length), s.addInst (.load gv.ValueType (.global g)))) ∧
    (lookupNamed s.NamedValues n = none → s.getGlobalVariable n = none →
      (ExprAST.VariableExprAST n).codegen L s = some (none, s)) := by
  refine ⟨?_, ?_, ?_⟩
  · intro a ty hm ha hty
    rw [ExprAST.codegen]
    simp only [bind_apply, getNamed, ha, getAllocatedType, hty, Option.map_some',
      CreateLoad_inModule hm, pure_apply]
  · intro g hm hn hg
    obtain ⟨gv, hgv, hname⟩ := getGlobalVariable_some hg
    refine ⟨gv, hgv, hname, ?_⟩
    rw [ExprAST.codegen]
    simp only [bind_apply, getNamed, hn, getGlobalVariable, hg, getValueType, hgv,
      Option.map_some', CreateLoad_inModule hm, pure_apply]
  · intro hn hg
    rw [ExprAST.codegen]
    simp only [bind_apply, getNamed, hn, getGlobalVariable, hg, pure_apply]

/-- C15, at the read of `x` in the body of `def f()`: with a local `x` over a
global `x`, with the global `x` alone, and with neither.  The builder stands in
the entry block of `f`, and the load is the last instruction of that block. -/
theorem VariableExprAST_lookup_witness :
    (localOverGlobalX.inModule = true ∧
      lookupNamed localOverGlobalX.NamedValues "x" = some (.inst 0) ∧
      localOverGlobalX.allocatedType (.inst 0) = some .double ∧
      localOverGlobalX.getGlobalVariable "x" = some 0 ∧
      (ExprAST.VariableExprAST "x").codegen plainLLVM localOverGlobalX =
        some (some (.inst localOverGlobalX.Insts.length),
          localOverGlobalX.addInst (.load .double (.inst 0))) ∧
      (localOverGlobalX.addInst (.load .double (.inst 0))).instsOf 0 = [0, 1]) ∧
    (globalX.inModule = true ∧
      lookupNamed globalX.NamedValues "x" = none ∧ globalX.getGlobalVariable "x" = some 0 ∧
      ∃ gv : GlobalVariable, globalX.Globals[0]? = some gv ∧ gv.Name = "x" ∧
        (ExprAST.VariableExprAST "x").codegen plainLLVM globalX =
          some (some (.inst globalX.Insts.length),
            globalX.addInst (.load gv.ValueType (.global 0)))) ∧
    (lookupNamed sampleEntry.NamedValues "x" = none ∧
      sampleEntry.getGlobalVariable "x" = none ∧
      (ExprAST.VariableExprAST "x").codegen plainLLVM sampleEntry = some (none, sampleEntry)) :=
  ⟨⟨by decide!, by decide!, by decide!, by decide!,
      (VariableExprAST_lookup plainLLVM "x" localOverGlobalX).1 (.inst 0) .double
        (by decide!) (by decide!) (by decide!), by decide!⟩,
    ⟨by decide!, by decide!, by decide!,
      (VariableExprAST_lookup plainLLVM "x" globalX).2.1 0 (by decide!) (by decide!)
        (by decide!)⟩,
    ⟨by decide!, by decide!,
      (VariableExprAST_lookup plainLLVM "x" sampleEntry).2.2 (by decide!) (by decide!)⟩⟩

/-- C16, evaluated at the failing inputs, in the body of `def f()`: the negation
`!x` of an unknown variable dereferences its null right operand (the generation
is undefined), and the sum `x + y` of an unknown `x` and a local `y` fails
only after the load of `y` has been emitted, so the state is not the one the
failed left operand left. -/
theorem BinaryExprAST_failure_not_short_circuit :
    (ExprAST.VariableExprAST "x").codegen plainLLVM sampleEntry = some (none, sampleEntry) ∧
    (ExprAST.BinaryExprAST '!' (.VariableExprAST "x") none).codegen plainLLVM sampleEntry =
      none ∧
    (ExprAST.VariableExprAST "x").codegen plainLLVM boundY = some (none, boundY) ∧
    (ExprAST.BinaryExprAST '+' (.VariableExprAST "x") (some (.VariableExprAST "y"))).codegen
        plainLLVM boundY = some (none, boundY.addInst (.load .double (.inst 0))) ∧
    (boundY.addInst (.load .double (.inst 0))).Insts ≠ boundY.Insts := by
  refine ⟨by decide!, by decide!, by decide!, by decide!, by decide!⟩

theorem codegenDefs_append (L : LLVM) :
    ∀ (pre rest : List VarBindingAST) (tmp tmp1 : List (Option Value)) (s s1 : State),
      codegenDefs L pre tmp s = some (some tmp1, s1) →
      codegenDefs L (pre ++ rest) tmp s = codegenDefs L rest tmp1 s1
  | [], rest, tmp, tmp1, s, s1, h => by
      rw [codegenDefs, pure_eq_some] at h
      obtain ⟨h1, rfl⟩ := h
      cases h1
      rfl
  | d :: pre, rest, tmp, tmp1, s, s1, h => by
      rw [codegenDefs] at h
      simp only [bind_eq_some] at h
      obtain ⟨rd, s2, hd, h⟩ := h
      cases rd with
      | none => have h0 := (pure_eq_some.mp h).1; cases h0
      | some BoundVal =>
        simp only [bind_eq_some, getNamed_eq_some, setNamed_eq_some] at h
        obtain ⟨_, _, ⟨rfl, rfl⟩, _, _, rfl, h⟩ := h
        rw [List.cons_append, codegenDefs]
        simp only [bind_apply, hd, getNamed, setNamed]
        exact codegenDefs_append L pre rest _ _ _ _ h

theorem codegenStmts_append (L : LLVM) :
    ∀ (pre rest : List RootAST) (v0 r : Option Value) (s s1 : State),
      codegenStmts L pre v0 s = some (some r, s1) →
      codegenStmts L (pre ++ rest) v0 s = codegenStmts L rest r s1
  | [], rest, v0, r, s, s1, h => by
      rw [codegenStmts, pure_eq_some] at h
      obtain ⟨h1, rfl⟩ := h
      cases h1
      rfl
  | st :: pre, rest, v0, r, s, s1, h => by
      rw [codegenStmts] at h
      simp only [bind_eq_some] at h
      obtain ⟨rd, s2, hd, h⟩ := h
      cases rd with
      | none => have h0 := (pure_eq_some.mp h).1; cases h0
      | some w =>
        rw [List.cons_append, codegenStmts]
        simp only [bind_apply, hd]
        exact codegenStmts_append L pre rest _ _ _ _ h

/-- C17 (as stated), refuted at the block `{ var x = 1; y }` in the body of
`def f()`, where `x` and `y` are unbound: the statement fails, the block returns
no value, and afterwards `x` resolves to the storage the block allocated
(instruction 0), not to its absence before the block. -/
theorem BlockAST_failure_leaks_binding :
    lookupNamed sampleEntry.NamedValues "x" = none ∧
    failingBlock.codegen plainLLVM sampleEntry =
      some (none, stateAfter (failingBlock.codegen plainLLVM) sampleEntry) ∧
    lookupNamed (stateAfter (failingBlock.codegen plainLLVM) sampleEntry).NamedValues "x" =
      some (.inst 0) := by
  refine ⟨by decide!, by decide!, by decide!⟩

/-- C17 (amended): a block in which the binding after the bindings `pre`, or the
statement after the statements `pre`, fails returns no value and restores
nothing: the state after the call, symbol table included, is exactly the state
the failing binding or statement left, in which the bindings made so far by the
block stand. -/
theorem BlockAST_failure_no_restore (L : LLVM) (s : State) :
    (∀ (pre post : List VarBindingAST) (d : VarBindingAST) (Stmts : List RootAST)
        (tmp : List (Option Value)) (s1 s2 : State),
      codegenDefs L pre [] s = some (some tmp, s1) → d.codegen L s1 = some (none, s2) →
      (ExprAST.BlockAST (pre ++ d :: post) Stmts).codegen L s = some (none, s2)) ∧
    (∀ (Def : List VarBindingAST) (pre post : List RootAST) (st : RootAST)
        (tmp : List (Option Value)) (r : Option Value) (s1 s2 s3 : State),
      codegenDefs L Def [] s = some (some tmp, s1) →
      codegenStmts L pre none s1 = some (some r, s2) → st.codegen L s2 = some (none, s3) →
      (ExprAST.BlockAST Def (pre ++ st :: post)).codegen L s = some (none, s3)) := by
  constructor
  · intro pre post d Stmts tmp s1 s2 hpre hd
    have h1 : codegenDefs L (pre ++ d :: post) [] s = some (none, s2) := by
      rw [codegenDefs_append L pre (d :: post) _ _ _ _ hpre, codegenDefs]
      simp only [bind_apply, hd, pure_apply]
    rw [ExprAST.codegen]
    simp only [bind_apply, h1, pure_apply]
  · intro Def pre post st tmp r s1 s2 s3 hdefs hpre hst
    have h1 : codegenStmts L (pre ++ st :: post) none s1 = some (none, s3) := by
      rw [codegenStmts_append L pre (st :: post) _ _ _ _ hpre, codegenStmts]
      simp only [bind_apply, hst, pure_apply]
    rw [ExprAST.codegen]
    simp only [bind_apply, hdefs, h1, pure_apply]

/-- C17 (amended), at the block `{ var x = 1; y }` in the body of `def f()`: the
bindings succeed, no statement precedes the failing one, and the state after the
block is the one the failing statement left. -/
theorem BlockAST_failure_no_restore_witness :
    codegenDefs plainLLVM [.scalar "x" (some (.NumberExprAST 1))] [] sampleEntry =
      some (some [none], boundX) ∧
    codegenStmts plainLLVM [] none boundX = some (some none, boundX) ∧
    (RootAST.expr (.VariableExprAST "y")).codegen plainLLVM boundX = some (none, boundX) ∧
    (ExprAST.BlockAST [.scalar "x" (some (.NumberExprAST 1))]
        ([] ++ RootAST.expr (.VariableExprAST "y") :: [])).codegen plainLLVM sampleEntry =
      some (none, boundX) ∧
    lookupNamed boundX.NamedValues "x" = some (.inst 0) :=
  ⟨by decide!, by decide!, by decide!,
    (BlockAST_failure_no_restore plainLLVM sampleEntry).2
      [.scalar "x" (some (.NumberExprAST 1))] [] [] (.expr (.VariableExprAST "y")) [none] none
      boundX boundX boundX (by decide!) (by decide!) (by decide!),
    by decide!⟩

/-! ## Claim C18: array storage read and assigned as a scalar -/

/-- C18 (as stated), refuted in the body of `def f()` after `var a[2]`: the
scalar read `a` emits and returns a load of the whole array from the array
storage (instruction 0), and the scalar assignment `a = 1` emits a store of the
value to the array storage and returns the storage. -/
theorem array_storage_used_as_scalar :
    localArray.allocatedType (.inst 0) = some (.array 2) ∧
    (ExprAST.VariableExprAST "a").codegen plainLLVM localArray =
      some (some (.inst 1), localArray.addInst (.load (.array 2) (.inst 0))) ∧
    (RootAST.AssignmentAST "a" (.NumberExprAST 1)).codegen plainLLVM localArray =
      some (some (.inst 0), localArray.addInst (.store (.constFP 1) (.inst 0))) := by
  refine ⟨by decide!, by decide!, by decide!⟩

/-- C18 (amended): array storage is not rejected as a scalar.  While the builder
stands in a block of a function of the module, a variable read whose name
resolves to array storage, local or else global, appends one load of the array
type from that storage to the insertion block and returns it; a scalar
assignment whose name resolves to array storage, local or else global, and whose
right-hand side generates successfully and leaves the builder in such a block
appends one store of the value to that storage and returns the storage. -/
theorem scalar_use_of_array (L : LLVM) (n : String) (s : State) :
    (∀ (a : Value) (ty : Ty), s.inModule = true → lookupNamed s.NamedValues n = some a →
      s.allocatedType a = some ty → ty.isArrayTy = true →
      (ExprAST.VariableExprAST n).codegen L s =
        some (some (.inst s.Insts.length), s.addInst (.load ty a))) ∧
    (∀ (g : Nat) (gv : GlobalVariable), s.inModule = true →
      lookupNamed s.NamedValues n = none →
      s.getGlobalVariable n = some g → s.Globals[g]? = some gv →
      gv.ValueType.isArrayTy = true →
      (ExprAST.VariableExprAST n).codegen L s =
        some (some (.inst s.Insts.length), s.addInst (.load gv.ValueType (.global g)))) ∧
    (∀ (a : Value) (ty : Ty) (Val : ExprAST) (bv : Value) (s1 : State),
      lookupNamed s.NamedValues n = some a →
      s.allocatedType a = some ty → ty.isArrayTy = true →
      Val.codegen L s = some (some bv, s1) → s1.inModule = true →
      (RootAST.AssignmentAST n Val).codegen L s =
        some (some a, s1.addInst (.store bv a))) ∧
    (∀ (g : Nat) (gv : GlobalVariable) (Val : ExprAST) (bv : Value) (s1 : State),
      lookupNamed s.NamedValues n = none →
      s.getGlobalVariable n = some g → s.Globals[g]? = some gv →
      gv.ValueType.isArrayTy = true →
      Val.codegen L s = some (some bv, s1) → s1.inModule = true →
      (RootAST.AssignmentAST n Val).codegen L s =
        some (some (.global g), s1.addInst (.store bv (.global g)))) := by
  refine ⟨?_, ?_, ?_, ?_⟩
  · intro a ty hm ha hty _
    rw [ExprAST.codegen]
    simp only [bind_apply, getNamed, ha, getAllocatedType, hty, Option.map_some',
      CreateLoad_inModule hm, pure_apply]
  · intro g gv hm hn hg hgv _
    rw [ExprAST.codegen]
    simp only [bind_apply, getNamed, hn, getGlobalVariable, hg, getValueType, hgv,
      Option.map_some', CreateLoad_inModule hm, pure_apply]
  · intro a ty Val bv s1 ha _ _ hv hm
    rw [RootAST.codegen]
    simp only [bind_apply, getNamed, ha, pure_apply, hv, CreateStore_inModule hm]
  · intro g gv Val bv s1 hn hg _ _ hv hm
    rw [RootAST.codegen]
    simp only [bind_apply, getNamed, hn, getGlobalVariable, hg, pure_apply, Option.map_some',
      hv, CreateStore_inModule hm]

/-- C18 (amended), at the read `a` and the assignment `a = 1` in the body of
`def f()` after `var a[2]`, the builder standing in the entry block of `f`: the
load, and the store, is the last instruction of that block. -/
theorem scalar_use_of_array_witness :
    localArray.inModule = true ∧
    lookupNamed localArray.NamedValues "a" = some (.inst 0) ∧
    localArray.allocatedType (.inst 0) = some (.array 2) ∧
    (Ty.array 2).isArrayTy = true ∧
    (ExprAST.NumberExprAST 1).codegen plainLLVM localArray =
      some (some (.constFP 1), localArray) ∧
    (ExprAST.VariableExprAST "a").codegen plainLLVM localArray =
      some (some (.inst localArray.Insts.length),
        localArray.addInst (.load (.array 2) (.inst 0))) ∧
    (localArray.addInst (.load (.array 2) (.inst 0))).instsOf 0 = [0, 1] ∧
    (RootAST.AssignmentAST "a" (.NumberExprAST 1)).codegen plainLLVM localArray =
      some (some (.inst 0), localArray.addInst (.store (.constFP 1) (.inst 0))) ∧
    (localArray.addInst (.store (.constFP 1) (.inst 0))).instsOf 0 = [0, 1] :=
  ⟨by decide!, by decide!, by decide!, by decide!, by decide!,
    (scalar_use_of_array plainLLVM "a" localArray).1 (.inst 0) (.array 2) (by decide!)
      (by decide!) (by decide!) (by decide!),
    by decide!,
    (scalar_use_of_array plainLLVM "a" localArray).2.2.1 (.inst 0) (.array 2)
      (.NumberExprAST 1) (.constFP 1) localArray (by decide!) (by decide!) (by decide!)
      (by decide!) (by decide!),
    by decide!⟩

/-! ## Claim C19: the element address of an array read -/

theorem CreateInBoundsGEP_inst (L : LLVM) (ty : Ty) (i : Nat) (idx : List Value) (s : State) :
    CreateInBoundsGEP L ty (.inst i) idx s =
      some (.inst s.Insts.length, s.addInst (.gep ty (.inst i) idx)) := rfl

theorem codegenArgs_of_inOrder (L : LLVM) :
    ∀ (args : List ExprAST) (s : State) (vs : List Value) (s2 : State),
      argsInOrder L args s vs s2 → codegenArgs L args s = some (some vs, s2)
  | [], s, vs, s2, h => by
      obtain ⟨rfl, rfl⟩ := h
      rw [codegenArgs]; rfl
  | a :: rest, s, vs, s2, h => by
      obtain ⟨v, s1, vs1, ha, hr, rfl⟩ := h
      rw [codegenArgs]
      simp only [bind_apply, ha, codegenArgs_of_inOrder L rest s1 vs1 s2 hr, pure_apply]

theorem codegenArgs_fails_at (L : LLVM) :
    ∀ (pre post : List ExprAST) (a : ExprAST) (s : State) (vs : List Value) (s1 s2 : State),
      argsInOrder L pre s vs s1 → a.codegen L s1 = some (none, s2) →
      codegenArgs L (pre ++ a :: post) s = some (none, s2)
  | [], post, a, s, vs, s1, s2, h, ha => by
      obtain ⟨_, rfl⟩ := h
      rw [List.nil_append, codegenArgs]
      simp only [bind_apply, ha, pure_apply]
  | p :: pre, post, a, s, vs, s1, s2, h, ha => by
      obtain ⟨v, s0, vs1, hp, hr, _⟩ := h
      rw [List.cons_append, codegenArgs]
      simp only [bind_apply, hp, codegenArgs_fails_at L pre post a s0 vs1 s1 s2 hr ha,
        pure_apply]

/-- C20: a call whose callee exists with as many parameters as the call has
arguments generates the arguments from left to right; when all succeed it emits
one call instruction, after the code of the arguments, with their values in the
order of the arguments, and returns it; when the argument after the arguments
`pre` fails it returns no value in the state that argument left, so the later
arguments are not generated and no call is emitted. -/
theorem CallExprAST_arguments (L : LLVM) (Callee : String) (Args : List ExprAST) (s : State)
    (CalleeF : Nat) (fn : Function) (hf : s.getFunction Callee = some CalleeF)
    (hfn : s.Functions[CalleeF]? = some fn) (hn : fn.Args.length = Args.length) :
    (∀ (vs : List Value) (s2 : State), argsInOrder L Args s vs s2 →
      (ExprAST.CallExprAST Callee Args).codegen L s =
        some (some (.inst s2.Insts.length), s2.addInst (.call CalleeF vs))) ∧
    (∀ (pre post : List ExprAST) (a : ExprAST) (vs : List Value) (s1 s2 : State),
      Args = pre ++ a :: post → argsInOrder L pre s vs s1 →
      a.codegen L s1 = some (none, s2) →
      (ExprAST.CallExprAST Callee Args).codegen L s = some (none, s2)) := by
  constructor
  · intro vs s2 h
    rw [ExprAST.codegen]
    simp only [bind_apply, getFunction, hf, argSize, hfn, Option.map_some', hn, ne_eq,
      not_true_eq_false, if_false, codegenArgs_of_inOrder L Args s vs s2 h, Insert, pure_apply]
  · intro pre post a vs s1 s2 hA hpre ha
    rw [ExprAST.codegen]
    simp only [bind_apply, getFunction, hf, argSize, hfn, Option.map_some', hn, ne_eq,
      not_true_eq_false, if_false, pure_apply]
    rw [hA, codegenArgs_fails_at L pre post a s vs s1 s2 hpre ha]
    rfl

theorem argsInOrder_sample :
    argsInOrder plainLLVM [.NumberExprAST 1, .VariableExprAST "y"] callerState
      [.constFP 1, .inst 1] (callerState.addInst (.load .double (.inst 0))) :=
  ⟨.constFP 1, callerState, [.inst 1], by decide!,
    ⟨.inst 1, callerState.addInst (.load .double (.inst 0)), [], by decide!, ⟨rfl, rfl⟩, rfl⟩,
    rfl⟩

/-- C20, at the calls `h(1, y)` and `h(z, y)` in the body of `def f()` after
`extern h(x, y)` and `var y`, `z` being unknown: the first emits the load of `y`
and then the call, the second stops at `z` and emits nothing. -/
theorem CallExprAST_arguments_witness :
    callerState.getFunction "h" = some 1 ∧
    callerState.Functions[1]? = some { Name := "h", Args := ["x", "y"], BasicBlocks := [] } ∧
    argsInOrder plainLLVM [.NumberExprAST 1, .VariableExprAST "y"] callerState
      [.constFP 1, .inst 1] (callerState.addInst (.load .double (.inst 0))) ∧
    (ExprAST.CallExprAST "h" [.NumberExprAST 1, .VariableExprAST "y"]).codegen plainLLVM
        callerState =
      some (some (.inst (callerState.addInst (.load .double (.inst 0))).Insts.length),
        (callerState.addInst (.load .double (.inst 0))).addInst
          (.call 1 [.constFP 1, .inst 1])) ∧
    argsInOrder plainLLVM [] callerState [] callerState ∧
    (ExprAST.VariableExprAST "z").codegen plainLLVM callerState = some (none, callerState) ∧
    (ExprAST.CallExprAST "h" [.VariableExprAST "z", .VariableExprAST "y"]).codegen plainLLVM
        callerState = some (none, callerState) :=
  ⟨by decide!, by decide!, argsInOrder_sample,
    (CallExprAST_arguments plainLLVM "h" [.NumberExprAST 1, .VariableExprAST "y"] callerState 1
      { Name := "h", Args := ["x", "y"], BasicBlocks := [] } (by decide!) (by decide!)
      rfl).1 _ _ argsInOrder_sample,
    ⟨rfl, rfl⟩, by decide!,
    (CallExprAST_arguments plainLLVM "h" [.VariableExprAST "z", .VariableExprAST "y"]
      callerState 1 { Name := "h", Args := ["x", "y"], BasicBlocks := [] } (by decide!)
      (by decide!) rfl).2 [] [.VariableExprAST "y"] (.VariableExprAST "z") [] callerState
      callerState rfl ⟨rfl, rfl⟩ (by decide!)⟩

/-! ## Claims C21, C22, C24 and C28: scalar assignment, sequences, array reads of a scalar -/

/-- The premise of the store cases of a scalar assignment is needed: an
assignment whose name resolves to storage and whose right-hand side generates
successfully but leaves the builder in no block of a function of the module is
undefined, as is the assignment to a global at top level in a fresh session. -/
theorem AssignmentAST_outside_module (L : LLVM) (n : String) (Val : ExprAST) (s : State)
    (bv : Value) (s1 : State) (hv : Val.codegen L s = some (some bv, s1))
    (hm : s1.inModule = false) :
    (∀ a : Value, lookupNamed s.NamedValues n = some a →
      (RootAST.AssignmentAST n Val).codegen L s = none) ∧
    (∀ g : Nat, lookupNamed s.NamedValues n = none → s.getGlobalVariable n = some g →
      (RootAST.AssignmentAST n Val).codegen L s = none) ∧
    (RootAST.AssignmentAST "x" (.NumberExprAST 1)).codegen plainLLVM
      (State.init.addGlobal plainLLVM .double zeroFP "x") = none := by
  refine ⟨?_, ?_, by decide!⟩
  · intro a ha
    rw [RootAST.codegen]
    simp only [bind_apply, getNamed, ha, pure_apply, hv, CreateStore_outside hm]
  · intro g hn hg
    rw [RootAST.codegen]
    simp only [bind_apply, getNamed, hn, getGlobalVariable, hg, pure_apply, Option.map_some',
      hv, CreateStore_outside hm]

/-- C21: a scalar assignment to `n` targets the local slot of `n` when one is
bound, else the global `n`.  With neither, no value is returned and the state is
unchanged, so the right-hand side is not generated and no store is emitted.
When the right-hand side fails, no value is returned in the state the
right-hand side left, so no store is emitted.  Otherwise, the right-hand side
having left the builder in a block of a function of the module (the store reads
the module through that block), one store of the right-hand value into the
target is appended to the insertion block after the code of the right-hand side,
and the target itself is returned. -/
theorem AssignmentAST_target (L : LLVM) (n : String) (Val : ExprAST) (s : State) :
    (∀ (a : Value), lookupNamed s.NamedValues n = some a →
      (∀ s1 : State, Val.codegen L s = some (none, s1) →
        (RootAST.AssignmentAST n Val).codegen L s = some (none, s1)) ∧
      (∀ (bv : Value) (s1 : State), Val.codegen L s = some (some bv, s1) →
        s1.inModule = true →
        (RootAST.AssignmentAST n Val).codegen L s =
          some (some a, s1.addInst (.store bv a)))) ∧
    (∀ (g : Nat), lookupNamed s.NamedValues n = none → s.getGlobalVariable n = some g →
      (∀ s1 : State, Val.codegen L s = some (none, s1) →
        (RootAST.AssignmentAST n Val).codegen L s = some (none, s1)) ∧
      (∀ (bv : Value) (s1 : State), Val.codegen L s = some (some bv, s1) →
        s1.inModule = true →
        (RootAST.AssignmentAST n Val).codegen L s =
          some (some (.global g), s1.addInst (.store bv (.global g))))) ∧
    (lookupNamed s.NamedValues n = none → s.getGlobalVariable n = none →
      (RootAST.AssignmentAST n Val).codegen L s = some (none, s)) := by
  refine ⟨?_, ?_, ?_⟩
  · intro a ha
    constructor
    · intro s1 hv
      rw [RootAST.codegen]
      simp only [bind_apply, getNamed, ha, pure_apply, hv]
    · intro bv s1 hv hm
      rw [RootAST.codegen]
      simp only [bind_apply, getNamed, ha, pure_apply, hv, CreateStore_inModule hm]
  · intro g hn hg
    constructor
    · intro s1 hv
      rw [RootAST.codegen]
      simp only [bind_apply, getNamed, hn, getGlobalVariable, hg, pure_apply, Option.map_some',
        hv]
    · intro bv s1 hv hm
      rw [RootAST.codegen]
      simp only [bind_apply, getNamed, hn, getGlobalVariable, hg, pure_apply, Option.map_some',
        hv, CreateStore_inModule hm]
  · intro hn hg
    rw [RootAST.codegen]
    simp only [bind_apply, getNamed, hn, getGlobalVariable, hg, pure_apply, Option.map_none']

/-- C21, in the body of `def f()`, the builder standing in the entry block of
`f`: the assignment `x = 1` with a local `x` over a global `x` stores to the
local, the store being the last instruction of the entry block; `x = y` with an
unknown `y` emits nothing; `x = 1` with the global `x` alone stores to the
global; `x = 1` with no `x` emits nothing. -/
theorem AssignmentAST_target_witness :
    (lookupNamed localOverGlobalX.NamedValues "x" = some (.inst 0) ∧
      (ExprAST.NumberExprAST 1).codegen plainLLVM localOverGlobalX =
        some (some (.constFP 1), localOverGlobalX) ∧
      localOverGlobalX.inModule = true ∧
      (RootAST.AssignmentAST "x" (.NumberExprAST 1)).codegen plainLLVM localOverGlobalX =
        some (some (.inst 0), localOverGlobalX.addInst (.store (.constFP 1) (.inst 0))) ∧
      (localOverGlobalX.addInst (.store (.constFP 1) (.inst 0))).instsOf 0 = [0, 1] ∧
      (ExprAST.VariableExprAST "y").codegen plainLLVM localOverGlobalX =
        some (none, localOverGlobalX) ∧
      (RootAST.AssignmentAST "x" (.VariableExprAST "y")).codegen plainLLVM localOverGlobalX =
        some (none, localOverGlobalX)) ∧
    (lookupNamed globalX.NamedValues "x" = none ∧ globalX.getGlobalVariable "x" = some 0 ∧
      (ExprAST.NumberExprAST 1).codegen plainLLVM globalX = some (some (.constFP 1), globalX) ∧
      globalX.inModule = true ∧
      (RootAST.AssignmentAST "x" (.NumberExprAST 1)).codegen plainLLVM globalX =
        some (some (.global 0), globalX.addInst (.store (.constFP 1) (.global 0))) ∧
      (globalX.addInst (.store (.constFP 1) (.global 0))).instsOf 0 = [0]) ∧
    (lookupNamed sampleEntry.NamedValues "x" = none ∧
      sampleEntry.getGlobalVariable "x" = none ∧
      (RootAST.AssignmentAST "x" (.NumberExprAST 1)).codegen plainLLVM sampleEntry =
        some (none, sampleEntry)) :=
  ⟨⟨by decide!, by decide!, by decide!,
      ((AssignmentAST_target plainLLVM "x" (.NumberExprAST 1) localOverGlobalX).1 (.inst 0)
        (by decide!)).2 (.constFP 1) localOverGlobalX (by decide!) (by decide!),
      by decide!, by decide!,
      ((AssignmentAST_target plainLLVM "x" (.VariableExprAST "y") localOverGlobalX).1 (.inst 0)
        (by decide!)).1 localOverGlobalX (by decide!)⟩,
    ⟨by decide!, by decide!, by decide!, by decide!,
      ((AssignmentAST_target plainLLVM "x" (.NumberExprAST 1) globalX).2.1 0 (by decide!)
        (by decide!)).2 (.constFP 1) globalX (by decide!) (by decide!),
      by decide!⟩,
    ⟨by decide!, by decide!,
      (AssignmentAST_target plainLLVM "x" (.NumberExprAST 1) sampleEntry).2.2 (by decide!)
        (by decide!)⟩⟩

/-- C22: a sequence with a first element and a continuation generates the first
element and then, in the state the first element left, the continuation, whether
the first element returned a value or not, and returns no value in the state
the continuation left; a sequence with neither returns no value and leaves the
state unchanged. -/
theorem SeqAST_continuation (L : LLVM) (s : State) :
    (∀ (f c : RootAST) (r r2 : Option Value) (s1 s2 : State),
      f.codegen L s = some (r, s1) → c.codegen L s1 = some (r2, s2) →
      (RootAST.SeqAST (some f) (some c)).codegen L s = some (none, s2)) ∧
    (RootAST.SeqAST none none).codegen L s = some (none, s) := by
  constructor
  · intro f c r r2 s1 s2 hf hc
    rw [RootAST.codegen]
    simp only [bind_apply, hf, hc, pure_apply]
  · rw [RootAST.codegen]
    rfl

/-- C22, in a fresh session: the sequence of the failing assignment `x = 1` and
the declaration `extern f(x)` generates the declaration; the sequence of two
declarations generates both. -/
theorem SeqAST_continuation_witness :
    (RootAST.AssignmentAST "x" (.NumberExprAST 1)).codegen plainLLVM State.init =
      some (none, State.init) ∧
    (RootAST.PrototypeAST { Name := "f", Args := ["x"] }).codegen plainLLVM State.init =
      some (some (.func 0), declaredOnly) ∧
    (RootAST.SeqAST (some (.AssignmentAST "x" (.NumberExprAST 1)))
        (some (.PrototypeAST { Name := "f", Args := ["x"] }))).codegen plainLLVM State.init =
      some (none, declaredOnly) ∧
    (RootAST.PrototypeAST { Name := "g", Args := [] }).codegen plainLLVM declaredOnly =
      some (some (.func 1), declaredOnly.addFunction plainLLVM "g" []) ∧
    (RootAST.SeqAST (some (.PrototypeAST { Name := "f", Args := ["x"] }))
        (some (.PrototypeAST { Name := "g", Args := [] }))).codegen plainLLVM State.init =
      some (none, declaredOnly.addFunction plainLLVM "g" []) :=
  ⟨by decide!, by decide!,
    (SeqAST_continuation plainLLVM State.init).1 _ _ none (some (.func 0)) State.init
      declaredOnly (by decide!) (by decide!),
    by decide!,
    (SeqAST_continuation plainLLVM State.init).1 _ _ (some (.func 0)) (some (.func 1))
      declaredOnly (declaredOnly.addFunction plainLLVM "g" []) (by decide!) (by decide!)⟩

/-- C24: an array read of `n` returns no value and leaves the state unchanged,
so the index is not generated and nothing is emitted, when `n` has a local
binding that is no array (whatever the globals of the module), when `n` has no
local binding and the global `n` is no array, and when `n` is neither a local
nor a global. -/
theorem ArrayExprAST_not_array (L : LLVM) (n : String) (Index : ExprAST) (s : State) :
    (∀ (a : Value) (ty : Ty), lookupNamed s.NamedValues n = some a →
      s.allocatedType a = some ty → ty.isArrayTy = false →
      (ExprAST.ArrayExprAST n Index).codegen L s = some (none, s)) ∧
    (∀ (g : Nat) (gv : GlobalVariable), lookupNamed s.NamedValues n = none →
      s.getGlobalVariable n = some g → s.Globals[g]? = some gv →
      gv.ValueType.isArrayTy = false →
      (ExprAST.ArrayExprAST n Index).codegen L s = some (none, s)) ∧
    (lookupNamed s.NamedValues n = none → s.getGlobalVariable n = none →
      (ExprAST.ArrayExprAST n Index).codegen L s = some (none, s)) := by
  refine ⟨?_, ?_, ?_⟩
  · intro a ty ha hty harr
    rw [ExprAST.codegen]
    simp only [bind_apply, getNamed, ha, getAllocatedType, hty, Option.map_some', harr, if_true,
      pure_apply]
  · intro g gv hn hg hgv harr
    rw [ExprAST.codegen]
    simp only [bind_apply, getNamed, hn, getGlobalVariable, hg, getValueType, hgv,
      Option.map_some', harr, if_true, pure_apply]
  · intro hn hg
    rw [ExprAST.codegen]
    simp only [bind_apply, getNamed, hn, getGlobalVariable, hg, pure_apply]

/-- C24, at the read `x[0]` in the body of `def f()`: with the local scalar `x`
over a global array `x`, with the global scalar `x` alone, and with no `x`. -/
theorem ArrayExprAST_not_array_witness :
    (lookupNamed scalarOverGlobalArray.NamedValues "x" = some (.inst 0) ∧
      scalarOverGlobalArray.allocatedType (.inst 0) = some .double ∧
      scalarOverGlobalArray.getGlobalVariable "x" = some 0 ∧
      scalarOverGlobalArray.Globals[0]? =
        some { Name := "x", ValueType := .array 2, Initializer := .nullValue (.array 2) } ∧
      (ExprAST.ArrayExprAST "x" (.NumberExprAST 0)).codegen plainLLVM scalarOverGlobalArray =
        some (none, scalarOverGlobalArray)) ∧
    (lookupNamed globalX.NamedValues "x" = none ∧ globalX.getGlobalVariable "x" = some 0 ∧
      globalX.Globals[0]? = some { Name := "x", ValueType := .double, Initializer := zeroFP } ∧
      (ExprAST.ArrayExprAST "x" (.NumberExprAST 0)).codegen plainLLVM globalX =
        some (none, globalX)) ∧
    (lookupNamed sampleEntry.NamedValues "x" = none ∧
      sampleEntry.getGlobalVariable "x" = none ∧
      (ExprAST.ArrayExprAST "x" (.NumberExprAST 0)).codegen plainLLVM sampleEntry =
        some (none, sampleEntry)) :=
  ⟨⟨by decide!, by decide!, by decide!, by decide!,
      (ArrayExprAST_not_array plainLLVM "x" (.NumberExprAST 0) scalarOverGlobalArray).1
        (.inst 0) .double (by decide!) (by decide!) (by decide!)⟩,
    ⟨by decide!, by decide!, by decide!,
      (ArrayExprAST_not_array plainLLVM "x" (.NumberExprAST 0) globalX).2.1 0
        { Name := "x", ValueType := .double, Initializer := zeroFP } (by decide!) (by decide!)
        (by decide!) (by decide!)⟩,
    ⟨by decide!, by decide!,
      (ArrayExprAST_not_array plainLLVM "x" (.NumberExprAST 0) sampleEntry).2.2 (by decide!)
        (by decide!)⟩⟩

/-- C28, for every sequence whose first element is present and whose
continuation is absent: after the first element has been generated the null
continuation is dereferenced, so the generation is undefined whatever the first
element did. -/
theorem SeqAST_null_continuation (L : LLVM) (f : RootAST) (s : State) :
    (RootAST.SeqAST (some f) none).codegen L s = none := by
  rw [RootAST.codegen]
  simp only [bind_apply]
  cases f.codegen L s with
  | none => rfl
  | some p => rfl

/-! ## Claims C29 and C30: names left by an earlier function, blocks without statements -/

/-- C29, evaluated at the failing input: after `def f(x) x` the symbol table
still binds `x` to the storage of the parameter of `f` (instruction 0, in the
entry block of `f`), and no global is named `x`.  In the body of the next
definition `def g() x` the read of `x` returns a value, a load from that storage
of `f`; the definition of `g` succeeds and the load sits in the entry block of
`g`. -/
theorem FunctionAST_parameter_leaks :
    lookupNamed definedOnce.NamedValues "x" = some (.inst 0) ∧
    definedOnce.getGlobalVariable "x" = none ∧
    definedOnce.Insts[0]? = some (.alloca .double "x") ∧
    definedOnce.instsOf 0 = [0, 1, 2, 3] ∧ definedOnce.parentOf 0 = some 0 ∧
    protoG.Args = [] ∧
    (ExprAST.VariableExprAST "x").codegen plainLLVM (bodyEntry plainLLVM protoG definedOnce) =
      some (some (.inst 4),
        (bodyEntry plainLLVM protoG definedOnce).addInst (.load .double (.inst 0))) ∧
    readsX.codegen plainLLVM definedOnce =
      some (some (.func 1), stateAfter (readsX.codegen plainLLVM) definedOnce) ∧
    (stateAfter (readsX.codegen plainLLVM) definedOnce).Insts[4]? =
      some (.load .double (.inst 0)) ∧
    (stateAfter (readsX.codegen plainLLVM) definedOnce).instsOf 1 = [4, 5] ∧
    (stateAfter (readsX.codegen plainLLVM) definedOnce).parentOf 1 = some 1 ∧
    (stateAfter (readsX.codegen plainLLVM) definedOnce).getFunction "g" = some 1 := by
  refine ⟨by decide!, by decide!, by decide!, by decide!, by decide!, by decide!, by decide!,
    by decide!, by decide!, by decide!, by decide!, by decide!⟩

theorem restoreNamed_total :
    ∀ (ns : List String) (vs : List (Option Value)) (s : State),
      ∃ s1, restoreNamed ns vs s = some ((), s1)
  | [], _, s => ⟨s, by rw [restoreNamed]; rfl⟩
  | _ :: _, [], s => ⟨s, by rw [restoreNamed]; rfl⟩
  | n :: ns, v :: vs, s => by
      obtain ⟨s1, h⟩ := restoreNamed_total ns vs (s.setNamed n v)
      refine ⟨s1, ?_⟩
      rw [restoreNamed]
      simp only [bind_apply, setNamed, h]

/-- C30 (as stated), refuted at the block `{ var x = 1; }`: in the body of
`def f()` its binding generates successfully, yet the block returns no value;
and the definition `def f() { var x = 1; }` in a fresh session returns no value
and leaves no function `f` in the module. -/
theorem BlockAST_without_statements_fails :
    codegenDefs plainLLVM [.scalar "x" (some (.NumberExprAST 1))] [] sampleEntry =
      some (some [none], boundX) ∧
    bindingOnly.codegen plainLLVM sampleEntry =
      some (none, stateAfter (bindingOnly.codegen plainLLVM) sampleEntry) ∧
    definesBindingOnly.codegen plainLLVM State.init =
      some (none, stateAfter (definesBindingOnly.codegen plainLLVM) State.init) ∧
    (stateAfter (definesBindingOnly.codegen plainLLVM) State.init).getFunction "f" = none ∧
    (stateAfter (definesBindingOnly.codegen plainLLVM) State.init).FunctionList = [] := by
  refine ⟨by decide!, by decide!, by decide!, by decide!, by decide!⟩

/-- C30 (amended): a block with an empty statement list whose bindings all
generate successfully restores the shadowed entries and returns no value, as a
block does when it fails; a function definition of a free name whose body is
such a block returns no value and unlinks the function. -/
theorem BlockAST_no_statements (L : LLVM) (Def : List VarBindingAST) (s s1 : State)
    (tmp : List (Option Value)) (h : codegenDefs L Def [] s = some (some tmp, s1)) :
    (ExprAST.BlockAST Def []).codegen L s =
      some (none, stateAfter (restoreNamed (Def.map VarBindingAST.getName) tmp) s1) ∧
    ∀ (Proto : PrototypeAST) (s0 : State), s0.getFunction Proto.Name = none →
      s = bodyEntry L Proto s0 →
      (RootAST.FunctionAST Proto (.BlockAST Def [])).codegen L s0 =
        some (none,
          (stateAfter (restoreNamed (Def.map VarBindingAST.getName) tmp) s1).erase
            s0.Functions.length) := by
  obtain ⟨s2, hr⟩ := restoreNamed_total (Def.map VarBindingAST.getName) tmp s1
  have e : stateAfter (restoreNamed (Def.map VarBindingAST.getName) tmp) s1 = s2 := by
    unfold stateAfter
    rw [hr]
  have hb : (ExprAST.BlockAST Def []).codegen L s = some (none, s2) := by
    rw [ExprAST.codegen]
    simp only [bind_apply, h, codegenStmts, pure_apply, hr]
  rw [e]
  refine ⟨hb, ?_⟩
  intro Proto s0 hnew hs
  obtain ⟨sP, hP⟩ := codegenParams_total s0.Functions.length (setArgNames L [] Proto.Args) 0
    _ _ (getEntryBlock_functionEntry L Proto s0) (inModule_functionEntry L Proto s0)
  have hbe : bodyEntry L Proto s0 = sP := by
    unfold bodyEntry stateAfter
    rw [hP]
  rw [hs, hbe] at hb
  exact FunctionAST_failure_run L Proto _ s0 sP s2 hnew hP hb

/-- C30 (amended), at `def f() { var x = 1; }` in a fresh session. -/
theorem BlockAST_no_statements_witness :
    codegenDefs plainLLVM [.scalar "x" (some (.NumberExprAST 1))] [] sampleEntry =
      some (some [none], boundX) ∧
    (ExprAST.BlockAST [.scalar "x" (some (.NumberExprAST 1))] []).codegen plainLLVM
        sampleEntry =
      some (none, stateAfter (restoreNamed
        ([VarBindingAST.scalar "x" (some (.NumberExprAST 1))].map VarBindingAST.getName)
        [none]) boundX) ∧
    State.init.getFunction "f" = none ∧
    sampleEntry = bodyEntry plainLLVM { Name := "f", Args := [] } State.init ∧
    (RootAST.FunctionAST { Name := "f", Args := [] }
        (.BlockAST [.scalar "x" (some (.NumberExprAST 1))] [])).codegen plainLLVM State.init =
      some (none, (stateAfter (restoreNamed
        ([VarBindingAST.scalar "x" (some (.NumberExprAST 1))].map VarBindingAST.getName)
        [none]) boundX).erase State.init.Functions.length) :=
  have hr := BlockAST_no_statements plainLLVM [.scalar "x" (some (.NumberExprAST 1))]
    sampleEntry boundX [none] (by decide!)
  ⟨by decide!, hr.1, by decide!, by decide!,
    hr.2 { Name := "f", Args := [] } State.init (by decide!) (by decide!)⟩

/-! ## Claim C27: the stores of a local array binding -/

theorem addInsts_nil (s : State) : s.addInsts [] = s := rfl

theorem addInsts_cons (s : State) (i : Instr) (is : List Instr) :
    s.addInsts (i :: is) = (s.addInst i).addInsts is := rfl

theorem addInsts_Insts : ∀ (is : List Instr) (s : State), (s.addInsts is).Insts = s.Insts ++ is
  | [], s => by rw [addInsts_nil, List.append_nil]
  | i :: is, s => by
      rw [addInsts_cons, addInsts_Insts is, addInst_Insts, List.append_assoc,
        List.singleton_append]

theorem addInsts_InsertBlock : ∀ (is : List Instr) (s : State),
    (s.addInsts is).InsertBlock = s.InsertBlock
  | [], _ => rfl
  | i :: is, s => by rw [addInsts_cons, addInsts_InsertBlock is, addInst_InsertBlock]

theorem addInsts_Blocks_length : ∀ (is : List Instr) (s : State),
    (s.addInsts is).Blocks.length = s.Blocks.length
  | [], _ => rfl
  | i :: is, s => by rw [addInsts_cons, addInsts_Blocks_length is, addInst_Blocks_length]

/-- The instructions made by `addInsts` are appended, in order, to the insertion
block. -/
theorem instsOf_addInsts_current : ∀ (is : List Instr) (s : State) (c : Nat),
    s.InsertBlock = some c → c < s.Blocks.length →
    (s.addInsts is).instsOf c = s.instsOf c ++ List.range' s.Insts.length is.length
  | [], s, c, _, _ => by simp [addInsts_nil]
  | i :: is, s, c, hc, hlt => by
      rw [addInsts_cons, instsOf_addInsts_current is (s.addInst i) c
        (by rw [addInst_InsertBlock]; exact hc) (by rw [addInst_Blocks_length]; exact hlt),
        instsOf_addInst, if_pos ⟨hc, hlt⟩, addInst_Insts, List.length_append,
        List.length_singleton, List.append_assoc, List.length_cons, List.range'_succ]
      rfl

/-- No other block receives an instruction made by `addInsts`. -/
theorem instsOf_addInsts_other : ∀ (is : List Instr) (s : State) (b : Nat),
    s.InsertBlock ≠ some b → (s.addInsts is).instsOf b = s.instsOf b
  | [], _, _, _ => rfl
  | i :: is, s, b, hb => by
      rw [addInsts_cons, instsOf_addInsts_other is (s.addInst i) b
        (by rw [addInst_InsertBlock]; exact hb), instsOf_addInst, if_neg (fun h => hb h.1)]

theorem inModule_addInsts : ∀ (is : List Instr) (s : State),
    (s.addInsts is).inModule = s.inModule
  | [], _ => rfl
  | i :: is, s => by rw [addInsts_cons, inModule_addInsts is, inModule_addInst]

theorem elementStores_length (ty : Ty) (base : Value) :
    ∀ (vs : List Value) (first i : Nat), (elementStores ty base first i vs).length = 2 * vs.length
  | [], _, _ => rfl
  | v :: vs, first, i => by
      rw [elementStores, List.length_cons, List.length_cons, List.length_cons,
        elementStores_length ty base vs]
      omega

/-- An instruction stays in the block it was put in. -/
theorem sitsIn_closed (L : LLVM) (j b : Nat) :
    Closed L (SitsIn j b) (fun _ => True) (fun _ => True) (fun _ => True) (fun _ => True) where
  newB := fun _ _ => trivial
  newF := fun _ _ => ⟨trivial, trivial⟩
  newI := fun _ _ => trivial
  parent := fun _ _ _ _ _ _ _ _ => trivial
  addInst := fun s i h _ => by
    unfold SitsIn at *
    rw [instsOf_addInst]
    split
    · exact List.mem_append_left _ h
    · exact h
  addBlock := fun s n p h _ => by
    unfold SitsIn at *
    rw [instsOf_addBlock]; exact h
  attach := fun s f x h _ _ _ => by
    unfold SitsIn at *
    rw [instsOf_attach]; exact h
  setInsertBlock := fun s b h _ _ => h
  addAlloca := fun s f e ty n h _ _ => by
    unfold SitsIn at *
    rw [instsOf_addAlloca]
    split
    · exact List.mem_cons_of_mem _ h
    · exact h
  setNamed := fun s n v h => h
  addIncoming := fun s id v bb h _ => by
    unfold SitsIn at *
    rw [instsOf_addIncoming]; exact h
  addFunction := fun s n a h => h
  erase := fun s f h _ => h
  addGlobal := fun s ty v n h => h

theorem sitsIn_addInsts {j b : Nat} : ∀ (is : List Instr) (s : State),
    SitsIn j b s → SitsIn j b (s.addInsts is)
  | [], _, h => h
  | i :: is, s, h => by
      rw [addInsts_cons]
      refine sitsIn_addInsts is _ ?_
      unfold SitsIn at *
      rw [instsOf_addInst]
      split
      · exact List.mem_append_left _ h
      · exact h

theorem instIs_addInsts {j : Nat} {x : Instr} (is : List Instr) (s : State)
    (h : InstIs j x s) : InstIs j x (s.addInsts is) := by
  unfold InstIs at *
  have hlt : j < s.Insts.length := by
    rcases Nat.lt_or_ge j s.Insts.length with h1 | h1
    · exact h1
    · rw [List.getElem?_eq_none h1] at h; cases h
  rw [addInsts_Insts, List.getElem?_append_left hlt]
  exact h

theorem storeElems_run (L : LLVM) (ty : Ty) (a : Nat) :
    ∀ (vs : List Value) (i : Nat) (s : State), s.inModule = true →
      storeElems L ty (.inst a) i vs s =
        some ((), s.addInsts (elementStores ty (.inst a) s.Insts.length i vs))
  | [], i, s, _ => by rw [storeElems]; rfl
  | v :: vs, i, s, hm => by
      have hm1 : (s.addInst (.gep ty (.inst a) [.constInt 32 0, .constInt 32 i])).inModule =
          true := by rw [inModule_addInst]; exact hm
      have h1 := storeElems_run L ty a vs (i + 1)
        ((s.addInst (.gep ty (.inst a) [.constInt 32 0, .constInt 32 i])).addInst
          (.store v (.inst s.Insts.length))) (by rw [inModule_addInst]; exact hm1)
      rw [storeElems]
      simp only [bind_apply, CreateInBoundsGEP_inst, CreateStore_inModule hm1, addInst_Insts,
        List.length_append, List.length_singleton]
      rw [elementStores, addInsts_cons, addInsts_cons]
      simp only [addInst_Insts, List.length_append, List.length_singleton] at h1
      exact h1

theorem argsInOrder_length (L : LLVM) :
    ∀ (args : List ExprAST) (s : State) (vs : List Value) (s2 : State),
      argsInOrder L args s vs s2 → vs.length = args.length
  | [], s, vs, s2, h => by
      obtain ⟨rfl, _⟩ := h
      rfl
  | a :: rest, s, vs, s2, h => by
      obtain ⟨v, s1, vs1, _, hr, rfl⟩ := h
      rw [List.length_cons, List.length_cons, argsInOrder_length L rest s1 vs1 s2 hr]

/-- C27: a local array binding of declared size `S` whose initializer list is
empty or has length `S`, generated while the builder stands in a block of a
function of the module with the entry block `entry`, inserts one allocation of
an array of `S` scalars at the start of the entry block and then generates the
initializers in list order, from the state the allocation left.  When all
succeed, giving the values `vs` and leaving the builder in a block of a function
of the module, it returns the new storage in exactly the state in which the
builder has made, after their code, the instructions `elementStores`: for the
i-th value the address of the element with the indices (0, i) of the new storage
and the store of the value there, so as many stores as initializers; these
instructions are the last of the insertion block, in that order, and no other
block receives one; the allocation is still instruction `s.Insts.length`, in the
entry block.  With an empty list the state is the one the allocation left: no
store is emitted.  When the initializer after the initializers `pre` fails, no
storage is returned in the state that initializer left, so no store is
emitted. -/
theorem ArrayBindingAST_stores (L : LLVM) (Name : String) (Size : Int)
    (ExprList : List ExprAST) (s : State) (c entry : Nat) (blk : BasicBlock)
    (hn : ExprList.length = 0 ∨ ExprList.length = toU64 Size)
    (hc : s.InsertBlock = some c) (hblk : s.Blocks[c]? = some blk)
    (he : s.getEntryBlock blk.Parent = some entry) (hlt : entry < s.Blocks.length)
    (hm : s.inModule = true) :
    (s.addAlloca entry (.array (toU64 Size)) Name).Insts =
      s.Insts ++ [.alloca (.array (toU64 Size)) Name] ∧
    (s.addAlloca entry (.array (toU64 Size)) Name).instsOf entry =
      s.Insts.length :: s.instsOf entry ∧
    (∀ (vs : List Value) (s2 : State),
      argsInOrder L ExprList (s.addAlloca entry (.array (toU64 Size)) Name) vs s2 →
      s2.inModule = true →
      vs.length = ExprList.length ∧
      (VarBindingAST.ArrayBindingAST Name Size ExprList).codegen L s =
        some (some (.inst s.Insts.length),
          s2.addInsts
            (elementStores (.array (toU64 Size)) (.inst s.Insts.length) s2.Insts.length 0 vs)) ∧
      (s2.addInsts
          (elementStores (.array (toU64 Size)) (.inst s.Insts.length) s2.Insts.length 0
            vs)).Insts =
        s2.Insts ++
          elementStores (.array (toU64 Size)) (.inst s.Insts.length) s2.Insts.length 0 vs ∧
      (∀ c2 : Nat, s2.InsertBlock = some c2 →
        (s2.addInsts
            (elementStores (.array (toU64 Size)) (.inst s.Insts.length) s2.Insts.length 0
              vs)).instsOf c2 =
          s2.instsOf c2 ++ List.range' s2.Insts.length (2 * vs.length)) ∧
      (∀ b : Nat, s2.InsertBlock ≠ some b →
        (s2.addInsts
            (elementStores (.array (toU64 Size)) (.inst s.Insts.length) s2.Insts.length 0
              vs)).instsOf b = s2.instsOf b) ∧
      (s2.addInsts
          (elementStores (.array (toU64 Size)) (.inst s.Insts.length) s2.Insts.length 0
            vs)).Insts[s.Insts.length]? = some (.alloca (.array (toU64 Size)) Name) ∧
      s.Insts.length ∈
        (s2.addInsts
          (elementStores (.array (toU64 Size)) (.inst s.Insts.length) s2.Insts.length 0
            vs)).instsOf entry) ∧
    (ExprList = [] →
      (VarBindingAST.ArrayBindingAST Name Size ExprList).codegen L s =
        some (some (.inst s.Insts.length), s.addAlloca entry (.array (toU64 Size)) Name)) ∧
    (∀ (pre post : List ExprAST) (a : ExprAST) (vs : List Value) (s1 s2 : State),
      ExprList = pre ++ a :: post →
      argsInOrder L pre (s.addAlloca entry (.array (toU64 Size)) Name) vs s1 →
      a.codegen L s1 = some (none, s2) →
      (VarBindingAST.ArrayBindingAST Name Size ExprList).codegen L s = some (none, s2)) := by
  have hcond : ¬ (ExprList.length ≠ 0 ∧ ExprList.length ≠ toU64 Size) := by
    rintro ⟨h1, h2⟩
    rcases hn with h | h
    · exact h1 h
    · exact h2 h
  have _ := hm
  have hg : GetInsertBlockParent s = some (blk.Parent, s) := by
    unfold GetInsertBlockParent
    simp only [hc, hblk]
  have ha : CreateEntryBlockAlloca (.array (toU64 Size)) blk.Parent Name s =
      some (.inst s.Insts.length, s.addAlloca entry (.array (toU64 Size)) Name) := by
    unfold CreateEntryBlockAlloca
    simp only [he]
  refine ⟨rfl, ?_, ?_, ?_, ?_⟩
  · rw [instsOf_addAlloca, if_pos ⟨rfl, hlt⟩]
  · intro vs s2 hargs hm
    have h1 := storeElems_run L (.array (toU64 Size)) s.Insts.length vs 0 s2 hm
    have hA : InstIs s.Insts.length (.alloca (.array (toU64 Size)) Name)
        (s.addAlloca entry (.array (toU64 Size)) Name) := by
      simp [InstIs]
    have hS : SitsIn s.Insts.length entry (s.addAlloca entry (.array (toU64 Size)) Name) := by
      unfold SitsIn
      rw [instsOf_addAlloca, if_pos ⟨rfl, hlt⟩]
      exact List.mem_cons_self _ _
    have kA := codegenArgs_keeps
      (InstIs.instIs_closed L _ _ (fun inc => by intro e; cases e)) ExprList _ _ _ hA
      (codegenArgs_of_inOrder L _ _ _ _ hargs)
    have kS := codegenArgs_keeps (sitsIn_closed L s.Insts.length entry) ExprList _ _ _ hS
      (codegenArgs_of_inOrder L _ _ _ _ hargs)
    refine ⟨argsInOrder_length L _ _ _ _ hargs, ?_, addInsts_Insts _ _, ?_,
      fun b hb => instsOf_addInsts_other _ _ b hb, instIs_addInsts _ _ kA.1,
      sitsIn_addInsts _ _ kS.1⟩
    · rw [VarBindingAST.codegen]
      simp only [if_neg hcond, bind_apply, hg, ha, codegenArgs_of_inOrder L _ _ _ _ hargs, h1,
        pure_apply]
    · intro c2 hc2
      obtain ⟨b, f, hb, hp, _⟩ := inModule_iff.mp hm
      rw [hc2] at hb
      cases hb
      have hlt2 : c2 < s2.Blocks.length := by
        rcases Nat.lt_or_ge c2 s2.Blocks.length with h | h
        · exact h
        · rw [parentOf_eq_none_of_le h] at hp
          cases hp
      rw [instsOf_addInsts_current _ _ c2 hc2 hlt2, elementStores_length]
  · intro hE
    subst hE
    rw [VarBindingAST.codegen]
    simp only [if_neg hcond, bind_apply, hg, ha, codegenArgs, storeElems, pure_apply]
  · intro pre post a vs s1 s2 hE hpre hfail
    rw [VarBindingAST.codegen]
    simp only [if_neg hcond, bind_apply, hg, ha]
    rw [hE, codegenArgs_fails_at L pre post a _ vs s1 s2 hpre hfail]
    rfl

theorem argsInOrder_two :
    argsInOrder plainLLVM [.NumberExprAST 1, .NumberExprAST 2] allocatedTwo
      [.constFP 1, .constFP 2] allocatedTwo :=
  ⟨.constFP 1, allocatedTwo, [.constFP 2], by decide!,
    ⟨.constFP 2, allocatedTwo, [], by decide!, ⟨rfl, rfl⟩, rfl⟩, rfl⟩

/-- C27, at `var a[2] = {1, 2}`, `var a[2]` and `var a[2] = {1, z}` (with `z`
unknown) in the body of `def f()`: after the first, the entry block of `f` holds
the allocation, then for each element its address and its store. -/
theorem ArrayBindingAST_stores_witness :
    sampleEntry.InsertBlock = some 0 ∧
    sampleEntry.Blocks[0]? = some { Name := "entry", Parent := some 0, Insts := [] } ∧
    sampleEntry.getEntryBlock (some 0) = some 0 ∧
    sampleEntry.inModule = true ∧
    allocatedTwo.inModule = true ∧
    (sampleEntry.addAlloca 0 (.array (toU64 2)) "a").instsOf 0 =
      sampleEntry.Insts.length :: sampleEntry.instsOf 0 ∧
    arrayOfTwo.codegen plainLLVM sampleEntry =
      some (some (.inst 0), stateAfter (arrayOfTwo.codegen plainLLVM) sampleEntry) ∧
    (stateAfter (arrayOfTwo.codegen plainLLVM) sampleEntry).Insts =
      [.alloca (.array 2) "a",
       .gep (.array 2) (.inst 0) [.constInt 32 0, .constInt 32 0], .store (.constFP 1) (.inst 1),
       .gep (.array 2) (.inst 0) [.constInt 32 0, .constInt 32 1],
       .store (.constFP 2) (.inst 3)] ∧
    (stateAfter (arrayOfTwo.codegen plainLLVM) sampleEntry).instsOf 0 = [0, 1, 2, 3, 4] ∧
    (VarBindingAST.ArrayBindingAST "a" 2 [.NumberExprAST 1, .NumberExprAST 2]).codegen
        plainLLVM sampleEntry =
      some (some (.inst sampleEntry.Insts.length),
        allocatedTwo.addInsts
          (elementStores (.array (toU64 2)) (.inst sampleEntry.Insts.length)
            allocatedTwo.Insts.length 0 [.constFP 1, .constFP 2])) ∧
    (∀ c2 : Nat, allocatedTwo.InsertBlock = some c2 →
      (allocatedTwo.addInsts
          (elementStores (.array (toU64 2)) (.inst sampleEntry.Insts.length)
            allocatedTwo.Insts.length 0 [.constFP 1, .constFP 2])).instsOf c2 =
        allocatedTwo.instsOf c2 ++
          List.range' allocatedTwo.Insts.length (2 * [Value.constFP 1, Value.constFP 2].length)) ∧
    (VarBindingAST.ArrayBindingAST "a" 2 []).codegen plainLLVM sampleEntry =
      some (some (.inst sampleEntry.Insts.length),
        sampleEntry.addAlloca 0 (.array (toU64 2)) "a") ∧
    (VarBindingAST.ArrayBindingAST "a" 2 [.NumberExprAST 1, .VariableExprAST "z"]).codegen
        plainLLVM sampleEntry = some (none, allocatedTwo) :=
  ⟨by decide!, by decide!, by decide!, by decide!, by decide!,
    (ArrayBindingAST_stores plainLLVM "a" 2 [.NumberExprAST 1, .NumberExprAST 2] sampleEntry 0 0
      { Name := "entry", Parent := some 0, Insts := [] } (Or.inr (by decide!)) (by decide!)
      (by decide!) (by decide!) (by decide!) (by decide!)).2.1,
    by decide!, by decide!, by decide!,
    ((ArrayBindingAST_stores plainLLVM "a" 2 [.NumberExprAST 1, .NumberExprAST 2] sampleEntry 0 0
      { Name := "entry", Parent := some 0, Insts := [] } (Or.inr (by decide!)) (by decide!)
      (by decide!) (by decide!) (by decide!) (by decide!)).2.2.1 _ _ argsInOrder_two (by decide!)).2.1,
    ((ArrayBindingAST_stores plainLLVM "a" 2 [.NumberExprAST 1, .NumberExprAST 2] sampleEntry 0 0
      { Name := "entry", Parent := some 0, Insts := [] } (Or.inr (by decide!)) (by decide!)
      (by decide!) (by decide!) (by decide!) (by decide!)).2.2.1 _ _ argsInOrder_two (by decide!)).2.2.2.1,
    (ArrayBindingAST_stores plainLLVM "a" 2 [] sampleEntry 0 0
      { Name := "entry", Parent := some 0, Insts := [] } (Or.inl rfl) (by decide!)
      (by decide!) (by decide!) (by decide!) (by decide!)).2.2.2.1 rfl,
    (ArrayBindingAST_stores plainLLVM "a" 2 [.NumberExprAST 1, .VariableExprAST "z"]
      sampleEntry 0 0 { Name := "entry", Parent := some 0, Insts := [] } (Or.inr (by decide!))
      (by decide!) (by decide!) (by decide!) (by decide!) (by decide!)).2.2.2.2 [.NumberExprAST 1]
      [] (.VariableExprAST "z") [.constFP 1] allocatedTwo allocatedTwo rfl
      ⟨.constFP 1, allocatedTwo, [], by decide!, ⟨rfl, rfl⟩, rfl⟩ (by decide!)⟩

/-! ## Claim C23: the control flow of a conditional statement -/

theorem lt_of_parentOf {s : State} {b g : Nat} (h : s.parentOf b = some g) :
    b < s.Blocks.length := by
  rcases Nat.lt_or_ge b s.Blocks.length with h1 | h1
  · exact h1
  · rw [parentOf_eq_none_of_le h1] at h
    cases h

theorem ifThenState_Blocks_length (sc : State) (CondV : Value) (g : Nat) :
    (ifThenState sc CondV g).Blocks.length = sc.Blocks.length + 2 := by
  simp [ifThenState]

theorem ifElseState_Blocks_length (sc : State) (CondV : Value) (g : Nat) :
    (ifElseState sc CondV g).Blocks.length = sc.Blocks.length + 3 := by
  simp [ifElseState]

theorem EndsWith_ifThenState {sc : State} {origin : Nat} (CondV : Value) (g : Nat)
    (hc : sc.InsertBlock = some origin) (hlt : origin < sc.Blocks.length) :
    EndsWith origin sc.Insts.length (ifThenState sc CondV g) ∧
      InstIs sc.Insts.length (.condBr CondV sc.Blocks.length (sc.Blocks.length + 1))
        (ifThenState sc CondV g) := by
  refine ⟨⟨?_, ?_⟩, ?_⟩
  · simp only [ifThenState, setInsertBlock_InsertBlock]
    intro e; cases e; omega
  · simp only [ifThenState, instsOf_setInsertBlock]
    rw [instsOf_addInst_cur _ (by simpa using hc) (by simp; omega)]
    simp [List.getLast?_append]
  · simp [InstIs, ifThenState]

theorem EndsWith_ifElseState {sc : State} {origin : Nat} (CondV : Value) (g : Nat)
    (hc : sc.InsertBlock = some origin) (hlt : origin < sc.Blocks.length) :
    EndsWith origin sc.Insts.length (ifElseState sc CondV g) ∧
      InstIs sc.Insts.length (.condBr CondV sc.Blocks.length (sc.Blocks.length + 1))
        (ifElseState sc CondV g) := by
  refine ⟨⟨?_, ?_⟩, ?_⟩
  · simp only [ifElseState, setInsertBlock_InsertBlock]
    intro e; cases e; omega
  · simp only [ifElseState, instsOf_setInsertBlock]
    rw [instsOf_addInst_cur _ (by simpa using hc) (by simp; omega)]
    simp [List.getLast?_append]
  · simp [InstIs, ifElseState]

/-- C23: a conditional statement without a false branch whose condition and
true branch generate successfully creates two blocks, the true block, attached
at once, and the merge block; the origin block, where the condition finished,
ends with the conditional branch on the condition to the true block and to the
merge block;
the block where the true branch finished ends with an unconditional branch to
the merge block; after the true branch no block is created and the merge block
alone is attached; the builder stands at the merge block and the result is the
constant 0.0.  With a false branch three blocks are created, the conditional
branch of the origin block goes to the true block and to the false block, and
the blocks where the true and the false branch finished both end with an
unconditional branch to the merge block. -/
theorem IfStmtAST_branches (L : LLVM) (Cond : ExprAST) (TrueStmt : RootAST) (s s1 : State)
    (v : Value) :
    ((RootAST.IfStmtAST Cond TrueStmt none).codegen L s = some (some v, s1) →
      ∃ (CondV TrueV : Value) (sc st : State) (origin tb g : Nat),
        Cond.codegen L s = some (some CondV, sc) ∧
        sc.InsertBlock = some origin ∧ sc.parentOf origin = some g ∧
        (ifThenState sc CondV g).Blocks.length = sc.Blocks.length + 2 ∧
        (ifThenState sc CondV g).AttachLog = sc.AttachLog ++ [(g, sc.Blocks.length)] ∧
        TrueStmt.codegen L (ifThenState sc CondV g) = some (some TrueV, st) ∧
        st.InsertBlock = some tb ∧
        s1.Blocks.length = st.Blocks.length ∧
        s1.AttachLog = st.AttachLog ++ [(g, sc.Blocks.length + 1)] ∧
        s1.endsWith origin (.condBr CondV sc.Blocks.length (sc.Blocks.length + 1)) ∧
        s1.endsWith tb (.br (sc.Blocks.length + 1)) ∧
        s1.InsertBlock = some (sc.Blocks.length + 1) ∧
        v = zeroFP) ∧
    (∀ FalseStmt : RootAST,
      (RootAST.IfStmtAST Cond TrueStmt (some FalseStmt)).codegen L s = some (some v, s1) →
      ∃ (CondV TrueV FalseV : Value) (sc st sf : State) (origin tb fb g : Nat),
        Cond.codegen L s = some (some CondV, sc) ∧
        sc.InsertBlock = some origin ∧ sc.parentOf origin = some g ∧
        (ifElseState sc CondV g).Blocks.length = sc.Blocks.length + 3 ∧
        TrueStmt.codegen L (ifElseState sc CondV g) = some (some TrueV, st) ∧
        st.InsertBlock = some tb ∧
        FalseStmt.codegen L
            (enterBlock st (.br (sc.Blocks.length + 2)) g (sc.Blocks.length + 1)) =
          some (some FalseV, sf) ∧
        sf.InsertBlock = some fb ∧
        s1.endsWith origin (.condBr CondV sc.Blocks.length (sc.Blocks.length + 1)) ∧
        s1.endsWith tb (.br (sc.Blocks.length + 2)) ∧
        s1.endsWith fb (.br (sc.Blocks.length + 2)) ∧
        s1.InsertBlock = some (sc.Blocks.length + 2) ∧
        v = zeroFP) := by
  constructor
  · intro h
    obtain ⟨CondV, TrueV, sc, st, origin, g, hc, hib, hpar, ht, rfl, rfl⟩ :=
      IfStmtAST_then_shape L Cond TrueStmt s s1 v h
    have holt := lt_of_parentOf hpar
    -- where the builder stands after the true branch
    have cT : CurFrom (sc.Blocks.length + 2) (some sc.Blocks.length) (ifThenState sc CondV g) :=
      ⟨by rw [ifThenState_Blocks_length], Or.inl rfl⟩
    have cT1 := (RootAST.root_keeps (CurFrom.curFrom_closed L _ _) TrueStmt _ _ _ cT ht).1
    have leT : sc.Blocks.length + 2 ≤ st.Blocks.length := cT1.1
    obtain ⟨tb, htb, htblt, htbv⟩ := cT1.current (by omega)
    -- the origin block keeps its conditional branch
    have hcl := (EndsWith.endsWith_closed L origin sc.Insts.length).and
      (InstIs.instIs_closed L sc.Insts.length _ (notPhi_condBr CondV sc.Blocks.length
        (sc.Blocks.length + 1)))
    have h1 := EndsWith_ifThenState CondV g hib holt
    have h2 := (RootAST.root_keeps hcl TrueStmt _ _ _ h1 ht).1
    have h3 : (fun s => EndsWith origin sc.Insts.length s ∧
        InstIs sc.Insts.length (.condBr CondV sc.Blocks.length (sc.Blocks.length + 1)) s)
        (enterBlock st (.br (sc.Blocks.length + 1)) g (sc.Blocks.length + 1)) :=
      enterBlock_keeps hcl h2
        (by intro t hm; simp only [Instr.targets, List.mem_singleton] at hm; subst hm
            exact ⟨⟨by omega, trivial⟩, by omega⟩) ⟨trivial, trivial⟩ ⟨by omega, trivial⟩
        (by omega)
    -- the block where the true branch finished ends with the branch to the merge block
    have hT := EndsWith_enterBlock (.br (sc.Blocks.length + 1)) g (sc.Blocks.length + 1)
      htb htblt (by omega)
    exact ⟨CondV, TrueV, sc, st, origin, tb, g, hc, hib, hpar, ifThenState_Blocks_length _ _ _,
      rfl, ht, htb, enterBlock_Blocks_length _ _ _ _, rfl, endsWith_of h3.1 h3.2,
      endsWith_of hT.1 hT.2, rfl, rfl⟩
  · intro FalseStmt h
    obtain ⟨CondV, TrueV, FalseV, sc, st, sf, origin, g, hc, hib, hpar, ht, hf, rfl, rfl⟩ :=
      IfStmtAST_else_shape L Cond TrueStmt FalseStmt s s1 v h
    have holt := lt_of_parentOf hpar
    -- where the builder stands after each branch
    have cT : CurFrom (sc.Blocks.length + 3) (some sc.Blocks.length) (ifElseState sc CondV g) :=
      ⟨by rw [ifElseState_Blocks_length], Or.inl rfl⟩
    have cT1 := (RootAST.root_keeps (CurFrom.curFrom_closed L _ _) TrueStmt _ _ _ cT ht).1
    have leT : sc.Blocks.length + 3 ≤ st.Blocks.length := cT1.1
    obtain ⟨tb, htb, htblt, htbv⟩ := cT1.current (by omega)
    have cF : CurFrom st.Blocks.length (some (sc.Blocks.length + 1))
        (enterBlock st (.br (sc.Blocks.length + 2)) g (sc.Blocks.length + 1)) :=
      ⟨by rw [enterBlock_Blocks_length], Or.inl rfl⟩
    have cF1 := (RootAST.root_keeps (CurFrom.curFrom_closed L _ _) FalseStmt _ _ _ cF hf).1
    have leF : st.Blocks.length ≤ sf.Blocks.length := cF1.1
    obtain ⟨fb, hfb, hfblt, hfbv⟩ := cF1.current (by omega)
    -- the origin block keeps its conditional branch
    have hO : EndsWith origin sc.Insts.length
          (enterBlock sf (.br (sc.Blocks.length + 2)) g (sc.Blocks.length + 2)) ∧
        InstIs sc.Insts.length (.condBr CondV sc.Blocks.length (sc.Blocks.length + 1))
          (enterBlock sf (.br (sc.Blocks.length + 2)) g (sc.Blocks.length + 2)) := by
      have hcl := (EndsWith.endsWith_closed L origin sc.Insts.length).and
        (InstIs.instIs_closed L sc.Insts.length _ (notPhi_condBr CondV sc.Blocks.length
          (sc.Blocks.length + 1)))
      have h1 := EndsWith_ifElseState CondV g hib holt
      have h2 := (RootAST.root_keeps hcl TrueStmt _ _ _ h1 ht).1
      have h3 : (fun s => EndsWith origin sc.Insts.length s ∧
          InstIs sc.Insts.length (.condBr CondV sc.Blocks.length (sc.Blocks.length + 1)) s)
          (enterBlock st (.br (sc.Blocks.length + 2)) g (sc.Blocks.length + 1)) :=
        enterBlock_keeps hcl h2
          (by intro t hm; simp only [Instr.targets, List.mem_singleton] at hm; subst hm
              exact ⟨⟨by omega, trivial⟩, by omega⟩) ⟨trivial, trivial⟩ ⟨by omega, trivial⟩
          (by omega)
      have h4 := (RootAST.root_keeps hcl FalseStmt _ _ _ h3 hf).1
      exact enterBlock_keeps hcl h4
        (by intro t hm; simp only [Instr.targets, List.mem_singleton] at hm; subst hm
            exact ⟨⟨by omega, trivial⟩, by omega⟩) ⟨trivial, trivial⟩ ⟨by omega, trivial⟩
        (by omega)
    -- the block where the true branch finished keeps its branch to the merge block
    have hT : EndsWith tb st.Insts.length
          (enterBlock sf (.br (sc.Blocks.length + 2)) g (sc.Blocks.length + 2)) ∧
        InstIs st.Insts.length (.br (sc.Blocks.length + 2))
          (enterBlock sf (.br (sc.Blocks.length + 2)) g (sc.Blocks.length + 2)) := by
      have hcl := (EndsWith.endsWith_closed L tb st.Insts.length).and
        (InstIs.instIs_closed L st.Insts.length _ (notPhi_br (sc.Blocks.length + 2)))
      have h1 := EndsWith_enterBlock (.br (sc.Blocks.length + 2)) g (sc.Blocks.length + 1)
        htb htblt (by omega)
      have h4 := (RootAST.root_keeps hcl FalseStmt _ _ _ h1 hf).1
      exact enterBlock_keeps hcl h4
        (by intro t hm; simp only [Instr.targets, List.mem_singleton] at hm; subst hm
            exact ⟨⟨by omega, trivial⟩, by omega⟩) ⟨trivial, trivial⟩ ⟨by omega, trivial⟩
        (by omega)
    -- the block where the false branch finished ends with its branch to the merge block
    have hF := EndsWith_enterBlock (.br (sc.Blocks.length + 2)) g (sc.Blocks.length + 2)
      hfb hfblt (by omega)
    exact ⟨CondV, TrueV, FalseV, sc, st, sf, origin, tb, fb, g, hc, hib, hpar,
      ifElseState_Blocks_length _ _ _, ht, htb, hf, hfb, endsWith_of hO.1 hO.2,
      endsWith_of hT.1 hT.2, endsWith_of hF.1 hF.2, rfl, rfl⟩

/-- C23, at `if (1) x = 2` and `if (1) x = 2 else x = 3` in the body of
`def f()`, `x` being a global. -/
theorem IfStmtAST_branches_witness :
    sampleIfThen.codegen plainLLVM globalX =
      some (some zeroFP, stateAfter (sampleIfThen.codegen plainLLVM) globalX) ∧
    (∃ (CondV TrueV : Value) (sc st : State) (origin tb g : Nat),
      (ExprAST.NumberExprAST 1).codegen plainLLVM globalX = some (some CondV, sc) ∧
      sc.InsertBlock = some origin ∧ sc.parentOf origin = some g ∧
      (ifThenState sc CondV g).Blocks.length = sc.Blocks.length + 2 ∧
      (ifThenState sc CondV g).AttachLog = sc.AttachLog ++ [(g, sc.Blocks.length)] ∧
      (RootAST.AssignmentAST "x" (.NumberExprAST 2)).codegen plainLLVM
        (ifThenState sc CondV g) = some (some TrueV, st) ∧
      st.InsertBlock = some tb ∧
      (stateAfter (sampleIfThen.codegen plainLLVM) globalX).Blocks.length = st.Blocks.length ∧
      (stateAfter (sampleIfThen.codegen plainLLVM) globalX).AttachLog =
        st.AttachLog ++ [(g, sc.Blocks.length + 1)] ∧
      (stateAfter (sampleIfThen.codegen plainLLVM) globalX).endsWith origin
        (.condBr CondV sc.Blocks.length (sc.Blocks.length + 1)) ∧
      (stateAfter (sampleIfThen.codegen plainLLVM) globalX).endsWith tb
        (.br (sc.Blocks.length + 1)) ∧
      (stateAfter (sampleIfThen.codegen plainLLVM) globalX).InsertBlock =
        some (sc.Blocks.length + 1) ∧
      zeroFP = zeroFP) ∧
    sampleIfElse.codegen plainLLVM globalX =
      some (some zeroFP, stateAfter (sampleIfElse.codegen plainLLVM) globalX) ∧
    (∃ (CondV TrueV FalseV : Value) (sc st sf : State) (origin tb fb g : Nat),
      (ExprAST.NumberExprAST 1).codegen plainLLVM globalX = some (some CondV, sc) ∧
      sc.InsertBlock = some origin ∧ sc.parentOf origin = some g ∧
      (ifElseState sc CondV g).Blocks.length = sc.Blocks.length + 3 ∧
      (RootAST.AssignmentAST "x" (.NumberExprAST 2)).codegen plainLLVM
        (ifElseState sc CondV g) = some (some TrueV, st) ∧
      st.InsertBlock = some tb ∧
      (RootAST.AssignmentAST "x" (.NumberExprAST 3)).codegen plainLLVM
          (enterBlock st (.br (sc.Blocks.length + 2)) g (sc.Blocks.length + 1)) =
        some (some FalseV, sf) ∧
      sf.InsertBlock = some fb ∧
      (stateAfter (sampleIfElse.codegen plainLLVM) globalX).endsWith origin
        (.condBr CondV sc.Blocks.length (sc.Blocks.length + 1)) ∧
      (stateAfter (sampleIfElse.codegen plainLLVM) globalX).endsWith tb
        (.br (sc.Blocks.length + 2)) ∧
      (stateAfter (sampleIfElse.codegen plainLLVM) globalX).endsWith fb
        (.br (sc.Blocks.length + 2)) ∧
      (stateAfter (sampleIfElse.codegen plainLLVM) globalX).InsertBlock =
        some (sc.Blocks.length + 2) ∧
      zeroFP = zeroFP) :=
  ⟨by decide!,
    (IfStmtAST_branches plainLLVM (.NumberExprAST 1) (.AssignmentAST "x" (.NumberExprAST 2))
      globalX (stateAfter (sampleIfThen.codegen plainLLVM) globalX) zeroFP).1 (by decide!),
    by decide!,
    (IfStmtAST_branches plainLLVM (.NumberExprAST 1) (.AssignmentAST "x" (.NumberExprAST 2))
      globalX (stateAfter (sampleIfElse.codegen plainLLVM) globalX) zeroFP).2
      (.AssignmentAST "x" (.NumberExprAST 3)) (by decide!)⟩

/-! ## Claim C25: the order of the blocks of a conditional expression -/

theorem GrownBy.grown_start {F : Nat} {s : State} (h : F < s.Functions.length) :
    GrownBy F s.AttachLog (s.blocksOf F) s := by
  refine ⟨h, ⟨[], by simp⟩, ?_⟩
  simp [State.attachedSince]

theorem GrownBy.grown_same {F : Nat} {base : List (Nat × Nat)} {bl : List Nat} {s s1 : State}
    (h : GrownBy F base bl s) (hF : s.Functions.length ≤ s1.Functions.length)
    (hl : s1.AttachLog = s.AttachLog) (hb : s1.blocksOf F = s.blocksOf F) :
    GrownBy F base bl s1 := by
  obtain ⟨h1, ⟨log, h2⟩, h3⟩ := h
  refine ⟨Nat.lt_of_lt_of_le h1 hF, ⟨log, by rw [hl]; exact h2⟩, ?_⟩
  rw [hb, h3]
  unfold State.attachedSince
  rw [hl]

theorem GrownBy.grown_attach {F : Nat} {base : List (Nat × Nat)} {bl : List Nat} {s s1 : State}
    (h : GrownBy F base bl s) (f b : Nat)
    (hF : s.Functions.length ≤ s1.Functions.length)
    (hl : s1.AttachLog = s.AttachLog ++ [(f, b)])
    (hb : s1.blocksOf F = if F = f ∧ F < s.Functions.length then s.blocksOf F ++ [b]
      else s.blocksOf F) :
    GrownBy F base bl s1 := by
  obtain ⟨h1, ⟨log, h2⟩, h3⟩ := h
  refine ⟨Nat.lt_of_lt_of_le h1 hF, ⟨log ++ [(f, b)], by rw [hl, h2, List.append_assoc]⟩, ?_⟩
  rw [hb, h3, attachedSince_append F h2,
    attachedSince_append F (show s1.AttachLog = base ++ (log ++ [(f, b)]) by
      rw [hl, h2, List.append_assoc])]
  by_cases e : f = F
  · subst e
    rw [if_pos ⟨rfl, h1⟩]
    simp [List.filter_append]
  · have e1 : ¬ (F = f ∧ F < s.Functions.length) := fun e2 => e e2.1.symm
    rw [if_neg e1]
    simp [List.filter_append, e]

/-- The block list of a function only grows, at its end, by the blocks attached
to it. -/
theorem grownBy_closed (L : LLVM) (F : Nat) (base : List (Nat × Nat)) (bl : List Nat) :
    Closed L (GrownBy F base bl) (fun _ => True) (fun _ => True) (fun _ => True)
      (fun _ => True) where
  newB := fun _ _ => trivial
  newF := fun _ _ => ⟨trivial, trivial⟩
  newI := fun _ _ => trivial
  parent := fun _ _ _ _ _ _ _ _ => trivial
  addInst := fun s i h _ => h.grown_same (by simp) rfl (by simp)
  addBlock := fun s n p h _ => by
    cases p with
    | none => exact h.grown_same (by simp) rfl (blocksOf_addBlock_none s n F)
    | some f =>
      refine h.grown_attach f s.Blocks.length (by simp) rfl ?_
      rw [blocksOf_addBlock]
      by_cases e : F = f
      · subst e
        simp
      · have e1 : ¬ (some f = some F ∧ F < s.Functions.length) := by
          intro e2; exact e (Option.some.inj e2.1).symm
        have e3 : ¬ (F = f ∧ F < s.Functions.length) := fun e2 => e e2.1
        rw [if_neg e1, if_neg e3]
  attach := fun s f b h _ _ _ => h.grown_attach f b (by simp) rfl (blocksOf_attach s f b F)
  setInsertBlock := fun s b h _ _ => h.grown_same (by simp) rfl rfl
  addAlloca := fun s f e ty n h _ _ => h.grown_same (by simp) rfl (by simp)
  setNamed := fun s n v h => h.grown_same (by simp) rfl rfl
  addIncoming := fun s id v bb h _ => h.grown_same (by simp) (by simp) (by simp)
  addFunction := fun s n a h => h.grown_same (by simp) rfl (by simp)
  erase := fun s f h _ => h.grown_same (by simp) rfl rfl
  addGlobal := fun s ty init n h => h.grown_same (by simp) rfl (by simp)

/-- The false and merge blocks of a conditional are untouched when the true
branch starts. -/
theorem Untouched_ifBranchState (L : LLVM) {s : State} {c : Nat} (hwf : s.WF)
    (hc : s.InsertBlock = some c) (hclt : c < s.Blocks.length) (v : Value) (g : Nat) :
    Untouched (s.Blocks.length + 1) (ifBranchState s v g) ∧
    Untouched (s.Blocks.length + 2) (ifBranchState s v g) := by
  have hcl := State.wf_closed L
  have w1 : (s.addBlock "trueexp" (some g)).WF :=
    hcl.addBlock _ _ _ hwf (fun _ _ => trivial)
  have w2 : ((s.addBlock "trueexp" (some g)).addBlock "falseexp" none).WF :=
    hcl.addBlock _ _ _ w1 (fun _ _ => trivial)
  have u1 := Untouched_addBlock_new w1 (n := "falseexp") (by
    intro c1 h1
    rw [addBlock_InsertBlock, hc] at h1
    cases h1
    rw [addBlock_Blocks_length]; omega)
  have u2 := Untouched_addBlock_new w2 (n := "endcond") (by
    intro c1 h1
    rw [addBlock_InsertBlock, addBlock_InsertBlock, hc] at h1
    cases h1
    rw [addBlock_Blocks_length, addBlock_Blocks_length]; omega)
  rw [addBlock_Blocks_length] at u1
  rw [addBlock_Blocks_length, addBlock_Blocks_length] at u2
  unfold ifBranchState
  constructor
  · exact Untouched_setInsertBlock (L := L)
      (Untouched_addInst _ (Untouched_addBlock (L := L) u1 "endcond" none)) _ (by omega)
      (by simp; omega)
  · exact Untouched_setInsertBlock (L := L) (Untouched_addInst _ u2) _ (by omega)
      (by simp; omega)

theorem blocksOf_enterBlock {s : State} (i : Instr) {g : Nat} (bb : Nat)
    (hg : g < s.Functions.length) :
    (enterBlock s i g bb).blocksOf g = s.blocksOf g ++ [bb] := by
  unfold enterBlock
  rw [blocksOf_setInsertBlock, blocksOf_attach, if_pos ⟨rfl, by simpa using hg⟩,
    blocksOf_addInst]

theorem blocksOf_ifBranchState {sc : State} (CondV : Value) {g : Nat}
    (hg : g < sc.Functions.length) :
    (ifBranchState sc CondV g).blocksOf g = sc.blocksOf g ++ [sc.Blocks.length] := by
  unfold ifBranchState
  rw [blocksOf_setInsertBlock, blocksOf_addInst, blocksOf_addBlock_none,
    blocksOf_addBlock_none, blocksOf_addBlock_some _ hg]

theorem blocksOf_mergeState (sf : State) (g m : Nat) (tv fv : Value) (tb fb : Option Nat)
    (hg : g < sf.Functions.length) :
    (mergeState sf g m tv tb fv fb).blocksOf g = sf.blocksOf g ++ [m] := by
  unfold mergeState
  rw [blocksOf_addIncoming, blocksOf_addIncoming, blocksOf_addInst, blocksOf_enterBlock _ _ hg]

/-- C25: a conditional expression that generates successfully, the function `g`
in which the builder stands after the condition being a function of the store,
leaves the block list of `g` as the list after the condition followed by the
true block, the blocks attached to `g` while the true branch was generated, the
false block, the blocks attached to `g` while the false branch was generated,
and the merge block, in this order.  The false block is in no block list when
the true branch is finished, and the merge block in none when the false branch
is finished.  The stores are assumed well-formed, as they are in every state
generation reaches. -/
theorem IfExprAST_block_order (L : LLVM) (Cond TrueExp FalseExp : ExprAST) (s s1 : State)
    (v : Value) (hwf : s.WF)
    (h : (ExprAST.IfExprAST Cond TrueExp FalseExp).codegen L s = some (some v, s1)) :
    ∃ (CondV TrueV FalseV : Value) (sc st sf : State) (origin g : Nat),
      Cond.codegen L s = some (some CondV, sc) ∧
      sc.InsertBlock = some origin ∧ sc.parentOf origin = some g ∧
      TrueExp.codegen L (ifBranchState sc CondV g) = some (some TrueV, st) ∧
      FalseExp.codegen L
          (enterBlock st (.br (sc.Blocks.length + 2)) g (sc.Blocks.length + 1)) =
        some (some FalseV, sf) ∧
      (∀ f, sc.Blocks.length + 1 ∉ st.blocksOf f) ∧
      (∀ f, sc.Blocks.length + 2 ∉ sf.blocksOf f) ∧
      (g < sc.Functions.length →
        st.blocksOf g = sc.blocksOf g ++ [sc.Blocks.length] ++
          st.attachedSince (ifBranchState sc CondV g).AttachLog g ∧
        sf.blocksOf g = st.blocksOf g ++ [sc.Blocks.length + 1] ++
          sf.attachedSince
            (enterBlock st (.br (sc.Blocks.length + 2)) g (sc.Blocks.length + 1)).AttachLog g ∧
        s1.blocksOf g = sc.blocksOf g ++ [sc.Blocks.length] ++
          st.attachedSince (ifBranchState sc CondV g).AttachLog g ++
          [sc.Blocks.length + 1] ++
          sf.attachedSince
            (enterBlock st (.br (sc.Blocks.length + 2)) g (sc.Blocks.length + 1)).AttachLog g ++
          [sc.Blocks.length + 2]) := by
  obtain ⟨CondV, TrueV, FalseV, sc, st, sf, origin, g, hc, hib, hpar, holt, ht, hf, rfl, rfl⟩ :=
    IfExprAST_shape L Cond TrueExp FalseExp s s1 v h
  have wfC := (ExprAST.codegen_keeps (State.wf_closed L) Cond _ _ _ hwf hc).1
  -- the false and merge blocks stay untouched until they are attached
  have hu := Untouched_ifBranchState L wfC hib holt CondV g
  have kT := ExprAST.codegen_keeps (State.wf_closed L) TrueExp _ _ _
    (ifBranchState_keeps (State.wf_closed L) wfC trivial) ht
  have leT : sc.Blocks.length + 3 ≤ st.Blocks.length := by
    have := kT.2; rw [ifBranchState_Blocks_length] at this; exact this
  have uF := (ExprAST.codegen_keeps (Untouched.untouched_closed L _) TrueExp _ _ _ hu.1 ht).1
  have uM := (ExprAST.codegen_keeps (Untouched.untouched_closed L _) TrueExp _ _ _ hu.2 ht).1
  have uM2 := Untouched_enterBlock (L := L) (.br (sc.Blocks.length + 2)) g
    (sc.Blocks.length + 1) uM (by omega) uF.1
  have uM3 := (ExprAST.codegen_keeps (Untouched.untouched_closed L _) FalseExp _ _ _ uM2 hf).1
  refine ⟨CondV, TrueV, FalseV, sc, st, sf, origin, g, hc, hib, hpar, ht, hf, uF.2.2.2.2,
    uM3.2.2.2.2, ?_⟩
  intro hg
  -- the block list grows by what is attached
  have hg0 : g < (ifBranchState sc CondV g).Functions.length := by
    simpa [ifBranchState] using hg
  have gT := (ExprAST.codegen_keeps (grownBy_closed L g _ _) TrueExp _ _ _
    (GrownBy.grown_start hg0) ht).1
  have eT : st.blocksOf g = sc.blocksOf g ++ [sc.Blocks.length] ++
      st.attachedSince (ifBranchState sc CondV g).AttachLog g := by
    rw [gT.2.2, blocksOf_ifBranchState CondV hg]
  have hg1 : g < (enterBlock st (.br (sc.Blocks.length + 2)) g
      (sc.Blocks.length + 1)).Functions.length := by
    simpa [enterBlock] using gT.1
  have gF := (ExprAST.codegen_keeps (grownBy_closed L g _ _) FalseExp _ _ _
    (GrownBy.grown_start hg1) hf).1
  have eF : sf.blocksOf g = st.blocksOf g ++ [sc.Blocks.length + 1] ++
      sf.attachedSince
        (enterBlock st (.br (sc.Blocks.length + 2)) g (sc.Blocks.length + 1)).AttachLog g := by
    rw [gF.2.2, blocksOf_enterBlock _ _ gT.1]
  refine ⟨eT, eF, ?_⟩
  rw [blocksOf_mergeState _ _ _ _ _ _ _ gF.1, eF, eT]

/-- C25, at `if 1 then (if 1 then 2 else 3) else 4` in the body of `def f()`:
after the entry block come the true block, the three blocks of the inner
conditional, the false block and the merge block. -/
theorem IfExprAST_block_order_witness :
    sampleEntry.WF ∧
    nestedIf.codegen plainLLVM sampleEntry =
      some (some (.inst 7), stateAfter (nestedIf.codegen plainLLVM) sampleEntry) ∧
    (stateAfter (nestedIf.codegen plainLLVM) sampleEntry).blocksOf 0 = [0, 1, 4, 5, 6, 2, 3] ∧
    ∃ (CondV TrueV FalseV : Value) (sc st sf : State) (origin g : Nat),
      (ExprAST.NumberExprAST 1).codegen plainLLVM sampleEntry = some (some CondV, sc) ∧
      sc.InsertBlock = some origin ∧ sc.parentOf origin = some g ∧
      sampleIf.codegen plainLLVM (ifBranchState sc CondV g) = some (some TrueV, st) ∧
      (ExprAST.NumberExprAST 4).codegen plainLLVM
          (enterBlock st (.br (sc.Blocks.length + 2)) g (sc.Blocks.length + 1)) =
        some (some FalseV, sf) ∧
      (∀ f, sc.Blocks.length + 1 ∉ st.blocksOf f) ∧
      (∀ f, sc.Blocks.length + 2 ∉ sf.blocksOf f) ∧
      (g < sc.Functions.length →
        st.blocksOf g = sc.blocksOf g ++ [sc.Blocks.length] ++
          st.attachedSince (ifBranchState sc CondV g).AttachLog g ∧
        sf.blocksOf g = st.blocksOf g ++ [sc.Blocks.length + 1] ++
          sf.attachedSince
            (enterBlock st (.br (sc.Blocks.length + 2)) g (sc.Blocks.length + 1)).AttachLog g ∧
        (stateAfter (nestedIf.codegen plainLLVM) sampleEntry).blocksOf g =
          sc.blocksOf g ++ [sc.Blocks.length] ++
          st.attachedSince (ifBranchState sc CondV g).AttachLog g ++
          [sc.Blocks.length + 1] ++
          sf.attachedSince
            (enterBlock st (.br (sc.Blocks.length + 2)) g (sc.Blocks.length + 1)).AttachLog g ++
          [sc.Blocks.length + 2]) :=
  ⟨sampleEntry_wf, by decide!, by decide!,
    IfExprAST_block_order plainLLVM (.NumberExprAST 1) sampleIf (.NumberExprAST 4) sampleEntry
      (stateAfter (nestedIf.codegen plainLLVM) sampleEntry) (.inst 7) sampleEntry_wf
      (by decide!)⟩

/-! ## Statements that leave the symbol table alone -/

/-- A binding without blocks leaves the symbol table alone, whatever it
returns. -/
theorem VarBindingAST.binding_named (L : LLVM) (b : VarBindingAST) (s s1 : State)
    (r : Option Value) (hn : b.noBlock = true) (h : b.codegen L s = some (r, s1)) :
    s1.NamedValues = s.NamedValues := by
  cases b with
  | scalar n Val =>
    rw [VarBindingAST.codegen] at h
    simp only [bind_eq_some, GetInsertBlockParent_eq_some,
      CreateEntryBlockAlloca_eq_some] at h
    obtain ⟨_, _, ⟨c0, blk0, hib, hblk, rfl, rfl⟩, _, _, ⟨entry, he, rfl, rfl⟩, h⟩ := h
    cases Val with
    | some Val =>
      simp only [bind_eq_some] at h
      obtain ⟨rv, s2, hv, h⟩ := h
      have e1 := ExprAST.named_of_noBlock L Val _ _ _ hn hv
      cases rv with
      | none => obtain ⟨_, rfl⟩ := pure_eq_some.mp h; rw [e1]; rfl
      | some BoundVal =>
        simp only [bind_eq_some, Insert_eq_some, CreateLoad_eq_some, CreateStore_eq_some, pure_eq_some] at h
        obtain ⟨_, _, ⟨_, _, rfl⟩, _, rfl⟩ := h
        rw [addInst_NamedValues, e1]; rfl
    | none =>
      simp only [bind_eq_some, Insert_eq_some, CreateLoad_eq_some, CreateStore_eq_some, pure_eq_some] at h
      obtain ⟨_, _, ⟨_, _, rfl⟩, _, rfl⟩ := h
      rfl
  | ArrayBindingAST n Size ExprList =>
    rw [VarBindingAST.codegen] at h
    split at h
    · obtain ⟨_, rfl⟩ := pure_eq_some.mp h; rfl
    · simp only [bind_eq_some, GetInsertBlockParent_eq_some,
        CreateEntryBlockAlloca_eq_some] at h
      obtain ⟨_, _, ⟨c0, blk0, hib, hblk, rfl, rfl⟩, _, _, ⟨entry, he, rfl, rfl⟩,
        ra, s2, ha, h⟩ := h
      have e1 := codegenArgs_named_of_noBlock L ExprList _ _ _ hn ha
      cases ra with
      | none => obtain ⟨_, rfl⟩ := pure_eq_some.mp h; rw [e1]; rfl
      | some Vals =>
        simp only [bind_eq_some, pure_eq_some] at h
        obtain ⟨_, s3, hs, _, rfl⟩ := h
        rw [storeElems_NamedValues L _ _ _ _ _ _ _ hs, e1]; rfl

/-- A statement in which nothing opens a scope leaves the symbol table alone,
whatever it returns. -/
theorem RootAST.named_of_noScope (L : LLVM) :
    ∀ (e : RootAST) (s s1 : State) (r : Option Value), e.noScope = true →
      e.codegen L s = some (r, s1) → s1.NamedValues = s.NamedValues
  | .SeqAST none none, s, s1, r, _, h => by
      rw [RootAST.codegen] at h
      obtain ⟨_, rfl⟩ := pure_eq_some.mp h
      rfl
  | .SeqAST none (some c), s, s1, r, hn, h => by
      rw [RootAST.noScope] at hn
      rw [RootAST.codegen] at h
      simp only [bind_eq_some, pure_eq_some] at h
      obtain ⟨_, s2, hc, _, rfl⟩ := h
      exact RootAST.named_of_noScope L c _ _ _ hn hc
  | .SeqAST (some f) none, s, s1, r, _, h => by
      rw [RootAST.codegen] at h
      simp only [bind_eq_some, crash_eq_some, and_false, exists_false] at h
  | .SeqAST (some f) (some c), s, s1, r, hn, h => by
      rw [RootAST.noScope, Bool.and_eq_true] at hn
      rw [RootAST.codegen] at h
      simp only [bind_eq_some, pure_eq_some] at h
      obtain ⟨_, s2, hf, _, s3, hc, _, rfl⟩ := h
      rw [RootAST.named_of_noScope L c _ _ _ hn.2 hc,
        RootAST.named_of_noScope L f _ _ _ hn.1 hf]
  | .expr e, s, s1, r, hn, h => by
      rw [RootAST.noScope] at hn
      rw [RootAST.codegen] at h
      exact ExprAST.named_of_noBlock L e _ _ _ hn h
  | .binding b, s, s1, r, hn, h => by
      rw [RootAST.noScope] at hn
      rw [RootAST.codegen] at h
      exact VarBindingAST.binding_named L b _ _ _ hn h
  | .PrototypeAST p, s, s1, r, _, h => by
      rw [RootAST.codegen] at h
      simp only [bind_eq_some, PrototypeAST.codegen, FunctionCreate_eq_some,
        pure_eq_some] at h
      obtain ⟨_, _, ⟨_, _, ⟨rfl, rfl⟩, rfl, rfl⟩, _, rfl⟩ := h
      rfl
  | .FunctionAST Proto Body, s, s1, r, hn, h => by
      rw [RootAST.noScope] at hn
      cases hn
  | .GlobalVarAST n, s, s1, r, _, h => by
      rw [RootAST.codegen] at h
      simp only [bind_eq_some, getGlobalVariable_eq_some] at h
      obtain ⟨rg, _, ⟨hg, rfl⟩, h⟩ := h
      cases rg with
      | some g => obtain ⟨_, rfl⟩ := pure_eq_some.mp h; rfl
      | none =>
        simp only [bind_eq_some, GlobalVariableCreate_eq_some, pure_eq_some] at h
        obtain ⟨_, _, ⟨rfl, rfl⟩, _, rfl⟩ := h
        rfl
  | .GlobalArrayAST n Size, s, s1, r, _, h => by
      rw [RootAST.codegen] at h
      simp only [bind_eq_some, getGlobalVariable_eq_some] at h
      obtain ⟨rg, _, ⟨hg, rfl⟩, h⟩ := h
      cases rg with
      | some g => obtain ⟨_, rfl⟩ := pure_eq_some.mp h; rfl
      | none =>
        simp only [bind_eq_some, GlobalVariableCreate_eq_some, pure_eq_some] at h
        obtain ⟨_, _, ⟨rfl, rfl⟩, _, rfl⟩ := h
        rfl
  | .AssignmentAST n Val, s, s1, r, hn, h => by
      rw [RootAST.noScope] at hn
      rw [RootAST.codegen] at h
      simp only [bind_eq_some] at h
      obtain ⟨target, s2, ht, h⟩ := h
      have e2 : s = s2 := by
        simp only [bind_eq_some, getNamed_eq_some] at ht
        obtain ⟨ra, _, ⟨_, rfl⟩, ht⟩ := ht
        cases ra with
        | some a => exact (pure_eq_some.mp ht).2
        | none =>
          simp only [bind_eq_some, getGlobalVariable_eq_some, pure_eq_some] at ht
          obtain ⟨_, _, ⟨_, rfl⟩, _, rfl⟩ := ht
          rfl
      subst e2
      cases target with
      | none => obtain ⟨_, rfl⟩ := pure_eq_some.mp h; rfl
      | some Alloca =>
        simp only [bind_eq_some] at h
        obtain ⟨rv, s3, hv, h⟩ := h
        have e1 := ExprAST.named_of_noBlock L Val _ _ _ hn hv
        cases rv with
        | none => obtain ⟨_, rfl⟩ := pure_eq_some.mp h; exact e1
        | some BoundVal =>
          simp only [bind_eq_some, Insert_eq_some, CreateLoad_eq_some, CreateStore_eq_some, pure_eq_some] at h
          obtain ⟨_, _, ⟨_, _, rfl⟩, _, rfl⟩ := h
          rw [addInst_NamedValues, e1]
  | .ArrayAssignmentAST n Index Val, s, s1, r, hn, h => by
      rw [RootAST.noScope, Bool.and_eq_true] at hn
      rw [RootAST.codegen] at h
      simp only [bind_eq_some] at h
      obtain ⟨loc, s2, hloc, h⟩ := h
      have k1 : s2.NamedValues = s.NamedValues := by
        simp only [bind_eq_some, getNamed_eq_some] at hloc
        obtain ⟨ra, _, ⟨_, rfl⟩, hloc⟩ := hloc
        cases ra with
        | none => obtain ⟨_, rfl⟩ := pure_eq_some.mp hloc; rfl
        | some a =>
          simp only [bind_eq_some, getAllocatedType_eq_some] at hloc
          obtain ⟨ty, _, ⟨hty, rfl⟩, hloc⟩ := hloc
          split at hloc
          · obtain ⟨_, rfl⟩ := pure_eq_some.mp hloc; rfl
          · simp only [bind_eq_some] at hloc
            obtain ⟨ri, s3, hi, hloc⟩ := hloc
            have e1 := ExprAST.named_of_noBlock L Index _ _ _ hn.1 hi
            cases ri with
            | none => obtain ⟨_, rfl⟩ := pure_eq_some.mp hloc; exact e1
            | some IndexFP =>
              simp only [bind_eq_some, pure_eq_some] at hloc
              obtain ⟨EP, s4, he, _, rfl⟩ := hloc
              rw [elementAddress_NamedValues he, e1]
      cases loc with
      | none => obtain ⟨_, rfl⟩ := pure_eq_some.mp h; exact k1
      | some local1 =>
        simp only [bind_eq_some] at h
        obtain ⟨glob, s3, hglob, h⟩ := h
        have k2 : s3.NamedValues = s.NamedValues := by
          simp only [bind_eq_some, getGlobalVariable_eq_some] at hglob
          obtain ⟨rg, _, ⟨_, rfl⟩, hglob⟩ := hglob
          cases rg with
          | none => obtain ⟨_, rfl⟩ := pure_eq_some.mp hglob; exact k1
          | some g =>
            simp only [bind_eq_some, getValueType_eq_some] at hglob
            obtain ⟨ty, _, ⟨gv, hgv, rfl, rfl⟩, hglob⟩ := hglob
            split at hglob
            · obtain ⟨_, rfl⟩ := pure_eq_some.mp hglob; exact k1
            · simp only [bind_eq_some] at hglob
              obtain ⟨ri, s4, hi, hglob⟩ := hglob
              have e1 := ExprAST.named_of_noBlock L Index _ _ _ hn.1 hi
              cases ri with
              | none => obtain ⟨_, rfl⟩ := pure_eq_some.mp hglob; rw [e1, k1]
              | some IndexFP =>
                simp only [bind_eq_some, pure_eq_some] at hglob
                obtain ⟨EP, s5, he, _, rfl⟩ := hglob
                rw [elementAddress_NamedValues he, e1, k1]
        match glob, h with
        | none, h => obtain ⟨_, rfl⟩ := pure_eq_some.mp h; exact k2
        | some none, h => obtain ⟨_, rfl⟩ := pure_eq_some.mp h; exact k2
        | some (some (EP, RetVal)), h =>
          simp only [bind_eq_some] at h
          obtain ⟨rv, s4, hv, h⟩ := h
          have e1 := ExprAST.named_of_noBlock L Val _ _ _ hn.2 hv
          cases rv with
          | none => obtain ⟨_, rfl⟩ := pure_eq_some.mp h; rw [e1, k2]
          | some BoundVal =>
            simp only [bind_eq_some, Insert_eq_some, CreateLoad_eq_some, CreateStore_eq_some, pure_eq_some] at h
            obtain ⟨_, _, ⟨_, _, rfl⟩, _, rfl⟩ := h
            rw [addInst_NamedValues, e1, k2]
  | .IfStmtAST Cond TrueStmt (some FalseStmt), s, s1, r, hn, h => by
      rw [RootAST.noScope, Bool.and_eq_true, Bool.and_eq_true] at hn
      rw [RootAST.codegen] at h
      rw [bind_eq_some] at h
      obtain ⟨rc, s2, hc, h⟩ := h
      have e1 := ExprAST.named_of_noBlock L Cond _ _ _ hn.1.1 hc
      cases rc with
      | none => obtain ⟨_, rfl⟩ := pure_eq_some.mp h; exact e1
      | some CondV =>
        simp only [bind_eq_some, BasicBlockCreate_eq_some, GetInsertBlockParent_eq_some,
          Insert_eq_some, CreateLoad_eq_some, CreateStore_eq_some, SetInsertPoint_eq_some] at h
        obtain ⟨_, _, ⟨c0, blk0, hib, hblk, rfl, rfl⟩, _, _, ⟨rfl, rfl⟩, _, _, ⟨rfl, rfl⟩,
          _, _, ⟨rfl, rfl⟩, _, _, ⟨rfl, rfl⟩, _, _, rfl, rt, s3, ht, h⟩ := h
        have e3 := RootAST.named_of_noScope L TrueStmt _ _ _ hn.1.2 ht
        simp only [setInsertBlock_NamedValues, addInst_NamedValues, addBlock_NamedValues]
          at e3
        cases rt with
        | none => obtain ⟨_, rfl⟩ := pure_eq_some.mp h; rw [e3, e1]
        | some TrueV =>
          simp only [bind_eq_some, Insert_eq_some, CreateLoad_eq_some, CreateStore_eq_some, SetInsertPoint_eq_some,
            FunctionInsert_eq_some] at h
          obtain ⟨_, _, ⟨rfl, rfl⟩, _, _, ⟨g, hg, rfl⟩, _, _, rfl, rf, s5, hfl, h⟩ := h
          have e5 := RootAST.named_of_noScope L FalseStmt _ _ _ hn.2 hfl
          simp only [setInsertBlock_NamedValues, addInst_NamedValues, attach_NamedValues]
            at e5
          cases rf with
          | none => obtain ⟨_, rfl⟩ := pure_eq_some.mp h; rw [e5, e3, e1]
          | some FalseV =>
            simp only [bind_eq_some, Insert_eq_some, CreateLoad_eq_some, CreateStore_eq_some, SetInsertPoint_eq_some,
              FunctionInsert_eq_some, pure_eq_some] at h
            obtain ⟨_, _, ⟨rfl, rfl⟩, _, _, ⟨g2, hg2, rfl⟩, _, _, rfl, _, rfl⟩ := h
            simp only [setInsertBlock_NamedValues, addInst_NamedValues, attach_NamedValues]
            rw [e5, e3, e1]
  | .IfStmtAST Cond TrueStmt none, s, s1, r, hn, h => by
      rw [RootAST.noScope, Bool.and_eq_true] at hn
      rw [RootAST.codegen] at h
      rw [bind_eq_some] at h
      obtain ⟨rc, s2, hc, h⟩ := h
      have e1 := ExprAST.named_of_noBlock L Cond _ _ _ hn.1 hc
      cases rc with
      | none => obtain ⟨_, rfl⟩ := pure_eq_some.mp h; exact e1
      | some CondV =>
        simp only [bind_eq_some, BasicBlockCreate_eq_some, GetInsertBlockParent_eq_some,
          Insert_eq_some, CreateLoad_eq_some, CreateStore_eq_some, SetInsertPoint_eq_some] at h
        obtain ⟨_, _, ⟨c0, blk0, hib, hblk, rfl, rfl⟩, _, _, ⟨rfl, rfl⟩, _, _, ⟨rfl, rfl⟩,
          _, _, ⟨rfl, rfl⟩, _, _, rfl, rt, s3, ht, h⟩ := h
        have e3 := RootAST.named_of_noScope L TrueStmt _ _ _ hn.2 ht
        simp only [setInsertBlock_NamedValues, addInst_NamedValues, addBlock_NamedValues]
          at e3
        cases rt with
        | none => obtain ⟨_, rfl⟩ := pure_eq_some.mp h; rw [e3, e1]
        | some TrueV =>
          simp only [bind_eq_some, Insert_eq_some, CreateLoad_eq_some, CreateStore_eq_some, SetInsertPoint_eq_some,
            FunctionInsert_eq_some, pure_eq_some] at h
          obtain ⟨_, _, ⟨rfl, rfl⟩, _, _, ⟨g, hg, rfl⟩, _, _, rfl, _, rfl⟩ := h
          simp only [setInsertBlock_NamedValues, addInst_NamedValues, attach_NamedValues]
          rw [e3, e1]
  | .ForStmtAST Init true Cond Update Body, s, s1, r, hn, h => by
      rw [RootAST.noScope] at hn
      cases hn
  | .ForStmtAST Init false Cond Update Body, s, s1, r, hn, h => by
      rw [RootAST.noScope, Bool.and_eq_true, Bool.and_eq_true, Bool.and_eq_true] at hn
      rw [RootAST.codegen] at h
      simp only [bind_eq_some, BasicBlockCreate_eq_some, GetInsertBlockParent_eq_some] at h
      obtain ⟨_, _, ⟨c0, blk0, hib, hblk, rfl, rfl⟩, _, _, ⟨rfl, rfl⟩, _, _, ⟨rfl, rfl⟩,
        _, _, ⟨rfl, rfl⟩, _, _, ⟨rfl, rfl⟩, ri, s2, hi, h⟩ := h
      have e2 := RootAST.named_of_noScope L Init _ _ _ hn.1.1.1 hi
      simp only [addBlock_NamedValues] at e2
      cases ri with
      | none => obtain ⟨_, rfl⟩ := pure_eq_some.mp h; exact e2
      | some CounterAlloca =>
        simp only [bind_eq_some, Insert_eq_some, CreateLoad_eq_some, CreateStore_eq_some, SetInsertPoint_eq_some,
          FunctionInsert_eq_some, shadowCounter, Bool.false_eq_true, if_false,
          pure_eq_some] at h
        obtain ⟨AllocaTmp, _, ⟨rfl, rfl⟩, _, _, ⟨rfl, rfl⟩, _, _, ⟨g, hg, rfl⟩, _, _, rfl,
          rc, s4, hc, h⟩ := h
        have e4 := ExprAST.named_of_noBlock L Cond _ _ _ hn.1.1.2 hc
        simp only [setInsertBlock_NamedValues, addInst_NamedValues, attach_NamedValues] at e4
        cases rc with
        | none => obtain ⟨_, rfl⟩ := h; rw [e4, e2]
        | some CondV =>
          simp only [bind_eq_some, Insert_eq_some, CreateLoad_eq_some, CreateStore_eq_some, SetInsertPoint_eq_some,
            FunctionInsert_eq_some] at h
          obtain ⟨_, _, ⟨rfl, rfl⟩, _, _, ⟨g2, hg2, rfl⟩, _, _, rfl, rb, s5, hb, h⟩ := h
          have e5 := RootAST.named_of_noScope L Body _ _ _ hn.2 hb
          simp only [setInsertBlock_NamedValues, addInst_NamedValues, attach_NamedValues]
            at e5
          cases rb with
          | none => obtain ⟨_, rfl⟩ := pure_eq_some.mp h; rw [e5, e4, e2]
          | some BodyV =>
            simp only [bind_eq_some, Insert_eq_some, CreateLoad_eq_some, CreateStore_eq_some, SetInsertPoint_eq_some,
              FunctionInsert_eq_some] at h
            obtain ⟨_, _, ⟨rfl, rfl⟩, _, _, ⟨g3, hg3, rfl⟩, _, _, rfl, ru, s6, hu, h⟩ := h
            have e6 := RootAST.named_of_noScope L Update _ _ _ hn.1.2 hu
            simp only [setInsertBlock_NamedValues, addInst_NamedValues, attach_NamedValues]
              at e6
            cases ru with
            | none => obtain ⟨_, rfl⟩ := pure_eq_some.mp h; rw [e6, e5, e4, e2]
            | some UpdateV =>
              simp only [bind_eq_some, Insert_eq_some, CreateLoad_eq_some, CreateStore_eq_some, SetInsertPoint_eq_some,
                FunctionInsert_eq_some, pure_eq_some, restoreCounter, Bool.false_eq_true,
                if_false] at h
              obtain ⟨_, _, ⟨rfl, rfl⟩, _, _, ⟨g4, hg4, rfl⟩, _, _, rfl, _, _, ⟨_, rfl⟩,
                _, rfl⟩ := h
              simp only [setInsertBlock_NamedValues, addInst_NamedValues, attach_NamedValues]
              rw [e6, e5, e4, e2]

/-! ## Claim C26: the scope of the bindings of a block -/

theorem boundOver_cons (p : String × Value) (bs : List (String × Value))
    (outer : List (String × Option Value)) :
    boundOver (p :: bs) outer = boundOver bs ((p.1, some p.2) :: outer) := by
  simp [boundOver]

theorem codegenDefs_cons_inv (L : LLVM) (d : VarBindingAST) (post : List VarBindingAST)
    (tmp r : List (Option Value)) (s s1 : State)
    (h : codegenDefs L (d :: post) tmp s = some (some r, s1)) :
    ∃ (a : Value) (sD : State), d.codegen L s = some (some a, sD) ∧
      codegenDefs L post (tmp ++ [lookupNamed sD.NamedValues d.getName])
        (sD.setNamed d.getName (some a)) = some (some r, s1) := by
  rw [codegenDefs] at h
  simp only [bind_eq_some] at h
  obtain ⟨rd, sD, hd, h⟩ := h
  cases rd with
  | none => have h0 := (pure_eq_some.mp h).1; cases h0
  | some a =>
    simp only [bind_eq_some, getNamed_eq_some, setNamed_eq_some] at h
    obtain ⟨_, _, ⟨rfl, rfl⟩, _, _, rfl, h⟩ := h
    exact ⟨a, sD, hd, h⟩

theorem codegenDefs_split (L : LLVM) :
    ∀ (pre rest : List VarBindingAST) (tmp r : List (Option Value)) (s s1 : State),
      codegenDefs L (pre ++ rest) tmp s = some (some r, s1) →
      ∃ (tmp1 : List (Option Value)) (sP : State),
        codegenDefs L pre tmp s = some (some tmp1, sP) ∧
        codegenDefs L rest tmp1 sP = some (some r, s1)
  | [], rest, tmp, r, s, s1, h => ⟨tmp, s, by rw [codegenDefs]; rfl, h⟩
  | d :: pre, rest, tmp, r, s, s1, h => by
      rw [List.cons_append] at h
      obtain ⟨a, sD, hd, h2⟩ := codegenDefs_cons_inv L d _ _ _ _ _ h
      obtain ⟨tmp1, sP, h3, h4⟩ := codegenDefs_split L pre rest _ _ _ _ h2
      refine ⟨tmp1, sP, ?_, h4⟩
      rw [codegenDefs]
      simp only [bind_apply, hd, getNamed, setNamed]
      exact h3

/-- Bindings without blocks leave the outer table overridden by themselves. -/
theorem codegenDefs_table (L : LLVM) :
    ∀ (pre : List VarBindingAST) (tmp tmp1 : List (Option Value)) (s s1 : State),
      (∀ d ∈ pre, d.noBlock = true) → codegenDefs L pre tmp s = some (some tmp1, s1) →
      ∃ as : List Value, as.length = pre.length ∧
        s1.NamedValues = boundOver ((pre.map VarBindingAST.getName).zip as) s.NamedValues
  | [], tmp, tmp1, s, s1, _, h => by
      rw [codegenDefs, pure_eq_some] at h
      obtain ⟨_, rfl⟩ := h
      exact ⟨[], rfl, by simp [boundOver]⟩
  | d :: pre, tmp, tmp1, s, s1, hn, h => by
      obtain ⟨a, sD, hd, h2⟩ := codegenDefs_cons_inv L d _ _ _ _ _ h
      have e1 := VarBindingAST.binding_named L d _ _ _ (hn d (List.mem_cons_self _ _)) hd
      obtain ⟨as, h3, h4⟩ := codegenDefs_table L pre _ _ _ _
        (fun x hx => hn x (List.mem_cons_of_mem _ hx)) h2
      refine ⟨a :: as, by simp [h3], ?_⟩
      rw [h4, List.map_cons, List.zip_cons_cons, boundOver_cons, setNamed_NamedValues, e1]

theorem codegenStmts_cons_inv (L : LLVM) (st : RootAST) (post : List RootAST)
    (v0 r : Option Value) (s s1 : State)
    (h : codegenStmts L (st :: post) v0 s = some (some r, s1)) :
    ∃ (w : Value) (s3 : State), st.codegen L s = some (some w, s3) ∧
      codegenStmts L post (some w) s3 = some (some r, s1) := by
  rw [codegenStmts] at h
  simp only [bind_eq_some] at h
  obtain ⟨rd, s3, hd, h⟩ := h
  cases rd with
  | none => have h0 := (pure_eq_some.mp h).1; cases h0
  | some w => exact ⟨w, s3, hd, h⟩

theorem codegenStmts_split (L : LLVM) :
    ∀ (pre rest : List RootAST) (v0 r : Option Value) (s s1 : State),
      codegenStmts L (pre ++ rest) v0 s = some (some r, s1) →
      ∃ (r1 : Option Value) (s2 : State),
        codegenStmts L pre v0 s = some (some r1, s2) ∧
        codegenStmts L rest r1 s2 = some (some r, s1)
  | [], rest, v0, r, s, s1, h => ⟨v0, s, by rw [codegenStmts]; rfl, h⟩
  | st :: pre, rest, v0, r, s, s1, h => by
      rw [List.cons_append] at h
      obtain ⟨w, s3, hd, h2⟩ := codegenStmts_cons_inv L st _ _ _ _ _ h
      obtain ⟨r1, s2, h3, h4⟩ := codegenStmts_split L pre rest _ _ _ _ h2
      refine ⟨r1, s2, ?_, h4⟩
      rw [codegenStmts]
      simp only [bind_apply, hd]
      exact h3

/-- Statements in which nothing opens a scope leave the symbol table alone. -/
theorem codegenStmts_named (L : LLVM) :
    ∀ (pre : List RootAST) (v0 r : Option Value) (s s1 : State),
      (∀ st ∈ pre, st.noScope = true) → codegenStmts L pre v0 s = some (some r, s1) →
      s1.NamedValues = s.NamedValues
  | [], v0, r, s, s1, _, h => by
      rw [codegenStmts, pure_eq_some] at h
      obtain ⟨_, rfl⟩ := h
      rfl
  | st :: pre, v0, r, s, s1, hn, h => by
      obtain ⟨w, s3, hd, h2⟩ := codegenStmts_cons_inv L st _ _ _ _ _ h
      rw [codegenStmts_named L pre _ _ _ _ (fun x hx => hn x (List.mem_cons_of_mem _ hx)) h2,
        RootAST.named_of_noScope L st _ _ _ (hn st (List.mem_cons_self _ _)) hd]

/-- C26, evaluated at the failing input: the block
`{ var x = { var y = 1, y = 2; y }, z = y; z }` in the body of `def f()`, where
`y` is neither a local nor a global, generates successfully, and the initializer
of `z` is generated while the symbol table binds `y` (to instruction 1, storage
the inner block allocated and left bound), although `y` is bound neither outside
the block nor by the binding before `z`; the initializer loads from that
storage. -/
theorem BlockAST_initializer_sees_leak :
    lookupNamed sampleEntry.NamedValues "y" = none ∧
    sampleEntry.getGlobalVariable "y" = none ∧
    bindsThroughBlock.getName = "x" ∧
    readsLeaked.codegen plainLLVM sampleEntry =
      some (some (.inst 10), stateAfter (readsLeaked.codegen plainLLVM) sampleEntry) ∧
    codegenDefs plainLLVM [bindsThroughBlock] [] sampleEntry =
      some (some [none],
        stateAfter (codegenDefs plainLLVM [bindsThroughBlock] []) sampleEntry) ∧
    lookupNamed
        (stateAfter (codegenDefs plainLLVM [bindsThroughBlock] []) sampleEntry).NamedValues
        "y" = some (.inst 1) ∧
    (stateAfter (codegenDefs plainLLVM [bindsThroughBlock] []) sampleEntry).Insts[1]? =
      some (.alloca .double "y") ∧
    (stateAfter (readsLeaked.codegen plainLLVM) sampleEntry).Insts[8]? =
      some (.load .double (.inst 1)) := by
  refine ⟨by decide!, by decide!, by decide!, by decide!, by decide!, by decide!, by decide!,
    by decide!⟩

/-- Where the table is as expected: for a block that generates successfully, in
whose binding initializers no block occurs and in whose statements nothing opens
a scope (no block, no function definition, no loop that binds its counter): the
bindings are processed in declaration order; the binding after the bindings `pre` is
generated, initializer included, while the symbol table is the outer table
overridden by the bindings `pre` only, and leaves the table as it is, so its
name is bound to the new storage only afterwards; every statement is generated
while the symbol table is the outer table overridden by all the bindings of the
block; and the value the block returns is the value the last statement
returned. -/
theorem BlockAST_scoping (L : LLVM) (Def : List VarBindingAST) (Stmts : List RootAST)
    (s s1 : State) (v : Value) (hd : ∀ d ∈ Def, d.noBlock = true)
    (hs : ∀ st ∈ Stmts, st.noScope = true)
    (h : (ExprAST.BlockAST Def Stmts).codegen L s = some (some v, s1)) :
    (∀ (pre post : List VarBindingAST) (d : VarBindingAST), Def = pre ++ d :: post →
      ∃ (as : List Value) (tmp : List (Option Value)) (sP sD : State),
        as.length = pre.length ∧
        codegenDefs L pre [] s = some (some tmp, sP) ∧
        sP.NamedValues = boundOver ((pre.map VarBindingAST.getName).zip as) s.NamedValues ∧
        d.codegen L sP = some (some (.inst sP.Insts.length), sD) ∧
        sD.NamedValues = sP.NamedValues) ∧
    (∃ (as : List Value) (tmp : List (Option Value)) (sB : State),
      as.length = Def.length ∧
      codegenDefs L Def [] s = some (some tmp, sB) ∧
      sB.NamedValues = boundOver ((Def.map VarBindingAST.getName).zip as) s.NamedValues ∧
      (∀ (pre post : List RootAST) (st : RootAST), Stmts = pre ++ st :: post →
        ∃ (r : Option Value) (w : Value) (s2 s3 : State),
          codegenStmts L pre none sB = some (some r, s2) ∧
          s2.NamedValues = sB.NamedValues ∧
          st.codegen L s2 = some (some w, s3)) ∧
      ∃ (init : List RootAST) (last : RootAST) (r : Option Value) (s2 s3 : State),
        Stmts = init ++ [last] ∧
        codegenStmts L init none sB = some (some r, s2) ∧
        last.codegen L s2 = some (some v, s3)) := by
  rw [ExprAST.codegen] at h
  simp only [bind_eq_some] at h
  obtain ⟨rd, sB, hdefs, h⟩ := h
  cases rd with
  | none => have h0 := (pure_eq_some.mp h).1; cases h0
  | some tmp =>
    simp only [bind_eq_some] at h
    obtain ⟨rs, s3, hst, h⟩ := h
    cases rs with
    | none => have h0 := (pure_eq_some.mp h).1; cases h0
    | some Val =>
      simp only [bind_eq_some, pure_eq_some] at h
      obtain ⟨_, _, _, hv, _⟩ := h
      subst hv
      constructor
      · intro pre post d hE
        subst hE
        obtain ⟨tmpP, sP, hP, hrest⟩ := codegenDefs_split L pre (d :: post) _ _ _ _ hdefs
        obtain ⟨as, hl, htab⟩ := codegenDefs_table L pre _ _ _ _
          (fun x hx => hd x (List.mem_append_left _ hx)) hP
        obtain ⟨a, sD, hdc, _⟩ := codegenDefs_cons_inv L d _ _ _ _ _ hrest
        have hb := binding_of_noBlock L d _ _ _
          (hd d (List.mem_append_right _ (List.mem_cons_self _ _))) hdc
        obtain ⟨e1, rfl, _⟩ := hb
        exact ⟨as, tmpP, sP, sD, hl, hP, htab, hdc, e1⟩
      · obtain ⟨as, hl, htab⟩ := codegenDefs_table L Def _ _ _ _ hd hdefs
        refine ⟨as, tmp, sB, hl, hdefs, htab, ?_, ?_⟩
        · intro pre post st hE
          subst hE
          obtain ⟨r, s2, hpre, hrest⟩ := codegenStmts_split L pre (st :: post) _ _ _ _ hst
          obtain ⟨w, s4, hw, _⟩ := codegenStmts_cons_inv L st _ _ _ _ _ hrest
          exact ⟨r, w, s2, s4, hpre,
            codegenStmts_named L pre _ _ _ _ (fun x hx => hs x (List.mem_append_left _ hx)) hpre,
            hw⟩
        · rcases List.eq_nil_or_concat Stmts with e | ⟨init, last, e⟩
          · subst e
            rw [codegenStmts, pure_eq_some] at hst
            have h0 := hst.1
            cases h0
          · rw [List.concat_eq_append] at e
            subst e
            obtain ⟨r, s2, hpre, hrest⟩ := codegenStmts_split L init [last] _ _ _ _ hst
            obtain ⟨w, s4, hw, hnil⟩ := codegenStmts_cons_inv L last _ _ _ _ _ hrest
            rw [codegenStmts, pure_eq_some] at hnil
            have h0 := hnil.1
            cases h0
            exact ⟨init, last, r, s2, s4, rfl, hpre, hw⟩

/-- The block `{ var x = 1, y = x; x = y; y }` in the body of `def f()`: `x` is
stored in instruction 0 and `y` in instruction 2, the initializer of `y` is
generated with `x` alone bound, both statements with `x`
and `y` bound, and the block returns the load of `y` made by its last
statement. -/
theorem BlockAST_scoping_witness :
    sampleBlock.codegen plainLLVM sampleEntry =
      some (some (.inst 7), stateAfter (sampleBlock.codegen plainLLVM) sampleEntry) ∧
    (∃ (as : List Value) (tmp : List (Option Value)) (sP sD : State),
      as.length = [VarBindingAST.scalar "x" (some (.NumberExprAST 1))].length ∧
      codegenDefs plainLLVM [.scalar "x" (some (.NumberExprAST 1))] [] sampleEntry =
        some (some tmp, sP) ∧
      sP.NamedValues =
        boundOver (([VarBindingAST.scalar "x" (some (.NumberExprAST 1))].map
          VarBindingAST.getName).zip as) sampleEntry.NamedValues ∧
      (VarBindingAST.scalar "y" (some (.VariableExprAST "x"))).codegen plainLLVM sP =
        some (some (.inst sP.Insts.length), sD) ∧
      sD.NamedValues = sP.NamedValues) ∧
    (stateAfter (codegenDefs plainLLVM [.scalar "x" (some (.NumberExprAST 1)),
        .scalar "y" (some (.VariableExprAST "x"))] []) sampleEntry).NamedValues =
      boundOver [("x", .inst 0), ("y", .inst 2)] sampleEntry.NamedValues ∧
    (stateAfter (sampleBlock.codegen plainLLVM) sampleEntry).Insts[7]? =
      some (.load .double (.inst 2)) :=
  ⟨by decide!,
    (BlockAST_scoping plainLLVM
      [.scalar "x" (some (.NumberExprAST 1)), .scalar "y" (some (.VariableExprAST "x"))]
      [.AssignmentAST "x" (.VariableExprAST "y"), .expr (.VariableExprAST "y")]
      sampleEntry (stateAfter (sampleBlock.codegen plainLLVM) sampleEntry) (.inst 7)
      (by decide!) (by decide!) (by decide!)).1
      [.scalar "x" (some (.NumberExprAST 1))] [] (.scalar "y" (some (.VariableExprAST "x")))
      rfl,
    by decide!, by decide!⟩

end Kaleidoscope
